import Mathlib

/-! # The segregated-list allocator of `malloclab/mm.c`

A shallow embedding of `src/malloclab/mm.c`.  The heap is a byte-addressed
memory; the C macros and functions become Lean functions on an explicit
allocator state.  `size_t` arithmetic wraps at `2^64`, a header word is an
`unsigned int` (32 bits), pointers are natural numbers.

The last part of the definitions embeds `transpose_submit` of `src/cachelab/trans.c`:
matrices are functions of a row and a column index, loops are bounded iterations.
-/

namespace MM

/-! ## Constants (`mm.c`, lines 43-68) -/

def WSIZE : Nat := 4
def DSIZE : Nat := 8
def CHUNKSIZE : Nat := 64
def BUCKET_COUNT : Nat := 2
def MINBLOCK : Nat := 16
def START : Nat := 0x800000000
def NIL : Nat := START
def NULL : Nat := 0

/-- Number of values of a `size_t`. -/
def M64 : Nat := 2 ^ 64
/-- Number of values of an `unsigned int`. -/
def M32 : Nat := 2 ^ 32

/-! ## Memory -/

/-- Byte-addressed memory: the byte stored at an address is `m a % 256`.  Every address
can be loaded and stored: a fault of the machine at an address outside the memory of the
provider is not modelled by the loads and stores of single words; `memset0`, whose length
comes from the caller, checks its range. -/
abbrev Mem := Nat → Nat

/-- Little-endian load of `n` bytes at address `p`. -/
def load : Nat → Mem → Nat → Nat
  | 0, _, _ => 0
  | n + 1, m, p => m p % 256 + 256 * load n m (p + 1)

/-- Little-endian store of the `n` low bytes of `v` at address `p`. -/
def store (n : Nat) (m : Mem) (p v : Nat) : Mem :=
  fun a => if p ≤ a ∧ a < p + n then v / 256 ^ (a - p) % 256 else m a

/-- The allocator state: the simulated heap and the globals of `mm.c`. -/
structure State where
  /-- the bytes of the address space -/
  mem : Mem
  /-- current end of the heap (`mem_brk`) -/
  brk : Nat
  /-- largest end the heap may grow to (`mem_max_addr`) -/
  cap : Nat
  /-- the global `heap_listp` -/
  heap_listp : Nat
  /-- the global `seg` -/
  seg : Nat

/-- Macro `GET(p)`: read an `unsigned int`. -/
def GET (s : State) (p : Nat) : Nat := load 4 s.mem p

/-- Macro `PUT(p, val)`: write an `unsigned int` (the value is truncated to 32 bits). -/
def PUT (s : State) (p val : Nat) : State := { s with mem := store 4 s.mem p val }

/-- Read `seg[i]`, an uncompressed 8-byte pointer. -/
def seg_get (s : State) (i : Nat) : Nat := load 8 s.mem (s.seg + 8 * i)

/-- Assign `seg[i] = val`. -/
def seg_set (s : State) (i val : Nat) : State :=
  { s with mem := store 8 s.mem (s.seg + 8 * i) val }

/-- Macro `PACK(size, alloc)`. -/
def PACK (size alloc : Nat) : Nat := size ||| alloc

/-- Macro `COMPRESS(p)`: the low 4 bytes of a pointer. -/
def COMPRESS (p : Nat) : Nat := p % M32

/-- Macro `PREV(p)`. -/
def PREV (s : State) (p : Nat) : Nat := GET s p ||| START
/-- Macro `SUCC(p)`. -/
def SUCC (s : State) (p : Nat) : Nat := GET s (p + WSIZE) ||| START
/-- Macro `PUT_PREV(p, val)`. -/
def PUT_PREV (s : State) (p val : Nat) : State := PUT s p (COMPRESS val)
/-- Macro `PUT_SUCC(p, val)`. -/
def PUT_SUCC (s : State) (p val : Nat) : State := PUT s (p + WSIZE) (COMPRESS val)

/-- Macro `GET_SIZE(p)`: `~0x7` converted to `unsigned int` is `0xFFFFFFF8`. -/
def GET_SIZE (s : State) (p : Nat) : Nat := GET s p &&& 0xFFFFFFF8
/-- Macro `GET_ALLOC(p)`. -/
def GET_ALLOC (s : State) (p : Nat) : Nat := GET s p &&& 1
/-- Macro `GET_PREV_ALLOC(p)`. -/
def GET_PREV_ALLOC (s : State) (p : Nat) : Nat := (GET s p >>> 1) &&& 1
/-- Macro `PUT_PREV_ALLOC(p, val)`: `~0x2` converted to `unsigned int` is `0xFFFFFFFD`. -/
def PUT_PREV_ALLOC (s : State) (p val : Nat) : State :=
  PUT s p (PACK (GET s p &&& 0xFFFFFFFD) (val <<< 1))

/-- Macro `HDRP(bp)`. -/
def HDRP (bp : Nat) : Nat := bp - WSIZE
/-- Macro `FTRP(bp)`. -/
def FTRP (s : State) (bp : Nat) : Nat := bp + GET_SIZE s (HDRP bp) - DSIZE
/-- Macro `NEXT_BLKP(bp)`. -/
def NEXT_BLKP (s : State) (bp : Nat) : Nat := bp + GET_SIZE s (bp - WSIZE)
/-- Macro `PREV_BLKP(bp)`. -/
def PREV_BLKP (s : State) (bp : Nat) : Nat := bp - GET_SIZE s (bp - DSIZE)

/-- Modelled from the spec: `grow_heap(byte_count) -> base_pointer|failure` of the external
memory provider (`mem_sbrk` of `memlib`, which is not part of the sources).  The request
is granted, returning the old end of the heap, exactly when the heap stays within `cap`. -/
def mem_sbrk (s : State) (incr : Nat) : Option Nat × State :=
  if s.brk + incr ≤ s.cap then (some s.brk, { s with brk := s.brk + incr }) else (none, s)

/-- Function `getPtrBySize`: the parameter is an `unsigned int`. -/
def getPtrBySize (size : Nat) : Nat := if size % M32 ≤ 72 then 0 else 1

/-- The sequence that takes block `x` out of its free list, as written in `coalesce`
("Extract next/prev from its current list"): the links are read again after each write. -/
def extract (s : State) (x : Nat) : State :=
  let s1 := if SUCC s x ≠ NIL then PUT_PREV s (SUCC s x) (PREV s x) else s
  if PREV s1 x ≠ NIL then PUT_SUCC s1 (PREV s1 x) (SUCC s1 x)
  else
    let result := getPtrBySize (GET_SIZE s1 (HDRP x))
    let s2 := seg_set s1 result (SUCC s1 x)
    if seg_get s2 result ≠ NIL then PUT_PREV s2 (seg_get s2 result) 0 else s2

/-- The sequence that puts block `x` at the front of bucket `result`, as written in
`coalesce` and `place` ("put ... into the proper free list"). -/
def push_front (s : State) (x result : Nat) : State :=
  let s1 := PUT_PREV s x 0
  let s2 := PUT_SUCC s1 x (seg_get s1 result)
  let s3 := if SUCC s2 x ≠ NIL then PUT_PREV s2 (SUCC s2 x) x else s2
  seg_set s3 result x

/-- Function `coalesce(bp)`: boundary-tag coalescing; returns the coalesced block. -/
def coalesce (s : State) (bp : Nat) : Nat × State :=
  let prev_alloc := GET_PREV_ALLOC s (HDRP bp)
  let next_alloc := GET_ALLOC s (HDRP (NEXT_BLKP s bp))
  let size := GET_SIZE s (HDRP bp)
  let result := getPtrBySize size
  let prev_alloc := if NEXT_BLKP s s.heap_listp = bp then 1 else prev_alloc
  if prev_alloc ≠ 0 ∧ next_alloc ≠ 0 then
    (bp, push_front s bp result)
  else if prev_alloc ≠ 0 ∧ next_alloc = 0 then
    let next := NEXT_BLKP s bp
    let s1 := extract s next
    let size := (size + GET_SIZE s1 (HDRP next)) % M64
    let result := getPtrBySize size
    let alloc := GET_PREV_ALLOC s1 (HDRP bp)
    let s2 := PUT s1 (HDRP bp) (PACK size 0)
    let s3 := PUT s2 (FTRP s2 bp) (PACK size 0)
    let s4 := PUT_PREV_ALLOC s3 (HDRP bp) alloc
    (bp, push_front s4 bp result)
  else if prev_alloc = 0 ∧ next_alloc ≠ 0 then
    let prev := PREV_BLKP s bp
    let alloc := GET_PREV_ALLOC s (HDRP prev)
    let s1 := extract s prev
    let size := (size + GET_SIZE s1 (HDRP prev)) % M64
    let result := getPtrBySize size
    let s2 := PUT s1 (FTRP s1 bp) (PACK size 0)
    let s3 := PUT s2 (HDRP prev) (PACK size 0)
    let s4 := PUT_PREV_ALLOC s3 (HDRP prev) alloc
    (prev, push_front s4 prev result)
  else
    let next := NEXT_BLKP s bp
    let s1 := extract s next
    let prev := PREV_BLKP s1 bp
    let alloc := GET_PREV_ALLOC s1 (HDRP prev)
    let s2 := extract s1 prev
    let size := (size + (GET_SIZE s2 (HDRP prev) + GET_SIZE s2 (FTRP s2 next)) % M64) % M64
    let result := getPtrBySize size
    let s3 := PUT s2 (HDRP prev) (PACK size 0)
    let s4 := PUT s3 (FTRP s3 next) (PACK size 0)
    let s5 := PUT_PREV_ALLOC s4 (HDRP prev) alloc
    (prev, push_front s5 prev result)

/-- Function `extend_heap(words)`: returns the new free block, or `NULL` when the heap cannot grow. -/
def extend_heap (s : State) (words : Nat) : Nat × State :=
  let size := if words % 2 ≠ 0 then ((words + 1) * WSIZE) % M64 else (words * WSIZE) % M64
  match mem_sbrk s size with
  | (none, s0) => (NULL, s0)
  | (some bp, s0) =>
    let alloc := GET_PREV_ALLOC s0 (HDRP bp)
    let s1 := PUT s0 (HDRP bp) (PACK size 0)
    let s2 := PUT s1 (FTRP s1 bp) (PACK size 0)
    let s3 := PUT_PREV_ALLOC s2 (HDRP bp) alloc
    let s4 := PUT s3 (HDRP (NEXT_BLKP s3 bp)) (PACK 0 1)
    coalesce s4 bp

/-- Function `mm_init`: returns `0` on success and `-1` when the heap cannot grow. -/
def mm_init (s : State) : Int × State :=
  let size := 4 * WSIZE + BUCKET_COUNT * DSIZE
  match mem_sbrk s size with
  | (none, s0) => (-1, { s0 with heap_listp := M64 - 1 })
  | (some p, s0) =>
    let s1 : State := { s0 with heap_listp := p, seg := p }
    let s2 := seg_set (seg_set s1 0 NIL) 1 NIL
    let s3 : State := { s2 with heap_listp := s2.heap_listp + BUCKET_COUNT * DSIZE }
    let s4 := PUT s3 s3.heap_listp 0
    let s5 := PUT s4 (s4.heap_listp + 1 * WSIZE) (PACK DSIZE 1)
    let s6 := PUT s5 (s5.heap_listp + 2 * WSIZE) (PACK DSIZE 1)
    let s7 := PUT s6 (s6.heap_listp + 3 * WSIZE) (PACK 0 1)
    let s8 : State := { s7 with heap_listp := s7.heap_listp + 2 * WSIZE }
    let r := extend_heap s8 (CHUNKSIZE / WSIZE)
    if r.1 = NULL then (-1, r.2) else (0, r.2)

/-- Function `place(bp, asize)`: take `bp` out of its list, allocate `asize` bytes at its start and
split off the remainder when it is at least the minimum block size. -/
def place (s : State) (bp asize : Nat) : State :=
  let rsize := (GET_SIZE s (HDRP bp) + M64 - asize % M64) % M64
  let prev := PREV s bp
  let succ := SUCC s bp
  let result := getPtrBySize (GET_SIZE s (HDRP bp))
  let s1 := if succ ≠ NIL then PUT_PREV s succ prev else s
  let s2 :=
    if prev ≠ NIL then PUT_SUCC s1 prev succ
    else
      let t := seg_set s1 result succ
      if seg_get t result ≠ NIL then PUT_PREV t (seg_get t result) 0 else t
  if rsize ≥ MINBLOCK then
    let alloc := GET_PREV_ALLOC s2 (HDRP bp)
    let s3 := PUT s2 (HDRP bp) (PACK asize 1)
    let s4 := PUT s3 (FTRP s3 bp) (PACK asize 1)
    let s5 := PUT_PREV_ALLOC s4 (HDRP bp) alloc
    let next := NEXT_BLKP s5 bp
    let s6 := PUT s5 (HDRP next) (PACK rsize 0)
    let s7 := PUT s6 (FTRP s6 next) (PACK rsize 0)
    let s8 := PUT_PREV_ALLOC s7 (HDRP next) 1
    let result := getPtrBySize (GET_SIZE s8 (HDRP next))
    push_front s8 next result
  else
    let alloc := GET_PREV_ALLOC s2 (HDRP bp)
    let s3 := PUT s2 (HDRP bp) (PACK (GET_SIZE s2 (HDRP bp)) 1)
    let s4 := PUT s3 (FTRP s3 bp) (PACK (GET_SIZE s3 (HDRP bp)) 1)
    let s5 := PUT_PREV_ALLOC s4 (HDRP bp) alloc
    PUT_PREV_ALLOC s5 (HDRP (NEXT_BLKP s5 bp)) 1

/-- Outcome of the inner loop of `find_fit` over one bucket list. -/
inductive Scan where
  /-- a `return` statement inside the loop was reached -/
  | ret (p : Nat)
  /-- the list was exhausted with these values of `bsize` and `bptr` -/
  | done (bsize bptr : Nat)

/-- The inner loop of `find_fit`, `for (ptr = seg[i]; ptr != NIL; ptr = SUCC(ptr))`.
The first argument bounds the number of iterations; `none` means the bound was hit. -/
def find_fit_scan (s : State) (asize : Nat) : Nat → Nat → Nat → Nat → Option Scan
  | 0, ptr, bsize, bptr => if ptr = NIL then some (Scan.done bsize bptr) else none
  | fuel + 1, ptr, bsize, bptr =>
    if ptr = NIL then some (Scan.done bsize bptr)
    else
      let size := GET_SIZE s (HDRP ptr)
      if size = asize then some (Scan.ret ptr)
      else if size > asize ∧ size - asize < bsize then
        if size - asize ≤ asize / 2 then some (Scan.ret ptr)
        else find_fit_scan s asize fuel (SUCC s ptr) (size - asize) ptr
      else find_fit_scan s asize fuel (SUCC s ptr) bsize bptr

/-- The outer loop of `find_fit`, `for (i = result; i < BUCKET_COUNT; i++)`; the first
argument is the number of buckets left. -/
def find_fit_buckets (s : State) (asize fuel : Nat) : Nat → Nat → Nat → Nat → Option Nat
  | 0, _, _, bptr => some bptr
  | n + 1, i, bsize, bptr =>
    match find_fit_scan s asize fuel (seg_get s i) bsize bptr with
    | none => none
    | some (Scan.ret p) => some p
    | some (Scan.done bsize1 bptr1) =>
      if bptr1 ≠ NULL then some bptr1 else find_fit_buckets s asize fuel n (i + 1) bsize1 bptr1

/-- Function `find_fit(asize)`.  `bsize` starts at `1 << 31`, an `int` converted to `size_t`,
which is `2^64 - 2^31`.  The result is `none` when a list walk exceeds `fuel` steps. -/
def find_fit (fuel : Nat) (s : State) (asize : Nat) : Option Nat :=
  let result := getPtrBySize asize
  find_fit_buckets s asize fuel (BUCKET_COUNT - result) result (M64 - 2 ^ 31) NULL

/-- The adjusted block size computed by `mm_malloc` (lines 202-208). -/
def adjust (size : Nat) : Nat :=
  if size ≤ 2 * WSIZE then MINBLOCK
  else
    let size1 := if size &&& 7 ≤ 4 then size &&& (M64 - 8) else size
    (DSIZE * ((size1 + DSIZE + (DSIZE - 1)) % M64 / DSIZE)) % M64

/-- Function `mm_malloc(size)`: the returned pointer (`NULL` on failure) and the new state; `none`
when a free-list walk takes more than `fuel` steps. -/
def mm_malloc (fuel : Nat) (s : State) (size : Nat) : Option (Nat × State) :=
  let s0 := if s.heap_listp = 0 then (mm_init s).2 else s
  if size = 0 then some (NULL, s0)
  else
    let asize := adjust size
    match find_fit fuel s0 asize with
    | none => none
    | some bp =>
      if bp ≠ NULL then some (bp, place s0 bp asize)
      else
        let extendsize := max asize CHUNKSIZE
        let r := extend_heap s0 (extendsize / WSIZE)
        if r.1 = NULL then some (NULL, r.2)
        else some (r.1, place r.2 r.1 asize)

/-- Function `mm_free(bp)`. -/
def mm_free (s : State) (bp : Nat) : State :=
  if bp = 0 then s
  else
    let s0 := if s.heap_listp = 0 then (mm_init s).2 else s
    let size := GET_SIZE s0 (HDRP bp)
    let alloc := GET_PREV_ALLOC s0 (HDRP bp)
    let s1 := PUT s0 (HDRP bp) (PACK size 0)
    let s2 := PUT s1 (FTRP s1 bp) (PACK size 0)
    let s3 := PUT_PREV_ALLOC s2 (HDRP bp) alloc
    let s4 := PUT_PREV_ALLOC s3 (HDRP (NEXT_BLKP s3 bp)) 0
    (coalesce s4 bp).2

/-- Function `memcpy(dst, src, n)` on non-overlapping ranges. -/
def memcpy (s : State) (dst src n : Nat) : State :=
  { s with mem := fun a => if dst ≤ a ∧ a < dst + n then s.mem (src + (a - dst)) else s.mem a }

/-- Function `memset(dst, 0, n)`.  The memory of the provider is `[START, cap)`; a call whose range
does not lie inside it runs off that memory and faults, which is `none`. -/
def memset0 (s : State) (dst n : Nat) : Option State :=
  if START ≤ dst ∧ dst + n ≤ s.cap then
    some { s with mem := fun a => if dst ≤ a ∧ a < dst + n then 0 else s.mem a }
  else none

/-- Function `mm_realloc(ptr, size)`. -/
def mm_realloc (fuel : Nat) (s : State) (ptr size : Nat) : Option (Nat × State) :=
  if size = 0 then some (0, mm_free s ptr)
  else if ptr = NULL then mm_malloc fuel s size
  else
    match mm_malloc fuel s size with
    | none => none
    | some (newptr, s1) =>
      if newptr = 0 then some (0, s1)
      else
        let oldsize := GET_SIZE s1 (HDRP ptr)
        let oldsize := if size < oldsize then size else oldsize
        let s2 := memcpy s1 newptr ptr oldsize
        some (newptr, mm_free s2 ptr)

/-- Function `mm_calloc(nmemb, size)`: the returned pointer and the new state; `none` when the call
does not return, because a free-list walk takes more than `fuel` steps or because `memset`
faults. -/
def mm_calloc (fuel : Nat) (s : State) (nmemb size : Nat) : Option (Nat × State) :=
  let asize := (nmemb * size) % M64
  if asize ≤ 0 then some (NULL, s)
  else
    match mm_malloc fuel s asize with
    | none => none
    | some (bp, s1) =>
      if bp = NULL then some (NULL, s1)
      else
        match memset0 s1 bp asize with
        | none => none
        | some s2 => some (bp, s2)

/-! ## Observing a state

The block chain is read off the headers, as `mm_checkheap` walks it, and a bucket list
off the `succ` links, as `checkFreeList` walks it. -/

/-- One block of the chain: payload address, size and allocated bit of its header. -/
structure Blk where
  /-- the block pointer: the address of the payload -/
  bp : Nat
  /-- the block size stored in the header -/
  size : Nat
  /-- the allocated bit of the header -/
  alloc : Bool
deriving DecidableEq

/-- Walk the chain from `bp`, `bp = NEXT_BLKP(bp)`, up to the first header of size `0`.
`none` when that header is not reached within the given number of steps. -/
def walkBlocks (s : State) : Nat → Nat → Option (List Blk)
  | 0, bp => if GET_SIZE s (HDRP bp) = 0 then some [] else none
  | fuel + 1, bp =>
    if GET_SIZE s (HDRP bp) = 0 then some []
    else
      match walkBlocks s fuel (NEXT_BLKP s bp) with
      | none => none
      | some l => some (⟨bp, GET_SIZE s (HDRP bp), decide (GET_ALLOC s (HDRP bp) ≠ 0)⟩ :: l)

/-- The blocks between the prologue and the epilogue, in address order.  The walk is given
as many steps as the heap has bytes: `COMPRESS s.brk` is the offset of the end of the heap
from `START`. -/
def heapBlocks (s : State) : Option (List Blk) :=
  walkBlocks s (COMPRESS s.brk) (NEXT_BLKP s s.heap_listp)

/-- Walk the chain from `bp` as `walkBlocks` does and return the block pointer at which the
walk ends, the one whose header holds size `0`. -/
def walkEnd (s : State) : Nat → Nat → Option Nat
  | 0, bp => if GET_SIZE s (HDRP bp) = 0 then some bp else none
  | fuel + 1, bp =>
    if GET_SIZE s (HDRP bp) = 0 then some bp else walkEnd s fuel (NEXT_BLKP s bp)

/-- The block pointer at which the walk over the chain ends; its header is the word in the
4 bytes before it. -/
def chainEnd (s : State) : Option Nat :=
  walkEnd s (COMPRESS s.brk) (NEXT_BLKP s s.heap_listp)

/-- Follow the `succ` links from `p` up to `NIL`.  `none` when `NIL` is not reached within
the given number of steps (as on a cyclic list). -/
def walkList (s : State) : Nat → Nat → Option (List Nat)
  | 0, p => if p = NIL then some [] else none
  | fuel + 1, p =>
    if p = NIL then some []
    else
      match walkList s fuel (SUCC s p) with
      | none => none
      | some l => some (p :: l)

/-- The members of bucket `i`, from the head `seg[i]`. -/
def bucketList (s : State) (i : Nat) : Option (List Nat) :=
  walkList s (COMPRESS s.brk) (seg_get s i)

/-- Pointer `p` is the block pointer of an allocated block of the chain. -/
def allocated (s : State) (p : Nat) : Bool :=
  match heapBlocks s with
  | none => false
  | some bs => bs.any (fun b => decide (b.bp = p) && b.alloc)

/-- Address `a` is a payload byte of an allocated block of the chain. -/
def inPayload (s : State) (a : Nat) : Bool :=
  match heapBlocks s with
  | none => false
  | some bs => bs.any (fun b => b.alloc && decide (b.bp ≤ a) && decide (a < b.bp + b.size - WSIZE))

/-! ## Runs of the allocator -/

/-- A call of the public interface. -/
inductive Call where
  | malloc (size : Nat)
  | free (bp : Nat)
  | realloc (ptr size : Nat)
  | calloc (nmemb size : Nat)

/-- Execute a call: the returned pointer (`0` for `mm_free`) and the new state. -/
def exec (fuel : Nat) (s : State) : Call → Option (Nat × State)
  | Call.malloc size => mm_malloc fuel s size
  | Call.free bp => some (0, mm_free s bp)
  | Call.realloc ptr size => mm_realloc fuel s ptr size
  | Call.calloc nmemb size => mm_calloc fuel s nmemb size

/-- The call is well formed in state `s`: its numbers are `size_t` values and a pointer
passed to `mm_free` or `mm_realloc` is `NULL` or an allocated block. -/
def Call.valid (s : State) : Call → Bool
  | Call.malloc size => decide (size < M64)
  | Call.free bp => decide (bp = NULL) || allocated s bp
  | Call.realloc ptr size => (decide (ptr = NULL) || allocated s ptr) && decide (size < M64)
  | Call.calloc nmemb size => decide (nmemb < M64) && decide (size < M64)

/-- The byte count requested by a call (`0` for `mm_free`). -/
def Call.request : Call → Nat
  | Call.malloc size => size
  | Call.free _ => 0
  | Call.realloc _ size => size
  | Call.calloc nmemb size => (nmemb * size) % M64

/-- The request is small enough for the size adjustment of `mm_malloc` not to wrap
around `2^64`. -/
def Call.small (c : Call) : Bool := decide (c.request < M64 - 11)

/-- A state before `mm_init`: the heap is empty and starts at `START`, and it can never
grow to `2^32` bytes. -/
def Fresh (s : State) : Prop :=
  s.brk = START ∧ s.heap_listp = 0 ∧ s.cap < START + 2 ^ 32

/-- The client stores byte `v` at address `a`. -/
def poke (s : State) (a v : Nat) : State :=
  { s with mem := fun x => if x = a then v else s.mem x }

/-- States reachable from a successful `mm_init` by well-formed calls that satisfy `ok`,
the client being free to write into the payload of allocated blocks in between. -/
inductive Reach (ok : Call → Bool) : State → Prop where
  | init (s0 : State) : Fresh s0 → (mm_init s0).1 = 0 → Reach ok (mm_init s0).2
  | call (s : State) (c : Call) (fuel r : Nat) (s1 : State) :
      Reach ok s → c.valid s = true → ok c = true → exec fuel s c = some (r, s1) → Reach ok s1
  | write (s : State) (a v : Nat) : Reach ok s → inPayload s a = true → Reach ok (poke s a v)

/-- Run the calls in order; a call that does not return ends the run. -/
def runD (fuel : Nat) : State → List Call → State
  | s, [] => s
  | s, c :: cs =>
    match exec fuel s c with
    | some (_, s1) => runD fuel s1 cs
    | none => s

/-- Every call of the run is well formed in the state it is made in, satisfies `ok`, and
returns. -/
def runOK (ok : Call → Bool) (fuel : Nat) : State → List Call → Bool
  | _, [] => true
  | s, c :: cs =>
    c.valid s && ok c &&
      match exec fuel s c with
      | some (_, s1) => runOK ok fuel s1 cs
      | none => false

/-- A state before `mm_init`: all bytes zero and room for 4096 bytes of heap. -/
def st0 : State := ⟨fun _ => 0, START, START + 4096, 0, 0⟩

/-- A state before `mm_init` like `st0`, with room for 96 bytes of heap only: the 32
bytes of `mm_init` and the first chunk. -/
def st1 : State := ⟨fun _ => 0, START, START + 96, 0, 0⟩

/-- Reachable by calls whose requests do not wrap around. -/
def Reachable (s : State) : Prop := Reach Call.small s

/-- Reachable by any well-formed calls. -/
def ReachableAny (s : State) : Prop := Reach (fun _ => true) s

/-! ## The representation invariant -/

/-- The header word of a block: size, allocated bit, prev_allocated bit. -/
def hdrWord (size : Nat) (alloc pa : Bool) : Nat :=
  size + (if alloc then 1 else 0) + (if pa then 2 else 0)

/-- The blocks `bs` lie one after the other from `p` to `q`. -/
def Contig : Nat → List Blk → Nat → Prop
  | p, [], q => p = q
  | p, b :: bs, q => b.bp = p ∧ Contig (p + b.size) bs q

/-- Each block paired with the allocated bit of its predecessor (`pa` for the first). -/
def withPrev : Bool → List Blk → List (Blk × Bool)
  | _, [] => []
  | pa, b :: bs => (b, pa) :: withPrev b.alloc bs

/-- The allocated bit of the last block (`pa` for the empty list). -/
def lastAlloc : Bool → List Blk → Bool
  | pa, [] => pa
  | _, b :: bs => lastAlloc b.alloc bs

/-- No block of `bs` is free next to a free predecessor, `pa` being the allocated bit of
the block before the first. -/
def NAFp (pa : Bool) (bs : List Blk) : Prop :=
  ∀ x ∈ withPrev pa bs, x.1.alloc = true ∨ x.2 = true

/-- No two adjacent blocks are both free. -/
def NAF (bs : List Blk) : Prop := NAFp true bs

/-- A pointer that can be a member of a free list. -/
def Vp (z : Nat) : Prop := z % 8 = 0 ∧ START + 32 ≤ z ∧ z < START + 2 ^ 32

/-- The header of the next block, or the epilogue header, after a block with allocated
bit `pa`. -/
def nextWord (pa : Bool) : List Blk → Nat
  | [] => hdrWord 0 true pa
  | b :: _ => hdrWord b.size b.alloc pa

/-- The link words of the doubly linked list `l`, whose first member has predecessor `pv`
and whose last member has successor `t`. -/
def DL (s : State) : Nat → List Nat → Nat → Prop
  | _, [], _ => True
  | pv, x :: xs, t =>
    GET s x = COMPRESS pv ∧ GET s (x + 4) = COMPRESS (xs.headD t) ∧ DL s x xs t

/-- The heap is tiled by the blocks `bs`. -/
structure Tiling (s : State) (bs : List Blk) : Prop where
  seg_eq : s.seg = START
  hlp : s.heap_listp = START + 24
  brk_le : s.brk ≤ s.cap
  cap_lt : s.cap < START + 2 ^ 32
  prol : GET s (START + 20) = 9
  contig : Contig (START + 32) bs s.brk
  sizes : ∀ b ∈ bs, 16 ≤ b.size ∧ b.size % 8 = 0
  hdr : ∀ x ∈ withPrev false bs, GET s (x.1.bp - 4) = hdrWord x.1.size x.1.alloc x.2
  ftr : ∀ b ∈ bs, b.alloc = false → GET s (b.bp + b.size - 8) = b.size
  epi : GET s (s.brk - 4) = hdrWord 0 true (lastAlloc false bs)

/-- The bucket lists `L 0` and `L 1` hold the free blocks of `bs`, each in the bucket of
its size class, except those whose address satisfies `pend`. -/
structure Lists (s : State) (bs : List Blk) (L : Nat → List Nat) (pend : Nat → Prop) :
    Prop where
  head : ∀ i, i < 2 → seg_get s i = (L i).headD NIL
  links : ∀ i, i < 2 → DL s NIL (L i) NIL
  nodup : ∀ i, i < 2 → (L i).Nodup
  mem : ∀ i, i < 2 → ∀ x, x ∈ L i ↔
    ¬ pend x ∧ ∃ b ∈ bs, b.bp = x ∧ b.alloc = false ∧ getPtrBySize b.size = i

/-- The representation invariant of the allocator. -/
def Inv (s : State) (bs : List Blk) (L : Nat → List Nat) : Prop :=
  Tiling s bs ∧ Lists s bs L (fun _ => False) ∧ NAF bs

/-- The allocated bit of the first block (`true` for the empty list, which is followed by
the epilogue). -/
def headAlloc : List Blk → Bool
  | [] => true
  | c :: _ => c.alloc

/-- Coalescing the free block `b`, which lies between `l1` and `l2`, gives the free block
`m` between `k1` and `k2`: `m` absorbs the last block of `l1` and the first block of `l2`
when they are free. -/
def Merged (l1 : List Blk) (b : Blk) (l2 k1 : List Blk) (m : Blk) (k2 : List Blk) : Prop :=
  ∃ ps ns, m = ⟨b.bp - ps, ps + b.size + ns, false⟩ ∧
    ((k1 = l1 ∧ ps = 0 ∧ lastAlloc true l1 = true) ∨
      ∃ p, l1 = k1 ++ [p] ∧ p.alloc = false ∧ ps = p.size) ∧
    ((k2 = l2 ∧ ns = 0 ∧ headAlloc l2 = true) ∨
      ∃ n, l2 = n :: k2 ∧ n.alloc = false ∧ ns = n.size)

/-- A neighbour of a block that is being released is merged with it: there is one and
it is free. -/
def isFree : Option Blk → Bool
  | some b => !b.alloc
  | none => false

/-- The bytes a neighbour adds to the coalesced block: its size when it is merged, else
`0`. -/
def freeSize (o : Option Blk) : Nat :=
  match o with
  | some b => if b.alloc then 0 else b.size
  | none => 0

/-- The blocks `place` makes of the free block `c` for a request of `asize` bytes: an
allocated block followed by the free remainder when that is at least `MINBLOCK` bytes,
and else the whole block allocated. -/
def placed (c : Blk) (asize : Nat) : List Blk :=
  if MINBLOCK ≤ c.size - asize then
    [⟨c.bp, asize, true⟩, ⟨c.bp + asize, c.size - asize, false⟩]
  else [⟨c.bp, c.size, true⟩]

/-- Pointer `p` is a free block of `bs` of at least `asize` bytes. -/
def Fits (bs : List Blk) (asize p : Nat) : Prop :=
  ∃ c ∈ bs, c.alloc = false ∧ c.bp = p ∧ asize ≤ c.size

/-- The byte count `extend_heap(words)` asks the memory provider for. -/
def extend_size (words : Nat) : Nat :=
  if words % 2 ≠ 0 then ((words + 1) * WSIZE) % M64 else (words * WSIZE) % M64

/-- The bytes the tiling depends on: the prologue header, the epilogue header, the block
headers and the footers of free blocks. -/
def Sens (bs : List Blk) (brk a : Nat) : Prop :=
  (START + 20 ≤ a ∧ a < START + 24) ∨ (brk - 4 ≤ a ∧ a < brk) ∨
    ∃ b ∈ bs, (b.bp - 4 ≤ a ∧ a < b.bp) ∨
      (b.alloc = false ∧ b.bp + b.size - 8 ≤ a ∧ a < b.bp + b.size - 4)

/-- Address `a` is a payload byte of an allocated block of `bs`. -/
def Safe (bs : List Blk) (a : Nat) : Prop :=
  ∃ b ∈ bs, b.alloc = true ∧ b.bp ≤ a ∧ a < b.bp + b.size - 4

/-- State `s1` has the globals of `s` and the same payload bytes in the allocated blocks
of `bs`. -/
def Keeps (s s1 : State) (bs : List Blk) : Prop :=
  s1.brk = s.brk ∧ s1.cap = s.cap ∧ s1.heap_listp = s.heap_listp ∧ s1.seg = s.seg ∧
    ∀ a, Safe bs a → s1.mem a = s.mem a

/-- The bucket lists `L` without the address `x`. -/
def eraseL (L : Nat → List Nat) (x : Nat) : Nat → List Nat := fun i => (L i).erase x

/-- The bucket lists `L` with the address `x` put at the front of bucket `c`. -/
def pushL (L : Nat → List Nat) (c x : Nat) : Nat → List Nat :=
  fun i => if i = c then x :: L i else L i

/-- State `s1` differs from `s` only in bytes at addresses satisfying `R`. -/
def Same (s s1 : State) (R : Nat → Prop) : Prop :=
  s1.brk = s.brk ∧ s1.cap = s.cap ∧ s1.heap_listp = s.heap_listp ∧ s1.seg = s.seg ∧
    ∀ a, ¬ R a → s1.mem a = s.mem a

/-! ## Two more runs -/

/-- The state reached from `st0` by `mm_init`, six calls, two of them with a request that
wraps around in the size adjustment, and three bytes stored by the client in the last
three of the 72 bytes it requested at `START + 32`. -/
def st2 : State :=
  poke (poke (poke (runD 8 (mm_init st0).2 [Call.malloc (M64 - 1), Call.malloc 60,
    Call.free (START + 32), Call.malloc (M64 - 8), Call.free (START + 32), Call.malloc 72])
    (START + 101) 255) (START + 102) 255) (START + 103) 255

/-- The state reached from `st0` by `mm_init` and seven calls, two of them with a request
that wraps around in the size adjustment. -/
def st3 : State :=
  runD 8 (mm_init st0).2 [Call.malloc (M64 - 1), Call.malloc 100, Call.free (START + 32),
    Call.malloc (M64 - 1), Call.malloc 24, Call.free (START + 32), Call.malloc 1]

/-- The state reached from `st1`, whose heap cannot grow beyond the first chunk, by
`mm_init` and `mm_malloc(1)`. -/
def st4 : State := runD 8 (mm_init st1).2 [Call.malloc 1]

/-! ## The selection rule of `find_fit`, in the words of the specification -/

/-- In the words of the specification: the block at `p` can hold `asize` bytes, its size
is at least `asize`. -/
def fitting (s : State) (asize p : Nat) : Prop := asize ≤ GET_SIZE s (HDRP p)

/-- In the words of the specification: the block at `p` can hold `asize` bytes and its
leftover, `size - asize`, is at most half of `asize` (integer division). -/
def goodEnough (s : State) (asize p : Nat) : Prop :=
  asize ≤ GET_SIZE s (HDRP p) ∧ GET_SIZE s (HDRP p) - asize ≤ asize / 2

/-- In the words of the specification: `p` is the block the selection rule picks from the
bucket list `l`.  It is a member that can hold `asize` bytes; when the list has a block
whose leftover is at most half of `asize`, `p` is the first such block in list order; and
otherwise `p` has the minimum leftover among the blocks that can hold `asize` bytes, and is
the earliest of them in list order. -/
def Selected (s : State) (asize : Nat) (l : List Nat) (p : Nat) : Prop :=
  ∃ pre post, l = pre ++ p :: post ∧ fitting s asize p ∧
    ((∃ q ∈ l, goodEnough s asize q) →
      goodEnough s asize p ∧ ∀ q ∈ pre, ¬ goodEnough s asize q) ∧
    ((¬ ∃ q ∈ l, goodEnough s asize q) →
      (∀ q ∈ pre, fitting s asize q → GET_SIZE s (HDRP p) < GET_SIZE s (HDRP q)) ∧
        ∀ q ∈ post, fitting s asize q → GET_SIZE s (HDRP p) ≤ GET_SIZE s (HDRP q))

/-- The invariant of the inner loop of `find_fit` after the blocks `pre` of a bucket list
have been visited: none of them made the loop return, and `bptr` is `NULL` when none of
them can hold `asize` bytes, and else the earliest one with the minimum leftover, which is
`bsize`. -/
def Best (s : State) (asize : Nat) (pre : List Nat) (bsize bptr : Nat) : Prop :=
  (∀ q ∈ pre, ¬ goodEnough s asize q) ∧
    ((bptr = NULL ∧ 2 ^ 32 ≤ bsize ∧ ∀ q ∈ pre, ¬ fitting s asize q) ∨
      (bptr ≠ NULL ∧ fitting s asize bptr ∧ bsize = GET_SIZE s (HDRP bptr) - asize ∧
        ∃ p1 p2, pre = p1 ++ bptr :: p2 ∧
          (∀ q ∈ p1, fitting s asize q → GET_SIZE s (HDRP bptr) < GET_SIZE s (HDRP q)) ∧
          (∀ q ∈ p2, fitting s asize q → GET_SIZE s (HDRP bptr) ≤ GET_SIZE s (HDRP q))))

/-! ## The matrix transpose of `cachelab/trans.c` -/

/-- The variables of `transpose_submit`: the matrix `A` (`N` rows of `M` ints), the matrix
`B` (`M` rows of `N` ints), which does not overlap `A`, and the locals `d0` to `d7`.
Element `[i][j]` of a matrix is the value of the function at `i` and `j`. -/
structure Vars where
  /-- the input matrix -/
  A : Nat → Nat → Int
  /-- the output matrix -/
  B : Nat → Nat → Int
  /-- the local `d0` -/
  d0 : Int
  /-- the local `d1` -/
  d1 : Int
  /-- the local `d2` -/
  d2 : Int
  /-- the local `d3` -/
  d3 : Int
  /-- the local `d4` -/
  d4 : Int
  /-- the local `d5` -/
  d5 : Int
  /-- the local `d6` -/
  d6 : Int
  /-- the local `d7` -/
  d7 : Int

/-- Variables of `transpose_submit` with `A[i][j] = 100 * i + j` and zeros elsewhere. -/
def vars0 : Vars :=
  ⟨fun i j => 100 * (i : Int) + (j : Int), fun _ _ => 0, 0, 0, 0, 0, 0, 0, 0, 0⟩

/-- Matrix `A` is `A0`, and on the cells `[x][y]` that satisfy `P` matrix `B` holds the
values `f x y`. -/
def Holds (A0 : Nat → Nat → Int) (s : Vars) (P : Nat → Nat → Prop) (f : Nat → Nat → Int) :
    Prop :=
  s.A = A0 ∧ ∀ x y, P x y → s.B x y = f x y

/-- The assignment `B[r][c] = v`. -/
def setB (s : Vars) (r c : Nat) (v : Int) : Vars :=
  { s with B := fun x y => if x = r ∧ y = c then v else s.B x y }

/-- The loop `for (; i < stop; i += step) body`, run for at most the given number of
rounds. -/
def forLoop (stop step : Nat) (body : Nat → Vars → Vars) : Nat → Nat → Vars → Vars
  | 0, _, s => s
  | fuel + 1, i, s =>
    if i < stop then forLoop stop step body fuel (i + step) (body i s) else s

/-- The loop `for (i = start; i < stop; i += step) body`: with a positive step it ends
within `stop` rounds. -/
def loop (start stop step : Nat) (body : Nat → Vars → Vars) (s : Vars) : Vars :=
  forLoop stop step body stop start s

/-- The branch `if (M == 32)` of `transpose_submit` (lines 43-66). -/
def trans32 (M N : Nat) (s : Vars) : Vars :=
  loop 0 N 8 (fun i s =>
    loop 0 M 8 (fun j s =>
      if i = j then
        loop i (i + 8) 1 (fun i1 s =>
          let s := loop j (j + 8) 1 (fun j1 s =>
            if j1 = i1 then { s with d1 := s.A i1 i1 }
            else setB s j1 i1 (s.A i1 j1)) s
          setB s i1 i1 s.d1) s
      else
        loop i (i + 8) 1 (fun i1 s =>
          loop j (j + 8) 1 (fun j1 s => setB s i1 j1 (s.A j1 i1)) s) s) s) s

/-- The first inner loop nest of the branch `if (M == 64)` (lines 90-95). -/
def trans64_first (i j : Nat) (s : Vars) : Vars :=
  loop i (i + 4) 1 (fun i1 s =>
    loop j (j + 4) 1 (fun j1 s =>
      let s := setB s j1 i1 (s.A i1 j1)
      setB s j1 (i1 + 4) (s.A i1 (j1 + 4))) s) s

/-- The second inner loop of the branch `if (M == 64)` (lines 96-118). -/
def trans64_second (i j : Nat) (s : Vars) : Vars :=
  loop i (i + 4) 1 (fun i1 s =>
    let s := { s with d0 := s.A (i + 4) (i1 - i + j) }
    let s := { s with d1 := s.A (i + 5) (i1 - i + j) }
    let s := { s with d2 := s.A (i + 6) (i1 - i + j) }
    let s := { s with d3 := s.A (i + 7) (i1 - i + j) }
    let s := { s with d4 := s.B (i1 - i + j) (i + 4) }
    let s := { s with d5 := s.B (i1 - i + j) (i + 5) }
    let s := { s with d6 := s.B (i1 - i + j) (i + 6) }
    let s := { s with d7 := s.B (i1 - i + j) (i + 7) }
    let s := setB s (i1 - i + j) (i + 4) s.d0
    let s := setB s (i1 - i + j) (i + 5) s.d1
    let s := setB s (i1 - i + j) (i + 6) s.d2
    let s := setB s (i1 - i + j) (i + 7) s.d3
    let s := setB s (i1 - i + j + 4) i s.d4
    let s := setB s (i1 - i + j + 4) (i + 1) s.d5
    let s := setB s (i1 - i + j + 4) (i + 2) s.d6
    setB s (i1 - i + j + 4) (i + 3) s.d7) s

/-- The last part of the branch `if (M == 64)`, `if (i != j) ... else ...`
(lines 119-146). -/
def trans64_third (i j : Nat) (s : Vars) : Vars :=
  if i ≠ j then
    loop (i + 4) (i + 8) 1 (fun i1 s =>
      let s := { s with d0 := s.A i1 (j + 4) }
      let s := { s with d1 := s.A i1 (j + 5) }
      let s := { s with d2 := s.A i1 (j + 6) }
      let s := { s with d3 := s.A i1 (j + 7) }
      let s := setB s (j + 4) i1 s.d0
      let s := setB s (j + 5) i1 s.d1
      let s := setB s (j + 6) i1 s.d2
      setB s (j + 7) i1 s.d3) s
  else
    loop (i + 4) (i + 8) 1 (fun i1 s =>
      let s := loop (j + 4) (j + 8) 1 (fun j1 s =>
        if j1 = i1 then { s with d0 := s.A i1 i1 }
        else setB s j1 i1 (s.A i1 j1)) s
      setB s i1 i1 s.d0) s

/-- The branch `if (M == 64)` of `transpose_submit` (lines 87-149). -/
def trans64 (M N : Nat) (s : Vars) : Vars :=
  loop 0 N 8 (fun i s =>
    loop 0 M 8 (fun j s =>
      trans64_third i j (trans64_second i j (trans64_first i j s))) s) s

/-- The statements of the branch `if (i == 48)` in the branch `if (M == 61)`
(lines 164-195): 13 elements of row `j` of `A` go to column `j` of `B`. -/
def trans61_last (i j : Nat) (s : Vars) : Vars :=
  let s := { s with d0 := s.A j i }
  let s := { s with d1 := s.A j (i + 1) }
  let s := { s with d2 := s.A j (i + 2) }
  let s := { s with d3 := s.A j (i + 3) }
  let s := { s with d4 := s.A j (i + 4) }
  let s := { s with d5 := s.A j (i + 5) }
  let s := { s with d6 := s.A j (i + 6) }
  let s := { s with d7 := s.A j (i + 7) }
  let s := setB s i j s.d0
  let s := setB s (i + 1) j s.d1
  let s := setB s (i + 2) j s.d2
  let s := setB s (i + 3) j s.d3
  let s := setB s (i + 4) j s.d4
  let s := setB s (i + 5) j s.d5
  let s := setB s (i + 6) j s.d6
  let s := setB s (i + 7) j s.d7
  let s := { s with d0 := s.A j (i + 8) }
  let s := { s with d1 := s.A j (i + 9) }
  let s := { s with d2 := s.A j (i + 10) }
  let s := { s with d3 := s.A j (i + 11) }
  let s := { s with d4 := s.A j (i + 12) }
  let s := setB s (i + 8) j s.d0
  let s := setB s (i + 9) j s.d1
  let s := setB s (i + 10) j s.d2
  let s := setB s (i + 11) j s.d3
  setB s (i + 12) j s.d4

/-- The statements of the `else` branch in the branch `if (M == 61)` (lines 196-236): 16
elements of row `j` of `A` go to column `j` of `B`. -/
def trans61_full (i j : Nat) (s : Vars) : Vars :=
  let s := { s with d0 := s.A j i }
  let s := { s with d1 := s.A j (i + 1) }
  let s := { s with d2 := s.A j (i + 2) }
  let s := { s with d3 := s.A j (i + 3) }
  let s := { s with d4 := s.A j (i + 4) }
  let s := { s with d5 := s.A j (i + 5) }
  let s := { s with d6 := s.A j (i + 6) }
  let s := { s with d7 := s.A j (i + 7) }
  let s := setB s i j s.d0
  let s := setB s (i + 1) j s.d1
  let s := setB s (i + 2) j s.d2
  let s := setB s (i + 3) j s.d3
  let s := setB s (i + 4) j s.d4
  let s := setB s (i + 5) j s.d5
  let s := setB s (i + 6) j s.d6
  let s := setB s (i + 7) j s.d7
  let s := { s with d0 := s.A j (i + 8) }
  let s := { s with d1 := s.A j (i + 9) }
  let s := { s with d2 := s.A j (i + 10) }
  let s := { s with d3 := s.A j (i + 11) }
  let s := { s with d4 := s.A j (i + 12) }
  let s := { s with d5 := s.A j (i + 13) }
  let s := { s with d6 := s.A j (i + 14) }
  let s := { s with d7 := s.A j (i + 15) }
  let s := setB s (i + 8) j s.d0
  let s := setB s (i + 9) j s.d1
  let s := setB s (i + 10) j s.d2
  let s := setB s (i + 11) j s.d3
  let s := setB s (i + 12) j s.d4
  let s := setB s (i + 13) j s.d5
  let s := setB s (i + 14) j s.d6
  setB s (i + 15) j s.d7

/-- The branch `if (M == 61)` of `transpose_submit` (lines 161-238). -/
def trans61 (s : Vars) : Vars :=
  loop 0 61 16 (fun i s =>
    loop 0 67 1 (fun j s =>
      if i = 48 then trans61_last i j s else trans61_full i j s) s) s

/-- Function `transpose_submit(M, N, A, B)`: the variables after the call. -/
def transpose_submit (M N : Nat) (s : Vars) : Vars :=
  let s := if M = 32 then trans32 M N s else s
  let s := if M = 64 then trans64 M N s else s
  if M = 61 then trans61 s else s

/-- Function `is_transpose(M, N, A, B)`: `1` when `A[i][j] == B[j][i]` for all `i < N` and
`j < M`, and else `0`. -/
def is_transpose (M N : Nat) (A B : Nat → Nat → Int) : Nat :=
  if (List.range N).all (fun i => (List.range M).all (fun j => decide (A i j = B j i)))
  then 1 else 0

/-! ## The consistency checker (`mm.c`, lines 760-871)

The checker only reads the heap and prints; its model returns the list of the errors it
prints, in the order of printing. -/

/-- The error messages of `checkblock`, `mm_checkheap` and `checkFreeList`. -/
inductive Err where
  /-- The message that a block pointer is not doubleword aligned. -/
  | misaligned
  /-- The message that the header of a free block does not match its footer. -/
  | hdr_ftr
  /-- The message that the prev_alloc flag of the next block does not match. -/
  | prev_alloc
  /-- The message that two free blocks are adjacent. -/
  | free_pair
  /-- The message that the prologue header is bad. -/
  | bad_prologue
  /-- The message that the epilogue header is bad. -/
  | bad_epilogue
  /-- The message that a succ link points outside the heap. -/
  | succ_outside
  /-- The message that a prev link points outside the heap. -/
  | prev_outside
  /-- The message that the succ link of the predecessor does not point back. -/
  | prev_match
  /-- The message that the prev link of the successor does not point back. -/
  | succ_match
  /-- The message that a block is in the wrong list. -/
  | wrong_list
  /-- The message that the two counts of free blocks differ. -/
  | count
deriving DecidableEq

/-- Modelled from the spec: the low end of `heap_bounds() -> (low, high)` of the external
memory provider (`mem_heap_lo` of `memlib`, which is not part of the sources): the address
of the first heap byte. -/
def mem_heap_lo : Nat := START

/-- Modelled from the spec: the high end of `heap_bounds() -> (low, high)` of the external
memory provider (`mem_heap_hi` of `memlib`, which is not part of the sources): the address
of the last heap byte. -/
def mem_heap_hi (s : State) : Nat := s.brk - 1

/-- Function `checkblock(bp)`: the errors printed for one block. -/
def checkblock (s : State) (bp : Nat) : List Err :=
  (if bp % 8 ≠ 0 then [Err.misaligned] else []) ++
  (if GET_ALLOC s (HDRP bp) = 0 ∧ (GET s (HDRP bp) ||| 2) ≠ (GET s (FTRP s bp) ||| 2) then
    [Err.hdr_ftr] else []) ++
  (if GET_SIZE s (HDRP bp) > 8 ∧
      GET_PREV_ALLOC s (HDRP (NEXT_BLKP s bp)) ≠ GET_ALLOC s (HDRP bp) then
    [Err.prev_alloc] else []) ++
  (if GET_ALLOC s (HDRP bp) = 0 ∧ GET_SIZE s (HDRP bp) > 8 ∧
      GET_ALLOC s (HDRP (NEXT_BLKP s bp)) = 0 then
    [Err.free_pair] else [])

/-- The loop of `mm_checkheap`,
`for (bp = heap_listp; GET_SIZE(HDRP(bp)) > 0; bp = NEXT_BLKP(bp))`: the errors printed,
the number of free blocks counted and the value of `bp` at which the loop ends.  The first
argument bounds the number of iterations; `none` means the bound was hit. -/
def checkWalk (s : State) : Nat → Nat → Option (List Err × Nat × Nat)
  | 0, bp => if GET_SIZE s (HDRP bp) > 0 then none else some ([], 0, bp)
  | fuel + 1, bp =>
    if GET_SIZE s (HDRP bp) > 0 then
      match checkWalk s fuel (NEXT_BLKP s bp) with
      | none => none
      | some (e, count, q) =>
        some (checkblock s bp ++ e, (if GET_ALLOC s (HDRP bp) = 0 then 1 else 0) + count, q)
    else some ([], 0, bp)

/-- The body of the inner loop of `checkFreeList` for member `x` of bucket `i`. -/
def checkNode (s : State) (i x : Nat) : List Err :=
  let prev := PREV s x
  let succ := SUCC s x
  (if succ ≥ mem_heap_hi s ∨ succ < mem_heap_lo then [Err.succ_outside] else []) ++
  (if prev ≥ mem_heap_hi s ∨ prev < mem_heap_lo then [Err.prev_outside] else []) ++
  (if prev ≠ NIL ∧ SUCC s prev ≠ x then [Err.prev_match] else []) ++
  (if succ ≠ NIL ∧ PREV s succ ≠ x then [Err.succ_match] else []) ++
  (if i = 0 ∧ GET_SIZE s (HDRP x) > 72 then [Err.wrong_list] else [])

/-- The inner loop of `checkFreeList`,
`for (x = seg[i]; x != NIL && x != NULL; x = SUCC(x))`: the errors printed and the number
of members counted.  The first argument after the bucket bounds the number of
iterations; `none` means the bound was hit. -/
def checkList (s : State) (i : Nat) : Nat → Nat → Option (List Err × Nat)
  | 0, x => if x ≠ NIL ∧ x ≠ NULL then none else some ([], 0)
  | fuel + 1, x =>
    if x ≠ NIL ∧ x ≠ NULL then
      match checkList s i fuel (SUCC s x) with
      | none => none
      | some (e, n) => some (checkNode s i x ++ e, n + 1)
    else some ([], 0)

/-- Function `checkFreeList(count)`: both buckets are walked, then the number of members is
compared with `count`. -/
def checkFreeList (fuel : Nat) (s : State) (count : Nat) : Option (List Err) :=
  match checkList s 0 fuel (seg_get s 0) with
  | none => none
  | some (e0, n0) =>
    match checkList s 1 fuel (seg_get s 1) with
    | none => none
    | some (e1, n1) => some (e0 ++ e1 ++ if count ≠ n0 + n1 then [Err.count] else [])

/-- Function `mm_checkheap(lineno)`: the errors printed (`lineno` is only printed).  The result is
`none` when a loop takes more than `fuel` iterations. -/
def mm_checkheap (fuel : Nat) (s : State) : Option (List Err) :=
  let e0 :=
    if GET_SIZE s (HDRP s.heap_listp) ≠ DSIZE ∨ GET_ALLOC s (HDRP s.heap_listp) = 0 then
      [Err.bad_prologue] else []
  match checkWalk s fuel s.heap_listp with
  | none => none
  | some (e1, count, bp) =>
    let e2 :=
      if GET_SIZE s (HDRP bp) ≠ 0 ∨ GET_ALLOC s (HDRP bp) = 0 then [Err.bad_epilogue] else []
    match checkFreeList fuel s count with
    | none => none
    | some e3 => some (e0 ++ e1 ++ e2 ++ e3)

/-! ## The two halves of `place` and the insertion at the head of a list -/

/-- The first part of `place` (lines 585-598), which takes `bp` out of its list: the links
of `bp` are read once, before the writes. -/
def place_detach (s : State) (bp : Nat) : State :=
  let prev := PREV s bp
  let succ := SUCC s bp
  let result := getPtrBySize (GET_SIZE s (HDRP bp))
  let s1 := if succ ≠ NIL then PUT_PREV s succ prev else s
  if prev ≠ NIL then PUT_SUCC s1 prev succ
  else
    let t := seg_set s1 result succ
    if seg_get t result ≠ NIL then PUT_PREV t (seg_get t result) 0 else t

/-- The second part of `place` (lines 600-649), run in the state `s2` that the first part
has left: the headers are written and the remainder, if it is split off, is put into its
list.  The remainder size was computed at the start of `place`, in state `s`. -/
def place_finish (s s2 : State) (bp asize : Nat) : State :=
  let rsize := (GET_SIZE s (HDRP bp) + M64 - asize % M64) % M64
  if rsize ≥ MINBLOCK then
    let alloc := GET_PREV_ALLOC s2 (HDRP bp)
    let s3 := PUT s2 (HDRP bp) (PACK asize 1)
    let s4 := PUT s3 (FTRP s3 bp) (PACK asize 1)
    let s5 := PUT_PREV_ALLOC s4 (HDRP bp) alloc
    let next := NEXT_BLKP s5 bp
    let s6 := PUT s5 (HDRP next) (PACK rsize 0)
    let s7 := PUT s6 (FTRP s6 next) (PACK rsize 0)
    let s8 := PUT_PREV_ALLOC s7 (HDRP next) 1
    let result := getPtrBySize (GET_SIZE s8 (HDRP next))
    push_front s8 next result
  else
    let alloc := GET_PREV_ALLOC s2 (HDRP bp)
    let s3 := PUT s2 (HDRP bp) (PACK (GET_SIZE s2 (HDRP bp)) 1)
    let s4 := PUT s3 (FTRP s3 bp) (PACK (GET_SIZE s3 (HDRP bp)) 1)
    let s5 := PUT_PREV_ALLOC s4 (HDRP bp) alloc
    PUT_PREV_ALLOC s5 (HDRP (NEXT_BLKP s5 bp)) 1

/-- In the words of the specification: in state `r` the block `x` has just been inserted
at the head of bucket `c`, the bucket lists having been `D` just before the insertion.
The head of bucket `c` is `x`, the prev link of `x` is `NIL`, its succ link is the old
head, the prev link of the old head, if there is one, is `x`, and the list of bucket `c` is
`x` followed by the old list; the list of the other bucket is as before. -/
def InsertedAtHead (r : State) (c x : Nat) (D : Nat → List Nat) : Prop :=
  seg_get r c = x ∧ PREV r x = NIL ∧ SUCC r x = (D c).headD NIL ∧
    (D c ≠ [] → PREV r ((D c).headD NIL) = x) ∧
    bucketList r c = some (x :: D c) ∧ bucketList r (1 - c) = some (D (1 - c))

/-! ## More runs -/

/-- The state reached from `st0` by `mm_init` and three calls, the first with a request
that wraps around in the size adjustment. -/
def st5 : State :=
  runD 8 (mm_init st0).2 [Call.malloc (M64 - 1), Call.malloc 1, Call.free (START + 32)]

/-- The state reached from `st0` by `mm_init` and six calls, two of them with a request
that wraps around in the size adjustment. -/
def st6 : State :=
  runD 8 (mm_init st0).2 [Call.malloc (M64 - 1), Call.malloc 100, Call.free (START + 32),
    Call.malloc (M64 - 1), Call.malloc 24, Call.free (START + 32)]

/-- The state after `mm_init` from `st0` in which the only free block, of 64 bytes, has
been moved from bucket 0 to bucket 1. -/
def st7 : State := seg_set (seg_set (mm_init st0).2 0 NIL) 1 (START + 32)

/-- The state reached from `st0` by `mm_init` and five calls, two of them with a request
that wraps around in the size adjustment. -/
def st8 : State :=
  runD 8 (mm_init st0).2 [Call.malloc (M64 - 1), Call.malloc 60, Call.free (START + 32),
    Call.malloc (M64 - 1), Call.free (START + 32)]

/-- The state reached from `st8` by three more calls, one of them with a request that
wraps around in the size adjustment. -/
def st9 : State :=
  runD 8 st8 [Call.malloc 70, Call.free (START + 32), Call.malloc (M64 - 8)]

/-- The state reached from `st0` by `mm_init` and `mm_malloc(56)`, which allocates the
whole first chunk. -/
def st10 : State := runD 8 (mm_init st0).2 [Call.malloc 56]

/-- The state reached from `st0` by `mm_init` and eight calls, two of them with a request
that wraps around in the size adjustment. -/
def st11 : State :=
  runD 8 (mm_init st0).2 [Call.malloc (M64 - 1), Call.malloc 60, Call.free (START + 32),
    Call.malloc (M64 - 8), Call.free (START + 32), Call.malloc 1, Call.malloc 70,
    Call.malloc 100]

/-- The state reached from `st8` by `mm_malloc(61)`: the head of bucket 0 is its own
successor. -/
def st12 : State := runD 8 st8 [Call.malloc 61]

/-- The state after Scenario B, from `st0`: `mm_init`, two requests of 16 bytes, and the
release of the first block. -/
def st13 : State :=
  runD 8 (mm_init st0).2 [Call.malloc 16, Call.malloc 16, Call.free (START + 32)]

/-- The state reached from `st0` by `mm_init`, `mm_malloc(16)`, a byte stored by the
client in the payload it was given, and `mm_free` of that block. -/
def st14 : State :=
  runD 8 (poke (runD 8 (mm_init st0).2 [Call.malloc 16]) (START + 40) 255)
    [Call.free (START + 32)]

/-! ## Bit-level facts -/

theorem testBit_split {i b : Nat} (hb : b < 2 ^ i) (a j : Nat) :
    (2 ^ i * a + b).testBit j = if j < i then b.testBit j else a.testBit (j - i) := by
  rw [Nat.mul_add_lt_is_or hb, Nat.testBit_or, Nat.testBit_mul_pow_two]
  by_cases h : j < i
  · have : ¬ j ≥ i := by omega
    simp [h, this]
  · have h2 : j ≥ i := by omega
    have h3 : b < 2 ^ j := lt_of_lt_of_le hb (Nat.pow_le_pow_right (by decide) h2)
    simp [h, h2, Nat.testBit_lt_two_pow h3]

theorem and_split {i b d : Nat} (hb : b < 2 ^ i) (hd : d < 2 ^ i) (a c : Nat) :
    (2 ^ i * a + b) &&& (2 ^ i * c + d) = 2 ^ i * (a &&& c) + (b &&& d) := by
  have hbd : b &&& d < 2 ^ i := Nat.and_lt_two_pow b hd
  apply Nat.eq_of_testBit_eq
  intro j
  rw [Nat.testBit_and, testBit_split hb, testBit_split hd, testBit_split hbd]
  by_cases h : j < i <;> simp [h, Nat.testBit_and]

theorem or_split {i b d : Nat} (hb : b < 2 ^ i) (hd : d < 2 ^ i) (a c : Nat) :
    (2 ^ i * a + b) ||| (2 ^ i * c + d) = 2 ^ i * (a ||| c) + (b ||| d) := by
  have hbd : b ||| d < 2 ^ i := Nat.or_lt_two_pow hb hd
  apply Nat.eq_of_testBit_eq
  intro j
  rw [Nat.testBit_or, testBit_split hb, testBit_split hd, testBit_split hbd]
  by_cases h : j < i <;> simp [h, Nat.testBit_or]

theorem and_F8 (w : Nat) (hw : w < 2 ^ 32) : w &&& 0xFFFFFFF8 = w / 8 * 8 := by
  have h1 : w = 2 ^ 3 * (w / 8) + w % 8 := by omega
  have h2 : (0xFFFFFFF8 : Nat) = 2 ^ 3 * (2 ^ 29 - 1) + 0 := by norm_num
  have hlt : w % 8 < 2 ^ 3 := by omega
  have hk : w / 8 < 2 ^ 29 := by omega
  rw [h2]
  conv_lhs => rw [h1]
  rw [and_split hlt (by norm_num), Nat.and_pow_two_sub_one_eq_mod, Nat.mod_eq_of_lt hk]
  simp
  omega

theorem and_FD (w : Nat) (hw : w < 2 ^ 32) : w &&& 0xFFFFFFFD = w - 2 * (w / 2 % 2) := by
  have h1 : w = 2 ^ 3 * (w / 8) + w % 8 := by omega
  have h2 : (0xFFFFFFFD : Nat) = 2 ^ 3 * (2 ^ 29 - 1) + 5 := by norm_num
  have hlt : w % 8 < 2 ^ 3 := by omega
  have hk : w / 8 < 2 ^ 29 := by omega
  rw [h2]
  conv_lhs => rw [h1]
  rw [and_split hlt (by norm_num), Nat.and_pow_two_sub_one_eq_mod, Nat.mod_eq_of_lt hk]
  have h8 : w % 8 < 8 := by omega
  have key : ∀ f, f < 8 → f &&& 5 = f - 2 * (f / 2 % 2) := by decide
  rw [key _ h8]
  omega

theorem or_small (x y : Nat) (hx : x % 8 = 0) (hy : y < 8) : x ||| y = x + y := by
  have h := Nat.mul_add_lt_is_or (show y < 2 ^ 3 by omega) (x / 8)
  have h1 : 2 ^ 3 * (x / 8) = x := by omega
  rw [h1] at h
  exact h.symm

theorem or_START (x : Nat) (hx : x < 2 ^ 32) : x ||| START = x + START := by
  have h : START = 2 ^ 32 * 8 := by norm_num [START]
  rw [Nat.or_comm, h, ← Nat.mul_add_lt_is_or hx, Nat.add_comm]

theorem shr1_and1 (w : Nat) : (w >>> 1) &&& 1 = w / 2 % 2 := by
  rw [Nat.and_one_is_mod, Nat.shiftRight_eq_div_pow, pow_one]

/-! ## Loads and stores -/

theorem load_lt (n : Nat) (m : Mem) (p : Nat) : load n m p < 256 ^ n := by
  induction n generalizing p with
  | zero => simp [load]
  | succ k ih =>
    have := ih (p + 1)
    have h2 : m p % 256 < 256 := Nat.mod_lt _ (by decide)
    simp only [load, pow_succ]
    omega

theorem load_congr (n : Nat) (m1 m2 : Mem) (p : Nat)
    (h : ∀ a, p ≤ a → a < p + n → m1 a = m2 a) : load n m1 p = load n m2 p := by
  induction n generalizing p with
  | zero => simp [load]
  | succ k ih =>
    simp only [load]
    rw [h p (le_refl _) (by omega), ih (p + 1) (fun a h1 h2 => h a (by omega) (by omega))]

theorem store_other (n : Nat) (m : Mem) (p v a : Nat) (h : a < p ∨ p + n ≤ a) :
    store n m p v a = m a := by
  unfold store
  rw [if_neg]
  omega

theorem load_store_aux (n : Nat) (m : Mem) (p v : Nat) (k j : Nat) (h : j + k ≤ n) :
    load k (store n m p v) (p + j) = v / 256 ^ j % 256 ^ k := by
  induction k generalizing j with
  | zero => simp [load, Nat.mod_one]
  | succ k ih =>
    simp only [load]
    have h1 : store n m p v (p + j) = v / 256 ^ j % 256 := by
      unfold store
      rw [if_pos (by omega)]
      simp
    rw [h1, Nat.add_assoc, ih (j + 1) (by omega), Nat.mod_mod, pow_succ 256 k,
      Nat.mul_comm (256 ^ k) 256, Nat.mod_mul, pow_succ 256 j, Nat.div_div_eq_div_mul]

theorem load_store_same (n : Nat) (m : Mem) (p v : Nat) :
    load n (store n m p v) p = v % 256 ^ n := by
  have := load_store_aux n m p v n 0 (by omega)
  simpa using this

theorem load_store_disj (k n : Nat) (m : Mem) (p v q : Nat) (h : q + k ≤ p ∨ p + n ≤ q) :
    load k (store n m p v) q = load k m q := by
  apply load_congr
  intro a h1 h2
  apply store_other
  omega

/-! ## Words of the state -/

@[simp] theorem PUT_brk (s : State) (p v : Nat) : (PUT s p v).brk = s.brk := rfl
@[simp] theorem PUT_cap (s : State) (p v : Nat) : (PUT s p v).cap = s.cap := rfl
@[simp] theorem PUT_heap_listp (s : State) (p v : Nat) : (PUT s p v).heap_listp = s.heap_listp := rfl
@[simp] theorem PUT_seg (s : State) (p v : Nat) : (PUT s p v).seg = s.seg := rfl
@[simp] theorem seg_set_brk (s : State) (p v : Nat) : (seg_set s p v).brk = s.brk := rfl
@[simp] theorem seg_set_cap (s : State) (p v : Nat) : (seg_set s p v).cap = s.cap := rfl
@[simp] theorem seg_set_heap_listp (s : State) (p v : Nat) :
    (seg_set s p v).heap_listp = s.heap_listp := rfl
@[simp] theorem seg_set_seg (s : State) (p v : Nat) : (seg_set s p v).seg = s.seg := rfl

theorem GET_lt (s : State) (p : Nat) : GET s p < 2 ^ 32 := by
  have := load_lt 4 s.mem p
  simpa [GET] using this

theorem seg_get_lt (s : State) (i : Nat) : seg_get s i < 2 ^ 64 := by
  have := load_lt 8 s.mem (s.seg + 8 * i)
  simpa [seg_get] using this

theorem GET_PUT_same (s : State) (p v : Nat) : GET (PUT s p v) p = v % 2 ^ 32 := by
  simp only [GET, PUT, load_store_same]
  norm_num

theorem GET_PUT_disj (s : State) (p v q : Nat) (h : q + 4 ≤ p ∨ p + 4 ≤ q) :
    GET (PUT s p v) q = GET s q := by
  simp only [GET, PUT]
  exact load_store_disj 4 4 s.mem p v q h

theorem GET_PUT_eq (s : State) (p v : Nat) (hv : v < 2 ^ 32) : GET (PUT s p v) p = v := by
  rw [GET_PUT_same, Nat.mod_eq_of_lt hv]

theorem seg_get_seg_set_same (s : State) (i v : Nat) (hv : v < 2 ^ 64) :
    seg_get (seg_set s i v) i = v := by
  simp only [seg_get, seg_set, load_store_same]
  rw [Nat.mod_eq_of_lt]
  simpa using hv

theorem seg_get_seg_set_ne (s : State) (i j v : Nat) (h : i ≠ j) :
    seg_get (seg_set s i v) j = seg_get s j := by
  simp only [seg_get, seg_set]
  apply load_store_disj
  omega

/-! ## Frames -/

theorem Same.refl (s : State) (R : Nat → Prop) : Same s s R :=
  ⟨rfl, rfl, rfl, rfl, fun _ _ => rfl⟩

theorem Same.trans {s s1 s2 : State} {R : Nat → Prop} (h1 : Same s s1 R) (h2 : Same s1 s2 R) :
    Same s s2 R := by
  obtain ⟨a1, b1, c1, d1, e1⟩ := h1
  obtain ⟨a2, b2, c2, d2, e2⟩ := h2
  exact ⟨a2.trans a1, b2.trans b1, c2.trans c1, d2.trans d1,
    fun a ha => (e2 a ha).trans (e1 a ha)⟩

theorem Same.mono {s s1 : State} {R R1 : Nat → Prop} (h : Same s s1 R)
    (hR : ∀ a, R a → R1 a) : Same s s1 R1 := by
  obtain ⟨a1, b1, c1, d1, e1⟩ := h
  exact ⟨a1, b1, c1, d1, fun a ha => e1 a (fun hr => ha (hR a hr))⟩

theorem Same_PUT (s : State) (p v : Nat) (R : Nat → Prop)
    (h : ∀ a, p ≤ a → a < p + 4 → R a) : Same s (PUT s p v) R := by
  refine ⟨rfl, rfl, rfl, rfl, fun a ha => ?_⟩
  show store 4 s.mem p v a = s.mem a
  apply store_other
  by_contra hc
  exact ha (h a (by omega) (by omega))

theorem Same_seg_set (s : State) (i v : Nat) (R : Nat → Prop)
    (h : ∀ a, s.seg + 8 * i ≤ a → a < s.seg + 8 * i + 8 → R a) : Same s (seg_set s i v) R := by
  refine ⟨rfl, rfl, rfl, rfl, fun a ha => ?_⟩
  show store 8 s.mem (s.seg + 8 * i) v a = s.mem a
  apply store_other
  by_contra hc
  exact ha (h a (by omega) (by omega))

theorem Same.word {s s1 : State} {R : Nat → Prop} (h : Same s s1 R) (p : Nat)
    (hp : ∀ a, p ≤ a → a < p + 4 → ¬ R a) : GET s1 p = GET s p := by
  simp only [GET]
  exact load_congr 4 _ _ p (fun a h1 h2 => h.2.2.2.2 a (hp a h1 h2))

theorem Same.head {s s1 : State} {R : Nat → Prop} (h : Same s s1 R) (i : Nat)
    (hp : ∀ a, s.seg + 8 * i ≤ a → a < s.seg + 8 * i + 8 → ¬ R a) :
    seg_get s1 i = seg_get s i := by
  simp only [seg_get, h.2.2.2.1]
  exact load_congr 8 _ _ _ (fun a h1 h2 => h.2.2.2.2 a (hp a h1 h2))

/-! ## Header words -/

theorem hdrWord_lt {size : Nat} {a pa : Bool} : hdrWord size a pa < size + 4 := by
  unfold hdrWord; split <;> split <;> omega

theorem and_F8_hdr (size : Nat) (a pa : Bool) (h8 : size % 8 = 0)
    (hlt : hdrWord size a pa < 2 ^ 32) : hdrWord size a pa &&& 0xFFFFFFF8 = size := by
  rw [and_F8 _ hlt]
  revert hlt; unfold hdrWord; cases a <;> cases pa <;> simp <;> omega

theorem GET_SIZE_hdr {s : State} {p z : Nat} {a q : Bool}
    (h : GET s p = hdrWord z a q) (h8 : z % 8 = 0) : GET_SIZE s p = z := by
  have hlt := GET_lt s p
  unfold GET_SIZE
  rw [h] at hlt ⊢
  exact and_F8_hdr z a q h8 hlt

theorem GET_ALLOC_hdr {s : State} {p z : Nat} {a q : Bool}
    (h : GET s p = hdrWord z a q) (h8 : z % 8 = 0) :
    GET_ALLOC s p = if a then 1 else 0 := by
  unfold GET_ALLOC
  rw [h, Nat.and_one_is_mod]
  unfold hdrWord; cases a <;> cases q <;> simp <;> omega

theorem GET_PREV_ALLOC_hdr {s : State} {p z : Nat} {a q : Bool}
    (h : GET s p = hdrWord z a q) (h8 : z % 8 = 0) :
    GET_PREV_ALLOC s p = if q then 1 else 0 := by
  unfold GET_PREV_ALLOC
  rw [h, shr1_and1]
  unfold hdrWord; cases a <;> cases q <;> simp <;> omega

theorem GET_SIZE_word {s : State} {p size : Nat}
    (h : GET s p = size) (h8 : size % 8 = 0) : GET_SIZE s p = size := by
  apply GET_SIZE_hdr (a := false) (q := false) _ h8
  simp [hdrWord, h]

theorem setbit1 (w v : Nat) (hw : w < 2 ^ 32) (hv : v ≤ 1) :
    PACK (w &&& 0xFFFFFFFD) (v <<< 1) = w - 2 * (w / 2 % 2) + 2 * v := by
  unfold PACK
  rw [and_FD w hw]
  have h1 : w - 2 * (w / 2 % 2) = 2 ^ 3 * (w / 8) + (w % 8 - 2 * (w % 8 / 2 % 2)) := by omega
  have h2 : v <<< 1 = 2 ^ 3 * 0 + 2 * v := by
    rw [Nat.shiftLeft_eq]; omega
  rw [h1, h2, or_split (by omega) (by omega)]
  have key : ∀ f, f < 8 → ∀ u, u < 2 →
      (f - 2 * (f / 2 % 2)) ||| (2 * u) = f - 2 * (f / 2 % 2) + 2 * u := by decide
  rw [key (w % 8) (by omega) v (by omega)]
  simp
  omega

theorem PUT_PREV_ALLOC_hdr {s : State} {p z : Nat} {a q : Bool} (pa1 : Bool)
    (h : GET s p = hdrWord z a q) (h8 : z % 8 = 0) :
    PUT_PREV_ALLOC s p (if pa1 then 1 else 0) = PUT s p (hdrWord z a pa1) := by
  unfold PUT_PREV_ALLOC
  have hlt := GET_lt s p
  rw [setbit1 _ _ hlt (by split <;> omega), h]
  congr 1
  unfold hdrWord; cases a <;> cases q <;> cases pa1 <;> simp <;> omega

theorem PACK_zero (size : Nat) : PACK size 0 = size := by
  unfold PACK; simp

theorem PACK_one (size : Nat) (h8 : size % 8 = 0) : PACK size 1 = size + 1 := by
  unfold PACK; exact or_small size 1 h8 (by decide)

/-! ## Compressed links -/

theorem decompress (x : Nat) (h1 : START ≤ x) (h2 : x < START + 2 ^ 32) :
    COMPRESS x ||| START = x := by
  have hS : START = 2 ^ 32 * 8 := by norm_num [START]
  have h3 : COMPRESS x = x - START := by
    unfold COMPRESS M32; omega
  rw [h3, or_START _ (by omega)]
  omega

theorem COMPRESS_lt (x : Nat) : COMPRESS x < 2 ^ 32 := by
  unfold COMPRESS M32; exact Nat.mod_lt _ (by norm_num)

theorem COMPRESS_NIL : COMPRESS NIL = 0 := by
  norm_num [COMPRESS, NIL, START, M32]

theorem COMPRESS_zero : COMPRESS 0 = 0 := by
  norm_num [COMPRESS, M32]

theorem PREV_of {s : State} {x pv : Nat} (h : GET s x = COMPRESS pv)
    (h1 : START ≤ pv) (h2 : pv < START + 2 ^ 32) : PREV s x = pv := by
  unfold PREV; rw [h, decompress pv h1 h2]

theorem SUCC_of {s : State} {x sc : Nat} (h : GET s (x + 4) = COMPRESS sc)
    (h1 : START ≤ sc) (h2 : sc < START + 2 ^ 32) : SUCC s x = sc := by
  unfold SUCC WSIZE; rw [h, decompress sc h1 h2]

/-! ## Contiguous block lists -/

theorem Contig_append {p q : Nat} {l1 l2 : List Blk} :
    Contig p (l1 ++ l2) q ↔ ∃ r, Contig p l1 r ∧ Contig r l2 q := by
  induction l1 generalizing p with
  | nil => simp [Contig]
  | cons b l ih =>
    show (b.bp = p ∧ Contig (p + b.size) (l ++ l2) q) ↔
      ∃ r, (b.bp = p ∧ Contig (p + b.size) l r) ∧ Contig r l2 q
    rw [ih]
    constructor
    · rintro ⟨h1, r, h2, h3⟩
      exact ⟨r, ⟨h1, h2⟩, h3⟩
    · rintro ⟨r, ⟨h1, h2⟩, h3⟩
      exact ⟨h1, r, h2, h3⟩

theorem Contig_le {p q : Nat} {bs : List Blk} (h : Contig p bs q) : p ≤ q := by
  induction bs generalizing p with
  | nil => simp [Contig] at h; omega
  | cons b l ih =>
    simp only [Contig] at h
    have := ih h.2
    omega

theorem Contig_bounds {p q : Nat} {bs : List Blk} (h : Contig p bs q) {b : Blk} (hb : b ∈ bs) :
    p ≤ b.bp ∧ b.bp + b.size ≤ q := by
  induction bs generalizing p with
  | nil => simp at hb
  | cons c l ih =>
    simp only [Contig] at h
    rcases List.mem_cons.1 hb with rfl | hb
    · have := Contig_le h.2
      omega
    · have := ih h.2 hb
      omega

theorem Contig_end {p q1 q2 : Nat} {bs : List Blk} (h1 : Contig p bs q1) (h2 : Contig p bs q2) :
    q1 = q2 := by
  induction bs generalizing p with
  | nil => simp [Contig] at h1 h2; omega
  | cons c l ih =>
    simp only [Contig] at h1 h2
    exact ih h1.2 h2.2

theorem Contig_tri {p q : Nat} {bs : List Blk} (h : Contig p bs q) {b1 b2 : Blk}
    (h1 : b1 ∈ bs) (h2 : b2 ∈ bs) :
    b1 = b2 ∨ b1.bp + b1.size ≤ b2.bp ∨ b2.bp + b2.size ≤ b1.bp := by
  induction bs generalizing p with
  | nil => simp at h1
  | cons c l ih =>
    simp only [Contig] at h
    rcases List.mem_cons.1 h1 with e1 | h1 <;> rcases List.mem_cons.1 h2 with e2 | h2
    · exact Or.inl (e1.trans e2.symm)
    · have := Contig_bounds h.2 h2
      subst e1
      right; left; omega
    · have := Contig_bounds h.2 h1
      subst e2
      right; right; omega
    · exact ih h.2 h1 h2

theorem Contig_unique {p q : Nat} {bs : List Blk} (h : Contig p bs q)
    (hs : ∀ b ∈ bs, 16 ≤ b.size ∧ b.size % 8 = 0) {b1 b2 : Blk}
    (h1 : b1 ∈ bs) (h2 : b2 ∈ bs) (he : b1.bp = b2.bp) : b1 = b2 := by
  rcases Contig_tri h h1 h2 with h3 | h3 | h3
  · exact h3
  · have := (hs b1 h1).1; omega
  · have := (hs b2 h2).1; omega

theorem Contig_aligned {p q : Nat} {bs : List Blk} (h : Contig p bs q)
    (hs : ∀ b ∈ bs, 16 ≤ b.size ∧ b.size % 8 = 0) (hp : p % 8 = 0) :
    q % 8 = 0 ∧ ∀ b ∈ bs, b.bp % 8 = 0 := by
  induction bs generalizing p with
  | nil => simp [Contig] at h; subst h; simp [hp]
  | cons c l ih =>
    simp only [Contig] at h
    have hc := hs c (List.mem_cons_self _ _)
    have := ih h.2 (fun b hb => hs b (List.mem_cons_of_mem _ hb)) (by omega)
    refine ⟨this.1, ?_⟩
    intro b hb
    rcases List.mem_cons.1 hb with rfl | hb
    · omega
    · exact this.2 b hb

/-! ## Predecessor bits -/

theorem withPrev_append (pa : Bool) (l1 l2 : List Blk) :
    withPrev pa (l1 ++ l2) = withPrev pa l1 ++ withPrev (lastAlloc pa l1) l2 := by
  induction l1 generalizing pa with
  | nil => simp [withPrev, lastAlloc]
  | cons b l ih => simp [withPrev, lastAlloc, ih]

theorem lastAlloc_append (pa : Bool) (l1 l2 : List Blk) :
    lastAlloc pa (l1 ++ l2) = lastAlloc (lastAlloc pa l1) l2 := by
  induction l1 generalizing pa with
  | nil => simp [lastAlloc]
  | cons b l ih => simp [lastAlloc, ih]

theorem withPrev_fst (pa : Bool) (l : List Blk) : (withPrev pa l).map Prod.fst = l := by
  induction l generalizing pa with
  | nil => simp [withPrev]
  | cons b l ih => simp [withPrev, ih]

theorem mem_withPrev {pa : Bool} {l : List Blk} {x : Blk × Bool} (h : x ∈ withPrev pa l) :
    x.1 ∈ l := by
  have := List.mem_map_of_mem Prod.fst h
  rwa [withPrev_fst] at this

theorem mem_withPrev_of_mem {q : Bool} {l : List Blk} {b : Blk} (h : b ∈ l) :
    ∃ pb, (b, pb) ∈ withPrev q l := by
  have h1 : b ∈ (withPrev q l).map Prod.fst := by rwa [withPrev_fst]
  obtain ⟨x, hx, rfl⟩ := List.mem_map.1 h1
  exact ⟨x.2, hx⟩

/-! ## Doubly linked lists -/

theorem DL_append {s : State} {pv t : Nat} {l1 l2 : List Nat} :
    DL s pv (l1 ++ l2) t ↔ DL s pv l1 (l2.headD t) ∧ DL s (l1.getLastD pv) l2 t := by
  induction l1 generalizing pv with
  | nil => simp [DL]
  | cons x l ih =>
    show (GET s x = COMPRESS pv ∧ GET s (x + 4) = COMPRESS ((l ++ l2).headD t) ∧
        DL s x (l ++ l2) t) ↔
      (GET s x = COMPRESS pv ∧ GET s (x + 4) = COMPRESS (l.headD (l2.headD t)) ∧
        DL s x l (l2.headD t)) ∧ DL s ((x :: l).getLastD pv) l2 t
    rw [ih, List.getLastD_cons]
    have e : (l ++ l2).headD t = l.headD (l2.headD t) := by cases l <;> rfl
    rw [e]
    tauto

theorem DL_frame {s s1 : State} {pv t : Nat} {l : List Nat}
    (hf : ∀ x ∈ l, GET s1 x = GET s x ∧ GET s1 (x + 4) = GET s (x + 4))
    (h : DL s pv l t) : DL s1 pv l t := by
  induction l generalizing pv with
  | nil => trivial
  | cons x l ih =>
    simp only [DL] at h ⊢
    have hx := hf x (List.mem_cons_self _ _)
    exact ⟨hx.1.trans h.1, hx.2.trans h.2.1, ih (fun y hy => hf y (List.mem_cons_of_mem _ hy)) h.2.2⟩

theorem DL_set_tail {s : State} {pv t : Nat} {l : List Nat} {z : Nat} (t1 : Nat)
    (h : DL s pv (l ++ [z]) t) (hz : z ∉ l) (hal : ∀ x ∈ l, x % 8 = 0) (hzal : z % 8 = 0) :
    DL (PUT s (z + 4) (COMPRESS t1)) pv (l ++ [z]) t1 := by
  rw [DL_append] at h ⊢
  refine ⟨DL_frame (fun x hx => ?_) h.1, ?_⟩
  · have h1 := hal x hx
    have h2 : x ≠ z := fun e => hz (e ▸ hx)
    exact ⟨GET_PUT_disj _ _ _ _ (by omega), GET_PUT_disj _ _ _ _ (by omega)⟩
  · have h3 := h.2
    simp only [DL, List.headD_nil, and_true] at h3 ⊢
    exact ⟨(GET_PUT_disj _ _ _ _ (by omega)).trans h3.1, GET_PUT_eq _ _ _ (COMPRESS_lt _)⟩

theorem DL_set_prev {s : State} {pv t : Nat} {l : List Nat} {y : Nat} (pv1 : Nat)
    (h : DL s pv (y :: l) t) (hy : y ∉ l) (hal : ∀ x ∈ l, x % 8 = 0) (hyal : y % 8 = 0) :
    DL (PUT s y (COMPRESS pv1)) pv1 (y :: l) t := by
  simp only [DL] at h ⊢
  refine ⟨GET_PUT_eq _ _ _ (COMPRESS_lt _), (GET_PUT_disj _ _ _ _ (by omega)).trans h.2.1,
    DL_frame (fun x hx => ?_) h.2.2⟩
  have h1 := hal x hx
  have h2 : x ≠ y := fun e => hy (e ▸ hx)
  exact ⟨GET_PUT_disj _ _ _ _ (by omega), GET_PUT_disj _ _ _ _ (by omega)⟩

theorem DL_mid {s : State} {pv t : Nat} {l1 l2 : List Nat} {x : Nat}
    (h : DL s pv (l1 ++ x :: l2) t) :
    GET s x = COMPRESS (l1.getLastD pv) ∧ GET s (x + 4) = COMPRESS (l2.headD t) := by
  rw [DL_append] at h
  have := h.2
  simp only [DL] at this
  exact ⟨this.1, this.2.1⟩

theorem GET_seg_set_disj (s : State) (i v q : Nat)
    (h : q + 4 ≤ s.seg + 8 * i ∨ s.seg + 8 * i + 8 ≤ q) :
    GET (seg_set s i v) q = GET s q := by
  simp only [GET, seg_set]
  exact load_store_disj 4 8 s.mem _ v q h

theorem seg_get_PUT_disj (s : State) (p v i : Nat)
    (h : s.seg + 8 * i + 8 ≤ p ∨ p + 4 ≤ s.seg + 8 * i) :
    seg_get (PUT s p v) i = seg_get s i := by
  simp only [seg_get, PUT]
  exact load_store_disj 8 4 s.mem p v _ h

theorem PUT_PREV_eq (s : State) (p v : Nat) : PUT_PREV s p v = PUT s p (COMPRESS v) := rfl
theorem PUT_SUCC_eq (s : State) (p v : Nat) : PUT_SUCC s p v = PUT s (p + 4) (COMPRESS v) := rfl
theorem HDRP_eq (bp : Nat) : HDRP bp = bp - 4 := rfl

theorem START_val : START = 34359738368 := by norm_num [START]
theorem NIL_val : NIL = 34359738368 := by norm_num [NIL, START]

theorem nil_or_snoc {α : Type} (l : List α) : l = [] ∨ ∃ l1 z, l = l1 ++ [z] := by
  rcases List.eq_nil_or_concat l with h | ⟨l1, z, h⟩
  · exact Or.inl h
  · exact Or.inr ⟨l1, z, by rw [h, List.concat_eq_append]⟩

theorem getLastD_snoc {α : Type} (l : List α) (z d : α) : (l ++ [z]).getLastD d = z := by
  exact List.getLastD_concat _ _ _

theorem headD_valid {l : List Nat} (h : ∀ z ∈ l, Vp z) :
    START ≤ l.headD NIL ∧ l.headD NIL < START + 2 ^ 32 := by
  cases l with
  | nil => simp [NIL_val, START_val]
  | cons y l =>
    have := h y (List.mem_cons_self _ _)
    simp only [List.headD_cons]
    exact ⟨by have := this.2.1; omega, this.2.2⟩

theorem getLastD_valid {l : List Nat} (h : ∀ z ∈ l, Vp z) :
    START ≤ l.getLastD NIL ∧ l.getLastD NIL < START + 2 ^ 32 := by
  rcases nil_or_snoc l with rfl | ⟨l1, z, rfl⟩
  · simp [NIL_val, START_val]
  · have := h z (by simp)
    rw [getLastD_snoc]
    exact ⟨by have := this.2.1; omega, this.2.2⟩

theorem push_front_spec {s : State} {l : List Nat} {x r : Nat}
    (hseg : s.seg = START) (hr : r < 2) (hhead : seg_get s r = l.headD NIL)
    (hdl : DL s NIL l NIL) (hx : x ∉ l) (hnd : l.Nodup) (hvx : Vp x) (hv : ∀ z ∈ l, Vp z) :
    Same s (push_front s x r) (fun a => (START + 8 * r ≤ a ∧ a < START + 8 * r + 8) ∨
        (x ≤ a ∧ a < x + 8) ∨ ∃ z ∈ l, z ≤ a ∧ a < z + 4) ∧
      seg_get (push_front s x r) r = x ∧ DL (push_front s x r) NIL (x :: l) NIL := by
  obtain ⟨hx8, hxlo, hxhi⟩ := hvx
  have hS := START_val
  have hsg : seg_get (PUT s x (COMPRESS 0)) r = l.headD NIL := by
    rw [seg_get_PUT_disj _ _ _ _ (by rw [hseg]; omega), hhead]
  have hsucc : SUCC (PUT (PUT s x (COMPRESS 0)) (x + 4) (COMPRESS (l.headD NIL))) x
      = l.headD NIL := by
    have hh := headD_valid hv
    apply SUCC_of _ hh.1 hh.2
    rw [GET_PUT_eq _ _ _ (COMPRESS_lt _)]
  simp only [push_front, PUT_SUCC_eq, PUT_PREV_eq, hsg, hsucc]
  cases l with
  | nil =>
    simp only [List.headD_nil, ne_eq, not_true_eq_false, if_false]
    refine ⟨?_, ?_, ?_⟩
    · refine ((Same_PUT _ _ _ _ ?_).trans (Same_PUT _ _ _ _ ?_)).trans (Same_seg_set _ _ _ _ ?_)
      · intro a h1 h2; right; left; omega
      · intro a h1 h2; right; left; omega
      · intro a h1 h2; left; simp only [PUT_seg, hseg] at h1 h2; omega
    · exact seg_get_seg_set_same _ _ _ (by omega)
    · simp only [DL, List.headD_nil, and_true]
      rw [GET_seg_set_disj _ _ _ _ (by simp only [PUT_seg, hseg]; omega),
        GET_seg_set_disj _ _ _ _ (by simp only [PUT_seg, hseg]; omega),
        GET_PUT_disj _ _ _ _ (by omega), GET_PUT_eq _ _ _ (COMPRESS_lt _),
        GET_PUT_eq _ _ _ (COMPRESS_lt _), COMPRESS_NIL, COMPRESS_zero]
      exact ⟨rfl, rfl⟩
  | cons y l =>
    obtain ⟨hy8, hylo, hyhi⟩ := hv y (List.mem_cons_self _ _)
    have hyx : y ≠ x := fun e => hx (e ▸ List.mem_cons_self _ _)
    have hyn : y ≠ NIL := by rw [NIL_val]; omega
    simp only [List.headD_cons, ne_eq, hyn, not_false_eq_true, if_true]
    refine ⟨?_, ?_, ?_⟩
    · refine (((Same_PUT _ _ _ _ ?_).trans (Same_PUT _ _ _ _ ?_)).trans
        (Same_PUT _ _ _ _ ?_)).trans (Same_seg_set _ _ _ _ ?_)
      · intro a h1 h2; right; left; omega
      · intro a h1 h2; right; left; omega
      · intro a h1 h2; right; right; exact ⟨y, List.mem_cons_self _ _, h1, h2⟩
      · intro a h1 h2; left; simp only [PUT_seg, hseg] at h1 h2; omega
    · exact seg_get_seg_set_same _ _ _ (by omega)
    · have h2 : DL (PUT (PUT s x (COMPRESS 0)) (x + 4) (COMPRESS y)) NIL (y :: l) NIL := by
        refine DL_frame (fun z hz => ?_) hdl
        obtain ⟨hz8, hzlo, hzhi⟩ := hv z hz
        have hzx : z ≠ x := fun e => hx (e ▸ hz)
        rw [GET_PUT_disj _ _ _ _ (by omega), GET_PUT_disj _ _ _ _ (by omega),
          GET_PUT_disj _ _ _ _ (by omega), GET_PUT_disj _ _ _ _ (by omega)]
        exact ⟨rfl, rfl⟩
      have hynl : y ∉ l := (List.nodup_cons.1 hnd).1
      have h3 := DL_set_prev x h2 hynl (fun z hz => (hv z (List.mem_cons_of_mem _ hz)).1) hy8
      show GET _ x = COMPRESS NIL ∧ GET _ (x + 4) = COMPRESS y ∧ DL _ x (y :: l) NIL
      refine ⟨?_, ?_, DL_frame (fun z hz => ?_) h3⟩
      · rw [GET_seg_set_disj _ _ _ _ (by simp only [PUT_seg, hseg]; omega),
          GET_PUT_disj _ _ _ _ (by omega), GET_PUT_disj _ _ _ _ (by omega),
          GET_PUT_eq _ _ _ (COMPRESS_lt _), COMPRESS_NIL, COMPRESS_zero]
      · rw [GET_seg_set_disj _ _ _ _ (by simp only [PUT_seg, hseg]; omega),
          GET_PUT_disj _ _ _ _ (by omega), GET_PUT_eq _ _ _ (COMPRESS_lt _)]
      · obtain ⟨hz8, hzlo, hzhi⟩ := hv z hz
        rw [GET_seg_set_disj _ _ _ _ (by simp only [PUT_seg, hseg]; omega),
          GET_seg_set_disj _ _ _ _ (by simp only [PUT_seg, hseg]; omega)]
        exact ⟨rfl, rfl⟩

theorem DL_pv_congr {s : State} {pv pv1 t : Nat} {l : List Nat}
    (h : COMPRESS pv = COMPRESS pv1) (hd : DL s pv l t) : DL s pv1 l t := by
  cases l with
  | nil => trivial
  | cons y l =>
    simp only [DL] at hd ⊢
    exact ⟨h ▸ hd.1, hd.2⟩

theorem headD_append_cons (l1 : List Nat) (x : Nat) (l2 : List Nat) (d : Nat) :
    (l1 ++ x :: l2).headD d = l1.headD x := by
  cases l1 <;> rfl

theorem extract_spec {s : State} {l1 l2 : List Nat} {x r : Nat}
    (hseg : s.seg = START) (hr : r < 2)
    (hhead : seg_get s r = (l1 ++ x :: l2).headD NIL)
    (hdl : DL s NIL (l1 ++ x :: l2) NIL) (hnd : (l1 ++ x :: l2).Nodup)
    (hv : ∀ z ∈ l1 ++ x :: l2, Vp z)
    (hcls : getPtrBySize (GET_SIZE s (HDRP x)) = r) :
    Same s (extract s x) (fun a => (START + 8 * r ≤ a ∧ a < START + 8 * r + 8) ∨
        ∃ z ∈ l1 ++ l2, z ≤ a ∧ a < z + 8) ∧
      seg_get (extract s x) r = (l1 ++ l2).headD NIL ∧ DL (extract s x) NIL (l1 ++ l2) NIL := by
  have hS := START_val
  have hN := NIL_val
  obtain ⟨hx8, hxlo, hxhi⟩ := hv x (by simp)
  have hv1 : ∀ z ∈ l1, Vp z := fun z hz => hv z (by simp [hz])
  have hv2 : ∀ z ∈ l2, Vp z := fun z hz => hv z (by simp [hz])
  have hmid := DL_mid hdl
  have hp := getLastD_valid hv1
  have hsx := headD_valid hv2
  have hPREV : PREV s x = l1.getLastD NIL := PREV_of hmid.1 hp.1 hp.2
  have hSUCC : SUCC s x = l2.headD NIL := SUCC_of hmid.2 hsx.1 hsx.2
  rw [List.nodup_append] at hnd
  obtain ⟨hnd1, hnd2, hdisj⟩ := hnd
  have hx1 : x ∉ l1 := fun h => hdisj h (List.mem_cons_self _ _)
  have hx2 : x ∉ l2 := (List.nodup_cons.1 hnd2).1
  have hnd2' : l2.Nodup := (List.nodup_cons.1 hnd2).2
  have hd12 : ∀ z, z ∈ l1 → z ∉ l2 := fun z h1 h2 => hdisj h1 (List.mem_cons_of_mem _ h2)
  rw [DL_append] at hdl
  obtain ⟨hdl1, hdlx⟩ := hdl
  simp only [List.headD_cons] at hdl1
  have hdl2 : DL s x l2 NIL := hdlx.2.2
  unfold extract
  simp only [hSUCC, hPREV, PUT_PREV_eq, PUT_SUCC_eq]
  cases l2 with
  | nil =>
    simp only [List.headD_nil, ne_eq, not_true_eq_false, if_false, List.append_nil]
    rcases nil_or_snoc l1 with rfl | ⟨l, z, rfl⟩
    · simp only [List.getLastD_nil, ne_eq, hPREV, not_true_eq_false, if_false, hcls, hSUCC,
        List.headD_nil]
      rw [seg_get_seg_set_same _ _ _ (by omega)]
      simp only [not_true_eq_false, if_false]
      refine ⟨Same_seg_set _ _ _ _ ?_, seg_get_seg_set_same _ _ _ (by omega), trivial⟩
      intro a h1 h2; left; rw [hseg] at h1 h2; omega
    · obtain ⟨hz8, hzlo, hzhi⟩ := hv1 z (by simp)
      have hzn : z ≠ NIL := by omega
      simp only [getLastD_snoc, ne_eq, hPREV, hzn,
        not_false_eq_true, if_true, hSUCC, List.headD_nil]
      refine ⟨Same_PUT _ _ _ _ ?_, ?_, ?_⟩
      · intro a h1 h2; right; exact ⟨z, by simp, by omega, by omega⟩
      · rw [seg_get_PUT_disj _ _ _ _ (by rw [hseg]; omega), hhead]
        cases l <;> rfl
      · have hzl : z ∉ l := by
          intro h
          have := List.nodup_append.1 hnd1
          exact this.2.2 h (List.mem_singleton_self _)
        exact DL_set_tail NIL hdl1 hzl (fun w hw => (hv1 w (by simp [hw])).1) hz8
  | cons y l2 =>
    obtain ⟨hy8, hylo, hyhi⟩ := hv2 y (List.mem_cons_self _ _)
    have hyn : y ≠ NIL := by omega
    have hyx : y ≠ x := fun e => hx2 (e ▸ List.mem_cons_self _ _)
    have hyl2 : y ∉ l2 := (List.nodup_cons.1 hnd2').1
    simp only [List.headD_cons, ne_eq, hyn, not_false_eq_true, if_true]
    have hP1 : PREV (PUT s y (COMPRESS (l1.getLastD NIL))) x = l1.getLastD NIL := by
      apply PREV_of _ hp.1 hp.2
      rw [GET_PUT_disj _ _ _ _ (by omega)]; exact hmid.1
    have hS1 : SUCC (PUT s y (COMPRESS (l1.getLastD NIL))) x = y := by
      apply SUCC_of _ (by omega) hyhi
      rw [GET_PUT_disj _ _ _ _ (by omega)]; exact hmid.2
    have hC1 : GET_SIZE (PUT s y (COMPRESS (l1.getLastD NIL))) (HDRP x) = GET_SIZE s (HDRP x) := by
      unfold GET_SIZE HDRP WSIZE
      rw [GET_PUT_disj _ _ _ _ (by omega)]
    simp only [hP1, hS1, hC1, hcls]
    rcases nil_or_snoc l1 with rfl | ⟨l, z, rfl⟩
    · simp only [List.getLastD_nil, ne_eq, not_true_eq_false, if_false, List.nil_append]
      rw [seg_get_seg_set_same _ _ _ (by omega)]
      simp only [hyn, not_false_eq_true, if_true, List.headD_cons]
      refine ⟨?_, ?_, ?_⟩
      · refine ((Same_PUT _ _ _ _ ?_).trans (Same_seg_set _ _ _ _ ?_)).trans
          (Same_PUT _ _ _ _ ?_)
        · intro a h1 h2; right; exact ⟨y, by simp, by omega, by omega⟩
        · intro a h1 h2; left; simp only [PUT_seg, hseg] at h1 h2; omega
        · intro a h1 h2; right; exact ⟨y, by simp, by omega, by omega⟩
      · rw [seg_get_PUT_disj _ _ _ _ (by simp only [seg_set_seg, PUT_seg, hseg]; omega)]
        exact seg_get_seg_set_same _ _ _ (by omega)
      · have h1 : DL (PUT s y (COMPRESS NIL)) NIL (y :: l2) NIL :=
          DL_set_prev NIL hdl2 hyl2 (fun w hw => (hv2 w (List.mem_cons_of_mem _ hw)).1) hy8
        have h2 : DL (seg_set (PUT s y (COMPRESS NIL)) r y) NIL (y :: l2) NIL := by
          refine DL_frame (fun w hw => ?_) h1
          obtain ⟨hw8, hwlo, hwhi⟩ := hv2 w hw
          rw [GET_seg_set_disj _ _ _ _ (by simp only [PUT_seg, hseg]; omega),
            GET_seg_set_disj _ _ _ _ (by simp only [PUT_seg, hseg]; omega)]
          exact ⟨rfl, rfl⟩
        have h3 := DL_set_prev 0 h2 hyl2 (fun w hw => (hv2 w (List.mem_cons_of_mem _ hw)).1) hy8
        exact DL_pv_congr (by rw [COMPRESS_zero, COMPRESS_NIL]) h3
    · obtain ⟨hz8, hzlo, hzhi⟩ := hv1 z (by simp)
      have hzn : z ≠ NIL := by omega
      have hzy : z ≠ y := fun e => hd12 z (by simp) (e ▸ List.mem_cons_self _ _)
      have hzx : z ≠ x := fun e => hx1 (e ▸ (by simp))
      have hgl : (l ++ [z]).getLastD NIL = z := getLastD_snoc _ _ _
      rw [hgl] at hP1 hmid hC1 hS1
      simp only [hgl, hzn, ne_eq, not_false_eq_true, if_true, List.append_assoc,
        List.singleton_append]
      refine ⟨?_, ?_, ?_⟩
      · refine (Same_PUT _ _ _ _ ?_).trans (Same_PUT _ _ _ _ ?_)
        · intro a h1 h2; right; exact ⟨y, by simp, by omega, by omega⟩
        · intro a h1 h2; right; exact ⟨z, by simp, by omega, by omega⟩
      · rw [seg_get_PUT_disj _ _ _ _ (by simp only [PUT_seg, hseg]; omega),
          seg_get_PUT_disj _ _ _ _ (by simp only [PUT_seg, hseg]; omega), hhead]
        cases l <;> rfl
      · have e : l ++ z :: y :: l2 = (l ++ [z]) ++ y :: l2 := by simp
        rw [e, DL_append]
        simp only [List.headD_cons, hgl]
        constructor
        · have hzl : z ∉ l := by
            intro h
            have := List.nodup_append.1 hnd1
            exact this.2.2 h (List.mem_singleton_self _)
          have h1 : DL (PUT s y (COMPRESS z)) NIL (l ++ [z]) x := by
            refine DL_frame (fun w hw => ?_) hdl1
            obtain ⟨hw8, hwlo, hwhi⟩ := hv1 w hw
            have hwy : w ≠ y := fun e => hd12 w hw (e ▸ List.mem_cons_self _ _)
            rw [GET_PUT_disj _ _ _ _ (by omega), GET_PUT_disj _ _ _ _ (by omega)]
            exact ⟨rfl, rfl⟩
          exact DL_set_tail y h1 hzl (fun w hw => (hv1 w (by simp [hw])).1) hz8
        · have h1 : DL (PUT s y (COMPRESS z)) z (y :: l2) NIL :=
            DL_set_prev z hdl2 hyl2 (fun w hw => (hv2 w (List.mem_cons_of_mem _ hw)).1) hy8
          refine DL_frame (fun w hw => ?_) h1
          obtain ⟨hw8, hwlo, hwhi⟩ := hv2 w hw
          have hwz : w ≠ z := fun e => hd12 z (by simp) (e ▸ hw)
          rw [GET_PUT_disj _ (z + 4) _ w (by omega), GET_PUT_disj _ (z + 4) _ (w + 4) (by omega)]
          exact ⟨rfl, rfl⟩

theorem GET_frame {s s1 : State} (p : Nat) (h : ∀ a, p ≤ a → a < p + 4 → s1.mem a = s.mem a) :
    GET s1 p = GET s p := by
  simp only [GET]
  exact load_congr 4 _ _ p h

theorem seg_get_frame {s s1 : State} (i : Nat) (hs : s1.seg = s.seg)
    (h : ∀ a, s.seg + 8 * i ≤ a → a < s.seg + 8 * i + 8 → s1.mem a = s.mem a) :
    seg_get s1 i = seg_get s i := by
  simp only [seg_get, hs]
  exact load_congr 8 _ _ _ h

/-! ## Facts about a tiled heap -/

theorem Tiling.bounds {s : State} {bs : List Blk} (ht : Tiling s bs) {b : Blk} (hb : b ∈ bs) :
    START + 32 ≤ b.bp ∧ b.bp + b.size ≤ s.brk ∧ 16 ≤ b.size ∧ b.size % 8 = 0 ∧ b.bp % 8 = 0 ∧
      s.brk < START + 2 ^ 32 := by
  have h1 := Contig_bounds ht.contig hb
  have h2 := ht.sizes b hb
  have h3 := (Contig_aligned ht.contig ht.sizes (by norm_num [START])).2 b hb
  have h4 := ht.brk_le
  have h5 := ht.cap_lt
  exact ⟨h1.1, h1.2, h2.1, h2.2, h3, by omega⟩

theorem Tiling.vp {s : State} {bs : List Blk} (ht : Tiling s bs) {b : Blk} (hb : b ∈ bs) :
    Vp b.bp := by
  have := ht.bounds hb
  exact ⟨this.2.2.2.2.1, this.1, by omega⟩

theorem Tiling.brk_bounds {s : State} {bs : List Blk} (ht : Tiling s bs) :
    START + 32 ≤ s.brk ∧ s.brk < START + 2 ^ 32 ∧ s.brk % 8 = 0 := by
  have h1 := Contig_le ht.contig
  have h3 := (Contig_aligned ht.contig ht.sizes (by norm_num [START])).1
  have h4 := ht.brk_le
  have h5 := ht.cap_lt
  exact ⟨h1, by omega, h3⟩

theorem Contig_split3 {p q : Nat} {l1 mid l2 : List Blk} (h : Contig p (l1 ++ mid ++ l2) q)
    {P Q : Nat} (hP : Contig p l1 P) (hQ : Contig P mid Q) : Contig Q l2 q := by
  rw [Contig_append] at h
  obtain ⟨r, h1, h2⟩ := h
  rw [Contig_append] at h1
  obtain ⟨r1, h3, h4⟩ := h1
  have e1 := Contig_end h3 hP
  subst e1
  have e2 := Contig_end h4 hQ
  subst e2
  exact h2

theorem nextWord_eq {s : State} {l1 l2 : List Blk} (ht : Tiling s (l1 ++ l2)) {Q : Nat}
    (hQ : Contig (START + 32) l1 Q) : GET s (Q - 4) = nextWord (lastAlloc false l1) l2 := by
  have hc := ht.contig
  rw [Contig_append] at hc
  obtain ⟨r, h1, h2⟩ := hc
  have e := Contig_end h1 hQ
  subst e
  cases l2 with
  | nil =>
    simp only [Contig] at h2
    have := ht.epi
    rw [List.append_nil] at this
    rw [h2]
    exact this
  | cons c l2 =>
    simp only [Contig] at h2
    have := ht.hdr (c, lastAlloc false l1) (by rw [withPrev_append]; simp [withPrev])
    simp only [h2.1] at this
    exact this

theorem Tiling_replace {s s1 : State} {l1 mid mid1 l2 : List Blk} {P Q : Nat}
    (ht : Tiling s (l1 ++ mid ++ l2))
    (hP : Contig (START + 32) l1 P) (hQ : Contig P mid Q)
    (hb : s1.brk = s.brk) (hc : s1.cap = s.cap) (hh : s1.heap_listp = s.heap_listp)
    (hsg : s1.seg = s.seg)
    (hmem : ∀ a, a < P - 4 ∨ Q ≤ a → s1.mem a = s.mem a)
    (hQ1 : Contig P mid1 Q)
    (hsz : ∀ b ∈ mid1, 16 ≤ b.size ∧ b.size % 8 = 0)
    (hhdr : ∀ x ∈ withPrev (lastAlloc false l1) mid1,
      GET s1 (x.1.bp - 4) = hdrWord x.1.size x.1.alloc x.2)
    (hftr : ∀ b ∈ mid1, b.alloc = false → GET s1 (b.bp + b.size - 8) = b.size)
    (hnext : GET s1 (Q - 4) = nextWord (lastAlloc (lastAlloc false l1) mid1) l2) :
    Tiling s1 (l1 ++ mid1 ++ l2) := by
  have hS := START_val
  have hl2 : Contig Q l2 s.brk := Contig_split3 ht.contig hP hQ
  have hP32 : START + 32 ≤ P := Contig_le hP
  have hPQ : P ≤ Q := Contig_le hQ
  have hQb : Q ≤ s.brk := Contig_le hl2
  have hsz1 : ∀ b ∈ l1, 16 ≤ b.size ∧ b.size % 8 = 0 := fun b hb => ht.sizes b (by simp [hb])
  have hsz2 : ∀ b ∈ l2, 16 ≤ b.size ∧ b.size % 8 = 0 := fun b hb => ht.sizes b (by simp [hb])
  have hb1 : ∀ b ∈ l1, b.bp + b.size ≤ P := fun b hb => (Contig_bounds hP hb).2
  have hb1' : ∀ b ∈ l1, START + 32 ≤ b.bp := fun b hb => (Contig_bounds hP hb).1
  have hb2 : ∀ b ∈ l2, Q ≤ b.bp := fun b hb => (Contig_bounds hl2 hb).1
  refine ⟨hsg.trans ht.seg_eq, hh.trans ht.hlp, by rw [hb, hc]; exact ht.brk_le,
    by rw [hc]; exact ht.cap_lt, ?_, ?_, ?_, ?_, ?_, ?_⟩
  · rw [GET_frame _ (fun a h1 h2 => hmem a (by omega))]; exact ht.prol
  · rw [hb, Contig_append]
    exact ⟨Q, Contig_append.2 ⟨P, hP, hQ1⟩, hl2⟩
  · intro b hb
    simp only [List.mem_append] at hb
    rcases hb with (hb | hb) | hb
    · exact hsz1 b hb
    · exact hsz b hb
    · exact hsz2 b hb
  · intro x hx
    rw [withPrev_append, withPrev_append, lastAlloc_append] at hx
    simp only [List.mem_append] at hx
    rcases hx with (hx | hx) | hx
    · have hm := mem_withPrev hx
      have := ht.hdr x (by rw [withPrev_append, withPrev_append]; simp [hx])
      have h1 := hb1 _ hm
      have h2 := hsz1 _ hm
      rw [GET_frame _ (fun a h1 h2 => hmem a (by omega))]; exact this
    · exact hhdr x hx
    · cases l2 with
      | nil => simp [withPrev] at hx
      | cons c l2 =>
        simp only [withPrev, List.mem_cons] at hx
        simp only [Contig] at hl2
        rcases hx with rfl | hx
        · simp only [nextWord] at hnext
          simp only [hl2.1]
          exact hnext
        · have hm := mem_withPrev hx
          have := ht.hdr x (by
            rw [withPrev_append, withPrev_append]; simp [withPrev, hx])
          have h1 := (Contig_bounds hl2.2 hm).1
          have h2 := hsz2 c (List.mem_cons_self _ _)
          rw [GET_frame _ (fun a h1 h2 => hmem a (by omega))]; exact this
  · intro b hb hfree
    simp only [List.mem_append] at hb
    rcases hb with (hb | hb) | hb
    · have := ht.ftr b (by simp [hb]) hfree
      have h1 := hb1 _ hb
      have h2 := hsz1 _ hb
      rw [GET_frame _ (fun a h1 h2 => hmem a (by omega))]; exact this
    · exact hftr b hb hfree
    · have := ht.ftr b (by simp [hb]) hfree
      have h1 := hb2 _ hb
      have h2 := hsz2 _ hb
      rw [GET_frame _ (fun a h1 h2 => hmem a (by omega))]; exact this
  · rw [hb, lastAlloc_append, lastAlloc_append]
    cases l2 with
    | nil =>
      simp only [Contig] at hl2
      simp only [nextWord] at hnext
      simp only [lastAlloc]
      rw [← hl2]; exact hnext
    | cons c l2 =>
      have := ht.epi
      rw [lastAlloc_append, lastAlloc_append] at this
      simp only [lastAlloc] at this ⊢
      simp only [Contig] at hl2
      have h1 := Contig_le hl2.2
      have h2 := hsz2 c (List.mem_cons_self _ _)
      rw [GET_frame _ (fun a h1 h2 => hmem a (by omega))]; exact this

theorem Tiling_frame {s s1 : State} {bs : List Blk} (ht : Tiling s bs)
    (hb : s1.brk = s.brk) (hc : s1.cap = s.cap) (hh : s1.heap_listp = s.heap_listp)
    (hsg : s1.seg = s.seg) (hmem : ∀ a, Sens bs s.brk a → s1.mem a = s.mem a) :
    Tiling s1 bs := by
  refine ⟨hsg.trans ht.seg_eq, hh.trans ht.hlp, by rw [hb, hc]; exact ht.brk_le,
    by rw [hc]; exact ht.cap_lt, ?_, by rw [hb]; exact ht.contig, ht.sizes, ?_, ?_, ?_⟩
  · rw [GET_frame _ (fun a h1 h2 => hmem a (Or.inl ⟨h1, by omega⟩))]; exact ht.prol
  · intro x hx
    have hm := mem_withPrev hx
    have hbd := ht.bounds hm
    rw [GET_frame _ (fun a h1 h2 => hmem a (Or.inr (Or.inr ⟨x.1, hm, Or.inl ⟨h1, by omega⟩⟩)))]
    exact ht.hdr x hx
  · intro b hm hf
    have hbd := ht.bounds hm
    rw [GET_frame _ (fun a h1 h2 =>
      hmem a (Or.inr (Or.inr ⟨b, hm, Or.inr ⟨hf, h1, by omega⟩⟩)))]
    exact ht.ftr b hm hf
  · have := ht.brk_bounds
    rw [hb, GET_frame _ (fun a h1 h2 => hmem a (Or.inr (Or.inl ⟨h1, by omega⟩)))]
    exact ht.epi

theorem not_sens_payload {s : State} {bs : List Blk} (ht : Tiling s bs) {b : Blk} (hb : b ∈ bs)
    {a : Nat} (h1 : b.bp ≤ a)
    (h2 : a < b.bp + b.size - 8 ∨ (b.alloc = true ∧ a < b.bp + b.size - 4)) :
    ¬ Sens bs s.brk a := by
  have hbd := ht.bounds hb
  have hS := START_val
  rintro (h | h | ⟨c, hc, h⟩)
  · omega
  · omega
  · have hcd := ht.bounds hc
    rcases Contig_tri ht.contig hb hc with e | e | e
    · subst e
      rcases h with h | ⟨hf, h⟩
      · omega
      · rcases h2 with h2 | ⟨h2, _⟩
        · omega
        · rw [hf] at h2; cases h2
    · rcases h with h | ⟨hf, h⟩ <;> omega
    · rcases h with h | ⟨hf, h⟩ <;> omega

theorem not_sens_low {bs : List Blk} {brk : Nat} (hbs : ∀ b ∈ bs, START + 32 ≤ b.bp ∧ 16 ≤ b.size)
    (hbrk : START + 32 ≤ brk) {a : Nat} (h : a < START + 16) : ¬ Sens bs brk a := by
  rintro (h1 | h1 | ⟨c, hc, h1⟩)
  · omega
  · omega
  · have := hbs c hc
    rcases h1 with h1 | ⟨_, h1⟩ <;> omega

theorem Tiling.low_not_sens {s : State} {bs : List Blk} (ht : Tiling s bs) {a : Nat}
    (h : a < START + 16) : ¬ Sens bs s.brk a :=
  MM.not_sens_low (fun _ hb => ⟨(ht.bounds hb).1, (ht.bounds hb).2.2.1⟩) ht.brk_bounds.1 h

theorem not_safe_of_free {s : State} {bs : List Blk} (ht : Tiling s bs) {b : Blk} (hb : b ∈ bs)
    (hf : b.alloc = false) {a : Nat} (h1 : b.bp - 4 ≤ a) (h2 : a < b.bp + b.size - 4) :
    ¬ Safe bs a := by
  rintro ⟨c, hc, hca, h3, h4⟩
  have hbd := ht.bounds hb
  have hcd := ht.bounds hc
  rcases Contig_tri ht.contig hb hc with e | e | e
  · subst e; rw [hf] at hca; cases hca
  · omega
  · omega

theorem not_safe_low {s : State} {bs : List Blk} (ht : Tiling s bs) {a : Nat}
    (h : a < START + 32) : ¬ Safe bs a := by
  rintro ⟨c, hc, _, h3, _⟩
  have hcd := ht.bounds hc
  omega

theorem Lists_frame {s s1 : State} {bs bs1 : List Blk} {L : Nat → List Nat}
    {pend pend1 : Nat → Prop} (hl : Lists s bs L pend) (hseg : s.seg = START)
    (hsg : s1.seg = s.seg)
    (hmem : ∀ a, (a < START + 16 ∨ ∃ i, i < 2 ∧ ∃ z ∈ L i, z ≤ a ∧ a < z + 8) →
      s1.mem a = s.mem a)
    (hm : ∀ i, i < 2 → ∀ x,
      (¬ pend x ∧ ∃ b ∈ bs, b.bp = x ∧ b.alloc = false ∧ getPtrBySize b.size = i) ↔
      (¬ pend1 x ∧ ∃ b ∈ bs1, b.bp = x ∧ b.alloc = false ∧ getPtrBySize b.size = i)) :
    Lists s1 bs1 L pend1 := by
  refine ⟨?_, ?_, hl.nodup, ?_⟩
  · intro i hi
    rw [seg_get_frame i hsg (fun a h1 h2 => hmem a (Or.inl (by rw [hseg] at h2; omega)))]
    exact hl.head i hi
  · intro i hi
    refine DL_frame (fun z hz => ?_) (hl.links i hi)
    exact ⟨GET_frame _ (fun a h1 h2 => hmem a (Or.inr ⟨i, hi, z, hz, h1, by omega⟩)),
      GET_frame _ (fun a h1 h2 => hmem a (Or.inr ⟨i, hi, z, hz, by omega, by omega⟩))⟩
  · intro i hi x
    rw [hl.mem i hi x, hm i hi x]

theorem getPtrBySize_lt (n : Nat) : getPtrBySize n < 2 := by
  unfold getPtrBySize; split <;> omega

theorem Tiling.hdr_of {s : State} {bs : List Blk} (ht : Tiling s bs) {b : Blk} (hb : b ∈ bs) :
    ∃ pb, GET s (b.bp - 4) = hdrWord b.size b.alloc pb := by
  obtain ⟨pb, h⟩ := mem_withPrev_of_mem (q := false) hb
  exact ⟨pb, ht.hdr _ h⟩

theorem Tiling.size_of {s : State} {bs : List Blk} (ht : Tiling s bs) {b : Blk} (hb : b ∈ bs) :
    GET_SIZE s (HDRP b.bp) = b.size := by
  obtain ⟨pb, h⟩ := ht.hdr_of hb
  exact GET_SIZE_hdr h (ht.bounds hb).2.2.2.1

theorem Tiling.alloc_of {s : State} {bs : List Blk} (ht : Tiling s bs) {b : Blk} (hb : b ∈ bs) :
    GET_ALLOC s (HDRP b.bp) = if b.alloc then 1 else 0 := by
  obtain ⟨pb, h⟩ := ht.hdr_of hb
  exact GET_ALLOC_hdr h (ht.bounds hb).2.2.2.1

theorem Lists.valid {s : State} {bs : List Blk} {L : Nat → List Nat} {pend : Nat → Prop}
    (hl : Lists s bs L pend) (ht : Tiling s bs) {i : Nat} (hi : i < 2) {z : Nat}
    (hz : z ∈ L i) : Vp z := by
  obtain ⟨_, b, hb, rfl, _⟩ := (hl.mem i hi z).1 hz
  exact ht.vp hb

theorem Lists.blk {s : State} {bs : List Blk} {L : Nat → List Nat} {pend : Nat → Prop}
    (hl : Lists s bs L pend) {i : Nat} (hi : i < 2) {z : Nat} (hz : z ∈ L i) :
    ∃ b ∈ bs, b.bp = z ∧ b.alloc = false ∧ getPtrBySize b.size = i :=
  ((hl.mem i hi z).1 hz).2

theorem Lists.disjoint {s : State} {bs : List Blk} {L : Nat → List Nat} {pend : Nat → Prop}
    (hl : Lists s bs L pend) (ht : Tiling s bs) {i j : Nat} (hi : i < 2) (hj : j < 2)
    (hij : i ≠ j) {z w : Nat} (hz : z ∈ L i) (hw : w ∈ L j) : z ≠ w := by
  obtain ⟨b, hb, rfl, _, hbc⟩ := hl.blk hi hz
  obtain ⟨c, hc, rfl, _, hcc⟩ := hl.blk hj hw
  intro e
  have := Contig_unique ht.contig ht.sizes hb hc e
  subst this
  exact hij (hbc.symm.trans hcc)

theorem Lists_extract {s : State} {bs : List Blk} {L : Nat → List Nat} {pend : Nat → Prop}
    (ht : Tiling s bs) (hl : Lists s bs L pend) {x : Blk} (hx : x ∈ bs)
    (hfree : x.alloc = false) (hnp : ¬ pend x.bp) :
    Tiling (extract s x.bp) bs ∧
      Lists (extract s x.bp) bs
        (fun i => if i = getPtrBySize x.size then (L i).erase x.bp else L i)
        (fun a => pend a ∨ a = x.bp) ∧
      Keeps s (extract s x.bp) bs := by
  have hS := START_val
  have hr := getPtrBySize_lt x.size
  have hxL : x.bp ∈ L (getPtrBySize x.size) := (hl.mem _ hr _).2 ⟨hnp, x, hx, rfl, hfree, rfl⟩
  obtain ⟨l1, l2, hsplit⟩ := List.append_of_mem hxL
  have hnd := hl.nodup _ hr
  rw [hsplit] at hnd
  have hv : ∀ z ∈ l1 ++ x.bp :: l2, Vp z := fun z hz => hl.valid ht hr (hsplit ▸ hz)
  have hx1 : x.bp ∉ l1 := by
    intro h
    have := (List.nodup_append.1 hnd).2.2
    exact this h (List.mem_cons_self _ _)
  have herase : (L (getPtrBySize x.size)).erase x.bp = l1 ++ l2 := by
    rw [hsplit, List.erase_append_right _ hx1, List.erase_cons_head]
  have hsub0 : ∀ z, z ∈ l1 ++ l2 → z ∈ l1 ++ x.bp :: l2 := fun z hz =>
    List.mem_append.2 ((List.mem_append.1 hz).imp id (List.mem_cons_of_mem _))
  have hsub : ∀ z, z ∈ l1 ++ l2 → z ∈ L (getPtrBySize x.size) := by
    intro z hz
    rw [hsplit]
    exact hsub0 z hz
  have hspec := extract_spec ht.seg_eq hr (by rw [← hsplit]; exact hl.head _ hr)
    (by rw [← hsplit]; exact hl.links _ hr) hnd hv (by rw [ht.size_of hx])
  obtain ⟨hsame, hhead, hdl⟩ := hspec
  generalize extract s x.bp = s1 at hsame hhead hdl ⊢
  have hR : ∀ a, ((START + 8 * getPtrBySize x.size ≤ a ∧ a < START + 8 * getPtrBySize x.size + 8) ∨
      ∃ z ∈ l1 ++ l2, z ≤ a ∧ a < z + 8) →
      ¬ Sens bs s.brk a ∧ ¬ Safe bs a := by
    rintro a (h | ⟨z, hz, h1, h2⟩)
    · exact ⟨ht.low_not_sens (by omega), not_safe_low ht (by omega)⟩
    · obtain ⟨b, hb, rfl, hbf, _⟩ := hl.blk hr (hsub z hz)
      have hbd := ht.bounds hb
      exact ⟨not_sens_payload ht hb h1 (Or.inl (by omega)),
        not_safe_of_free ht hb hbf (by omega) (by omega)⟩
  obtain ⟨e1, e2, e3, e4, e5⟩ := hsame
  refine ⟨Tiling_frame ht e1 e2 e3 e4 (fun a ha => e5 a (fun hr => (hR a hr).1 ha)), ?_,
    ⟨e1, e2, e3, e4, fun a ha => e5 a (fun hr => (hR a hr).2 ha)⟩⟩
  refine ⟨?_, ?_, ?_, ?_⟩
  · intro i hi
    by_cases hir : i = getPtrBySize x.size
    · subst hir
      simp only [if_true, herase]
      exact hhead
    · simp only [hir, if_false]
      rw [seg_get_frame i e4 (fun a h1 h2 => e5 a ?_)]
      · exact hl.head i hi
      · rw [ht.seg_eq] at h1 h2
        rintro (h | ⟨z, hz, h3, h4⟩)
        · omega
        · have := (hv z (hsub0 z hz)).2.1
          omega
  · intro i hi
    by_cases hir : i = getPtrBySize x.size
    · subst hir
      simp only [if_true, herase]
      exact hdl
    · simp only [hir, if_false]
      refine DL_frame (fun w hw => ?_) (hl.links i hi)
      have hwv := hl.valid ht hi hw
      have key : ∀ a, w ≤ a → a < w + 8 → s1.mem a = s.mem a := by
        intro a h1 h2
        apply e5
        rintro (h | ⟨z, hz, h3, h4⟩)
        · have := hwv.2.1; omega
        · have hzv := hl.valid ht hr (hsub z hz)
          have hne := hl.disjoint ht hi hr hir hw (hsub z hz)
          have := hwv.1
          have := hzv.1
          omega
      exact ⟨GET_frame _ (fun a h1 h2 => key a h1 (by omega)),
        GET_frame _ (fun a h1 h2 => key a (by omega) (by omega))⟩
  · intro i hi
    by_cases hir : i = getPtrBySize x.size
    · subst hir
      simp only [if_true]
      exact (hl.nodup _ hi).erase _
    · simp only [hir, if_false]
      exact hl.nodup i hi
  · intro i hi z
    by_cases hir : i = getPtrBySize x.size
    · subst hir
      simp only [if_true]
      rw [(hl.nodup _ hi).mem_erase_iff, hl.mem _ hi z]
      constructor
      · rintro ⟨h1, h2, h3⟩
        exact ⟨fun h => h.elim h2 h1, h3⟩
      · rintro ⟨h1, h3⟩
        exact ⟨fun h => h1 (Or.inr h), fun h => h1 (Or.inl h), h3⟩
    · simp only [hir, if_false]
      rw [hl.mem i hi z]
      constructor
      · rintro ⟨h1, b, hb, h2, h3, h4⟩
        refine ⟨?_, b, hb, h2, h3, h4⟩
        rintro (h | h)
        · exact h1 h
        · have := Contig_unique ht.contig ht.sizes hb hx (h2.trans h)
          subst this
          exact hir h4.symm
      · rintro ⟨h1, h2⟩
        exact ⟨fun h => h1 (Or.inl h), h2⟩

theorem Lists.agree {s : State} {bs : List Blk} {L L1 : Nat → List Nat} {pend : Nat → Prop}
    (hl : Lists s bs L pend) (h : ∀ i, i < 2 → L1 i = L i) : Lists s bs L1 pend :=
  ⟨fun i hi => by rw [h i hi]; exact hl.head i hi,
    fun i hi => by rw [h i hi]; exact hl.links i hi,
    fun i hi => by rw [h i hi]; exact hl.nodup i hi,
    fun i hi x => by rw [h i hi]; exact hl.mem i hi x⟩

/-- Taking the free block `x` out of its list leaves the lists `eraseL L x.bp`. -/
theorem Lists_extract_lists {s : State} {bs : List Blk} {L : Nat → List Nat}
    {pend : Nat → Prop} (ht : Tiling s bs) (hl : Lists s bs L pend) {x : Blk} (hx : x ∈ bs)
    (hfree : x.alloc = false) (hnp : ¬ pend x.bp) :
    Tiling (extract s x.bp) bs ∧
      Lists (extract s x.bp) bs (eraseL L x.bp) (fun a => pend a ∨ a = x.bp) ∧
      Keeps s (extract s x.bp) bs := by
  obtain ⟨h1, h2, h3⟩ := Lists_extract ht hl hx hfree hnp
  refine ⟨h1, h2.agree (fun i hi => ?_), h3⟩
  by_cases hir : i = getPtrBySize x.size
  · simp only [eraseL, hir, if_true]
  · simp only [eraseL, hir, if_false]
    apply List.erase_of_not_mem
    intro hm
    obtain ⟨b, hb, hbx, _, hbc⟩ := hl.blk hi hm
    have := Contig_unique ht.contig ht.sizes hb hx hbx
    subst this
    exact hir hbc.symm

theorem Lists_push {s : State} {bs : List Blk} {L : Nat → List Nat} {pend E : Nat → Prop}
    (ht : Tiling s bs) (hl : Lists s bs L pend) {x : Blk} (hx : x ∈ bs)
    (hfree : x.alloc = false) (hp : pend x.bp)
    (hp1 : ∀ a, E a ↔ (pend a ∧ a ≠ x.bp)) :
    Tiling (push_front s x.bp (getPtrBySize x.size)) bs ∧
      Lists (push_front s x.bp (getPtrBySize x.size)) bs
        (fun i => if i = getPtrBySize x.size then x.bp :: L i else L i) E ∧
      Keeps s (push_front s x.bp (getPtrBySize x.size)) bs := by
  have hS := START_val
  have hr := getPtrBySize_lt x.size
  have hxL : ∀ i, i < 2 → x.bp ∉ L i := fun i hi h => ((hl.mem i hi _).1 h).1 hp
  have hxv := ht.vp hx
  have hxb := ht.bounds hx
  obtain ⟨hsame, hhead, hdl⟩ := push_front_spec ht.seg_eq hr (hl.head _ hr) (hl.links _ hr)
    (hxL _ hr) (hl.nodup _ hr) hxv (fun z hz => hl.valid ht hr hz)
  generalize push_front s x.bp (getPtrBySize x.size) = s1 at hsame hhead hdl ⊢
  have hR : ∀ a, ((START + 8 * getPtrBySize x.size ≤ a ∧ a < START + 8 * getPtrBySize x.size + 8) ∨
      (x.bp ≤ a ∧ a < x.bp + 8) ∨ ∃ z ∈ L (getPtrBySize x.size), z ≤ a ∧ a < z + 4) →
      ¬ Sens bs s.brk a ∧ ¬ Safe bs a := by
    rintro a (h | h | ⟨z, hz, h1, h2⟩)
    · exact ⟨ht.low_not_sens (by omega), not_safe_low ht (by omega)⟩
    · exact ⟨not_sens_payload ht hx h.1 (Or.inl (by omega)),
        not_safe_of_free ht hx hfree (by omega) (by omega)⟩
    · obtain ⟨b, hb, rfl, hbf, _⟩ := hl.blk hr hz
      have hbd := ht.bounds hb
      exact ⟨not_sens_payload ht hb h1 (Or.inl (by omega)),
        not_safe_of_free ht hb hbf (by omega) (by omega)⟩
  obtain ⟨e1, e2, e3, e4, e5⟩ := hsame
  refine ⟨Tiling_frame ht e1 e2 e3 e4 (fun a ha => e5 a (fun hr => (hR a hr).1 ha)), ?_,
    ⟨e1, e2, e3, e4, fun a ha => e5 a (fun hr => (hR a hr).2 ha)⟩⟩
  refine ⟨?_, ?_, ?_, ?_⟩
  · intro i hi
    by_cases hir : i = getPtrBySize x.size
    · subst hir
      simp only [if_true, List.headD_cons]
      exact hhead
    · simp only [hir, if_false]
      rw [seg_get_frame i e4 (fun a h1 h2 => e5 a ?_)]
      · exact hl.head i hi
      · rw [ht.seg_eq] at h1 h2
        rintro (h | h | ⟨z, hz, h3, h4⟩)
        · omega
        · omega
        · have := (hl.valid ht hr hz).2.1
          omega
  · intro i hi
    by_cases hir : i = getPtrBySize x.size
    · subst hir
      simp only [if_true]
      exact hdl
    · simp only [hir, if_false]
      refine DL_frame (fun w hw => ?_) (hl.links i hi)
      have hwv := hl.valid ht hi hw
      have hwx : w ≠ x.bp := fun e => hxL i hi (e ▸ hw)
      have key : ∀ a, w ≤ a → a < w + 8 → s1.mem a = s.mem a := by
        intro a h1 h2
        apply e5
        rintro (h | h | ⟨z, hz, h3, h4⟩)
        · have := hwv.2.1; omega
        · have := hwv.1
          have := hxv.1
          omega
        · have hzv := hl.valid ht hr hz
          have hne := hl.disjoint ht hi hr hir hw hz
          have := hwv.1
          have := hzv.1
          omega
      exact ⟨GET_frame _ (fun a h1 h2 => key a h1 (by omega)),
        GET_frame _ (fun a h1 h2 => key a (by omega) (by omega))⟩
  · intro i hi
    by_cases hir : i = getPtrBySize x.size
    · subst hir
      simp only [if_true]
      exact List.nodup_cons.2 ⟨hxL _ hi, hl.nodup _ hi⟩
    · simp only [hir, if_false]
      exact hl.nodup i hi
  · intro i hi z
    by_cases hir : i = getPtrBySize x.size
    · subst hir
      simp only [if_true, List.mem_cons]
      rw [hl.mem _ hi z, hp1]
      constructor
      · rintro (h | ⟨h1, h2⟩)
        · subst h
          exact ⟨fun h => h.2 rfl, x, hx, rfl, hfree, rfl⟩
        · exact ⟨fun h => h1 h.1, h2⟩
      · rintro ⟨h1, h2⟩
        by_cases hzx : z = x.bp
        · exact Or.inl hzx
        · exact Or.inr ⟨fun h => h1 ⟨h, hzx⟩, h2⟩
    · simp only [hir, if_false]
      rw [hl.mem i hi z, hp1]
      constructor
      · rintro ⟨h1, h2⟩
        exact ⟨fun h => h1 h.1, h2⟩
      · rintro ⟨h1, b, hb, h2, h3, h4⟩
        refine ⟨fun h => h1 ⟨h, ?_⟩, b, hb, h2, h3, h4⟩
        intro hzx
        have := Contig_unique ht.contig ht.sizes hb hx (h2.trans hzx)
        subst this
        exact hir h4.symm

/-! ## No adjacent free blocks: list facts -/

theorem NAFp_cons {pa : Bool} {c : Blk} {l : List Blk} :
    NAFp pa (c :: l) ↔ (c.alloc = true ∨ pa = true) ∧ NAFp c.alloc l := by
  unfold NAFp
  simp only [withPrev, List.mem_cons, forall_eq_or_imp]

theorem NAFp_nil (pa : Bool) : NAFp pa [] := by
  intro x hx; simp [withPrev] at hx

theorem NAFp_append {pa : Bool} {l1 l2 : List Blk} :
    NAFp pa (l1 ++ l2) ↔ NAFp pa l1 ∧ NAFp (lastAlloc pa l1) l2 := by
  unfold NAFp
  rw [withPrev_append]
  simp only [List.mem_append]
  constructor
  · intro h
    exact ⟨fun x hx => h x (Or.inl hx), fun x hx => h x (Or.inr hx)⟩
  · rintro ⟨h1, h2⟩ x (hx | hx)
    · exact h1 x hx
    · exact h2 x hx

theorem NAFp_true_of {pa : Bool} {l : List Blk} (h : NAFp pa l) : NAFp true l := by
  cases l with
  | nil => exact NAFp_nil _
  | cons c l =>
    rw [NAFp_cons] at h ⊢
    exact ⟨Or.inr rfl, h.2⟩

theorem lastAlloc_snoc (pa : Bool) (l : List Blk) (c : Blk) :
    lastAlloc pa (l ++ [c]) = c.alloc := by
  rw [lastAlloc_append]; rfl

theorem lastAlloc_ne_nil {pa pb : Bool} {l : List Blk} (h : l ≠ []) :
    lastAlloc pa l = lastAlloc pb l := by
  cases l with
  | nil => exact absurd rfl h
  | cons c l => rfl

/-! ## Rewriting the blocks of a free stretch into one block -/

theorem merge_write {s u : State} {k1 mid k2 : List Blk} {L : Nat → List Nat}
    {pend : Nat → Prop} {P Q : Nat}
    (ht : Tiling s (k1 ++ mid ++ k2)) (hl : Lists s (k1 ++ mid ++ k2) L pend)
    (hP : Contig (START + 32) k1 P) (hQ : Contig P mid Q)
    (hne : mid ≠ []) (hfree : ∀ c ∈ mid, c.alloc = false)
    (hpend : ∀ x, pend x ↔ ∃ c ∈ mid, c.bp = x)
    (hb : u.brk = s.brk) (hc : u.cap = s.cap) (hh : u.heap_listp = s.heap_listp)
    (hsg : u.seg = s.seg)
    (hmem : ∀ a, (a < P - 4 ∨ (P ≤ a ∧ a < Q - 8) ∨ Q - 4 ≤ a) → u.mem a = s.mem a)
    (hhd : GET u (P - 4) = hdrWord (Q - P) false (lastAlloc false k1))
    (hft : GET u (Q - 8) = Q - P) :
    Tiling u (k1 ++ [⟨P, Q - P, false⟩] ++ k2) ∧
      Lists u (k1 ++ [⟨P, Q - P, false⟩] ++ k2) L (fun a => a = P) ∧
      Keeps s u (k1 ++ mid ++ k2) := by
  have hS := START_val
  have hk2 : Contig Q k2 s.brk := Contig_split3 ht.contig hP hQ
  have hP32 : START + 32 ≤ P := Contig_le hP
  have hmidb : ∀ c ∈ mid, P ≤ c.bp ∧ c.bp + c.size ≤ Q ∧ 16 ≤ c.size ∧ c.size % 8 = 0 :=
    fun c hc => ⟨(Contig_bounds hQ hc).1, (Contig_bounds hQ hc).2,
      ht.sizes c (by simp [hc])⟩
  have hk1b : ∀ c ∈ k1, c.bp + c.size ≤ P ∧ 16 ≤ c.size :=
    fun c hc => ⟨(Contig_bounds hP hc).2, (ht.sizes c (by simp [hc])).1⟩
  have hk2b : ∀ c ∈ k2, Q ≤ c.bp :=
    fun c hc => (Contig_bounds hk2 hc).1
  have hPQ : P + 16 ≤ Q ∧ (Q - P) % 8 = 0 := by
    cases mid with
    | nil => exact absurd rfl hne
    | cons c l =>
      simp only [Contig] at hQ
      have h1 := hmidb c (List.mem_cons_self _ _)
      have h2 := Contig_le hQ.2
      have h3 := (Contig_aligned hP (fun b hb => ht.sizes b (by simp [hb]))
        (by norm_num [START])).1
      have h4 := (Contig_aligned hk2 (fun b hb => ht.sizes b (by simp [hb])) (by
        have := (Contig_aligned ht.contig ht.sizes (by norm_num [START]))
        have h5 := Contig_aligned (Contig_append.2 ⟨P, hP, (show Contig P (c :: l) Q from hQ)⟩)
          (fun b hb => ht.sizes b (by
            simp only [List.mem_append] at hb ⊢; exact Or.inl hb)) (by norm_num [START])
        exact h5.1)).1
      have h5 := Contig_aligned (Contig_append.2 ⟨P, hP, (show Contig P (c :: l) Q from hQ)⟩)
          (fun b hb => ht.sizes b (by
            simp only [List.mem_append] at hb ⊢; exact Or.inl hb)) (by norm_num [START])
      have h6 := h5.1
      omega
  have hlast : lastAlloc (lastAlloc false k1) mid = false := by
    rcases nil_or_snoc mid with h | ⟨l, z, h⟩
    · exact absurd h hne
    · rw [h, lastAlloc_snoc]
      exact hfree z (by rw [h]; simp)
  have hnext : GET u (Q - 4) = nextWord false k2 := by
    have h0 : Tiling s ((k1 ++ mid) ++ k2) := ht
    have := nextWord_eq h0 (Contig_append.2 ⟨P, hP, hQ⟩)
    rw [lastAlloc_append, hlast] at this
    rw [GET_frame _ (fun a h1 h2 => hmem a (by omega))]
    exact this
  have hT : Tiling u (k1 ++ [⟨P, Q - P, false⟩] ++ k2) := by
    refine Tiling_replace ht hP hQ hb hc hh hsg (fun a ha => hmem a (by omega)) ?_ ?_ ?_ ?_ ?_
    · simp only [Contig]; exact ⟨trivial, by omega⟩
    · intro c hc
      rw [List.mem_singleton] at hc
      subst hc
      exact ⟨by simp only; omega, hPQ.2⟩
    · intro x hx
      simp only [withPrev, List.mem_singleton] at hx
      subst hx
      exact hhd
    · intro c hc _
      rw [List.mem_singleton] at hc
      subst hc
      simp only
      rw [show P + (Q - P) - 8 = Q - 8 by omega]
      exact hft
    · simpa [lastAlloc] using hnext
  refine ⟨hT, ?_, hb, hc, hh, hsg, ?_⟩
  · refine Lists_frame hl ht.seg_eq hsg ?_ ?_
    · rintro a (h | ⟨i, hi, z, hz, h1, h2⟩)
      · exact hmem a (Or.inl (by omega))
      · obtain ⟨hnp, c, hc, rfl, hcf, _⟩ := (hl.mem i hi z).1 hz
        simp only [List.mem_append] at hc
        rcases hc with (hc | hc) | hc
        · have := hk1b c hc
          exact hmem a (Or.inl (by omega))
        · exact absurd ((hpend c.bp).2 ⟨c, hc, rfl⟩) hnp
        · have := hk2b c hc
          exact hmem a (Or.inr (Or.inr (by omega)))
    · intro i hi x
      constructor
      · rintro ⟨hnp, c, hc, rfl, hcf, hcc⟩
        simp only [List.mem_append] at hc
        rcases hc with (hc | hc) | hc
        · have := hk1b c hc
          exact ⟨by omega, c, by simp [hc], rfl, hcf, hcc⟩
        · exact absurd ((hpend c.bp).2 ⟨c, hc, rfl⟩) hnp
        · have := hk2b c hc
          exact ⟨by omega, c, by simp [hc], rfl, hcf, hcc⟩
      · rintro ⟨hnp, c, hc, rfl, hcf, hcc⟩
        simp only [List.mem_append, List.mem_singleton] at hc
        rcases hc with (hc | hc) | hc
        · refine ⟨?_, c, by simp [hc], rfl, hcf, hcc⟩
          rw [hpend]
          rintro ⟨d, hd, hdc⟩
          have := hk1b c hc
          have := hmidb d hd
          omega
        · subst hc
          exact absurd rfl hnp
        · refine ⟨?_, c, by simp [hc], rfl, hcf, hcc⟩
          rw [hpend]
          rintro ⟨d, hd, hdc⟩
          have := hk2b c hc
          have := hmidb d hd
          omega
  · rintro a ⟨c, hc, hca, h1, h2⟩
    have hcs := ht.sizes c hc
    simp only [List.mem_append] at hc
    rcases hc with (hc | hc) | hc
    · have := hk1b c hc
      exact hmem a (Or.inl (by omega))
    · rw [hfree c hc] at hca; cases hca
    · have := hk2b c hc
      exact hmem a (Or.inr (Or.inr (by omega)))

theorem PUT_mem_other (s : State) (p v a : Nat) (h : a < p ∨ p + 4 ≤ a) :
    (PUT s p v).mem a = s.mem a := by
  show store 4 s.mem p v a = s.mem a
  exact store_other 4 s.mem p v a h

theorem nine_hdr : (9 : Nat) = hdrWord 8 true false := rfl

theorem Tiling.first {s : State} {bs : List Blk} (ht : Tiling s bs) :
    NEXT_BLKP s s.heap_listp = START + 32 := by
  unfold NEXT_BLKP WSIZE
  rw [ht.hlp, show START + 24 - 4 = START + 20 by omega]
  have h := ht.prol
  rw [nine_hdr] at h
  rw [GET_SIZE_hdr h (by norm_num)]

theorem Tiling.mid {s : State} {l1 l2 : List Blk} {b : Blk} (ht : Tiling s (l1 ++ b :: l2)) :
    ∃ P, Contig (START + 32) l1 P ∧ b.bp = P ∧ Contig (P + b.size) l2 s.brk ∧
      GET s (P - 4) = hdrWord b.size b.alloc (lastAlloc false l1) ∧
      GET s (P + b.size - 4) = nextWord b.alloc l2 := by
  have hc := ht.contig
  rw [Contig_append] at hc
  obtain ⟨P, h1, h2⟩ := hc
  simp only [Contig] at h2
  refine ⟨P, h1, h2.1, h2.2, ?_, ?_⟩
  · have := ht.hdr (b, lastAlloc false l1) (by rw [withPrev_append]; simp [withPrev])
    simp only [h2.1] at this
    exact this
  · have h0 : Tiling s ((l1 ++ [b]) ++ l2) := by simpa using ht
    have := nextWord_eq h0 (Contig_append.2 ⟨P, h1, by simp only [Contig]; exact ⟨h2.1, rfl⟩⟩)
    rw [lastAlloc_snoc] at this
    exact this

theorem nextWord_size {pa : Bool} {l : List Blk} {s : State} {p : Nat}
    (h : GET s p = nextWord pa l) (hs : ∀ c ∈ l, c.size % 8 = 0) :
    GET_ALLOC s p = if headAlloc l then 1 else 0 := by
  cases l with
  | nil => exact GET_ALLOC_hdr h (by norm_num)
  | cons c l => exact GET_ALLOC_hdr h (hs c (List.mem_cons_self _ _))

theorem lastAlloc_true_eq {l1 : List Blk} {P : Nat} (hP : Contig (START + 32) l1 P)
    (hs : ∀ c ∈ l1, 16 ≤ c.size) :
    (if START + 32 = P then 1 else if lastAlloc false l1 then 1 else 0) =
      if lastAlloc true l1 then 1 else 0 := by
  cases l1 with
  | nil => simp only [Contig] at hP; simp [hP, lastAlloc]
  | cons c l =>
    simp only [Contig] at hP
    have := Contig_le hP.2
    have := hs c (List.mem_cons_self _ _)
    have hne : START + 32 ≠ P := by omega
    simp only [hne, if_false, lastAlloc]

/-- The values `coalesce` reads first. -/
theorem coalesce_reads {s : State} {l1 l2 : List Blk} {b : Blk}
    (ht : Tiling s (l1 ++ b :: l2)) :
    (if NEXT_BLKP s s.heap_listp = b.bp then 1 else GET_PREV_ALLOC s (HDRP b.bp))
        = (if lastAlloc true l1 then 1 else 0) ∧
      GET_ALLOC s (HDRP (NEXT_BLKP s b.bp)) = (if headAlloc l2 then 1 else 0) ∧
      GET_SIZE s (HDRP b.bp) = b.size := by
  obtain ⟨P, hP, hbP, hQ, hh, hn⟩ := ht.mid
  have hb : b ∈ l1 ++ b :: l2 := by simp
  have hbd := ht.bounds hb
  have hsz := ht.size_of hb
  refine ⟨?_, ?_, hsz⟩
  · rw [ht.first, HDRP_eq, hbP, GET_PREV_ALLOC_hdr hh hbd.2.2.2.1]
    exact lastAlloc_true_eq hP (fun c hc => (ht.sizes c (by simp [hc])).1)
  · unfold NEXT_BLKP WSIZE
    rw [← HDRP_eq, hsz, HDRP_eq, hbP]
    exact nextWord_size hn (fun c hc => (ht.sizes c (by simp [hc])).2)

/-- Putting the coalesced block at the front of its bucket: the lists become
`pushL L (getPtrBySize (Q - P)) P`. -/
theorem coalesce_finish_lists {s1 : State} {k1 k2 : List Blk} {L : Nat → List Nat} {P Q : Nat}
    (hT : Tiling s1 (k1 ++ [⟨P, Q - P, false⟩] ++ k2))
    (hL : Lists s1 (k1 ++ [⟨P, Q - P, false⟩] ++ k2) L (fun a => a = P))
    (hnaf : NAF (k1 ++ [⟨P, Q - P, false⟩] ++ k2)) :
    Inv (push_front s1 P (getPtrBySize (Q - P))) (k1 ++ ⟨P, Q - P, false⟩ :: k2)
        (pushL L (getPtrBySize (Q - P)) P) ∧
      Keeps s1 (push_front s1 P (getPtrBySize (Q - P))) (k1 ++ [⟨P, Q - P, false⟩] ++ k2) := by
  have hm : (⟨P, Q - P, false⟩ : Blk) ∈ k1 ++ [⟨P, Q - P, false⟩] ++ k2 := by simp
  obtain ⟨h1, h2, h3⟩ := Lists_push (E := fun _ => False) hT hL hm rfl rfl
    (fun a => by simp)
  have e : k1 ++ ⟨P, Q - P, false⟩ :: k2 = k1 ++ [⟨P, Q - P, false⟩] ++ k2 := by simp
  rw [e]
  exact ⟨⟨h1, h2, hnaf⟩, h3⟩

theorem coalesce_finish {s1 : State} {k1 k2 : List Blk} {L : Nat → List Nat} {P Q : Nat}
    (hT : Tiling s1 (k1 ++ [⟨P, Q - P, false⟩] ++ k2))
    (hL : Lists s1 (k1 ++ [⟨P, Q - P, false⟩] ++ k2) L (fun a => a = P))
    (hnaf : NAF (k1 ++ [⟨P, Q - P, false⟩] ++ k2)) :
    ∃ L1, Inv (push_front s1 P (getPtrBySize (Q - P))) (k1 ++ ⟨P, Q - P, false⟩ :: k2) L1 ∧
      Keeps s1 (push_front s1 P (getPtrBySize (Q - P))) (k1 ++ [⟨P, Q - P, false⟩] ++ k2) :=
  ⟨_, coalesce_finish_lists hT hL hnaf⟩

theorem Keeps.andThen {s s1 s2 : State} {bs : List Blk} (h1 : Keeps s s1 bs) (h2 : Keeps s1 s2 bs) :
    Keeps s s2 bs := by
  obtain ⟨a1, b1, c1, d1, e1⟩ := h1
  obtain ⟨a2, b2, c2, d2, e2⟩ := h2
  exact ⟨a2.trans a1, b2.trans b1, c2.trans c1, d2.trans d1,
    fun a ha => (e2 a ha).trans (e1 a ha)⟩

theorem Keeps.same (s : State) (bs : List Blk) : Keeps s s bs :=
  ⟨rfl, rfl, rfl, rfl, fun _ _ => rfl⟩

theorem Keeps.congr {s s1 : State} {bs bs1 : List Blk} (h : Keeps s s1 bs)
    (hs : ∀ a, Safe bs1 a → Safe bs a) : Keeps s s1 bs1 := by
  obtain ⟨a1, b1, c1, d1, e1⟩ := h
  exact ⟨a1, b1, c1, d1, fun a ha => e1 a (hs a ha)⟩

theorem Safe_mid {k1 mid mid1 k2 : List Blk} (hf : ∀ c ∈ mid, c.alloc = false) {a : Nat}
    (h : Safe (k1 ++ mid ++ k2) a) : Safe (k1 ++ mid1 ++ k2) a := by
  obtain ⟨c, hc, hca, h1, h2⟩ := h
  simp only [List.mem_append] at hc
  rcases hc with (hc | hc) | hc
  · exact ⟨c, by simp [hc], hca, h1, h2⟩
  · rw [hf c hc] at hca; cases hca
  · exact ⟨c, by simp [hc], hca, h1, h2⟩

theorem NAFp_of_headAlloc {pa pb : Bool} {l : List Blk} (hh : headAlloc l = true)
    (h : NAFp pa l) : NAFp pb l := by
  cases l with
  | nil => exact NAFp_nil _
  | cons c l =>
    rw [NAFp_cons] at h ⊢
    exact ⟨Or.inl hh, h.2⟩

theorem naf_merged {k1 k2 : List Blk} (m : Blk) (h1 : NAF k1) (hp : lastAlloc true k1 = true)
    (h2 : NAFp false k2) (hm : m.alloc = false) : NAF (k1 ++ [m] ++ k2) := by
  unfold NAF at h1 ⊢
  rw [NAFp_append, NAFp_append, lastAlloc_append]
  refine ⟨⟨h1, ?_⟩, ?_⟩
  · rw [NAFp_cons]; exact ⟨Or.inr hp, NAFp_nil _⟩
  · simpa [lastAlloc, hm] using h2

/-- Header, footer, header: the writes of `coalesce` (cases 2 and 4), `extend_heap`, `mm_free`. -/
theorem formA {u : State} {P Q : Nat} (v1 v2 w : Nat) (hPQ : P + 16 ≤ Q) (hP : 4 ≤ P)
    (hv2 : v2 < 2 ^ 32) (hw : w < 2 ^ 32) :
    (∀ a, (a < P - 4 ∨ (P ≤ a ∧ a < Q - 8) ∨ Q - 4 ≤ a) →
      (PUT (PUT (PUT u (P - 4) v1) (Q - 8) v2) (P - 4) w).mem a = u.mem a) ∧
    GET (PUT (PUT (PUT u (P - 4) v1) (Q - 8) v2) (P - 4) w) (P - 4) = w ∧
    GET (PUT (PUT (PUT u (P - 4) v1) (Q - 8) v2) (P - 4) w) (Q - 8) = v2 := by
  refine ⟨fun a ha => ?_, GET_PUT_eq _ _ _ hw, ?_⟩
  · rw [PUT_mem_other _ _ _ _ (by omega), PUT_mem_other _ _ _ _ (by omega),
      PUT_mem_other _ _ _ _ (by omega)]
  · rw [GET_PUT_disj _ _ _ _ (by omega), GET_PUT_eq _ _ _ hv2]

/-- Footer, header, header: the writes of `coalesce` (case 3). -/
theorem formB {u : State} {P Q : Nat} (v1 v2 w : Nat) (hPQ : P + 16 ≤ Q) (hP : 4 ≤ P)
    (hv2 : v2 < 2 ^ 32) (hw : w < 2 ^ 32) :
    (∀ a, (a < P - 4 ∨ (P ≤ a ∧ a < Q - 8) ∨ Q - 4 ≤ a) →
      (PUT (PUT (PUT u (Q - 8) v2) (P - 4) v1) (P - 4) w).mem a = u.mem a) ∧
    GET (PUT (PUT (PUT u (Q - 8) v2) (P - 4) v1) (P - 4) w) (P - 4) = w ∧
    GET (PUT (PUT (PUT u (Q - 8) v2) (P - 4) v1) (P - 4) w) (Q - 8) = v2 := by
  refine ⟨fun a ha => ?_, GET_PUT_eq _ _ _ hw, ?_⟩
  · rw [PUT_mem_other _ _ _ _ (by omega), PUT_mem_other _ _ _ _ (by omega),
      PUT_mem_other _ _ _ _ (by omega)]
  · rw [GET_PUT_disj _ _ _ _ (by omega), GET_PUT_disj _ _ _ _ (by omega),
      GET_PUT_eq _ _ _ hv2]

theorem PUT_PREV_ALLOC_word {s : State} {p z : Nat} (pa : Bool)
    (h : GET s p = z) (h8 : z % 8 = 0) :
    PUT_PREV_ALLOC s p (if pa then 1 else 0) = PUT s p (hdrWord z false pa) := by
  apply PUT_PREV_ALLOC_hdr (q := false) pa _ h8
  simp [hdrWord, h]

theorem hdrWord_free (size : Nat) (pa : Bool) (h : size + 4 ≤ 2 ^ 32) :
    hdrWord size false pa < 2 ^ 32 := by
  have := @hdrWord_lt size false pa
  omega

/-- Case 1 of `coalesce`: both neighbours are allocated and the block is put at the front
of the bucket of its size. -/
theorem coalesce_case1_eq {s : State} {l1 l2 : List Blk} {b : Blk}
    (ht : Tiling s (l1 ++ b :: l2)) (hp : lastAlloc true l1 = true)
    (hn : headAlloc l2 = true) :
    coalesce s b.bp = (b.bp, push_front s b.bp (getPtrBySize b.size)) := by
  obtain ⟨r1, r2, r3⟩ := coalesce_reads ht
  unfold coalesce
  simp only [r1, r2, r3, hp, hn, if_true]
  simp

theorem coalesce_case1_lists {s : State} {l1 l2 : List Blk} {b : Blk} {L : Nat → List Nat}
    (ht : Tiling s (l1 ++ b :: l2)) (hl : Lists s (l1 ++ b :: l2) L (fun a => a = b.bp))
    (hb : b.alloc = false) (hn1 : NAF l1) (hn2 : NAF l2)
    (hp : lastAlloc true l1 = true) (hn : headAlloc l2 = true) :
    (coalesce s b.bp).1 = b.bp ∧
      Inv (coalesce s b.bp).2 (l1 ++ b :: l2) (pushL L (getPtrBySize b.size) b.bp) ∧
      Keeps s (coalesce s b.bp).2 (l1 ++ b :: l2) := by
  obtain ⟨r1, r2, r3⟩ := coalesce_reads ht
  have hco : coalesce s b.bp = (b.bp, push_front s b.bp (getPtrBySize b.size)) := by
    unfold coalesce
    simp only [r1, r2, r3, hp, hn, if_true]
    simp
  rw [hco]
  obtain ⟨P, hP, hbP, hQ, hh, hnx⟩ := ht.mid
  obtain ⟨bp, sz, al⟩ := b
  simp only at hb hbP hh hnx hQ ⊢
  subst hb hbP
  have e : l1 ++ (⟨bp, sz, false⟩ : Blk) :: l2 = l1 ++ [⟨bp, sz, false⟩] ++ l2 := by simp
  rw [e] at ht hl ⊢
  have hQ1 : Contig bp [(⟨bp, sz, false⟩ : Blk)] (bp + sz) := by simp [Contig]
  have hsz : bp + sz - bp = sz := by omega
  obtain ⟨hT, hL, _⟩ := merge_write (u := s) ht hl hP hQ1 (by simp)
    (by intro c hc; rw [List.mem_singleton] at hc; rw [hc]) (by intro x; simp [eq_comm])
    rfl rfl rfl rfl (fun _ _ => rfl) (by rw [hsz]; exact hh) (by
      rw [hsz]
      have := ht.ftr ⟨bp, sz, false⟩ (by simp) rfl
      exact this)
  rw [hsz] at hT hL
  have hnaf : NAF (l1 ++ [(⟨bp, sz, false⟩ : Blk)] ++ l2) :=
    naf_merged _ hn1 hp (NAFp_of_headAlloc hn hn2) rfl
  have := coalesce_finish_lists (P := bp) (Q := bp + sz) (by rw [hsz]; exact hT)
    (by rw [hsz]; exact hL) (by rw [hsz]; exact hnaf)
  rw [hsz] at this
  obtain ⟨h1, h2⟩ := this
  exact ⟨trivial, by simpa using h1, h2⟩

theorem coalesce_case1 {s : State} {l1 l2 : List Blk} {b : Blk} {L : Nat → List Nat}
    (ht : Tiling s (l1 ++ b :: l2)) (hl : Lists s (l1 ++ b :: l2) L (fun a => a = b.bp))
    (hb : b.alloc = false) (hn1 : NAF l1) (hn2 : NAF l2)
    (hp : lastAlloc true l1 = true) (hn : headAlloc l2 = true) :
    ∃ L1, (coalesce s b.bp).1 = b.bp ∧ Inv (coalesce s b.bp).2 (l1 ++ b :: l2) L1 ∧
      Keeps s (coalesce s b.bp).2 (l1 ++ b :: l2) :=
  ⟨_, coalesce_case1_lists ht hl hb hn1 hn2 hp hn⟩

theorem GET_SIZE_PUT (s : State) (p sz : Nat) (h8 : sz % 8 = 0) (hlt : sz < 2 ^ 32) :
    GET_SIZE (PUT s p sz) p = sz :=
  GET_SIZE_word (GET_PUT_eq _ _ _ hlt) h8

theorem Tiling.pbit_of {s : State} {l1 l2 : List Blk} {b : Blk} (ht : Tiling s (l1 ++ b :: l2)) :
    GET_PREV_ALLOC s (HDRP b.bp) = if lastAlloc false l1 then 1 else 0 := by
  obtain ⟨P, hP, hbP, hQ, hh, hn⟩ := ht.mid
  rw [HDRP_eq, hbP]
  exact GET_PREV_ALLOC_hdr hh (ht.bounds (show b ∈ l1 ++ b :: l2 by simp)).2.2.2.1

theorem coalesce_case2_lists {s : State} {l1 k2 : List Blk} {b n : Blk} {L : Nat → List Nat}
    (ht : Tiling s (l1 ++ b :: n :: k2))
    (hl : Lists s (l1 ++ b :: n :: k2) L (fun a => a = b.bp))
    (hb : b.alloc = false) (hnf : n.alloc = false) (hn1 : NAF l1) (hn2 : NAF (n :: k2))
    (hp : lastAlloc true l1 = true) :
    (coalesce s b.bp).1 = b.bp ∧
      Inv (coalesce s b.bp).2 (l1 ++ ⟨b.bp, b.size + n.size, false⟩ :: k2)
        (pushL (eraseL L n.bp) (getPtrBySize (b.size + n.size)) b.bp) ∧
      Keeps s (coalesce s b.bp).2 (l1 ++ b :: n :: k2) := by
  have hS := START_val
  obtain ⟨r1, r2, r3⟩ := coalesce_reads ht
  obtain ⟨P, hP, hbP, hQ, hh, hnx⟩ := ht.mid
  subst hbP
  have hbP : b.bp = b.bp := rfl
  have hbm : b ∈ l1 ++ b :: n :: k2 := by simp
  have hnm : n ∈ l1 ++ b :: n :: k2 := by simp
  have hbd := ht.bounds hbm
  have hnd := ht.bounds hnm
  have hnbp : n.bp = b.bp + b.size := by
    simp only [Contig] at hQ
    rw [hbP]; exact hQ.1
  have hQ2 : Contig (b.bp + b.size + n.size) k2 s.brk := by
    simp only [Contig] at hQ
    rw [hbP]; exact hQ.2
  have hnext : NEXT_BLKP s b.bp = n.bp := by
    unfold NEXT_BLKP WSIZE
    rw [← HDRP_eq, r3, hnbp]
  -- take the next block out of its list
  have hnp : ¬ (fun a => a = b.bp) n.bp := by
    show ¬ n.bp = b.bp
    omega
  obtain ⟨hT1, hL1, hK1⟩ := Lists_extract_lists ht hl hnm hnf hnp
  have hs1 : GET_SIZE (extract s n.bp) (HDRP n.bp) = n.size := hT1.size_of hnm
  have hpb : GET_PREV_ALLOC (extract s n.bp) (HDRP b.bp)
      = if lastAlloc false l1 then 1 else 0 := hT1.pbit_of
  have hszlt : b.size + n.size + 4 ≤ 2 ^ 32 := by omega
  have hsz8 : (b.size + n.size) % 8 = 0 := by omega
  have hco : coalesce s b.bp = (b.bp, push_front
      (PUT (PUT (PUT (extract s n.bp) (b.bp - 4) (b.size + n.size))
        (b.bp + (b.size + n.size) - 8) (b.size + n.size)) (b.bp - 4)
        (hdrWord (b.size + n.size) false (lastAlloc false l1)))
      b.bp (getPtrBySize (b.size + n.size))) := by
    unfold coalesce
    simp only [r1, r2, r3, hp, hnf, headAlloc, if_true]
    simp only [hnext, hs1, hpb]
    have e1 : (b.size + n.size) % M64 = b.size + n.size :=
      Nat.mod_eq_of_lt (by unfold M64; omega)
    have e2 : FTRP (PUT (extract s n.bp) (HDRP b.bp) (b.size + n.size)) b.bp
        = b.bp + (b.size + n.size) - 8 := by
      unfold FTRP DSIZE
      rw [GET_SIZE_PUT _ _ _ hsz8 (by omega)]
    simp only [e1, PACK_zero, e2]
    rw [PUT_PREV_ALLOC_word (z := b.size + n.size) _ _ hsz8]
    · simp [HDRP_eq]
    · rw [HDRP_eq, GET_PUT_disj _ _ _ _ (by omega), GET_PUT_eq _ _ _ (by omega)]
  rw [hco]
  generalize extract s n.bp = s1 at hT1 hL1 hK1 ⊢
  have e : l1 ++ b :: n :: k2 = l1 ++ [b, n] ++ k2 := by simp
  rw [e] at hT1 hL1
  have hmid : Contig b.bp [b, n] (b.bp + (b.size + n.size)) := by
    simp only [Contig]
    exact ⟨trivial, hnbp, by omega⟩
  have hfA := formA (u := s1) (P := b.bp) (Q := b.bp + (b.size + n.size)) (b.size + n.size)
    (b.size + n.size) (hdrWord (b.size + n.size) false (lastAlloc false l1)) (by omega)
    (by omega) (by omega) (hdrWord_free _ _ hszlt)
  have hsub : b.bp + (b.size + n.size) - b.bp = b.size + n.size := by omega
  obtain ⟨hT, hL, hK⟩ := merge_write (u := PUT (PUT (PUT s1 (b.bp - 4) (b.size + n.size))
        (b.bp + (b.size + n.size) - 8) (b.size + n.size)) (b.bp - 4)
        (hdrWord (b.size + n.size) false (lastAlloc false l1))) hT1 hL1 hP hmid (by simp)
    (by
      intro c hc
      simp only [List.mem_cons, List.mem_singleton, List.not_mem_nil, or_false] at hc
      rcases hc with rfl | rfl
      · exact hb
      · exact hnf)
    (by
      intro x
      simp only [List.mem_cons, List.mem_singleton, List.not_mem_nil, or_false,
        exists_eq_or_imp, exists_eq_left]
      constructor
      · rintro (h | h)
        · exact Or.inl h.symm
        · exact Or.inr h.symm
      · rintro (h | h)
        · exact Or.inl h.symm
        · exact Or.inr h.symm)
    rfl rfl rfl rfl
    hfA.1
    (by rw [hsub]; exact hfA.2.1)
    (by rw [hsub]; exact hfA.2.2)
  rw [hsub] at hT hL
  have hnaf : NAF (l1 ++ [(⟨b.bp, b.size + n.size, false⟩ : Blk)] ++ k2) := by
    refine naf_merged _ hn1 hp ?_ rfl
    have := hn2
    unfold NAF at this
    rw [NAFp_cons, hnf] at this
    exact this.2
  have hfin := coalesce_finish_lists (P := b.bp) (Q := b.bp + (b.size + n.size))
    (by rw [show b.bp + (b.size + n.size) - b.bp = b.size + n.size by omega]; exact hT)
    (by rw [show b.bp + (b.size + n.size) - b.bp = b.size + n.size by omega]; exact hL)
    (by rw [show b.bp + (b.size + n.size) - b.bp = b.size + n.size by omega]; exact hnaf)
  rw [show b.bp + (b.size + n.size) - b.bp = b.size + n.size by omega] at hfin
  obtain ⟨h1, h2⟩ := hfin
  refine ⟨rfl, h1, ?_⟩
  have hf2 : ∀ c ∈ [b, n], c.alloc = false := by
    intro c hc
    simp only [List.mem_cons, List.mem_singleton, List.not_mem_nil, or_false] at hc
    rcases hc with rfl | rfl
    · exact hb
    · exact hnf
  rw [e] at hK1 ⊢
  exact (hK1.andThen hK).andThen (h2.congr (fun a ha => Safe_mid hf2 ha))

theorem coalesce_case2 {s : State} {l1 k2 : List Blk} {b n : Blk} {L : Nat → List Nat}
    (ht : Tiling s (l1 ++ b :: n :: k2))
    (hl : Lists s (l1 ++ b :: n :: k2) L (fun a => a = b.bp))
    (hb : b.alloc = false) (hnf : n.alloc = false) (hn1 : NAF l1) (hn2 : NAF (n :: k2))
    (hp : lastAlloc true l1 = true) :
    ∃ L1, (coalesce s b.bp).1 = b.bp ∧
      Inv (coalesce s b.bp).2 (l1 ++ ⟨b.bp, b.size + n.size, false⟩ :: k2) L1 ∧
      Keeps s (coalesce s b.bp).2 (l1 ++ b :: n :: k2) :=
  ⟨_, coalesce_case2_lists ht hl hb hnf hn1 hn2 hp⟩

theorem mem_two {b c x : Blk} (h : x ∈ [b, c]) : x = b ∨ x = c := by
  simpa using h

theorem coalesce_case3_lists {s : State} {k1 l2 : List Blk} {p b : Blk} {L : Nat → List Nat}
    (ht : Tiling s (k1 ++ p :: b :: l2))
    (hl : Lists s (k1 ++ p :: b :: l2) L (fun a => a = b.bp))
    (hb : b.alloc = false) (hpf : p.alloc = false) (hn1 : NAF (k1 ++ [p])) (hn2 : NAF l2)
    (hn : headAlloc l2 = true) :
    (coalesce s b.bp).1 = p.bp ∧
      Inv (coalesce s b.bp).2 (k1 ++ ⟨p.bp, p.size + b.size, false⟩ :: l2)
        (pushL (eraseL L p.bp) (getPtrBySize (p.size + b.size)) p.bp) ∧
      Keeps s (coalesce s b.bp).2 (k1 ++ p :: b :: l2) := by
  have hS := START_val
  have ht' : Tiling s ((k1 ++ [p]) ++ b :: l2) := by simpa using ht
  obtain ⟨r1, r2, r3⟩ := coalesce_reads ht'
  rw [lastAlloc_snoc, hpf] at r1
  obtain ⟨P, hP, hpP, hQ, hh, hnx⟩ := ht.mid
  subst hpP
  have hpm : p ∈ k1 ++ p :: b :: l2 := by simp
  have hbm : b ∈ k1 ++ p :: b :: l2 := by simp
  have hpd := ht.bounds hpm
  have hbd := ht.bounds hbm
  have hbbp : b.bp = p.bp + p.size := by
    simp only [Contig] at hQ
    exact hQ.1
  have hprev : PREV_BLKP s b.bp = p.bp := by
    unfold PREV_BLKP DSIZE
    have hf := ht.ftr p hpm hpf
    rw [show b.bp - 8 = p.bp + p.size - 8 by omega, GET_SIZE_word hf hpd.2.2.2.1]
    omega
  have hpb0 : GET_PREV_ALLOC s (HDRP p.bp) = if lastAlloc false k1 then 1 else 0 := ht.pbit_of
  have hnp : ¬ (fun a => a = b.bp) p.bp := by
    show ¬ p.bp = b.bp
    omega
  obtain ⟨hT1, hL1, hK1⟩ := Lists_extract_lists ht hl hpm hpf hnp
  have hs1 : GET_SIZE (extract s p.bp) (HDRP p.bp) = p.size := hT1.size_of hpm
  have hs2 : GET_SIZE (extract s p.bp) (HDRP b.bp) = b.size := hT1.size_of hbm
  have hszlt : p.size + b.size + 4 ≤ 2 ^ 32 := by omega
  have hsz8 : (p.size + b.size) % 8 = 0 := by omega
  have hco : coalesce s b.bp = (p.bp, push_front
      (PUT (PUT (PUT (extract s p.bp) (p.bp + (p.size + b.size) - 8) (p.size + b.size))
        (p.bp - 4) (p.size + b.size)) (p.bp - 4)
        (hdrWord (p.size + b.size) false (lastAlloc false k1)))
      p.bp (getPtrBySize (p.size + b.size))) := by
    unfold coalesce
    simp only [r1, r2, r3, hn, if_true]
    simp only [hprev, hs1, hpb0]
    have e1 : (b.size + p.size) % M64 = p.size + b.size := by
      rw [Nat.mod_eq_of_lt (by unfold M64; omega)]; omega
    have e2 : FTRP (extract s p.bp) b.bp = p.bp + (p.size + b.size) - 8 := by
      unfold FTRP DSIZE
      rw [hs2]; omega
    simp only [e1, PACK_zero, e2]
    rw [PUT_PREV_ALLOC_word (z := p.size + b.size) _ _ hsz8]
    · simp [HDRP_eq]
    · rw [HDRP_eq, GET_PUT_eq _ _ _ (by omega)]
  rw [hco]
  generalize extract s p.bp = s1 at hT1 hL1 hK1 ⊢
  have e : k1 ++ p :: b :: l2 = k1 ++ [p, b] ++ l2 := by simp
  rw [e] at hT1 hL1 hK1 ⊢
  have hmid : Contig p.bp [p, b] (p.bp + (p.size + b.size)) := by
    simp only [Contig]
    exact ⟨trivial, hbbp, by omega⟩
  have hfB := formB (u := s1) (P := p.bp) (Q := p.bp + (p.size + b.size)) (p.size + b.size)
    (p.size + b.size) (hdrWord (p.size + b.size) false (lastAlloc false k1)) (by omega)
    (by omega) (by omega) (hdrWord_free _ _ hszlt)
  have hsub : p.bp + (p.size + b.size) - p.bp = p.size + b.size := by omega
  have hf2 : ∀ c ∈ [p, b], c.alloc = false := by
    intro c hc
    rcases mem_two hc with rfl | rfl
    · exact hpf
    · exact hb
  obtain ⟨hT, hL, hK⟩ := merge_write (u := PUT (PUT (PUT s1 (p.bp + (p.size + b.size) - 8)
        (p.size + b.size)) (p.bp - 4) (p.size + b.size)) (p.bp - 4)
        (hdrWord (p.size + b.size) false (lastAlloc false k1))) hT1 hL1 hP hmid (by simp) hf2
    (by
      intro x
      simp only [List.mem_cons, List.mem_singleton, List.not_mem_nil, or_false,
        exists_eq_or_imp, exists_eq_left]
      constructor
      · rintro (h | h)
        · exact Or.inr h.symm
        · exact Or.inl h.symm
      · rintro (h | h)
        · exact Or.inr h.symm
        · exact Or.inl h.symm)
    rfl rfl rfl rfl
    hfB.1
    (by rw [hsub]; exact hfB.2.1)
    (by rw [hsub]; exact hfB.2.2)
  rw [hsub] at hT hL
  have hnaf : NAF (k1 ++ [(⟨p.bp, p.size + b.size, false⟩ : Blk)] ++ l2) := by
    have h1 := hn1
    unfold NAF at h1
    rw [NAFp_append, NAFp_cons, hpf] at h1
    refine naf_merged _ h1.1 ?_ (NAFp_of_headAlloc hn hn2) rfl
    rcases h1.2.1 with h | h
    · cases h
    · exact h
  have hfin := coalesce_finish_lists (P := p.bp) (Q := p.bp + (p.size + b.size))
    (by rw [hsub]; exact hT) (by rw [hsub]; exact hL) (by rw [hsub]; exact hnaf)
  rw [hsub] at hfin
  obtain ⟨h1, h2⟩ := hfin
  exact ⟨rfl, h1, (hK1.andThen hK).andThen (h2.congr (fun a ha => Safe_mid hf2 ha))⟩

theorem coalesce_case3 {s : State} {k1 l2 : List Blk} {p b : Blk} {L : Nat → List Nat}
    (ht : Tiling s (k1 ++ p :: b :: l2))
    (hl : Lists s (k1 ++ p :: b :: l2) L (fun a => a = b.bp))
    (hb : b.alloc = false) (hpf : p.alloc = false) (hn1 : NAF (k1 ++ [p])) (hn2 : NAF l2)
    (hn : headAlloc l2 = true) :
    ∃ L1, (coalesce s b.bp).1 = p.bp ∧
      Inv (coalesce s b.bp).2 (k1 ++ ⟨p.bp, p.size + b.size, false⟩ :: l2) L1 ∧
      Keeps s (coalesce s b.bp).2 (k1 ++ p :: b :: l2) :=
  ⟨_, coalesce_case3_lists ht hl hb hpf hn1 hn2 hn⟩

theorem mem_three {a b c x : Blk} (h : x ∈ [a, b, c]) : x = a ∨ x = b ∨ x = c := by
  simpa using h

theorem coalesce_case4_lists {s : State} {k1 k2 : List Blk} {p b n : Blk}
    {L : Nat → List Nat}
    (ht : Tiling s (k1 ++ p :: b :: n :: k2))
    (hl : Lists s (k1 ++ p :: b :: n :: k2) L (fun a => a = b.bp))
    (hb : b.alloc = false) (hpf : p.alloc = false) (hnf : n.alloc = false)
    (hn1 : NAF (k1 ++ [p])) (hn2 : NAF (n :: k2)) :
    (coalesce s b.bp).1 = p.bp ∧
      Inv (coalesce s b.bp).2 (k1 ++ ⟨p.bp, p.size + b.size + n.size, false⟩ :: k2)
        (pushL (eraseL (eraseL L n.bp) p.bp) (getPtrBySize (p.size + b.size + n.size)) p.bp) ∧
      Keeps s (coalesce s b.bp).2 (k1 ++ p :: b :: n :: k2) := by
  have hS := START_val
  have ht' : Tiling s ((k1 ++ [p]) ++ b :: n :: k2) := by simpa using ht
  obtain ⟨r1, r2, r3⟩ := coalesce_reads ht'
  rw [lastAlloc_snoc, hpf] at r1
  obtain ⟨P, hP, hpP, hQ, hh, hnx⟩ := ht.mid
  subst hpP
  have hpm : p ∈ k1 ++ p :: b :: n :: k2 := by simp
  have hbm : b ∈ k1 ++ p :: b :: n :: k2 := by simp
  have hnm : n ∈ k1 ++ p :: b :: n :: k2 := by simp
  have hpd := ht.bounds hpm
  have hbd := ht.bounds hbm
  have hnd := ht.bounds hnm
  simp only [Contig] at hQ
  have hbbp : b.bp = p.bp + p.size := hQ.1
  have hnbp : n.bp = p.bp + p.size + b.size := hQ.2.1
  have hnext : NEXT_BLKP s b.bp = n.bp := by
    unfold NEXT_BLKP WSIZE
    rw [← HDRP_eq, r3]; omega
  have hnp : ¬ (fun a => a = b.bp) n.bp := by
    show ¬ n.bp = b.bp
    omega
  obtain ⟨hT1, hL1, hK1⟩ := Lists_extract_lists ht hl hnm hnf hnp
  have hprev : PREV_BLKP (extract s n.bp) b.bp = p.bp := by
    unfold PREV_BLKP DSIZE
    have hf := hT1.ftr p hpm hpf
    rw [show b.bp - 8 = p.bp + p.size - 8 by omega, GET_SIZE_word hf hpd.2.2.2.1]
    omega
  have hpb0 : GET_PREV_ALLOC (extract s n.bp) (HDRP p.bp)
      = if lastAlloc false k1 then 1 else 0 := hT1.pbit_of
  have hnp2 : ¬ (fun a => a = b.bp ∨ a = n.bp) p.bp := by
    show ¬ (p.bp = b.bp ∨ p.bp = n.bp)
    omega
  obtain ⟨hT2, hL2, hK2⟩ := Lists_extract_lists hT1 hL1 hpm hpf hnp2
  have hs1 : GET_SIZE (extract (extract s n.bp) p.bp) (HDRP p.bp) = p.size := hT2.size_of hpm
  have hs2 : GET_SIZE (extract (extract s n.bp) p.bp) (HDRP n.bp) = n.size := hT2.size_of hnm
  have hs3 : GET_SIZE (extract (extract s n.bp) p.bp) (n.bp + n.size - 8) = n.size :=
    GET_SIZE_word (hT2.ftr n hnm hnf) hnd.2.2.2.1
  have hszlt : p.size + b.size + n.size + 4 ≤ 2 ^ 32 := by omega
  have hsz8 : (p.size + b.size + n.size) % 8 = 0 := by omega
  have hco : coalesce s b.bp = (p.bp, push_front
      (PUT (PUT (PUT (extract (extract s n.bp) p.bp) (p.bp - 4) (p.size + b.size + n.size))
        (p.bp + (p.size + b.size + n.size) - 8) (p.size + b.size + n.size)) (p.bp - 4)
        (hdrWord (p.size + b.size + n.size) false (lastAlloc false k1)))
      p.bp (getPtrBySize (p.size + b.size + n.size))) := by
    unfold coalesce
    simp only [r1, r2, r3, hnf, headAlloc, if_true]
    simp only [hnext, hprev, hpb0]
    have e0 : FTRP (extract (extract s n.bp) p.bp) n.bp = n.bp + n.size - 8 := by
      unfold FTRP DSIZE
      rw [hs2]
    have e1 : (b.size + (p.size + n.size) % M64) % M64 = p.size + b.size + n.size := by
      rw [Nat.mod_eq_of_lt (show p.size + n.size < M64 by unfold M64; omega),
        Nat.mod_eq_of_lt (by unfold M64; omega)]
      omega
    have e2 : FTRP (PUT (extract (extract s n.bp) p.bp) (HDRP p.bp)
        (p.size + b.size + n.size)) n.bp = p.bp + (p.size + b.size + n.size) - 8 := by
      unfold FTRP DSIZE GET_SIZE
      rw [HDRP_eq, HDRP_eq, GET_PUT_disj _ _ _ _ (by omega)]
      have := hs2
      unfold GET_SIZE at this
      rw [HDRP_eq] at this
      rw [this]; omega
    simp only [e0, hs1, hs3, e1, PACK_zero, e2]
    rw [PUT_PREV_ALLOC_word (z := p.size + b.size + n.size) _ _ hsz8]
    · simp [HDRP_eq]
    · rw [HDRP_eq, GET_PUT_disj _ _ _ _ (by omega), GET_PUT_eq _ _ _ (by omega)]
  rw [hco]
  have hK12 := hK1.andThen hK2
  generalize extract (extract s n.bp) p.bp = s1 at hT2 hL2 hK12 ⊢
  have e : k1 ++ p :: b :: n :: k2 = k1 ++ [p, b, n] ++ k2 := by simp
  rw [e] at hT2 hL2 hK12 ⊢
  have hmid : Contig p.bp [p, b, n] (p.bp + (p.size + b.size + n.size)) := by
    simp only [Contig]
    exact ⟨trivial, hbbp, by omega, by omega⟩
  have hfA := formA (u := s1) (P := p.bp) (Q := p.bp + (p.size + b.size + n.size))
    (p.size + b.size + n.size) (p.size + b.size + n.size)
    (hdrWord (p.size + b.size + n.size) false (lastAlloc false k1)) (by omega)
    (by omega) (by omega) (hdrWord_free _ _ hszlt)
  have hsub : p.bp + (p.size + b.size + n.size) - p.bp = p.size + b.size + n.size := by omega
  have hf2 : ∀ c ∈ [p, b, n], c.alloc = false := by
    intro c hc
    rcases mem_three hc with rfl | rfl | rfl
    · exact hpf
    · exact hb
    · exact hnf
  obtain ⟨hT, hL, hK⟩ := merge_write (u := PUT (PUT (PUT s1 (p.bp - 4)
        (p.size + b.size + n.size)) (p.bp + (p.size + b.size + n.size) - 8)
        (p.size + b.size + n.size)) (p.bp - 4)
        (hdrWord (p.size + b.size + n.size) false (lastAlloc false k1))) hT2 hL2 hP hmid
    (by simp) hf2
    (by
      intro x
      simp only [List.mem_cons, List.mem_singleton, List.not_mem_nil, or_false,
        exists_eq_or_imp, exists_eq_left]
      constructor
      · rintro ((h | h) | h)
        · exact Or.inr (Or.inl h.symm)
        · exact Or.inr (Or.inr h.symm)
        · exact Or.inl h.symm
      · rintro (h | h | h)
        · exact Or.inr h.symm
        · exact Or.inl (Or.inl h.symm)
        · exact Or.inl (Or.inr h.symm))
    rfl rfl rfl rfl
    hfA.1
    (by rw [hsub]; exact hfA.2.1)
    (by rw [hsub]; exact hfA.2.2)
  rw [hsub] at hT hL
  have hnaf : NAF (k1 ++ [(⟨p.bp, p.size + b.size + n.size, false⟩ : Blk)] ++ k2) := by
    have h1 := hn1
    unfold NAF at h1
    rw [NAFp_append, NAFp_cons, hpf] at h1
    have h2 := hn2
    unfold NAF at h2
    rw [NAFp_cons, hnf] at h2
    refine naf_merged _ h1.1 ?_ h2.2 rfl
    rcases h1.2.1 with h | h
    · cases h
    · exact h
  have hfin := coalesce_finish_lists (P := p.bp) (Q := p.bp + (p.size + b.size + n.size))
    (by rw [hsub]; exact hT) (by rw [hsub]; exact hL) (by rw [hsub]; exact hnaf)
  rw [hsub] at hfin
  obtain ⟨h1, h2⟩ := hfin
  exact ⟨rfl, h1, (hK12.andThen hK).andThen (h2.congr (fun a ha => Safe_mid hf2 ha))⟩

theorem coalesce_case4 {s : State} {k1 k2 : List Blk} {p b n : Blk} {L : Nat → List Nat}
    (ht : Tiling s (k1 ++ p :: b :: n :: k2))
    (hl : Lists s (k1 ++ p :: b :: n :: k2) L (fun a => a = b.bp))
    (hb : b.alloc = false) (hpf : p.alloc = false) (hnf : n.alloc = false)
    (hn1 : NAF (k1 ++ [p])) (hn2 : NAF (n :: k2)) :
    ∃ L1, (coalesce s b.bp).1 = p.bp ∧
      Inv (coalesce s b.bp).2 (k1 ++ ⟨p.bp, p.size + b.size + n.size, false⟩ :: k2) L1 ∧
      Keeps s (coalesce s b.bp).2 (k1 ++ p :: b :: n :: k2) :=
  ⟨_, coalesce_case4_lists ht hl hb hpf hnf hn1 hn2⟩

theorem lastAlloc_false_snoc {l1 : List Blk} (h : lastAlloc true l1 = false) :
    ∃ k1 p, l1 = k1 ++ [p] ∧ p.alloc = false := by
  rcases nil_or_snoc l1 with rfl | ⟨k1, p, rfl⟩
  · simp [lastAlloc] at h
  · rw [lastAlloc_snoc] at h
    exact ⟨k1, p, rfl, h⟩

theorem headAlloc_false_cons {l2 : List Blk} (h : headAlloc l2 = false) :
    ∃ n k2, l2 = n :: k2 ∧ n.alloc = false := by
  cases l2 with
  | nil => simp [headAlloc] at h
  | cons n k2 => exact ⟨n, k2, rfl, h⟩

theorem Inv.relist {s : State} {bs : List Blk} {L L1 : Nat → List Nat} (h : Inv s bs L)
    (ha : ∀ i, i < 2 → L1 i = L i) : Inv s bs L1 :=
  ⟨h.1, h.2.1.agree ha, h.2.2⟩

theorem Lists.not_pending {s : State} {bs : List Blk} {L : Nat → List Nat} {pend : Nat → Prop}
    (hl : Lists s bs L pend) {x : Nat} (hp : pend x) : ∀ i, i < 2 → x ∉ L i :=
  fun i hi h => ((hl.mem i hi x).1 h).1 hp

/-- The address after block `b` is in no list when `b` is followed by an allocated block or
by the epilogue. -/
theorem next_not_listed {s : State} {l1 l2 : List Blk} {b : Blk} {L : Nat → List Nat}
    {pend : Nat → Prop} (ht : Tiling s (l1 ++ b :: l2)) (hl : Lists s (l1 ++ b :: l2) L pend)
    (hn : headAlloc l2 = true) : ∀ i, i < 2 → b.bp + b.size ∉ L i := by
  intro i hi hm
  obtain ⟨c, hc, hcb, hcf, _⟩ := hl.blk hi hm
  obtain ⟨P, hP, hbP, hQ, _, _⟩ := ht.mid
  have hbd := ht.bounds (show b ∈ l1 ++ b :: l2 by simp)
  have hcd := ht.bounds hc
  rw [List.mem_append, List.mem_cons] at hc
  rcases hc with hc | rfl | hc
  · have := Contig_bounds hP hc
    omega
  · omega
  · cases l2 with
    | nil => cases hc
    | cons n k =>
      simp only [Contig] at hQ
      have : c = n := Contig_unique ht.contig ht.sizes (by simp [hc]) (by simp) (by omega)
      subst this
      simp only [headAlloc] at hn
      rw [hn] at hcf
      cases hcf

/-- Coalescing with the resulting bucket lists: the free neighbours are taken out of their
lists and the coalesced block is put at the front of the bucket of its size. -/
theorem coalesce_lists {s : State} {l1 l2 : List Blk} {b : Blk} {L : Nat → List Nat}
    (ht : Tiling s (l1 ++ b :: l2)) (hl : Lists s (l1 ++ b :: l2) L (fun a => a = b.bp))
    (hb : b.alloc = false) (hn1 : NAF l1) (hn2 : NAF l2) :
    ∃ k1 m k2, Merged l1 b l2 k1 m k2 ∧ (coalesce s b.bp).1 = m.bp ∧
      Inv (coalesce s b.bp).2 (k1 ++ m :: k2)
        (pushL (eraseL (eraseL L (b.bp + b.size)) m.bp) (getPtrBySize m.size) m.bp) ∧
      Keeps s (coalesce s b.bp).2 (l1 ++ b :: l2) := by
  have hbd := ht.bounds (show b ∈ l1 ++ b :: l2 by simp)
  have hbe : b = ⟨b.bp, b.size, false⟩ := by
    cases b; simp only at hb; simp [hb]
  have hpb : ∀ i, i < 2 → b.bp ∉ L i := hl.not_pending rfl
  by_cases hp : lastAlloc true l1 = true <;> by_cases hn : headAlloc l2 = true
  · obtain ⟨h1, h2, h3⟩ := coalesce_case1_lists ht hl hb hn1 hn2 hp hn
    have hnx := next_not_listed ht hl hn
    refine ⟨l1, b, l2, ⟨0, 0, ?_, Or.inl ⟨rfl, rfl, hp⟩, Or.inl ⟨rfl, rfl, hn⟩⟩, h1,
      h2.relist (fun i hi => ?_), h3⟩
    · simpa using hbe
    · simp only [pushL, eraseL]
      rw [List.erase_of_not_mem (hnx i hi), List.erase_of_not_mem (hpb i hi)]
  · obtain ⟨n, k2, rfl, hnf⟩ := headAlloc_false_cons (by simpa using hn)
    obtain ⟨h1, h2, h3⟩ := coalesce_case2_lists ht hl hb hnf hn1 hn2 hp
    obtain ⟨P, hP, hbP, hQ, _, _⟩ := ht.mid
    simp only [Contig] at hQ
    have hnb : n.bp = b.bp + b.size := by omega
    refine ⟨l1, ⟨b.bp, b.size + n.size, false⟩, k2,
      ⟨0, n.size, ?_, Or.inl ⟨rfl, rfl, hp⟩, Or.inr ⟨n, rfl, hnf, rfl⟩⟩, h1,
      h2.relist (fun i hi => ?_), h3⟩
    · simp
    · simp only [pushL, eraseL]
      rw [← hnb, List.erase_of_not_mem (fun h => hpb i hi (List.mem_of_mem_erase h))]
  · obtain ⟨k1, p, rfl, hpf⟩ := lastAlloc_false_snoc (by simpa using hp)
    have hnx := next_not_listed ht hl hn
    have e : k1 ++ [p] ++ b :: l2 = k1 ++ p :: b :: l2 := by simp
    rw [e] at ht hl ⊢
    obtain ⟨h1, h2, h3⟩ := coalesce_case3_lists ht hl hb hpf hn1 hn2 hn
    have hpd := ht.mid
    obtain ⟨P, hP, hpP, hQ, _, _⟩ := hpd
    simp only [Contig] at hQ
    have hbp : b.bp - p.size = p.bp := by omega
    refine ⟨k1, ⟨p.bp, p.size + b.size, false⟩, l2,
      ⟨p.size, 0, ?_, Or.inr ⟨p, rfl, hpf, rfl⟩, Or.inl ⟨rfl, rfl, hn⟩⟩, h1,
      h2.relist (fun i hi => ?_), h3⟩
    · simp [hbp]
    · simp only [pushL, eraseL]
      rw [List.erase_of_not_mem (hnx i hi)]
  · obtain ⟨k1, p, rfl, hpf⟩ := lastAlloc_false_snoc (by simpa using hp)
    obtain ⟨n, k2, rfl, hnf⟩ := headAlloc_false_cons (by simpa using hn)
    have e : k1 ++ [p] ++ b :: n :: k2 = k1 ++ p :: b :: n :: k2 := by simp
    rw [e] at ht hl ⊢
    obtain ⟨h1, h2, h3⟩ := coalesce_case4_lists ht hl hb hpf hnf hn1 hn2
    have hpd := ht.mid
    obtain ⟨P, hP, hpP, hQ, _, _⟩ := hpd
    simp only [Contig] at hQ
    have hbp : b.bp - p.size = p.bp := by omega
    have hnb : n.bp = b.bp + b.size := by omega
    refine ⟨k1, ⟨p.bp, p.size + b.size + n.size, false⟩, k2,
      ⟨p.size, n.size, ?_, Or.inr ⟨p, rfl, hpf, rfl⟩, Or.inr ⟨n, rfl, hnf, rfl⟩⟩, h1,
      h2.relist (fun i hi => ?_), h3⟩
    · simp [hbp]
    · simp only [pushL, eraseL]
      rw [← hnb]

theorem coalesce_spec {s : State} {l1 l2 : List Blk} {b : Blk} {L : Nat → List Nat}
    (ht : Tiling s (l1 ++ b :: l2)) (hl : Lists s (l1 ++ b :: l2) L (fun a => a = b.bp))
    (hb : b.alloc = false) (hn1 : NAF l1) (hn2 : NAF l2) :
    ∃ k1 m k2 L1, Merged l1 b l2 k1 m k2 ∧ (coalesce s b.bp).1 = m.bp ∧
      Inv (coalesce s b.bp).2 (k1 ++ m :: k2) L1 ∧
      Keeps s (coalesce s b.bp).2 (l1 ++ b :: l2) := by
  obtain ⟨k1, m, k2, h⟩ := coalesce_lists ht hl hb hn1 hn2
  exact ⟨k1, m, k2, _, h⟩

theorem PUT_PREV_ALLOC_next {s : State} {p : Nat} {q : Bool} {l : List Blk} (pa1 : Bool)
    (h : GET s p = nextWord q l) (hs : ∀ c ∈ l, c.size % 8 = 0) :
    PUT_PREV_ALLOC s p (if pa1 then 1 else 0) = PUT s p (nextWord pa1 l) := by
  cases l with
  | nil => exact PUT_PREV_ALLOC_hdr pa1 h (by norm_num)
  | cons c l => exact PUT_PREV_ALLOC_hdr pa1 h (hs c (List.mem_cons_self _ _))

theorem nextWord_lt (pa : Bool) {l : List Blk} (hs : ∀ c ∈ l, c.size + 4 ≤ 2 ^ 32) :
    nextWord pa l < 2 ^ 32 := by
  cases l with
  | nil =>
    have := @hdrWord_lt 0 true pa
    simp only [nextWord]; omega
  | cons c l =>
    have := @hdrWord_lt c.size c.alloc pa
    have := hs c (List.mem_cons_self _ _)
    simp only [nextWord]; omega

/-- Rewriting the headers of one block: the block list `l1 ++ [b] ++ l2` becomes
`l1 ++ mid1 ++ l2`, where `mid1` covers the extent of `b`. -/
theorem retag {s s1 : State} {l1 l2 M : List Blk} {b : Blk} {L : Nat → List Nat}
    {pend E : Nat → Prop}
    (ht : Tiling s (l1 ++ [b] ++ l2)) (hl : Lists s (l1 ++ [b] ++ l2) L pend)
    (hbl : ∀ i, i < 2 → b.bp ∉ L i)
    (hb : s1.brk = s.brk) (hc : s1.cap = s.cap) (hh : s1.heap_listp = s.heap_listp)
    (hsg : s1.seg = s.seg)
    (hmem : ∀ a, a < b.bp - 4 ∨ b.bp + b.size ≤ a → s1.mem a = s.mem a)
    (hQ1 : Contig b.bp M (b.bp + b.size))
    (hsz : ∀ c ∈ M, 16 ≤ c.size ∧ c.size % 8 = 0)
    (hhdr : ∀ x ∈ withPrev (lastAlloc false l1) M,
      GET s1 (x.1.bp - 4) = hdrWord x.1.size x.1.alloc x.2)
    (hftr : ∀ c ∈ M, c.alloc = false → GET s1 (c.bp + c.size - 8) = c.size)
    (hnext : GET s1 (b.bp + b.size - 4) = nextWord (lastAlloc (lastAlloc false l1) M) l2)
    (hp1 : ∀ c ∈ M, c.alloc = false → E c.bp)
    (hp2 : ∀ c ∈ l1 ++ l2, E c.bp ↔ pend c.bp) :
    Tiling s1 (l1 ++ M ++ l2) ∧ Lists s1 (l1 ++ M ++ l2) L E ∧
      ∀ a, (∃ c ∈ l1 ++ l2, c.alloc = true ∧ c.bp ≤ a ∧ a < c.bp + c.size - 4) →
        s1.mem a = s.mem a := by
  have hS := START_val
  obtain ⟨P, hP, hbP, hQ, _, _⟩ := (show Tiling s (l1 ++ b :: l2) by simpa using ht).mid
  subst hbP
  have hQb : Contig b.bp [b] (b.bp + b.size) := by simp [Contig]
  have hT := Tiling_replace ht hP hQb hb hc hh hsg hmem hQ1 hsz hhdr hftr hnext
  have hk1b : ∀ c ∈ l1, c.bp + c.size ≤ b.bp ∧ 16 ≤ c.size :=
    fun c hc => ⟨(Contig_bounds hP hc).2, (ht.sizes c (by simp [hc])).1⟩
  have hk2b : ∀ c ∈ l2, b.bp + b.size ≤ c.bp :=
    fun c hc => (Contig_bounds hQ hc).1
  have hbm : b ∈ l1 ++ [b] ++ l2 := by simp
  have hmidb : ∀ c ∈ M, b.bp ≤ c.bp ∧ c.bp + c.size ≤ b.bp + b.size := fun c hc =>
    Contig_bounds hQ1 hc
  refine ⟨hT, ?_, ?_⟩
  · refine Lists_frame hl ht.seg_eq hsg ?_ ?_
    · rintro a (h | ⟨i, hi, z, hz, h1, h2⟩)
      · have := (ht.bounds hbm).1
        exact hmem a (Or.inl (by omega))
      · obtain ⟨hnp, c, hc, rfl, hcf, _⟩ := (hl.mem i hi z).1 hz
        simp only [List.mem_append, List.mem_singleton] at hc
        rcases hc with (hc | hc) | hc
        · have := hk1b c hc
          exact hmem a (Or.inl (by omega))
        · subst hc
          exact absurd hz (hbl i hi)
        · have := hk2b c hc
          exact hmem a (Or.inr (by omega))
    · intro i hi x
      constructor
      · rintro ⟨hnp, c, hc, rfl, hcf, hcc⟩
        simp only [List.mem_append, List.mem_singleton] at hc
        rcases hc with (hc | hc) | hc
        · exact ⟨fun h => hnp ((hp2 c (by simp [hc])).1 h), c, by simp [hc], rfl, hcf, hcc⟩
        · subst hc
          exact absurd ((hl.mem i hi _).2 ⟨hnp, c, hbm, rfl, hcf, hcc⟩) (hbl i hi)
        · exact ⟨fun h => hnp ((hp2 c (by simp [hc])).1 h), c, by simp [hc], rfl, hcf, hcc⟩
      · rintro ⟨hnp, c, hc, rfl, hcf, hcc⟩
        simp only [List.mem_append] at hc
        rcases hc with (hc | hc) | hc
        · exact ⟨fun h => hnp ((hp2 c (by simp [hc])).2 h), c, by simp [hc], rfl, hcf, hcc⟩
        · exact absurd (hp1 c hc hcf) hnp
        · exact ⟨fun h => hnp ((hp2 c (by simp [hc])).2 h), c, by simp [hc], rfl, hcf, hcc⟩
  · rintro a ⟨c, hc, hca, h1, h2⟩
    simp only [List.mem_append] at hc
    rcases hc with hc | hc
    · have := hk1b c hc
      exact hmem a (Or.inl (by omega))
    · have := hk2b c hc
      exact hmem a (Or.inr (by omega))

theorem Inv.not_mem_of_alloc {s : State} {bs : List Blk} {L : Nat → List Nat}
    {pend : Nat → Prop} (ht : Tiling s bs) (hl : Lists s bs L pend) {b : Blk} (hb : b ∈ bs)
    (hba : b.alloc = true) : ∀ i, i < 2 → b.bp ∉ L i := by
  intro i hi hm
  obtain ⟨c, hc, hcb, hcf, _⟩ := hl.blk hi hm
  have := Contig_unique ht.contig ht.sizes hc hb hcb
  subst this
  rw [hba] at hcf; cases hcf

theorem Keeps_of_rest {s s1 : State} {l1 l2 : List Blk} {m : Blk} (hm : m.alloc = false)
    (hb : s1.brk = s.brk) (hc : s1.cap = s.cap) (hh : s1.heap_listp = s.heap_listp)
    (hsg : s1.seg = s.seg)
    (h : ∀ a, (∃ c ∈ l1 ++ l2, c.alloc = true ∧ c.bp ≤ a ∧ a < c.bp + c.size - 4) →
        s1.mem a = s.mem a) : Keeps s s1 (l1 ++ m :: l2) := by
  refine ⟨hb, hc, hh, hsg, ?_⟩
  rintro a ⟨c, hc, hca, h1, h2⟩
  simp only [List.mem_append, List.mem_cons] at hc
  rcases hc with hc | rfl | hc
  · exact h a ⟨c, by simp [hc], hca, h1, h2⟩
  · rw [hm] at hca; cases hca
  · exact h a ⟨c, by simp [hc], hca, h1, h2⟩

/-- Releasing the allocated block `b`, with the resulting bucket lists. -/
theorem mm_free_lists {s : State} {l1 l2 : List Blk} {b : Blk} {L : Nat → List Nat}
    (hinv : Inv s (l1 ++ b :: l2) L) (hba : b.alloc = true) :
    ∃ k1 m k2, Merged l1 ⟨b.bp, b.size, false⟩ l2 k1 m k2 ∧
      Inv (mm_free s b.bp) (k1 ++ m :: k2)
        (pushL (eraseL (eraseL L (b.bp + b.size)) m.bp) (getPtrBySize m.size) m.bp) ∧
      Keeps s (mm_free s b.bp) (l1 ++ ⟨b.bp, b.size, false⟩ :: l2) := by
  have hS := START_val
  obtain ⟨ht, hl, hnaf⟩ := hinv
  obtain ⟨P, hP, hbP, hQ, hh, hnx⟩ := ht.mid
  subst hbP
  have hbm : b ∈ l1 ++ b :: l2 := by simp
  have hbd := ht.bounds hbm
  rw [hba] at hh hnx
  have hsz := ht.size_of hbm
  have hpb : GET_PREV_ALLOC s (HDRP b.bp) = if lastAlloc false l1 then 1 else 0 := ht.pbit_of
  have hs2 : ∀ c ∈ l2, c.size % 8 = 0 := fun c hc => (ht.sizes c (by simp [hc])).2
  have hs2' : ∀ c ∈ l2, c.size + 4 ≤ 2 ^ 32 := fun c hc => by
    have := ht.bounds (show c ∈ l1 ++ b :: l2 by simp [hc])
    omega
  have hfree : mm_free s b.bp = (coalesce
      (PUT (PUT (PUT (PUT s (b.bp - 4) b.size) (b.bp + b.size - 8) b.size) (b.bp - 4)
        (hdrWord b.size false (lastAlloc false l1))) (b.bp + b.size - 4) (nextWord false l2))
      b.bp).2 := by
    unfold mm_free
    have h0 : b.bp ≠ 0 := by omega
    have h1 : s.heap_listp ≠ 0 := by rw [ht.hlp]; omega
    simp only [h0, h1, if_false, hsz, hpb, PACK_zero]
    have e2 : FTRP (PUT s (HDRP b.bp) b.size) b.bp = b.bp + b.size - 8 := by
      unfold FTRP DSIZE
      rw [GET_SIZE_PUT _ _ _ hbd.2.2.2.1 (by omega)]
    rw [e2, PUT_PREV_ALLOC_word (z := b.size) _ _ hbd.2.2.2.1]
    · have e3 : NEXT_BLKP (PUT (PUT (PUT s (HDRP b.bp) b.size) (b.bp + b.size - 8) b.size)
          (HDRP b.bp) (hdrWord b.size false (lastAlloc false l1))) b.bp = b.bp + b.size := by
        unfold NEXT_BLKP WSIZE
        rw [← HDRP_eq]
        rw [GET_SIZE_hdr (GET_PUT_eq _ _ _ (hdrWord_free _ _ (by omega))) hbd.2.2.2.1]
      rw [e3]
      have e4 := PUT_PREV_ALLOC_next (s := PUT (PUT (PUT s (HDRP b.bp) b.size)
          (b.bp + b.size - 8) b.size) (HDRP b.bp) (hdrWord b.size false (lastAlloc false l1)))
          (p := HDRP (b.bp + b.size)) (q := true) (l := l2) false (by
            rw [HDRP_eq, HDRP_eq, GET_PUT_disj _ _ _ _ (by omega),
              GET_PUT_disj _ _ _ _ (by omega), GET_PUT_disj _ _ _ _ (by omega)]
            exact hnx) hs2
      simp only [Bool.false_eq_true, if_false] at e4
      rw [e4]
      simp [HDRP_eq]
    · rw [HDRP_eq, GET_PUT_disj _ _ _ _ (by omega), GET_PUT_eq _ _ _ (by omega)]
  rw [hfree]
  generalize hs4 : (PUT (PUT (PUT (PUT s (b.bp - 4) b.size) (b.bp + b.size - 8) b.size)
      (b.bp - 4) (hdrWord b.size false (lastAlloc false l1))) (b.bp + b.size - 4)
      (nextWord false l2)) = s4
  have hm4 : ∀ a, a < b.bp - 4 ∨ b.bp + b.size ≤ a → s4.mem a = s.mem a := by
    intro a ha
    rw [← hs4, PUT_mem_other _ _ _ _ (by omega), PUT_mem_other _ _ _ _ (by omega),
      PUT_mem_other _ _ _ _ (by omega), PUT_mem_other _ _ _ _ (by omega)]
  have hg1 : GET s4 (b.bp - 4) = hdrWord b.size false (lastAlloc false l1) := by
    rw [← hs4, GET_PUT_disj _ _ _ _ (by omega), GET_PUT_eq _ _ _ (hdrWord_free _ _ (by omega))]
  have hg2 : GET s4 (b.bp + b.size - 8) = b.size := by
    rw [← hs4, GET_PUT_disj _ _ _ _ (by omega), GET_PUT_disj _ _ _ _ (by omega),
      GET_PUT_eq _ _ _ (by omega)]
  have hg3 : GET s4 (b.bp + b.size - 4) = nextWord false l2 := by
    rw [← hs4, GET_PUT_eq _ _ _ (nextWord_lt _ hs2')]
  have hfl : s4.brk = s.brk ∧ s4.cap = s.cap ∧ s4.heap_listp = s.heap_listp ∧ s4.seg = s.seg := by
    rw [← hs4]; exact ⟨rfl, rfl, rfl, rfl⟩
  have e : l1 ++ b :: l2 = l1 ++ [b] ++ l2 := by simp
  rw [e] at ht hl
  obtain ⟨hT, hL, hK⟩ := retag (M := [⟨b.bp, b.size, false⟩]) (E := fun a => a = b.bp)
    ht hl (Inv.not_mem_of_alloc ht hl (by simp) hba) hfl.1 hfl.2.1 hfl.2.2.1 hfl.2.2.2 hm4
    (by simp [Contig])
    (by intro c hc; rw [List.mem_singleton] at hc; subst hc; exact ⟨hbd.2.2.1, hbd.2.2.2.1⟩)
    (by
      intro x hx
      simp only [withPrev, List.mem_singleton] at hx
      subst hx
      exact hg1)
    (by intro c hc _; rw [List.mem_singleton] at hc; subst hc; exact hg2)
    (by simpa [lastAlloc] using hg3)
    (by intro c hc _; rw [List.mem_singleton] at hc; subst hc; rfl)
    (by
      intro c hc
      simp only [iff_false]
      intro hcb
      have hcm : c ∈ l1 ++ [b] ++ l2 := by
        simp only [List.mem_append] at hc ⊢
        rcases hc with hc | hc
        · exact Or.inl (Or.inl hc)
        · exact Or.inr hc
      have := Contig_unique ht.contig ht.sizes hcm (by simp) hcb
      subst this
      simp only [List.mem_append] at hc
      rcases hc with hc | hc
      · have := (Contig_bounds hP hc).2
        omega
      · have := (Contig_bounds hQ hc).1
        omega)
  have e2 : l1 ++ [(⟨b.bp, b.size, false⟩ : Blk)] ++ l2 = l1 ++ ⟨b.bp, b.size, false⟩ :: l2 := by
    simp
  rw [e2] at hT hL
  unfold NAF at hnaf
  rw [NAFp_append, NAFp_cons, hba] at hnaf
  obtain ⟨k1, m, k2, h1, _, h3, h4⟩ := coalesce_lists (b := ⟨b.bp, b.size, false⟩) hT hL rfl
    hnaf.1 hnaf.2.2
  exact ⟨k1, m, k2, h1, h3,
    (Keeps_of_rest rfl hfl.1 hfl.2.1 hfl.2.2.1 hfl.2.2.2 hK).andThen h4⟩

theorem mm_free_spec {s : State} {l1 l2 : List Blk} {b : Blk} {L : Nat → List Nat}
    (hinv : Inv s (l1 ++ b :: l2) L) (hba : b.alloc = true) :
    ∃ k1 m k2 L1, Merged l1 ⟨b.bp, b.size, false⟩ l2 k1 m k2 ∧
      Inv (mm_free s b.bp) (k1 ++ m :: k2) L1 ∧
      Keeps s (mm_free s b.bp) (l1 ++ ⟨b.bp, b.size, false⟩ :: l2) := by
  obtain ⟨k1, m, k2, h⟩ := mm_free_lists hinv hba
  exact ⟨k1, m, k2, _, h⟩

/-- Growing the heap by `size` bytes and installing a free block in the new space. -/
theorem extend_mark {s : State} {bs : List Blk} {L : Nat → List Nat} {size : Nat}
    (ht : Tiling s bs) (hl : Lists s bs L (fun _ => False))
    (h16 : 16 ≤ size) (h8 : size % 8 = 0) (hcap : s.brk + size ≤ s.cap) :
    Tiling (PUT (PUT (PUT (PUT { s with brk := s.brk + size } (s.brk - 4) size)
        (s.brk + size - 8) size) (s.brk - 4) (hdrWord size false (lastAlloc false bs)))
        (s.brk + size - 4) 1) (bs ++ [⟨s.brk, size, false⟩]) ∧
      Lists (PUT (PUT (PUT (PUT { s with brk := s.brk + size } (s.brk - 4) size)
        (s.brk + size - 8) size) (s.brk - 4) (hdrWord size false (lastAlloc false bs)))
        (s.brk + size - 4) 1) (bs ++ [⟨s.brk, size, false⟩]) L (fun a => a = s.brk) ∧
      (PUT (PUT (PUT (PUT { s with brk := s.brk + size } (s.brk - 4) size)
        (s.brk + size - 8) size) (s.brk - 4) (hdrWord size false (lastAlloc false bs)))
        (s.brk + size - 4) 1).brk = s.brk + size ∧
      (PUT (PUT (PUT (PUT { s with brk := s.brk + size } (s.brk - 4) size)
        (s.brk + size - 8) size) (s.brk - 4) (hdrWord size false (lastAlloc false bs)))
        (s.brk + size - 4) 1).cap = s.cap ∧
      ∀ a, a < s.brk - 4 →
        (PUT (PUT (PUT (PUT { s with brk := s.brk + size } (s.brk - 4) size)
        (s.brk + size - 8) size) (s.brk - 4) (hdrWord size false (lastAlloc false bs)))
        (s.brk + size - 4) 1).mem a = s.mem a := by
  have hS := START_val
  have hbb := ht.brk_bounds
  have hcl := ht.cap_lt
  generalize hs4 : (PUT (PUT (PUT (PUT { s with brk := s.brk + size } (s.brk - 4) size)
        (s.brk + size - 8) size) (s.brk - 4) (hdrWord size false (lastAlloc false bs)))
        (s.brk + size - 4) 1) = s4
  have hm4 : ∀ a, a < s.brk - 4 → s4.mem a = s.mem a := by
    intro a ha
    rw [← hs4, PUT_mem_other _ _ _ _ (by omega), PUT_mem_other _ _ _ _ (by omega),
      PUT_mem_other _ _ _ _ (by omega), PUT_mem_other _ _ _ _ (by omega)]
  have hg1 : GET s4 (s.brk - 4) = hdrWord size false (lastAlloc false bs) := by
    rw [← hs4, GET_PUT_disj _ _ _ _ (by omega), GET_PUT_eq _ _ _ (hdrWord_free _ _ (by omega))]
  have hg2 : GET s4 (s.brk + size - 8) = size := by
    rw [← hs4, GET_PUT_disj _ _ _ _ (by omega), GET_PUT_disj _ _ _ _ (by omega),
      GET_PUT_eq _ _ _ (by omega)]
  have hg3 : GET s4 (s.brk + size - 4) = 1 := by
    rw [← hs4, GET_PUT_eq _ _ _ (by norm_num)]
  have hfl : s4.brk = s.brk + size ∧ s4.cap = s.cap ∧ s4.heap_listp = s.heap_listp ∧
      s4.seg = s.seg := by
    rw [← hs4]; exact ⟨rfl, rfl, rfl, rfl⟩
  refine ⟨?_, ?_, hfl.1, hfl.2.1, hm4⟩
  · refine ⟨hfl.2.2.2.trans ht.seg_eq, hfl.2.2.1.trans ht.hlp, by rw [hfl.1, hfl.2.1]; exact hcap,
      by rw [hfl.2.1]; exact ht.cap_lt, ?_, ?_, ?_, ?_, ?_, ?_⟩
    · rw [GET_frame _ (fun a h1 h2 => hm4 a (by omega))]; exact ht.prol
    · rw [hfl.1, Contig_append]
      exact ⟨s.brk, ht.contig, by simp [Contig]⟩
    · intro c hc
      rw [List.mem_append, List.mem_singleton] at hc
      rcases hc with hc | rfl
      · exact ht.sizes c hc
      · exact ⟨h16, h8⟩
    · intro x hx
      rw [withPrev_append] at hx
      simp only [List.mem_append, withPrev, List.mem_singleton] at hx
      rcases hx with hx | rfl
      · have hb := ht.bounds (mem_withPrev hx)
        rw [GET_frame _ (fun a h1 h2 => hm4 a (by omega))]
        exact ht.hdr x hx
      · exact hg1
    · intro c hc hcf
      rw [List.mem_append, List.mem_singleton] at hc
      rcases hc with hc | rfl
      · have hb := ht.bounds hc
        rw [GET_frame _ (fun a h1 h2 => hm4 a (by omega))]
        exact ht.ftr c hc hcf
      · exact hg2
    · rw [hfl.1, lastAlloc_snoc]
      exact hg3
  · refine Lists_frame hl ht.seg_eq hfl.2.2.2 ?_ ?_
    · rintro a (h | ⟨i, hi, z, hz, h1, h2⟩)
      · exact hm4 a (by omega)
      · obtain ⟨c, hc, rfl, hcf, _⟩ := hl.blk hi hz
        have := ht.bounds hc
        exact hm4 a (by omega)
    · intro i hi x
      constructor
      · rintro ⟨_, c, hc, rfl, hcf, hcc⟩
        have := ht.bounds hc
        exact ⟨by omega, c, by simp [hc], rfl, hcf, hcc⟩
      · rintro ⟨hnp, c, hc, rfl, hcf, hcc⟩
        rw [List.mem_append, List.mem_singleton] at hc
        rcases hc with hc | rfl
        · exact ⟨not_false, c, hc, rfl, hcf, hcc⟩
        · exact absurd rfl hnp

theorem extend_heap_fail {s : State} {words : Nat} (h : ¬ s.brk + extend_size words ≤ s.cap) :
    extend_heap s words = (NULL, s) := by
  unfold extend_heap mem_sbrk
  unfold extend_size at h
  simp only [h, if_false]

/-- A successful `extend_heap` installs the new free block and the new epilogue and then
calls `coalesce` on the new block. -/
theorem extend_heap_eq {s : State} {bs : List Blk} {words : Nat}
    (ht : Tiling s bs) (h8 : extend_size words % 8 = 0)
    (hcap : s.brk + extend_size words ≤ s.cap) :
    extend_heap s words = coalesce
      (PUT (PUT (PUT (PUT { s with brk := s.brk + extend_size words } (s.brk - 4)
        (extend_size words)) (s.brk + extend_size words - 8) (extend_size words)) (s.brk - 4)
        (hdrWord (extend_size words) false (lastAlloc false bs)))
        (s.brk + extend_size words - 4) 1) s.brk := by
  have hS := START_val
  have hbb := ht.brk_bounds
  have hcl := ht.cap_lt
  have hepi := ht.epi
  unfold extend_heap mem_sbrk
  have e0 : (if words % 2 ≠ 0 then ((words + 1) * WSIZE) % M64 else (words * WSIZE) % M64)
      = extend_size words := rfl
  simp only [e0, hcap, if_true]
  have hpb : GET_PREV_ALLOC { s with brk := s.brk + extend_size words } (HDRP s.brk)
      = if lastAlloc false bs then 1 else 0 := by
    have : GET { s with brk := s.brk + extend_size words } (s.brk - 4) = GET s (s.brk - 4) := rfl
    exact GET_PREV_ALLOC_hdr (this.trans hepi) (by norm_num)
  have e2 : FTRP (PUT { s with brk := s.brk + extend_size words } (HDRP s.brk)
      (extend_size words)) s.brk = s.brk + extend_size words - 8 := by
    unfold FTRP DSIZE
    rw [GET_SIZE_PUT _ _ _ h8 (by omega)]
  simp only [hpb, PACK_zero, e2]
  rw [PUT_PREV_ALLOC_word (z := extend_size words) _ _ h8]
  · have e3 : NEXT_BLKP (PUT (PUT (PUT { s with brk := s.brk + extend_size words }
        (HDRP s.brk) (extend_size words)) (s.brk + extend_size words - 8)
        (extend_size words)) (HDRP s.brk)
        (hdrWord (extend_size words) false (lastAlloc false bs))) s.brk
        = s.brk + extend_size words := by
      unfold NEXT_BLKP WSIZE
      rw [← HDRP_eq]
      rw [GET_SIZE_hdr (GET_PUT_eq _ _ _ (hdrWord_free _ _ (by omega))) h8]
    rw [e3]
    have e4 : PACK 0 1 = 1 := by decide
    rw [e4]
    simp [HDRP_eq]
  · rw [HDRP_eq, GET_PUT_disj _ _ _ _ (by omega), GET_PUT_eq _ _ _ (by omega)]

theorem extend_heap_spec {s : State} {bs : List Blk} {L : Nat → List Nat} {words : Nat}
    (hinv : Inv s bs L) (h16 : 16 ≤ extend_size words) (h8 : extend_size words % 8 = 0)
    (hcap : s.brk + extend_size words ≤ s.cap) :
    ∃ k1 m L1, Merged bs ⟨s.brk, extend_size words, false⟩ [] k1 m [] ∧
      (extend_heap s words).1 = m.bp ∧ Inv (extend_heap s words).2 (k1 ++ [m]) L1 ∧
      (extend_heap s words).2.brk = s.brk + extend_size words ∧
      (extend_heap s words).2.cap = s.cap ∧
      ∀ a, Safe bs a → (extend_heap s words).2.mem a = s.mem a := by
  have hS := START_val
  obtain ⟨ht, hl, hnaf⟩ := hinv
  have hbb := ht.brk_bounds
  have hcl := ht.cap_lt
  have hepi := ht.epi
  have hnew : extend_heap s words = coalesce
      (PUT (PUT (PUT (PUT { s with brk := s.brk + extend_size words } (s.brk - 4)
        (extend_size words)) (s.brk + extend_size words - 8) (extend_size words)) (s.brk - 4)
        (hdrWord (extend_size words) false (lastAlloc false bs)))
        (s.brk + extend_size words - 4) 1) s.brk := by
    unfold extend_heap mem_sbrk
    have e0 : (if words % 2 ≠ 0 then ((words + 1) * WSIZE) % M64 else (words * WSIZE) % M64)
        = extend_size words := rfl
    simp only [e0, hcap, if_true]
    have hpb : GET_PREV_ALLOC { s with brk := s.brk + extend_size words } (HDRP s.brk)
        = if lastAlloc false bs then 1 else 0 := by
      have : GET { s with brk := s.brk + extend_size words } (s.brk - 4) = GET s (s.brk - 4) := rfl
      exact GET_PREV_ALLOC_hdr (this.trans hepi) (by norm_num)
    have e2 : FTRP (PUT { s with brk := s.brk + extend_size words } (HDRP s.brk)
        (extend_size words)) s.brk = s.brk + extend_size words - 8 := by
      unfold FTRP DSIZE
      rw [GET_SIZE_PUT _ _ _ h8 (by omega)]
    simp only [hpb, PACK_zero, e2]
    rw [PUT_PREV_ALLOC_word (z := extend_size words) _ _ h8]
    · have e3 : NEXT_BLKP (PUT (PUT (PUT { s with brk := s.brk + extend_size words }
          (HDRP s.brk) (extend_size words)) (s.brk + extend_size words - 8)
          (extend_size words)) (HDRP s.brk)
          (hdrWord (extend_size words) false (lastAlloc false bs))) s.brk
          = s.brk + extend_size words := by
        unfold NEXT_BLKP WSIZE
        rw [← HDRP_eq]
        rw [GET_SIZE_hdr (GET_PUT_eq _ _ _ (hdrWord_free _ _ (by omega))) h8]
      rw [e3]
      have e4 : PACK 0 1 = 1 := by decide
      rw [e4]
      simp [HDRP_eq]
    · rw [HDRP_eq, GET_PUT_disj _ _ _ _ (by omega), GET_PUT_eq _ _ _ (by omega)]
  rw [hnew]
  obtain ⟨hT, hL, hB, hC, hM⟩ := extend_mark ht hl h16 h8 hcap
  generalize (PUT (PUT (PUT (PUT { s with brk := s.brk + extend_size words } (s.brk - 4)
        (extend_size words)) (s.brk + extend_size words - 8) (extend_size words)) (s.brk - 4)
        (hdrWord (extend_size words) false (lastAlloc false bs)))
        (s.brk + extend_size words - 4) 1) = s4 at hT hL hB hC hM ⊢
  obtain ⟨k1, m, k2, L1, h1, h2, h3, h4⟩ := @coalesce_spec _ _ []
    ⟨s.brk, extend_size words, false⟩ _ hT hL rfl hnaf (NAFp_nil _)
  have hk2 : k2 = [] := by
    obtain ⟨ps, ns, _, _, hc⟩ := h1
    rcases hc with ⟨hc, _⟩ | ⟨n, hc, _⟩
    · exact hc
    · cases hc
  subst hk2
  refine ⟨k1, m, L1, h1, h2, h3, ?_, ?_, ?_⟩
  · rw [h4.1, hB]
  · rw [h4.2.1, hC]
  · intro a ha
    have h5 : Safe (bs ++ [(⟨s.brk, extend_size words, false⟩ : Blk)]) a := by
      obtain ⟨c, hc, hca, h6, h7⟩ := ha
      exact ⟨c, by simp [hc], hca, h6, h7⟩
    rw [h4.2.2.2.2 a h5]
    obtain ⟨c, hc, hca, h6, h7⟩ := ha
    have := ht.bounds hc
    exact hM a (by omega)

/-- The links of a list member, read from memory. -/
theorem Lists.reads {s : State} {bs : List Blk} {L : Nat → List Nat} {pend : Nat → Prop}
    (hl : Lists s bs L pend) (ht : Tiling s bs) {i : Nat} (hi : i < 2) {l1 l2 : List Nat}
    {x : Nat} (hsplit : L i = l1 ++ x :: l2) :
    PREV s x = l1.getLastD NIL ∧ SUCC s x = l2.headD NIL := by
  have hdl := hl.links i hi
  rw [hsplit] at hdl
  have hmid := DL_mid hdl
  have hv : ∀ z ∈ l1 ++ x :: l2, Vp z := fun z hz => hl.valid ht hi (hsplit ▸ hz)
  have hp := getLastD_valid (l := l1) (fun z hz => hv z (by simp [hz]))
  have hsx := headD_valid (l := l2) (fun z hz => hv z (by simp [hz]))
  exact ⟨PREV_of hmid.1 hp.1 hp.2, SUCC_of hmid.2 hsx.1 hsx.2⟩

/-- The extraction written in `place`, which reads the links once, is the one of
`coalesce`. -/
theorem place_extract {s : State} {bs : List Blk} {L : Nat → List Nat} {pend : Nat → Prop}
    (ht : Tiling s bs) (hl : Lists s bs L pend) {c : Blk} (hc : c ∈ bs)
    (hcf : c.alloc = false) (hnp : ¬ pend c.bp) :
    (if PREV s c.bp ≠ NIL then
        PUT_SUCC (if SUCC s c.bp ≠ NIL then PUT_PREV s (SUCC s c.bp) (PREV s c.bp) else s)
          (PREV s c.bp) (SUCC s c.bp)
      else
        if seg_get (seg_set (if SUCC s c.bp ≠ NIL then PUT_PREV s (SUCC s c.bp) (PREV s c.bp)
            else s) (getPtrBySize (GET_SIZE s (HDRP c.bp))) (SUCC s c.bp))
            (getPtrBySize (GET_SIZE s (HDRP c.bp))) ≠ NIL then
          PUT_PREV (seg_set (if SUCC s c.bp ≠ NIL then PUT_PREV s (SUCC s c.bp) (PREV s c.bp)
            else s) (getPtrBySize (GET_SIZE s (HDRP c.bp))) (SUCC s c.bp))
            (seg_get (seg_set (if SUCC s c.bp ≠ NIL then PUT_PREV s (SUCC s c.bp) (PREV s c.bp)
              else s) (getPtrBySize (GET_SIZE s (HDRP c.bp))) (SUCC s c.bp))
              (getPtrBySize (GET_SIZE s (HDRP c.bp)))) 0
        else seg_set (if SUCC s c.bp ≠ NIL then PUT_PREV s (SUCC s c.bp) (PREV s c.bp)
            else s) (getPtrBySize (GET_SIZE s (HDRP c.bp))) (SUCC s c.bp))
      = extract s c.bp := by
  have hS := START_val
  have hN := NIL_val
  have hr := getPtrBySize_lt c.size
  have hxL : c.bp ∈ L (getPtrBySize c.size) := (hl.mem _ hr _).2 ⟨hnp, c, hc, rfl, hcf, rfl⟩
  obtain ⟨l1, l2, hsplit⟩ := List.append_of_mem hxL
  obtain ⟨hP, hSc⟩ := hl.reads ht hr hsplit
  have hnd := hl.nodup _ hr
  rw [hsplit] at hnd
  have hcv := ht.vp hc
  unfold extract
  by_cases hs : SUCC s c.bp = NIL
  · simp only [hs, ne_eq, not_true_eq_false, if_false]
  · simp only [hs, ne_eq, not_false_eq_true, if_true]
    have hy : SUCC s c.bp ∈ l2 := by
      rw [hSc] at hs ⊢
      cases l2 with
      | nil => exact absurd rfl hs
      | cons y l => simp
    have hyv : Vp (SUCC s c.bp) := hl.valid ht hr (by rw [hsplit]; simp [hy])
    have hyx : SUCC s c.bp ≠ c.bp := by
      intro e
      rw [e] at hy
      have := (List.nodup_append.1 hnd).2.1
      exact (List.nodup_cons.1 this).1 hy
    have h1 : PREV (PUT_PREV s (SUCC s c.bp) (PREV s c.bp)) c.bp = PREV s c.bp := by
      unfold PREV
      rw [PUT_PREV_eq, GET_PUT_disj _ _ _ _ (by have := hyv.1; have := hcv.1; omega)]
    have h2 : SUCC (PUT_PREV s (SUCC s c.bp) (PREV s c.bp)) c.bp = SUCC s c.bp := by
      generalize hyy : SUCC s c.bp = y at hyv hyx ⊢
      unfold SUCC WSIZE
      rw [PUT_PREV_eq, GET_PUT_disj _ _ _ _ (by have := hyv.1; have := hcv.1; omega)]
      exact hyy
    have h3 : GET_SIZE (PUT_PREV s (SUCC s c.bp) (PREV s c.bp)) (HDRP c.bp)
        = GET_SIZE s (HDRP c.bp) := by
      unfold GET_SIZE
      rw [PUT_PREV_eq, HDRP_eq,
        GET_PUT_disj _ _ _ _ (by have := hyv.1; have := hcv.1; have := hcv.2.1; omega)]
    simp only [h1, h2, h3]

theorem hdrWord_true_false (size : Nat) : hdrWord size true false = size + 1 := by
  simp [hdrWord]

theorem hdrWord_false_false (size : Nat) : hdrWord size false false = size := by
  simp [hdrWord]

/-- Placing with a split, with the resulting bucket lists: the block is taken out of its
list and the remainder is put at the front of the bucket of its size. -/
theorem place_split_lists {s : State} {l1 l2 : List Blk} {c : Blk} {L : Nat → List Nat}
    {asize : Nat}
    (hinv : Inv s (l1 ++ c :: l2) L) (hcf : c.alloc = false)
    (ha16 : 16 ≤ asize) (ha8 : asize % 8 = 0) (hle : asize ≤ c.size)
    (hr : 16 ≤ c.size - asize) :
    Inv (place s c.bp asize)
        (l1 ++ [⟨c.bp, asize, true⟩, ⟨c.bp + asize, c.size - asize, false⟩] ++ l2)
        (pushL (eraseL L c.bp) (getPtrBySize (c.size - asize)) (c.bp + asize)) ∧
      Keeps s (place s c.bp asize) (l1 ++ c :: l2) := by
  have hS := START_val
  obtain ⟨ht, hl, hnaf⟩ := hinv
  have hcm : c ∈ l1 ++ c :: l2 := by simp
  have hbd := ht.bounds hcm
  have hsz := ht.size_of hcm
  have hex := place_extract ht hl hcm hcf not_false
  obtain ⟨hT2, hL2, hK2⟩ := Lists_extract_lists ht hl hcm hcf not_false
  have hsz2 := hT2.size_of hcm
  have hpb2 : GET_PREV_ALLOC (extract s c.bp) (HDRP c.bp)
      = if lastAlloc false l1 then 1 else 0 := hT2.pbit_of
  have hxl : ∀ i, i < 2 → c.bp ∉ eraseL L c.bp i := by
    intro i hi hm
    exact ((hL2.mem i hi c.bp).1 hm).1 (Or.inr rfl)
  generalize hrs : c.size - asize = rsize at hr
  have hrs8 : rsize % 8 = 0 := by omega
  have hrsz : (c.size + M64 - asize % M64) % M64 = rsize := by
    unfold M64; omega
  have hco : place s c.bp asize = push_front
      (PUT (PUT (PUT (PUT (PUT (PUT (extract s c.bp) (c.bp - 4) (asize + 1))
        (c.bp + asize - 8) (asize + 1)) (c.bp - 4) (hdrWord asize true (lastAlloc false l1)))
        (c.bp + asize - 4) rsize) (c.bp + asize + rsize - 8) rsize) (c.bp + asize - 4)
        (hdrWord rsize false true))
      (c.bp + asize) (getPtrBySize rsize) := by
    unfold place
    simp only [hex]
    rw [HDRP_eq] at hsz hpb2
    simp only [hsz, hrsz, MINBLOCK, ge_iff_le, hr, if_true, hpb2, PACK_one asize ha8, PACK_zero,
      HDRP_eq]
    have e1 : FTRP (PUT (extract s c.bp) (c.bp - 4) (asize + 1)) c.bp = c.bp + asize - 8 := by
      unfold FTRP DSIZE
      rw [HDRP_eq, GET_SIZE_hdr (a := true) (q := false)
        (by rw [GET_PUT_eq _ _ _ (by omega), hdrWord_true_false]) ha8]
    have e2 : PUT_PREV_ALLOC (PUT (PUT (extract s c.bp) (c.bp - 4) (asize + 1))
        (c.bp + asize - 8) (asize + 1)) (c.bp - 4) (if lastAlloc false l1 then 1 else 0)
        = PUT (PUT (PUT (extract s c.bp) (c.bp - 4) (asize + 1))
        (c.bp + asize - 8) (asize + 1)) (c.bp - 4) (hdrWord asize true (lastAlloc false l1)) := by
      apply PUT_PREV_ALLOC_hdr (q := false) _ _ ha8
      rw [GET_PUT_disj _ _ _ _ (by omega), GET_PUT_eq _ _ _ (by omega), hdrWord_true_false]
    have e3 : NEXT_BLKP (PUT (PUT (PUT (extract s c.bp) (c.bp - 4) (asize + 1))
        (c.bp + asize - 8) (asize + 1)) (c.bp - 4) (hdrWord asize true (lastAlloc false l1)))
        c.bp = c.bp + asize := by
      unfold NEXT_BLKP WSIZE
      rw [GET_SIZE_hdr (GET_PUT_eq _ _ _ (by
        have := @hdrWord_lt asize true (lastAlloc false l1); omega)) ha8]
    simp only [e1, e2, e3]
    have e4 : FTRP (PUT (PUT (PUT (PUT (extract s c.bp) (c.bp - 4) (asize + 1))
        (c.bp + asize - 8) (asize + 1)) (c.bp - 4) (hdrWord asize true (lastAlloc false l1)))
        (c.bp + asize - 4) rsize) (c.bp + asize) = c.bp + asize + rsize - 8 := by
      unfold FTRP DSIZE
      rw [HDRP_eq, GET_SIZE_PUT _ _ _ hrs8 (by omega)]
    have e5 : PUT_PREV_ALLOC (PUT (PUT (PUT (PUT (PUT (extract s c.bp) (c.bp - 4) (asize + 1))
        (c.bp + asize - 8) (asize + 1)) (c.bp - 4) (hdrWord asize true (lastAlloc false l1)))
        (c.bp + asize - 4) rsize) (c.bp + asize + rsize - 8) rsize) (c.bp + asize - 4) 1
        = PUT (PUT (PUT (PUT (PUT (PUT (extract s c.bp) (c.bp - 4) (asize + 1))
        (c.bp + asize - 8) (asize + 1)) (c.bp - 4) (hdrWord asize true (lastAlloc false l1)))
        (c.bp + asize - 4) rsize) (c.bp + asize + rsize - 8) rsize) (c.bp + asize - 4)
        (hdrWord rsize false true) := by
      have := PUT_PREV_ALLOC_word (s := PUT (PUT (PUT (PUT (PUT (extract s c.bp) (c.bp - 4)
        (asize + 1)) (c.bp + asize - 8) (asize + 1)) (c.bp - 4)
        (hdrWord asize true (lastAlloc false l1))) (c.bp + asize - 4) rsize)
        (c.bp + asize + rsize - 8) rsize) (p := c.bp + asize - 4) (z := rsize) true
        (by rw [GET_PUT_disj _ _ _ _ (by omega), GET_PUT_eq _ _ _ (by omega)]) hrs8
      simpa using this
    simp only [e4, e5]
    have e6 : GET_SIZE (PUT (PUT (PUT (PUT (PUT (PUT (extract s c.bp) (c.bp - 4) (asize + 1))
        (c.bp + asize - 8) (asize + 1)) (c.bp - 4) (hdrWord asize true (lastAlloc false l1)))
        (c.bp + asize - 4) rsize) (c.bp + asize + rsize - 8) rsize) (c.bp + asize - 4)
        (hdrWord rsize false true)) (c.bp + asize - 4) = rsize :=
      GET_SIZE_hdr (GET_PUT_eq _ _ _ (hdrWord_free _ _ (by omega))) hrs8
    rw [e6]
  rw [hco]
  generalize extract s c.bp = s2 at hT2 hL2 hK2 hxl ⊢
  generalize hs8 : (PUT (PUT (PUT (PUT (PUT (PUT s2 (c.bp - 4) (asize + 1))
        (c.bp + asize - 8) (asize + 1)) (c.bp - 4) (hdrWord asize true (lastAlloc false l1)))
        (c.bp + asize - 4) rsize) (c.bp + asize + rsize - 8) rsize) (c.bp + asize - 4)
        (hdrWord rsize false true)) = s8
  have hm8 : ∀ a, a < c.bp - 4 ∨ c.bp + c.size - 4 ≤ a → s8.mem a = s2.mem a := by
    intro a ha
    rw [← hs8, PUT_mem_other _ _ _ _ (by omega), PUT_mem_other _ _ _ _ (by omega),
      PUT_mem_other _ _ _ _ (by omega), PUT_mem_other _ _ _ _ (by omega),
      PUT_mem_other _ _ _ _ (by omega), PUT_mem_other _ _ _ _ (by omega)]
  have hg1 : GET s8 (c.bp - 4) = hdrWord asize true (lastAlloc false l1) := by
    rw [← hs8, GET_PUT_disj _ _ _ _ (by omega), GET_PUT_disj _ _ _ _ (by omega),
      GET_PUT_disj _ _ _ _ (by omega), GET_PUT_eq _ _ _ (by
        have := @hdrWord_lt asize true (lastAlloc false l1); omega)]
  have hg2 : GET s8 (c.bp + asize - 4) = hdrWord rsize false true := by
    rw [← hs8, GET_PUT_eq _ _ _ (hdrWord_free _ _ (by omega))]
  have hg3 : GET s8 (c.bp + asize + rsize - 8) = rsize := by
    rw [← hs8, GET_PUT_disj _ _ _ _ (by omega), GET_PUT_eq _ _ _ (by omega)]
  have hfl : s8.brk = s2.brk ∧ s8.cap = s2.cap ∧ s8.heap_listp = s2.heap_listp ∧
      s8.seg = s2.seg := by
    rw [← hs8]; exact ⟨rfl, rfl, rfl, rfl⟩
  obtain ⟨P, hP, hbP, hQ, hh, hnx⟩ := hT2.mid
  subst hbP
  rw [hcf] at hnx
  have e : l1 ++ c :: l2 = l1 ++ [c] ++ l2 := by simp
  rw [e] at hT2 hL2
  obtain ⟨hT, hL, hK⟩ := retag
    (M := [⟨c.bp, asize, true⟩, ⟨c.bp + asize, rsize, false⟩])
    (E := fun a => a = c.bp + asize)
    hT2 hL2 hxl hfl.1 hfl.2.1 hfl.2.2.1 hfl.2.2.2 (fun a ha => hm8 a (by omega))
    (by simp only [Contig]; exact ⟨trivial, trivial, by omega⟩)
    (by
      intro d hd
      rcases mem_two hd with rfl | rfl
      · exact ⟨ha16, ha8⟩
      · exact ⟨hr, hrs8⟩)
    (by
      intro x hx
      simp only [withPrev, List.mem_cons, List.mem_singleton, List.not_mem_nil, or_false] at hx
      rcases hx with rfl | rfl
      · exact hg1
      · simp only
        rw [show c.bp + asize - 4 = c.bp + asize - 4 from rfl]
        exact hg2)
    (by
      intro d hd hdf
      rcases mem_two hd with rfl | rfl
      · cases hdf
      · exact hg3)
    (by
      simp only [lastAlloc]
      rw [GET_frame _ (fun a h1 h2 => hm8 a (by omega))]
      exact hnx)
    (by
      intro d hd hdf
      rcases mem_two hd with rfl | rfl
      · cases hdf
      · rfl)
    (by
      intro d hd
      have hdm : d ∈ l1 ++ [c] ++ l2 := by
        simp only [List.mem_append] at hd ⊢
        rcases hd with hd | hd
        · exact Or.inl (Or.inl hd)
        · exact Or.inr hd
      have hne : d.bp ≠ c.bp ∧ d.bp ≠ c.bp + asize := by
        simp only [List.mem_append] at hd
        rcases hd with hd | hd
        · have := Contig_bounds hP hd
          have := (hT2.sizes d hdm).1
          constructor <;> omega
        · have := Contig_bounds hQ hd
          constructor <;> omega
      simp only [hne.1, hne.2, or_false])
  have hrm : (⟨c.bp + asize, rsize, false⟩ : Blk) ∈
      l1 ++ [⟨c.bp, asize, true⟩, ⟨c.bp + asize, rsize, false⟩] ++ l2 := by simp
  obtain ⟨h1, h2, h3⟩ := Lists_push (E := fun _ => False) hT hL hrm rfl rfl
    (fun a => by simp)
  refine ⟨⟨h1, h2, ?_⟩, ?_⟩
  · unfold NAF at hnaf ⊢
    rw [NAFp_append, NAFp_cons, hcf] at hnaf
    rw [NAFp_append, NAFp_append, lastAlloc_append]
    refine ⟨⟨hnaf.1, ?_⟩, ?_⟩
    · rw [NAFp_cons, NAFp_cons]
      exact ⟨Or.inl rfl, Or.inr rfl, NAFp_nil _⟩
    · simpa [lastAlloc] using hnaf.2.2
  · rw [e]
    have hK' : Keeps s2 s8 (l1 ++ [c] ++ l2) := by
      refine ⟨hfl.1, hfl.2.1, hfl.2.2.1, hfl.2.2.2, ?_⟩
      rintro a ⟨d, hd, hda, h4, h5⟩
      simp only [List.mem_append, List.mem_singleton] at hd
      rcases hd with (hd | hd) | hd
      · exact hK a ⟨d, by simp [hd], hda, h4, h5⟩
      · subst hd; rw [hcf] at hda; cases hda
      · exact hK a ⟨d, by simp [hd], hda, h4, h5⟩
    rw [e] at hK2
    refine (hK2.andThen hK').andThen (h3.congr ?_)
    rintro a ⟨d, hd, hda, h4, h5⟩
    simp only [List.mem_append, List.mem_singleton] at hd
    rcases hd with (hd | hd) | hd
    · exact ⟨d, by simp [hd], hda, h4, h5⟩
    · subst hd; rw [hcf] at hda; cases hda
    · exact ⟨d, by simp [hd], hda, h4, h5⟩

theorem place_split {s : State} {l1 l2 : List Blk} {c : Blk} {L : Nat → List Nat} {asize : Nat}
    (hinv : Inv s (l1 ++ c :: l2) L) (hcf : c.alloc = false)
    (ha16 : 16 ≤ asize) (ha8 : asize % 8 = 0) (hle : asize ≤ c.size)
    (hr : 16 ≤ c.size - asize) :
    ∃ L1, Inv (place s c.bp asize)
        (l1 ++ [⟨c.bp, asize, true⟩, ⟨c.bp + asize, c.size - asize, false⟩] ++ l2) L1 ∧
      Keeps s (place s c.bp asize) (l1 ++ c :: l2) :=
  ⟨_, place_split_lists hinv hcf ha16 ha8 hle hr⟩

/-- Placing without a split, with the resulting bucket lists: the block is taken out of
its list. -/
theorem place_whole_lists {s : State} {l1 l2 : List Blk} {c : Blk} {L : Nat → List Nat}
    {asize : Nat}
    (hinv : Inv s (l1 ++ c :: l2) L) (hcf : c.alloc = false)
    (hle : asize ≤ c.size) (hr : ¬ 16 ≤ c.size - asize) :
    Inv (place s c.bp asize) (l1 ++ [⟨c.bp, c.size, true⟩] ++ l2) (eraseL L c.bp) ∧
      Keeps s (place s c.bp asize) (l1 ++ c :: l2) := by
  have hS := START_val
  obtain ⟨ht, hl, hnaf⟩ := hinv
  have hcm : c ∈ l1 ++ c :: l2 := by simp
  have hbd := ht.bounds hcm
  have hsz := ht.size_of hcm
  have hex := place_extract ht hl hcm hcf not_false
  obtain ⟨hT2, hL2, hK2⟩ := Lists_extract_lists ht hl hcm hcf not_false
  have hsz2 := hT2.size_of hcm
  have hpb2 : GET_PREV_ALLOC (extract s c.bp) (HDRP c.bp)
      = if lastAlloc false l1 then 1 else 0 := hT2.pbit_of
  have hxl : ∀ i, i < 2 → c.bp ∉ eraseL L c.bp i := by
    intro i hi hm
    exact ((hL2.mem i hi c.bp).1 hm).1 (Or.inr rfl)
  have hrsz : (c.size + M64 - asize % M64) % M64 = c.size - asize := by
    unfold M64; omega
  obtain ⟨P, hP, hbP, hQ, hh, hnx⟩ := hT2.mid
  subst hbP
  rw [hcf] at hnx
  have hs2 : ∀ d ∈ l2, d.size % 8 = 0 := fun d hd => (ht.sizes d (by simp [hd])).2
  have hs2' : ∀ d ∈ l2, d.size + 4 ≤ 2 ^ 32 := fun d hd => by
    have := ht.bounds (show d ∈ l1 ++ c :: l2 by simp [hd])
    omega
  have hco : place s c.bp asize =
      PUT (PUT (PUT (PUT (extract s c.bp) (c.bp - 4) (c.size + 1))
        (c.bp + c.size - 8) (c.size + 1)) (c.bp - 4) (hdrWord c.size true (lastAlloc false l1)))
        (c.bp + c.size - 4) (nextWord true l2) := by
    unfold place
    simp only [hex]
    rw [HDRP_eq] at hsz hsz2 hpb2
    simp only [HDRP_eq, hsz, hrsz, MINBLOCK, ge_iff_le, hr, if_false, hpb2, hsz2,
      PACK_one c.size hbd.2.2.2.1]
    have e0 : GET_SIZE (PUT (extract s c.bp) (c.bp - 4) (c.size + 1)) (c.bp - 4) = c.size :=
      GET_SIZE_hdr (a := true) (q := false)
        (by rw [GET_PUT_eq _ _ _ (by omega), hdrWord_true_false]) hbd.2.2.2.1
    have e1 : FTRP (PUT (extract s c.bp) (c.bp - 4) (c.size + 1)) c.bp = c.bp + c.size - 8 := by
      unfold FTRP DSIZE
      rw [HDRP_eq, e0]
    have e2 : PUT_PREV_ALLOC (PUT (PUT (extract s c.bp) (c.bp - 4) (c.size + 1))
        (c.bp + c.size - 8) (c.size + 1)) (c.bp - 4) (if lastAlloc false l1 then 1 else 0)
        = PUT (PUT (PUT (extract s c.bp) (c.bp - 4) (c.size + 1))
        (c.bp + c.size - 8) (c.size + 1)) (c.bp - 4)
          (hdrWord c.size true (lastAlloc false l1)) := by
      apply PUT_PREV_ALLOC_hdr (q := false) _ _ hbd.2.2.2.1
      rw [GET_PUT_disj _ _ _ _ (by omega), GET_PUT_eq _ _ _ (by omega), hdrWord_true_false]
    have e3 : NEXT_BLKP (PUT (PUT (PUT (extract s c.bp) (c.bp - 4) (c.size + 1))
        (c.bp + c.size - 8) (c.size + 1)) (c.bp - 4) (hdrWord c.size true (lastAlloc false l1)))
        c.bp = c.bp + c.size := by
      unfold NEXT_BLKP WSIZE
      rw [GET_SIZE_hdr (GET_PUT_eq _ _ _ (by
        have := @hdrWord_lt c.size true (lastAlloc false l1); omega)) hbd.2.2.2.1]
    simp only [e0, PACK_one c.size hbd.2.2.2.1, e1, e2, e3]
    have e4 := PUT_PREV_ALLOC_next (s := PUT (PUT (PUT (extract s c.bp) (c.bp - 4) (c.size + 1))
        (c.bp + c.size - 8) (c.size + 1)) (c.bp - 4) (hdrWord c.size true (lastAlloc false l1)))
        (p := c.bp + c.size - 4) (q := false) (l := l2) true (by
          rw [GET_PUT_disj _ _ _ _ (by omega), GET_PUT_disj _ _ _ _ (by omega),
            GET_PUT_disj _ _ _ _ (by omega)]
          exact hnx) hs2
    simpa using e4
  rw [hco]
  generalize extract s c.bp = s2 at hT2 hL2 hK2 hxl hnx hh ⊢
  generalize hs8 : (PUT (PUT (PUT (PUT s2 (c.bp - 4) (c.size + 1))
        (c.bp + c.size - 8) (c.size + 1)) (c.bp - 4) (hdrWord c.size true (lastAlloc false l1)))
        (c.bp + c.size - 4) (nextWord true l2)) = s8
  have hm8 : ∀ a, a < c.bp - 4 ∨ c.bp + c.size ≤ a → s8.mem a = s2.mem a := by
    intro a ha
    rw [← hs8, PUT_mem_other _ _ _ _ (by omega), PUT_mem_other _ _ _ _ (by omega),
      PUT_mem_other _ _ _ _ (by omega), PUT_mem_other _ _ _ _ (by omega)]
  have hg1 : GET s8 (c.bp - 4) = hdrWord c.size true (lastAlloc false l1) := by
    rw [← hs8, GET_PUT_disj _ _ _ _ (by omega), GET_PUT_eq _ _ _ (by
        have := @hdrWord_lt c.size true (lastAlloc false l1); omega)]
  have hg3 : GET s8 (c.bp + c.size - 4) = nextWord true l2 := by
    rw [← hs8, GET_PUT_eq _ _ _ (nextWord_lt _ hs2')]
  have hfl : s8.brk = s2.brk ∧ s8.cap = s2.cap ∧ s8.heap_listp = s2.heap_listp ∧
      s8.seg = s2.seg := by
    rw [← hs8]; exact ⟨rfl, rfl, rfl, rfl⟩
  have e : l1 ++ c :: l2 = l1 ++ [c] ++ l2 := by simp
  rw [e] at hT2 hL2
  obtain ⟨hT, hL, hK⟩ := retag
    (M := [⟨c.bp, c.size, true⟩])
    (E := fun _ => False)
    hT2 hL2 hxl hfl.1 hfl.2.1 hfl.2.2.1 hfl.2.2.2 hm8
    (by simp only [Contig]; exact ⟨trivial, trivial⟩)
    (by
      intro d hd
      rw [List.mem_singleton] at hd
      subst hd
      exact ⟨hbd.2.2.1, hbd.2.2.2.1⟩)
    (by
      intro x hx
      simp only [withPrev, List.mem_singleton] at hx
      subst hx
      exact hg1)
    (by
      intro d hd hdf
      rw [List.mem_singleton] at hd
      subst hd
      cases hdf)
    (by simpa [lastAlloc] using hg3)
    (by
      intro d hd hdf
      rw [List.mem_singleton] at hd
      subst hd
      cases hdf)
    (by
      intro d hd
      have hdm : d ∈ l1 ++ [c] ++ l2 := by
        simp only [List.mem_append] at hd ⊢
        rcases hd with hd | hd
        · exact Or.inl (Or.inl hd)
        · exact Or.inr hd
      have hne : d.bp ≠ c.bp := by
        simp only [List.mem_append] at hd
        rcases hd with hd | hd
        · have := Contig_bounds hP hd
          have := (hT2.sizes d hdm).1
          omega
        · have := Contig_bounds hQ hd
          omega
      simp only [hne, or_false])
  refine ⟨⟨hT, hL, ?_⟩, ?_⟩
  · unfold NAF at hnaf ⊢
    rw [NAFp_append, NAFp_cons, hcf] at hnaf
    rw [NAFp_append, NAFp_append, lastAlloc_append]
    refine ⟨⟨hnaf.1, ?_⟩, ?_⟩
    · rw [NAFp_cons]
      exact ⟨Or.inl rfl, NAFp_nil _⟩
    · simpa [lastAlloc] using NAFp_true_of hnaf.2.2
  · rw [e] at hK2 ⊢
    refine hK2.andThen ⟨hfl.1, hfl.2.1, hfl.2.2.1, hfl.2.2.2, ?_⟩
    rintro a ⟨d, hd, hda, h4, h5⟩
    simp only [List.mem_append, List.mem_singleton] at hd
    rcases hd with (hd | hd) | hd
    · exact hK a ⟨d, by simp [hd], hda, h4, h5⟩
    · subst hd; rw [hcf] at hda; cases hda
    · exact hK a ⟨d, by simp [hd], hda, h4, h5⟩

theorem place_whole {s : State} {l1 l2 : List Blk} {c : Blk} {L : Nat → List Nat} {asize : Nat}
    (hinv : Inv s (l1 ++ c :: l2) L) (hcf : c.alloc = false)
    (hle : asize ≤ c.size) (hr : ¬ 16 ≤ c.size - asize) :
    ∃ L1, Inv (place s c.bp asize) (l1 ++ [⟨c.bp, c.size, true⟩] ++ l2) L1 ∧
      Keeps s (place s c.bp asize) (l1 ++ c :: l2) :=
  ⟨_, place_whole_lists hinv hcf hle hr⟩

theorem place_spec {s : State} {l1 l2 : List Blk} {c : Blk} {L : Nat → List Nat} {asize : Nat}
    (hinv : Inv s (l1 ++ c :: l2) L) (hcf : c.alloc = false)
    (ha16 : 16 ≤ asize) (ha8 : asize % 8 = 0) (hle : asize ≤ c.size) :
    ∃ L1, Inv (place s c.bp asize) (l1 ++ placed c asize ++ l2) L1 ∧
      Keeps s (place s c.bp asize) (l1 ++ c :: l2) := by
  unfold placed MINBLOCK
  by_cases hr : 16 ≤ c.size - asize
  · simp only [hr, if_true]
    exact place_split hinv hcf ha16 ha8 hle hr
  · simp only [hr, if_false]
    exact place_whole hinv hcf hle hr

theorem Fits.ne_null {s : State} {bs : List Blk} (ht : Tiling s bs) {asize p : Nat}
    (h : Fits bs asize p) : p ≠ NULL := by
  obtain ⟨c, hc, _, rfl, _⟩ := h
  have := (ht.bounds hc).1
  have hS := START_val
  unfold NULL
  omega

/-- The inner loop of `find_fit` over the rest `l` of a bucket list. -/
theorem scan_spec {s : State} {bs : List Blk} (ht : Tiling s bs) (asize : Nat) :
    ∀ (l : List Nat) (pv fuel ptr bsize bptr : Nat),
      DL s pv l NIL → (∀ z ∈ l, ∃ c ∈ bs, c.bp = z ∧ c.alloc = false) →
      ptr = l.headD NIL → (bptr = NULL ∨ Fits bs asize bptr) →
      (∀ res, find_fit_scan s asize fuel ptr bsize bptr = some res →
        (∀ p, res = Scan.ret p → Fits bs asize p) ∧
        (∀ b1 p1, res = Scan.done b1 p1 → p1 = NULL ∨ Fits bs asize p1)) ∧
      (l.length ≤ fuel → ∃ res, find_fit_scan s asize fuel ptr bsize bptr = some res) := by
  have hS := START_val
  have hN := NIL_val
  intro l
  induction l with
  | nil =>
    intro pv fuel ptr bsize bptr _ _ hptr hb
    simp only [List.headD_nil] at hptr
    subst hptr
    have e : find_fit_scan s asize fuel NIL bsize bptr = some (Scan.done bsize bptr) := by
      cases fuel <;> simp [find_fit_scan]
    rw [e]
    refine ⟨fun res hres => ?_, fun _ => ⟨_, rfl⟩⟩
    rw [Option.some.injEq] at hres
    subst hres
    constructor
    · intro p hp; cases hp
    · intro b1 p1 hp
      cases hp
      exact hb
  | cons x xs ih =>
    intro pv fuel ptr bsize bptr hdl hmem hptr hb
    simp only [List.headD_cons] at hptr
    subst hptr
    obtain ⟨c, hc, hcx, hcf⟩ := hmem ptr (List.mem_cons_self _ _)
    subst hcx
    have hcv := ht.vp hc
    have hne : c.bp ≠ NIL := by have := hcv.2.1; omega
    cases fuel with
    | zero =>
      refine ⟨fun res hres => ?_, fun hlen => ?_⟩
      · simp [find_fit_scan, hne] at hres
      · simp at hlen
    | succ fuel =>
      have hsz := ht.size_of hc
      have hvs : ∀ z ∈ xs, Vp z := by
        intro z hz
        obtain ⟨d, hd, hdz, _⟩ := hmem z (List.mem_cons_of_mem _ hz)
        subst hdz
        exact ht.vp hd
      have hsx := headD_valid hvs
      simp only [DL] at hdl
      have hsucc : SUCC s c.bp = xs.headD NIL := SUCC_of hdl.2.1 hsx.1 hsx.2
      have hmem' : ∀ z ∈ xs, ∃ c ∈ bs, c.bp = z ∧ c.alloc = false :=
        fun z hz => hmem z (List.mem_cons_of_mem _ hz)
      simp only [find_fit_scan, hne, if_false, hsz, hsucc]
      by_cases h1 : c.size = asize
      · simp only [h1, if_true]
        refine ⟨fun res hres => ?_, fun _ => ⟨_, rfl⟩⟩
        cases hres
        refine ⟨fun p hp => ?_, fun b1 p1 hp => by cases hp⟩
        cases hp
        exact ⟨c, hc, hcf, rfl, by omega⟩
      · simp only [h1, if_false]
        by_cases h2 : c.size > asize ∧ c.size - asize < bsize
        · simp only [h2, and_self, if_true]
          by_cases h3 : c.size - asize ≤ asize / 2
          · simp only [h3, if_true]
            refine ⟨fun res hres => ?_, fun _ => ⟨_, rfl⟩⟩
            rw [Option.some.injEq] at hres
            subst hres
            constructor
            · intro p hp
              cases hp
              exact ⟨c, hc, hcf, rfl, by omega⟩
            · intro b1 p1 hp; cases hp
          · simp only [h3, if_false]
            have := ih c.bp fuel (xs.headD NIL) (c.size - asize) c.bp hdl.2.2 hmem' rfl
              (Or.inr ⟨c, hc, hcf, rfl, by omega⟩)
            exact ⟨this.1, fun hlen => this.2 (by simpa using hlen)⟩
        · simp only [h2, if_false]
          have := ih c.bp fuel (xs.headD NIL) bsize bptr hdl.2.2 hmem' rfl hb
          exact ⟨this.1, fun hlen => this.2 (by simpa using hlen)⟩

theorem buckets_spec {s : State} {bs : List Blk} {L : Nat → List Nat}
    (ht : Tiling s bs) (hl : Lists s bs L (fun _ => False)) (asize fuel : Nat) :
    ∀ (n i bsize bptr : Nat), i + n = 2 → (bptr = NULL ∨ Fits bs asize bptr) →
      (∀ r, find_fit_buckets s asize fuel n i bsize bptr = some r →
        r = NULL ∨ Fits bs asize r) ∧
      ((∀ j, j < 2 → (L j).length ≤ fuel) →
        ∃ r, find_fit_buckets s asize fuel n i bsize bptr = some r) := by
  intro n
  induction n with
  | zero =>
    intro i bsize bptr _ hb
    simp only [find_fit_buckets]
    exact ⟨fun r hr => by cases hr; exact hb, fun _ => ⟨_, rfl⟩⟩
  | succ n ih =>
    intro i bsize bptr hi hb
    have hi2 : i < 2 := by omega
    have hsc := scan_spec ht asize (L i) NIL fuel (seg_get s i) bsize bptr (hl.links i hi2)
      (fun z hz => by
        obtain ⟨c, hc, h1, h2, _⟩ := hl.blk hi2 hz
        exact ⟨c, hc, h1, h2⟩) (hl.head i hi2) hb
    simp only [find_fit_buckets]
    constructor
    · intro r hr
      cases hscan : find_fit_scan s asize fuel (seg_get s i) bsize bptr with
      | none => rw [hscan] at hr; cases hr
      | some res =>
        rw [hscan] at hr
        have h1 := hsc.1 res hscan
        cases res with
        | ret p0 =>
          simp only [Option.some.injEq] at hr
          subst hr
          exact Or.inr (h1.1 _ rfl)
        | done b1 p1 =>
          simp only at hr
          have h2 := h1.2 b1 p1 rfl
          by_cases hp : p1 = NULL
          · simp only [hp, ne_eq, not_true_eq_false, if_false] at hr
            exact (ih (i + 1) b1 NULL (by omega) (Or.inl rfl)).1 r hr
          · simp only [ne_eq, hp, not_false_eq_true, if_true, Option.some.injEq] at hr
            subst hr
            exact h2
    · intro hlen
      obtain ⟨res, hscan⟩ := hsc.2 (hlen i hi2)
      rw [hscan]
      have h1 := hsc.1 res hscan
      cases res with
      | ret p => exact ⟨_, rfl⟩
      | done b1 p1 =>
        simp only
        by_cases hp : p1 = NULL
        · simp only [hp, ne_eq, not_true_eq_false, if_false]
          exact (ih (i + 1) b1 NULL (by omega) (Or.inl rfl)).2 hlen
        · simp only [ne_eq, hp, not_false_eq_true, if_true]
          exact ⟨_, rfl⟩

theorem find_fit_spec {s : State} {bs : List Blk} {L : Nat → List Nat}
    (ht : Tiling s bs) (hl : Lists s bs L (fun _ => False)) (asize fuel : Nat) :
    (∀ r, find_fit fuel s asize = some r → r = NULL ∨ Fits bs asize r) ∧
      ((∀ j, j < 2 → (L j).length ≤ fuel) → ∃ r, find_fit fuel s asize = some r) := by
  unfold find_fit
  have hr := getPtrBySize_lt asize
  exact buckets_spec ht hl asize fuel (BUCKET_COUNT - getPtrBySize asize) (getPtrBySize asize)
    (M64 - 2 ^ 31) NULL (by unfold BUCKET_COUNT; omega) (Or.inl rfl)

theorem nodup_length_le {l : List Nat} {N : Nat} (hn : l.Nodup) (h : ∀ z ∈ l, z < N) :
    l.length ≤ N := by
  have h1 : l.toFinset ⊆ Finset.range N := by
    intro z hz
    rw [List.mem_toFinset] at hz
    exact Finset.mem_range.2 (h z hz)
  have h2 := Finset.card_le_card h1
  rw [List.toFinset_card_of_nodup hn, Finset.card_range] at h2
  exact h2

theorem Lists.length_le {s : State} {bs : List Blk} {L : Nat → List Nat} {pend : Nat → Prop}
    (hl : Lists s bs L pend) (ht : Tiling s bs) {j : Nat} (hj : j < 2) :
    (L j).length ≤ s.brk - START := by
  have hS := START_val
  have h1 : ((L j).map (fun z => z - START)).Nodup := by
    refine (List.nodup_map_iff_inj_on (hl.nodup j hj)).2 ?_
    intro x hx y hy hxy
    have := (hl.valid ht hj hx).2.1
    have := (hl.valid ht hj hy).2.1
    omega
  have h2 := nodup_length_le (N := s.brk - START) h1 (by
    intro z hz
    obtain ⟨w, hw, rfl⟩ := List.mem_map.1 hz
    obtain ⟨c, hc, rfl, _⟩ := hl.blk hj hw
    have := ht.bounds hc
    omega)
  simpa using h2

/-! ## The size adjustment of `mm_malloc` -/

theorem and_M64_8 (w : Nat) (hw : w < 2 ^ 64) : w &&& (M64 - 8) = w / 8 * 8 := by
  have h1 : w = 2 ^ 3 * (w / 8) + w % 8 := by omega
  have h2 : M64 - 8 = 2 ^ 3 * (2 ^ 61 - 1) + 0 := by norm_num [M64]
  have hlt : w % 8 < 2 ^ 3 := by omega
  have hk : w / 8 < 2 ^ 61 := by omega
  rw [h2]
  conv_lhs => rw [h1]
  rw [and_split hlt (by norm_num), Nat.and_pow_two_sub_one_eq_mod, Nat.mod_eq_of_lt hk]
  simp
  omega

theorem and_seven (w : Nat) : w &&& 7 = w % 8 :=
  Nat.and_pow_two_sub_one_eq_mod w 3

theorem adjust_spec {size : Nat} (h0 : 0 < size) (h : size < M64 - 11) :
    16 ≤ adjust size ∧ adjust size % 8 = 0 ∧ size + 4 ≤ adjust size ∧
      adjust size < M64 := by
  have hM : M64 = 18446744073709551616 := by norm_num [M64]
  unfold adjust
  simp only [WSIZE, MINBLOCK, DSIZE]
  by_cases h1 : size ≤ 2 * 4
  · rw [if_pos h1]
    omega
  · rw [if_neg h1]
    rw [and_seven, and_M64_8 size (by omega)]
    by_cases h2 : size % 8 ≤ 4
    · simp only [h2, if_true]
      have e1 : (size / 8 * 8 + 8 + (8 - 1)) % M64 = size / 8 * 8 + 15 :=
        Nat.mod_eq_of_lt (by omega)
      rw [e1]
      have e2 : (8 * ((size / 8 * 8 + 15) / 8)) % M64 = 8 * ((size / 8 * 8 + 15) / 8) :=
        Nat.mod_eq_of_lt (by omega)
      rw [e2]
      omega
    · simp only [h2, if_false]
      have e1 : (size + 8 + (8 - 1)) % M64 = size + 15 := Nat.mod_eq_of_lt (by omega)
      rw [e1]
      have e2 : (8 * ((size + 15) / 8)) % M64 = 8 * ((size + 15) / 8) :=
        Nat.mod_eq_of_lt (by omega)
      rw [e2]
      omega

theorem extend_size_of {n : Nat} (h8 : n % 8 = 0) (hn : n < M64) :
    extend_size (n / WSIZE) = n := by
  have hM : M64 = 18446744073709551616 := by norm_num [M64]
  unfold extend_size WSIZE
  have h2 : n / 4 % 2 = 0 := by omega
  simp only [h2, ne_eq, not_true_eq_false, if_false]
  rw [Nat.mod_eq_of_lt (by omega)]
  omega

theorem extend_heap_size (s : State) (words : Nat) :
    extend_heap s words =
      match mem_sbrk s (extend_size words) with
      | (none, s0) => (NULL, s0)
      | (some bp, s0) =>
        let size := extend_size words
        let alloc := GET_PREV_ALLOC s0 (HDRP bp)
        let s1 := PUT s0 (HDRP bp) (PACK size 0)
        let s2 := PUT s1 (FTRP s1 bp) (PACK size 0)
        let s3 := PUT_PREV_ALLOC s2 (HDRP bp) alloc
        let s4 := PUT s3 (HDRP (NEXT_BLKP s3 bp)) (PACK 0 1)
        coalesce s4 bp := rfl

/-! ## `mm_malloc` -/

theorem Inv.hlp_ne {s : State} {bs : List Blk} {L : Nat → List Nat} (hinv : Inv s bs L) :
    ¬ s.heap_listp = 0 := by
  have hS := START_val
  rw [hinv.1.hlp]
  omega

theorem Merged.alloc_false {l1 l2 k1 k2 : List Blk} {b m : Blk} (h : Merged l1 b l2 k1 m k2) :
    m.alloc = false := by
  obtain ⟨ps, ns, rfl, _, _⟩ := h
  rfl

theorem Merged.size_le {l1 l2 k1 k2 : List Blk} {b m : Blk} (h : Merged l1 b l2 k1 m k2) :
    b.size ≤ m.size := by
  obtain ⟨ps, ns, rfl, _, _⟩ := h
  show b.size ≤ ps + b.size + ns
  omega

/-- An allocated block next to a coalesced block is still in the list. -/
theorem Merged.keeps {l1 l2 k1 k2 : List Blk} {b m : Blk} (h : Merged l1 b l2 k1 m k2)
    {x : Blk} (hx : x ∈ l1 ++ l2) (hxa : x.alloc = true) : x ∈ k1 ++ k2 := by
  obtain ⟨ps, ns, _, h1, h2⟩ := h
  rw [List.mem_append] at hx ⊢
  rcases hx with hx | hx
  · left
    rcases h1 with ⟨rfl, _, _⟩ | ⟨p, rfl, hp, _⟩
    · exact hx
    · rw [List.mem_append, List.mem_singleton] at hx
      rcases hx with hx | rfl
      · exact hx
      · rw [hp] at hxa; cases hxa
  · right
    rcases h2 with ⟨rfl, _, _⟩ | ⟨n, rfl, hn, _⟩
    · exact hx
    · rw [List.mem_cons] at hx
      rcases hx with rfl | hx
      · rw [hn] at hxa; cases hxa
      · exact hx

theorem mm_malloc_spec {s : State} {bs : List Blk} {L : Nat → List Nat} {fuel size p : Nat}
    {s1 : State} (hinv : Inv s bs L) (h0 : 0 < size) (h : size < M64 - 11)
    (hm : mm_malloc fuel s size = some (p, s1)) :
    (p = NULL ∧ s1 = s) ∨
      ∃ l1 c l2 L1, c.bp = p ∧ c.alloc = false ∧ adjust size ≤ c.size ∧
        Inv s1 (l1 ++ placed c (adjust size) ++ l2) L1 ∧ s1.cap = s.cap ∧
        (∀ a, Safe bs a → s1.mem a = s.mem a) ∧
        ((bs = l1 ++ c :: l2 ∧ s1.brk = s.brk) ∨
          (l2 = [] ∧ s.brk < s1.brk ∧
            Merged bs ⟨s.brk, s1.brk - s.brk, false⟩ [] l1 c [])) := by
  have hS := START_val
  have hM : M64 = 18446744073709551616 := by norm_num [M64]
  obtain ⟨ha16, ha8, _, hau⟩ := adjust_spec h0 h
  unfold mm_malloc at hm
  simp only [hinv.hlp_ne, if_false, Nat.pos_iff_ne_zero.1 h0] at hm
  cases hf : find_fit fuel s (adjust size) with
  | none => rw [hf] at hm; cases hm
  | some bp =>
    rw [hf] at hm
    simp only at hm
    by_cases hbp : bp = NULL
    · simp only [hbp, ne_eq, not_true_eq_false, if_false] at hm
      have hE8 : max (adjust size) CHUNKSIZE % 8 = 0 := by
        unfold CHUNKSIZE
        rcases max_cases (adjust size) 64 with ⟨e, _⟩ | ⟨e, _⟩
        · rw [e]; exact ha8
        · rw [e]
      have hE16 : 16 ≤ max (adjust size) CHUNKSIZE := le_trans ha16 (le_max_left _ _)
      have hElt : max (adjust size) CHUNKSIZE < M64 := by
        unfold CHUNKSIZE
        rcases max_cases (adjust size) 64 with ⟨e, _⟩ | ⟨e, _⟩ <;> rw [e] <;> omega
      have hes := extend_size_of hE8 hElt
      by_cases hcap : s.brk + extend_size (max (adjust size) CHUNKSIZE / WSIZE) ≤ s.cap
      · obtain ⟨k1, m, L1, h1, h2, h3, h4, h5, h6⟩ := extend_heap_spec hinv
          (by rw [hes]; exact hE16) (by rw [hes]; exact hE8) hcap
        have hmb := h3.1.bounds (show m ∈ k1 ++ [m] by simp)
        have hne : ¬ (extend_heap s (max (adjust size) CHUNKSIZE / WSIZE)).1 = NULL := by
          rw [h2]; unfold NULL; omega
        simp only [hne, if_false, Option.some.injEq, Prod.mk.injEq] at hm
        obtain ⟨hp, hs1⟩ := hm
        have hle : adjust size ≤ m.size := by
          have := h1.size_le
          simp only [hes] at this
          exact le_trans (le_max_left _ _) this
        rw [h2] at hp hs1
        obtain ⟨L2, h7, h8⟩ := @place_spec _ k1 [] _ _ _ h3 h1.alloc_false ha16 ha8 hle
        rw [hs1] at h7 h8
        right
        refine ⟨k1, m, [], L2, hp, h1.alloc_false, hle, h7, ?_, ?_, Or.inr ⟨rfl, ?_, ?_⟩⟩
        · rw [h8.2.1, h5]
        · intro a ha
          rw [← h6 a ha]
          apply h8.2.2.2.2
          obtain ⟨x, hx, hxa, hx1, hx2⟩ := ha
          have := h1.keeps (by simpa using hx) hxa
          exact ⟨x, by simpa using Or.inl (by simpa using this), hxa, hx1, hx2⟩
        · rw [h8.1, h4]; omega
        · rw [h8.1, h4, hes]
          rw [hes] at h1
          simpa using h1
      · rw [extend_heap_fail hcap] at hm
        simp only [if_true, Option.some.injEq, Prod.mk.injEq] at hm
        exact Or.inl ⟨hm.1.symm, hm.2.symm⟩
    · simp only [ne_eq, hbp, not_false_eq_true, if_true, Option.some.injEq, Prod.mk.injEq] at hm
      obtain ⟨hp, hs1⟩ := hm
      rcases (find_fit_spec hinv.1 hinv.2.1 (adjust size) fuel).1 bp hf with h1 | h1
      · exact absurd h1 hbp
      · obtain ⟨c, hc, hcf, hcb, hcs⟩ := h1
        obtain ⟨l1, l2, hbs⟩ := List.append_of_mem hc
        subst hbs
        obtain ⟨L1, h2, h3⟩ := place_spec hinv hcf ha16 ha8 hcs
        rw [hcb, hs1] at h2 h3
        right
        exact ⟨l1, c, l2, L1, hcb.trans hp, hcf, hcs, h2, h3.2.1, h3.2.2.2.2,
          Or.inl ⟨rfl, h3.1⟩⟩

theorem mm_malloc_total {s : State} {bs : List Blk} {L : Nat → List Nat} {fuel : Nat}
    (hinv : Inv s bs L) (hfuel : s.brk - START ≤ fuel) (size : Nat) :
    ∃ r, mm_malloc fuel s size = some r := by
  unfold mm_malloc
  simp only [hinv.hlp_ne, if_false]
  by_cases h0 : size = 0
  · simp only [h0, if_true]
    exact ⟨_, rfl⟩
  · simp only [h0, if_false]
    obtain ⟨bp, hf⟩ := (find_fit_spec hinv.1 hinv.2.1 (adjust size) fuel).2
      (fun j hj => le_trans (hinv.2.1.length_le hinv.1 hj) hfuel)
    rw [hf]
    simp only
    by_cases hbp : bp = NULL
    · simp only [hbp, ne_eq, not_true_eq_false, if_false]
      split <;> exact ⟨_, rfl⟩
    · simp only [ne_eq, hbp, not_false_eq_true, if_true]
      exact ⟨_, rfl⟩

/-! ## `mm_init` -/

/-- The heap `mm_init` has built when it calls `extend_heap`: bucket heads, padding,
prologue and epilogue, and no block yet. -/
theorem mm_init_heap_full {s0 : State} (hf : Fresh s0) (hc : START + 32 ≤ s0.cap) :
    ∃ s8, Inv s8 [] (fun _ => []) ∧ s8.brk = START + 32 ∧ s8.cap = s0.cap ∧
      (mm_init s0 = if (extend_heap s8 (CHUNKSIZE / WSIZE)).1 = NULL
        then (-1, (extend_heap s8 (CHUNKSIZE / WSIZE)).2)
        else (0, (extend_heap s8 (CHUNKSIZE / WSIZE)).2)) ∧
      GET s8 (START + 16) = 0 ∧ GET s8 (START + 24) = 9 := by
  have hS := START_val
  have hN := NIL_val
  obtain ⟨hb, hh, hcl⟩ := hf
  obtain ⟨mem, brk, cap, hlp, seg⟩ := s0
  simp only at hb hh hcl hc
  subst hb hh
  have hc1 : START + (4 * WSIZE + BUCKET_COUNT * DSIZE) ≤ cap := hc
  generalize hs2 : seg_set (seg_set (⟨mem, START + 32, cap, START + 24, START⟩ : State) 0 NIL)
    1 NIL = s2
  have hs2f : s2.brk = START + 32 ∧ s2.cap = cap ∧ s2.seg = START ∧
      s2.heap_listp = START + 24 := by
    rw [← hs2]; exact ⟨rfl, rfl, rfl, rfl⟩
  have hg0 : seg_get s2 0 = NIL := by
    rw [← hs2, seg_get_seg_set_ne _ _ _ _ (by decide), seg_get_seg_set_same _ _ _ (by omega)]
  have hg1 : seg_get s2 1 = NIL := by
    rw [← hs2, seg_get_seg_set_same _ _ _ (by omega)]
  generalize hs7 : PUT (PUT (PUT (PUT s2 (START + 16) 0) (START + 20) 9) (START + 24) 9)
    (START + 28) 1 = s7
  have hs7f : s7.brk = START + 32 ∧ s7.cap = cap ∧ s7.seg = START ∧
      s7.heap_listp = START + 24 := by
    rw [← hs7]; exact hs2f
  have hp : GET s7 (START + 20) = 9 := by
    rw [← hs7, GET_PUT_disj _ _ _ _ (by omega), GET_PUT_disj _ _ _ _ (by omega),
      GET_PUT_eq _ _ _ (by norm_num)]
  have he : GET s7 (START + 28) = 1 := by
    rw [← hs7, GET_PUT_eq _ _ _ (by norm_num)]
  have hsg : ∀ i, i < 2 → seg_get s7 i = NIL := by
    intro i hi
    have : seg_get s7 i = seg_get s2 i := by
      rw [← hs7]
      rw [seg_get_PUT_disj _ _ _ _ (by simp only [PUT_seg]; rw [hs2f.2.2.1]; omega),
        seg_get_PUT_disj _ _ _ _ (by simp only [PUT_seg]; rw [hs2f.2.2.1]; omega),
        seg_get_PUT_disj _ _ _ _ (by simp only [PUT_seg]; rw [hs2f.2.2.1]; omega),
        seg_get_PUT_disj _ _ _ _ (by rw [hs2f.2.2.1]; omega)]
    rw [this]
    interval_cases i
    · exact hg0
    · exact hg1
  have hpad : GET s7 (START + 16) = 0 := by
    rw [← hs7, GET_PUT_disj _ _ _ _ (by omega), GET_PUT_disj _ _ _ _ (by omega),
      GET_PUT_disj _ _ _ _ (by omega), GET_PUT_eq _ _ _ (by norm_num)]
  have hpf : GET s7 (START + 24) = 9 := by
    rw [← hs7, GET_PUT_disj _ _ _ _ (by omega), GET_PUT_eq _ _ _ (by norm_num)]
  refine ⟨s7, ?_, hs7f.1, hs7f.2.1, ?_, hpad, hpf⟩
  · refine ⟨⟨hs7f.2.2.1, hs7f.2.2.2, ?_, ?_, hp, ?_, ?_, ?_, ?_, ?_⟩, ⟨?_, ?_, ?_, ?_⟩,
      NAFp_nil _⟩
    · rw [hs7f.1, hs7f.2.1]; exact hc
    · rw [hs7f.2.1]; exact hcl
    · show START + 32 = s7.brk
      rw [hs7f.1]
    · intro b hb; cases hb
    · intro x hx; cases hx
    · intro b hb; cases hb
    · show GET s7 (s7.brk - 4) = 1
      rw [hs7f.1]
      exact he
    · intro i hi
      exact hsg i hi
    · intro i _; trivial
    · intro i _; exact List.nodup_nil
    · intro i _ x
      simp
  · unfold mm_init mem_sbrk
    simp only [hc1, if_true]
    rw [← hs7, ← hs2]
    rfl

theorem mm_init_heap {s0 : State} (hf : Fresh s0) (hc : START + 32 ≤ s0.cap) :
    ∃ s8, Inv s8 [] (fun _ => []) ∧ s8.brk = START + 32 ∧ s8.cap = s0.cap ∧
      mm_init s0 = if (extend_heap s8 (CHUNKSIZE / WSIZE)).1 = NULL
        then (-1, (extend_heap s8 (CHUNKSIZE / WSIZE)).2)
        else (0, (extend_heap s8 (CHUNKSIZE / WSIZE)).2) := by
  obtain ⟨s8, h1, h2, h3, h4, _⟩ := mm_init_heap_full hf hc
  exact ⟨s8, h1, h2, h3, h4⟩

theorem mm_init_spec {s0 : State} (hf : Fresh s0) (h0 : (mm_init s0).1 = 0) :
    ∃ L, Inv (mm_init s0).2 [⟨START + 32, 64, false⟩] L ∧ (mm_init s0).2.brk = START + 96 ∧
      (mm_init s0).2.cap = s0.cap := by
  have hS := START_val
  by_cases hc : START + 32 ≤ s0.cap
  · obtain ⟨s8, hinv, hb, hcp, he⟩ := mm_init_heap hf hc
    have hes : extend_size (CHUNKSIZE / WSIZE) = 64 := by decide
    by_cases hc2 : s8.brk + extend_size (CHUNKSIZE / WSIZE) ≤ s8.cap
    · obtain ⟨k1, m, L1, h1, h2, h3, h4, h5, _⟩ := extend_heap_spec hinv
        (by rw [hes]; norm_num) (by rw [hes]) hc2
      have hmb := h3.1.bounds (show m ∈ k1 ++ [m] by simp)
      have hne : ¬ (extend_heap s8 (CHUNKSIZE / WSIZE)).1 = NULL := by
        rw [h2]; unfold NULL; omega
      rw [he, if_neg hne]
      obtain ⟨ps, ns, hm, hk, hn⟩ := h1
      rcases hk with ⟨rfl, rfl, _⟩ | ⟨p, hp, _⟩
      · rcases hn with ⟨_, rfl, _⟩ | ⟨n, hn, _⟩
        · rw [hes, hb] at hm
          simp only [Nat.sub_zero, Nat.zero_add, Nat.add_zero] at hm
          subst hm
          exact ⟨L1, by simpa using h3, by rw [h4, hb, hes], by rw [h5, hcp]⟩
        · cases hn
      · have := congrArg List.length hp
        simp at this
    · rw [he, extend_heap_fail hc2] at h0
      simp at h0
  · unfold mm_init mem_sbrk at h0
    have hc1 : ¬ s0.brk + (4 * WSIZE + BUCKET_COUNT * DSIZE) ≤ s0.cap := by
      rw [hf.1]; exact hc
    simp only [hc1, if_false] at h0
    cases h0

/-! ## The observers read the ghost state off the heap -/

theorem Contig_length {p q : Nat} {l : List Blk} (h : Contig p l q)
    (hs : ∀ b ∈ l, 16 ≤ b.size) : p + 16 * l.length ≤ q := by
  induction l generalizing p with
  | nil => simp only [Contig] at h; simp [h]
  | cons b l ih =>
    simp only [Contig] at h
    have h1 := ih h.2 (fun c hc => hs c (List.mem_cons_of_mem _ hc))
    have h2 := hs b (List.mem_cons_self _ _)
    simp only [List.length_cons]
    omega

theorem walkBlocks_of (s : State) (q : Nat) (hq : GET_SIZE s (HDRP q) = 0) :
    ∀ (l : List Blk) (p fuel : Nat), Contig p l q →
      (∀ b ∈ l, GET_SIZE s (HDRP b.bp) = b.size ∧ 16 ≤ b.size ∧
        GET_ALLOC s (HDRP b.bp) = if b.alloc then 1 else 0) →
      l.length ≤ fuel → walkBlocks s fuel p = some l := by
  intro l
  induction l with
  | nil =>
    intro p fuel hc _ _
    simp only [Contig] at hc
    subst hc
    cases fuel <;> simp [walkBlocks, hq]
  | cons b l ih =>
    intro p fuel hc hb hlen
    simp only [Contig] at hc
    obtain ⟨hbp, hc⟩ := hc
    subst hbp
    obtain ⟨h1, h2, h3⟩ := hb b (List.mem_cons_self _ _)
    cases fuel with
    | zero => simp at hlen
    | succ fuel =>
      have hne : ¬ GET_SIZE s (HDRP b.bp) = 0 := by rw [h1]; omega
      have hnx : NEXT_BLKP s b.bp = b.bp + b.size := by
        unfold NEXT_BLKP
        rw [← h1]
        rfl
      simp only [walkBlocks, hne, if_false, hnx]
      rw [ih (b.bp + b.size) fuel hc (fun c hc => hb c (List.mem_cons_of_mem _ hc))
        (by simpa using hlen)]
      simp only [h1, h3]
      congr 2
      cases b with
      | mk bp size alloc => cases alloc <;> simp

theorem Tiling.compress_brk {s : State} {bs : List Blk} (ht : Tiling s bs) :
    COMPRESS s.brk = s.brk - START := by
  have hS := START_val
  have hbb := ht.brk_bounds
  unfold COMPRESS M32
  omega

theorem Tiling.heapBlocks {s : State} {bs : List Blk} (ht : Tiling s bs) :
    heapBlocks s = some bs := by
  have hS := START_val
  have hbb := ht.brk_bounds
  unfold MM.heapBlocks
  rw [ht.compress_brk]
  have hn : NEXT_BLKP s s.heap_listp = START + 32 := by
    unfold NEXT_BLKP WSIZE
    rw [ht.hlp]
    have : GET_SIZE s (START + 24 - 4) = 8 :=
      GET_SIZE_hdr (a := true) (q := false) (z := 8) ht.prol (by norm_num)
    rw [this]
  rw [hn]
  apply walkBlocks_of s s.brk
  · exact GET_SIZE_hdr ht.epi (by norm_num)
  · exact ht.contig
  · intro b hb
    exact ⟨ht.size_of hb, (ht.sizes b hb).1, ht.alloc_of hb⟩
  · have := Contig_length ht.contig (fun b hb => (ht.sizes b hb).1)
    omega

theorem walkList_of (s : State) :
    ∀ (l : List Nat) (pv fuel : Nat), DL s pv l NIL → (∀ z ∈ l, Vp z) →
      l.length ≤ fuel → walkList s fuel (l.headD NIL) = some l := by
  have hS := START_val
  have hN := NIL_val
  intro l
  induction l with
  | nil =>
    intro pv fuel _ _ _
    cases fuel <;> simp [walkList]
  | cons x xs ih =>
    intro pv fuel hdl hv hlen
    have hx := hv x (List.mem_cons_self _ _)
    have hne : ¬ x = NIL := by have := hx.2.1; omega
    cases fuel with
    | zero => simp at hlen
    | succ fuel =>
      simp only [DL] at hdl
      have hvs : ∀ z ∈ xs, Vp z := fun z hz => hv z (List.mem_cons_of_mem _ hz)
      have hsx := headD_valid hvs
      have hsucc : SUCC s x = xs.headD NIL := SUCC_of hdl.2.1 hsx.1 hsx.2
      simp only [List.headD_cons, walkList, hne, if_false, hsucc]
      rw [ih x fuel hdl.2.2 hvs (by simpa using hlen)]

theorem Inv.bucketList {s : State} {bs : List Blk} {L : Nat → List Nat} (hinv : Inv s bs L)
    {i : Nat} (hi : i < 2) : bucketList s i = some (L i) := by
  unfold MM.bucketList
  rw [hinv.2.1.head i hi, hinv.1.compress_brk]
  exact walkList_of s (L i) NIL _ (hinv.2.1.links i hi)
    (fun z hz => hinv.2.1.valid hinv.1 hi hz) (hinv.2.1.length_le hinv.1 hi)

theorem allocated_of {s : State} {bs : List Blk} (h : heapBlocks s = some bs) (p : Nat) :
    allocated s p = bs.any (fun b => decide (b.bp = p) && b.alloc) := by
  unfold allocated
  rw [h]

theorem inPayload_of {s : State} {bs : List Blk} (h : heapBlocks s = some bs) (a : Nat) :
    inPayload s a =
      bs.any (fun b => b.alloc && decide (b.bp ≤ a) && decide (a < b.bp + b.size - WSIZE)) := by
  unfold inPayload
  rw [h]

theorem Tiling.allocated_iff {s : State} {bs : List Blk} (ht : Tiling s bs) (p : Nat) :
    allocated s p = true ↔ ∃ b ∈ bs, b.bp = p ∧ b.alloc = true := by
  rw [allocated_of ht.heapBlocks]
  simp only [List.any_eq_true, Bool.and_eq_true, decide_eq_true_eq]

theorem Tiling.inPayload_iff {s : State} {bs : List Blk} (ht : Tiling s bs) (a : Nat) :
    inPayload s a = true ↔ Safe bs a := by
  rw [inPayload_of ht.heapBlocks]
  unfold Safe WSIZE
  simp only [List.any_eq_true, Bool.and_eq_true, decide_eq_true_eq, and_assoc]

/-! ## Writes into allocated payloads, and the consequences of `mm_malloc_spec` -/

theorem Inv_frame {s s1 : State} {bs : List Blk} {L : Nat → List Nat} (hinv : Inv s bs L)
    (hb : s1.brk = s.brk) (hc : s1.cap = s.cap) (hh : s1.heap_listp = s.heap_listp)
    (hsg : s1.seg = s.seg) (hmem : ∀ a, ¬ Safe bs a → s1.mem a = s.mem a) : Inv s1 bs L := by
  obtain ⟨ht, hl, hn⟩ := hinv
  refine ⟨Tiling_frame ht hb hc hh hsg ?_, Lists_frame hl ht.seg_eq hsg ?_ (fun _ _ _ => Iff.rfl),
    hn⟩
  · intro a ha
    apply hmem
    rintro ⟨c, hc, hca, h1, h2⟩
    exact not_sens_payload ht hc h1 (Or.inr ⟨hca, h2⟩) ha
  · rintro a (h | ⟨i, hi, z, hz, h1, h2⟩)
    · exact hmem a (not_safe_low ht (by omega))
    · obtain ⟨c, hc, rfl, hcf, _⟩ := hl.blk hi hz
      have := ht.bounds hc
      exact hmem a (not_safe_of_free ht hc hcf (by omega) (by omega))

theorem placed_head (c : Blk) (asize : Nat) (hle : asize ≤ c.size) :
    ∃ b1 rest, placed c asize = b1 :: rest ∧ b1.bp = c.bp ∧ b1.alloc = true ∧
      asize ≤ b1.size ∧ b1.size ≤ c.size := by
  unfold placed
  split
  · exact ⟨_, _, rfl, rfl, rfl, le_refl _, hle⟩
  · exact ⟨_, _, rfl, rfl, rfl, hle, le_refl _⟩

/-- A block is allocated at `p` with at least `asize` bytes, in space that was free or
lies at or after the old epilogue header. -/
theorem mm_malloc_inv {s : State} {bs : List Blk} {L : Nat → List Nat} {fuel size p : Nat}
    {s1 : State} (hinv : Inv s bs L) (h0 : 0 < size) (h : size < M64 - 11)
    (hm : mm_malloc fuel s size = some (p, s1)) :
    ∃ bs1 L1, Inv s1 bs1 L1 ∧ (∀ b ∈ bs, b.alloc = true → b ∈ bs1) ∧
      (∀ a, Safe bs a → s1.mem a = s.mem a) ∧ (p = NULL → s1 = s) ∧
      (p ≠ NULL → ∃ b1 ∈ bs1, b1.bp = p ∧ b1.alloc = true ∧ adjust size ≤ b1.size ∧
        ∀ a, p - 4 ≤ a → a < p + b1.size - 4 →
          (∃ c ∈ bs, c.alloc = false ∧ c.bp - 4 ≤ a ∧ a < c.bp + c.size - 4) ∨
            s.brk - 4 ≤ a) := by
  have hS := START_val
  rcases mm_malloc_spec hinv h0 h hm with ⟨hp, hs⟩ | ⟨l1, c, l2, L1, hcp, hcf, hle, hi1, _, hmem, hc⟩
  · subst hs
    exact ⟨bs, L, hinv, fun b hb _ => hb, fun _ _ => rfl, fun _ => rfl, fun hne => absurd hp hne⟩
  · obtain ⟨b1, rest, hpl, hb1, hb1a, hb1s, hb1c⟩ := placed_head c (adjust size) hle
    have hb1m : b1 ∈ l1 ++ placed c (adjust size) ++ l2 := by rw [hpl]; simp
    have hpn : p ≠ NULL := by
      have := (hi1.1.bounds hb1m).1
      unfold NULL
      omega
    refine ⟨_, L1, hi1, ?_, hmem, fun hp => absurd hp hpn, fun _ => ⟨b1, hb1m, hb1.trans hcp,
      hb1a, hb1s, ?_⟩⟩
    · intro b hb hba
      rcases hc with ⟨rfl, _⟩ | ⟨rfl, _, hmg⟩
      · simp only [List.mem_append, List.mem_cons] at hb ⊢
        rcases hb with hb | rfl | hb
        · exact Or.inl (Or.inl hb)
        · rw [hcf] at hba; cases hba
        · exact Or.inr hb
      · have := hmg.keeps (by simpa using hb) hba
        simp only [List.append_nil] at this ⊢
        exact List.mem_append_left _ this
    · intro a ha1 ha2
      rcases hc with ⟨rfl, _⟩ | ⟨rfl, _, hmg⟩
      · exact Or.inl ⟨c, by simp, hcf, by omega, by omega⟩
      · obtain ⟨ps, ns, hcm, hk, hn⟩ := hmg
        have hbp : c.bp = s.brk - ps := by rw [hcm]
        rcases hk with ⟨_, rfl, _⟩ | ⟨pl, hpl2, hplf, rfl⟩
        · right; omega
        · have hct := hinv.1.contig
          rw [hpl2, Contig_append] at hct
          obtain ⟨mid, _, hc2⟩ := hct
          simp only [Contig] at hc2
          by_cases hlt : a < s.brk - 4
          · left
            exact ⟨pl, by rw [hpl2]; simp, hplf, by omega, by omega⟩
          · right; omega

/-- The block at `p` with the payload range of a request fits in its block. -/
theorem adjust_room {size : Nat} (h0 : 0 < size) (h : size < M64 - 11) :
    size + 4 ≤ adjust size := (adjust_spec h0 h).2.2.1

theorem mm_free_inv {s : State} {bs : List Blk} {L : Nat → List Nat} {bp : Nat}
    (hinv : Inv s bs L) (hv : bp = NULL ∨ allocated s bp = true) :
    ∃ bs1 L1, Inv (mm_free s bp) bs1 L1 ∧
      (∀ b ∈ bs, b.alloc = true → b.bp ≠ bp → b ∈ bs1 ∧ ∀ a, b.bp ≤ a → a < b.bp + b.size - 4 →
        (mm_free s bp).mem a = s.mem a) := by
  rcases hv with rfl | hv
  · have : mm_free s NULL = s := by simp [mm_free, NULL]
    rw [this]
    exact ⟨bs, L, hinv, fun b hb _ _ => ⟨hb, fun _ _ _ => rfl⟩⟩
  · obtain ⟨b, hb, rfl, hba⟩ := (hinv.1.allocated_iff bp).1 hv
    obtain ⟨l1, l2, rfl⟩ := List.append_of_mem hb
    obtain ⟨k1, m, k2, L1, h1, h2, h3⟩ := mm_free_spec hinv hba
    refine ⟨_, L1, h2, ?_⟩
    intro c hc hca hne
    have hc2 : c ∈ l1 ++ l2 := by
      simp only [List.mem_append, List.mem_cons] at hc ⊢
      rcases hc with hc | rfl | hc
      · exact Or.inl hc
      · exact absurd rfl hne
      · exact Or.inr hc
    constructor
    · have := h1.keeps hc2 hca
      simp only [List.mem_append, List.mem_cons] at this ⊢
      rcases this with h | h
      · exact Or.inl h
      · exact Or.inr (Or.inr h)
    · intro a ha1 ha2
      apply h3.2.2.2.2
      refine ⟨c, ?_, hca, ha1, ha2⟩
      simp only [List.mem_append, List.mem_cons] at hc2 ⊢
      rcases hc2 with h | h
      · exact Or.inl h
      · exact Or.inr (Or.inr h)

/-! ## Every reachable state satisfies the invariant -/

theorem write_block_inv {s s1 : State} {bs : List Blk} {L : Nat → List Nat} {b1 : Blk}
    (hinv : Inv s bs L) (hb1 : b1 ∈ bs) (hb1a : b1.alloc = true) {n : Nat}
    (hn : n + 4 ≤ b1.size) (hb : s1.brk = s.brk) (hc : s1.cap = s.cap)
    (hh : s1.heap_listp = s.heap_listp) (hsg : s1.seg = s.seg)
    (hmem : ∀ a, ¬ (b1.bp ≤ a ∧ a < b1.bp + n) → s1.mem a = s.mem a) : Inv s1 bs L := by
  refine Inv_frame hinv hb hc hh hsg (fun a ha => hmem a ?_)
  rintro ⟨h1, h2⟩
  exact ha ⟨b1, hb1, hb1a, h1, by omega⟩

theorem memcpy_other (s : State) (dst src n a : Nat) (h : ¬ (dst ≤ a ∧ a < dst + n)) :
    (memcpy s dst src n).mem a = s.mem a := by
  show (if dst ≤ a ∧ a < dst + n then _ else _) = _
  rw [if_neg h]

theorem memset0_some {s s1 : State} {dst n : Nat} (h : memset0 s dst n = some s1) :
    (START ≤ dst ∧ dst + n ≤ s.cap) ∧
      s1 = { s with mem := fun a => if dst ≤ a ∧ a < dst + n then 0 else s.mem a } := by
  unfold memset0 at h
  split_ifs at h with hc
  · rw [Option.some.injEq] at h
    exact ⟨hc, h.symm⟩

theorem memset0_other {s s1 : State} {dst n : Nat} (h : memset0 s dst n = some s1) (a : Nat)
    (ha : ¬ (dst ≤ a ∧ a < dst + n)) : s1.mem a = s.mem a := by
  rw [(memset0_some h).2]
  show (if dst ≤ a ∧ a < dst + n then _ else _) = _
  rw [if_neg ha]

theorem memset0_glob {s s1 : State} {dst n : Nat} (h : memset0 s dst n = some s1) :
    s1.brk = s.brk ∧ s1.cap = s.cap ∧ s1.heap_listp = s.heap_listp ∧ s1.seg = s.seg := by
  rw [(memset0_some h).2]
  exact ⟨rfl, rfl, rfl, rfl⟩

theorem mm_malloc_zero {s : State} {bs : List Blk} {L : Nat → List Nat} (hinv : Inv s bs L)
    (fuel : Nat) : mm_malloc fuel s 0 = some (NULL, s) := by
  unfold mm_malloc
  simp only [hinv.hlp_ne, if_false, if_true]

/-- The invariant after `mm_malloc`, for any request that does not wrap around. -/
theorem mm_malloc_keeps {s : State} {bs : List Blk} {L : Nat → List Nat} {fuel size p : Nat}
    {s1 : State} (hinv : Inv s bs L) (h : size < M64 - 11)
    (hm : mm_malloc fuel s size = some (p, s1)) : ∃ bs1 L1, Inv s1 bs1 L1 := by
  rcases Nat.eq_zero_or_pos size with h0 | h0
  · subst h0
    rw [mm_malloc_zero hinv] at hm
    simp only [Option.some.injEq, Prod.mk.injEq] at hm
    rw [← hm.2]
    exact ⟨bs, L, hinv⟩
  · obtain ⟨bs1, L1, h1, _⟩ := mm_malloc_inv hinv h0 h hm
    exact ⟨bs1, L1, h1⟩

theorem mm_realloc_keeps {s : State} {bs : List Blk} {L : Nat → List Nat}
    {fuel ptr size r : Nat} {s1 : State} (hinv : Inv s bs L)
    (hv : ptr = NULL ∨ allocated s ptr = true) (h : size < M64 - 11)
    (hm : mm_realloc fuel s ptr size = some (r, s1)) : ∃ bs1 L1, Inv s1 bs1 L1 := by
  unfold mm_realloc at hm
  by_cases h0 : size = 0
  · simp only [h0, if_true, Option.some.injEq, Prod.mk.injEq] at hm
    obtain ⟨bs1, L1, h1, _⟩ := mm_free_inv hinv hv
    rw [hm.2] at h1
    exact ⟨bs1, L1, h1⟩
  · simp only [h0, if_false] at hm
    by_cases hp : ptr = NULL
    · simp only [hp, if_true] at hm
      exact mm_malloc_keeps hinv h hm
    · simp only [hp, if_false] at hm
      have hal : allocated s ptr = true := hv.resolve_left hp
      obtain ⟨b, hb, hbp, hba⟩ := (hinv.1.allocated_iff ptr).1 hal
      cases hmal : mm_malloc fuel s size with
      | none => rw [hmal] at hm; cases hm
      | some res =>
        obtain ⟨newptr, s2⟩ := res
        rw [hmal] at hm
        simp only at hm
        obtain ⟨bs1, L1, h1, h2, _, _, h5⟩ :=
          mm_malloc_inv hinv (Nat.pos_of_ne_zero h0) h hmal
        by_cases hn : newptr = 0
        · simp only [hn, if_true, Option.some.injEq, Prod.mk.injEq] at hm
          rw [hm.2] at h1
          exact ⟨bs1, L1, h1⟩
        · simp only [hn, if_false, Option.some.injEq, Prod.mk.injEq] at hm
          obtain ⟨b1, hb1, hb1p, hb1a, hb1s, _⟩ := h5 hn
          have hroom := adjust_room (Nat.pos_of_ne_zero h0) h
          generalize hk : (if size < GET_SIZE s2 (HDRP ptr) then size
            else GET_SIZE s2 (HDRP ptr)) = k at hm
          have hkle : k ≤ size := by
            rw [← hk]; split <;> omega
          have h6 : Inv (memcpy s2 newptr ptr k) bs1 L1 :=
            write_block_inv h1 hb1 hb1a (n := k) (by omega) rfl rfl rfl rfl
              (fun a ha => memcpy_other _ _ _ _ _ (by rw [hb1p] at ha; exact ha))
          have h7 : allocated (memcpy s2 newptr ptr k) ptr = true :=
            (h6.1.allocated_iff ptr).2 ⟨b, h2 b hb hba, hbp, hba⟩
          obtain ⟨bs2, L2, h8, _⟩ := mm_free_inv h6 (Or.inr h7)
          rw [hm.2] at h8
          exact ⟨bs2, L2, h8⟩

theorem mm_calloc_keeps {s : State} {bs : List Blk} {L : Nat → List Nat}
    {fuel nmemb size r : Nat} {s1 : State} (hinv : Inv s bs L)
    (h : (nmemb * size) % M64 < M64 - 11)
    (hm : mm_calloc fuel s nmemb size = some (r, s1)) : ∃ bs1 L1, Inv s1 bs1 L1 := by
  unfold mm_calloc at hm
  by_cases h0 : (nmemb * size) % M64 ≤ 0
  · simp only [h0, if_true, Option.some.injEq, Prod.mk.injEq] at hm
    rw [← hm.2]
    exact ⟨bs, L, hinv⟩
  · simp only [h0, if_false] at hm
    cases hmal : mm_malloc fuel s ((nmemb * size) % M64) with
    | none => rw [hmal] at hm; cases hm
    | some res =>
      obtain ⟨bp, s2⟩ := res
      rw [hmal] at hm
      simp only at hm
      obtain ⟨bs1, L1, h1, _, _, _, h5⟩ := mm_malloc_inv hinv (by omega) h hmal
      by_cases hn : bp = NULL
      · simp only [hn, if_true, Option.some.injEq, Prod.mk.injEq] at hm
        rw [hm.2] at h1
        exact ⟨bs1, L1, h1⟩
      · simp only [hn, if_false] at hm
        cases hz : memset0 s2 bp ((nmemb * size) % M64) with
        | none => rw [hz] at hm; cases hm
        | some s3 =>
          rw [hz] at hm
          simp only [Option.some.injEq, Prod.mk.injEq] at hm
          obtain ⟨b1, hb1, hb1p, hb1a, hb1s, _⟩ := h5 hn
          have hroom := @adjust_room ((nmemb * size) % M64) (by omega) h
          have hg := memset0_glob hz
          have h6 : Inv s3 bs1 L1 :=
            write_block_inv h1 hb1 hb1a (n := (nmemb * size) % M64) (by omega) hg.1 hg.2.1
              hg.2.2.1 hg.2.2.2
              (fun a ha => memset0_other hz a (by rw [hb1p] at ha; exact ha))
          rw [hm.2] at h6
          exact ⟨bs1, L1, h6⟩

theorem poke_keeps {s : State} {bs : List Blk} {L : Nat → List Nat} {a v : Nat}
    (hinv : Inv s bs L) (ha : inPayload s a = true) : Inv (poke s a v) bs L := by
  have hs := (hinv.1.inPayload_iff a).1 ha
  refine Inv_frame hinv rfl rfl rfl rfl (fun x hx => ?_)
  show (if x = a then v else s.mem x) = s.mem x
  rw [if_neg]
  rintro rfl
  exact hx hs

theorem Reachable.inv {s : State} (h : Reachable s) : ∃ bs L, Inv s bs L := by
  induction h with
  | init s0 hf h0 =>
    obtain ⟨L, h1, _⟩ := mm_init_spec hf h0
    exact ⟨_, L, h1⟩
  | call s c fuel r s1 _ hv hok he ih =>
    obtain ⟨bs, L, hinv⟩ := ih
    cases c with
    | malloc size =>
      simp only [Call.small, Call.request, decide_eq_true_eq] at hok
      exact mm_malloc_keeps hinv hok he
    | free bp =>
      simp only [Call.valid, Bool.or_eq_true, decide_eq_true_eq] at hv
      simp only [exec, Option.some.injEq, Prod.mk.injEq] at he
      obtain ⟨bs1, L1, h1, _⟩ := mm_free_inv hinv hv
      rw [he.2] at h1
      exact ⟨bs1, L1, h1⟩
    | realloc ptr size =>
      simp only [Call.small, Call.request, decide_eq_true_eq] at hok
      simp only [Call.valid, Bool.and_eq_true, Bool.or_eq_true, decide_eq_true_eq] at hv
      exact mm_realloc_keeps hinv hv.1 hok he
    | calloc nmemb size =>
      simp only [Call.small, Call.request, decide_eq_true_eq] at hok
      exact mm_calloc_keeps hinv hok he
  | write s a v _ hp ih =>
    obtain ⟨bs, L, hinv⟩ := ih
    exact ⟨bs, L, poke_keeps hinv hp⟩

/-! ## Runs, and list facts used by the claims -/

theorem Reach_run {ok : Call → Bool} (fuel : Nat) :
    ∀ (cs : List Call) (s : State), Reach ok s → runOK ok fuel s cs = true →
      Reach ok (runD fuel s cs) := by
  intro cs
  induction cs with
  | nil => intro s hs _; exact hs
  | cons c cs ih =>
    intro s hs h
    simp only [runOK, Bool.and_eq_true] at h
    obtain ⟨⟨hv, hok⟩, h⟩ := h
    cases he : exec fuel s c with
    | none => rw [he] at h; cases h
    | some r =>
      obtain ⟨p, s1⟩ := r
      rw [he] at h
      simp only [runD, he]
      exact ih s1 (Reach.call s c fuel p s1 hs hv hok he) h

theorem Reach_init0 (ok : Call → Bool) : Reach ok (mm_init st0).2 :=
  Reach.init st0 ⟨rfl, rfl, by decide⟩ (by decide)

theorem withPrev_chain {P : Blk → Bool → Prop} :
    ∀ (bs : List Blk) (pa : Bool), (∀ x ∈ withPrev pa bs, P x.1 x.2) →
      List.Chain' (fun a b => P b a.alloc) bs ∧ ∀ b, bs.head? = some b → P b pa := by
  intro bs
  induction bs with
  | nil =>
    intro pa _
    exact ⟨List.chain'_nil, fun b hb => by cases hb⟩
  | cons c bs ih =>
    intro pa h
    have h1 := ih c.alloc (fun x hx => h x (by simp only [withPrev]; exact List.mem_cons_of_mem _ hx))
    have h2 : P c pa := h (c, pa) (by simp [withPrev])
    refine ⟨?_, fun b hb => ?_⟩
    · cases bs with
      | nil => exact List.chain'_singleton _
      | cons d bs =>
        rw [List.chain'_cons]
        exact ⟨h1.2 d rfl, h1.1⟩
    · simp only [List.head?_cons, Option.some.injEq] at hb
      subst hb
      exact h2

theorem lastAlloc_getLast : ∀ (bs : List Blk) (pa : Bool) (b : Blk),
    bs.getLast? = some b → lastAlloc pa bs = b.alloc := by
  intro bs
  induction bs with
  | nil => intro pa b hb; cases hb
  | cons c bs ih =>
    intro pa b hb
    cases bs with
    | nil =>
      simp only [List.getLast?_singleton, Option.some.injEq] at hb
      subst hb
      rfl
    | cons d bs =>
      rw [List.getLast?_cons_cons] at hb
      simp only [lastAlloc]
      exact ih c.alloc b hb

theorem Inv.lists_nodup {s : State} {bs : List Blk} {L : Nat → List Nat} (hinv : Inv s bs L) :
    (L 0 ++ L 1).Nodup := by
  rw [List.nodup_append]
  refine ⟨hinv.2.1.nodup 0 (by norm_num), hinv.2.1.nodup 1 (by norm_num), ?_⟩
  intro a h0 h1
  exact hinv.2.1.disjoint hinv.1 (i := 0) (j := 1) (by norm_num) (by norm_num) (by norm_num)
    h0 h1 rfl

theorem Inv.mem_lists {s : State} {bs : List Blk} {L : Nat → List Nat} (hinv : Inv s bs L)
    {i : Nat} (hi : i < 2) (x : Nat) :
    x ∈ L i ↔ ∃ b ∈ bs, b.bp = x ∧ b.alloc = false ∧ getPtrBySize b.size = i := by
  rw [hinv.2.1.mem i hi x]
  simp

/-- The result of a successful `mm_malloc` in a state that satisfies the invariant. -/
theorem malloc_result {s : State} {bs : List Blk} {L : Nat → List Nat} {fuel size : Nat}
    {r : Nat × State} (hinv : Inv s bs L) (h : size < M64 - 11)
    (hm : mm_malloc fuel s size = some r) (hp : r.1 ≠ NULL) :
    0 < size ∧ ∃ bs1 L1, Inv r.2 bs1 L1 ∧ (∀ b ∈ bs, b.alloc = true → b ∈ bs1) ∧
      (∀ a, Safe bs a → r.2.mem a = s.mem a) ∧
      ∃ b1 ∈ bs1, b1.bp = r.1 ∧ b1.alloc = true ∧ adjust size ≤ b1.size ∧
        ∀ a, r.1 - 4 ≤ a → a < r.1 + b1.size - 4 →
          (∃ c ∈ bs, c.alloc = false ∧ c.bp - 4 ≤ a ∧ a < c.bp + c.size - 4) ∨
            s.brk - 4 ≤ a := by
  have h0 : 0 < size := by
    rcases Nat.eq_zero_or_pos size with h0 | h0
    · subst h0
      rw [mm_malloc_zero hinv] at hm
      simp only [Option.some.injEq] at hm
      rw [← hm] at hp
      exact absurd rfl hp
    · exact h0
  have hm1 : mm_malloc fuel s size = some (r.1, r.2) := hm
  obtain ⟨bs1, L1, h1, h2, h3, _, h5⟩ := mm_malloc_inv hinv h0 h hm1
  exact ⟨h0, bs1, L1, h1, h2, h3, h5 hp⟩

theorem malloc_returns {s : State} {bs : List Blk} {L : Nat → List Nat} (hinv : Inv s bs L)
    (size : Nat) : ∃ r, mm_malloc (COMPRESS s.brk) s size = some r :=
  mm_malloc_total hinv (by rw [hinv.1.compress_brk]) size

/-! ## The claims -/

/-- C2, amended: in every state reachable by calls whose requests are below `2^64 - 11`,
`mm_malloc(size)` with `0 < size < 2^32 - 16` returns, and when the pointer `p` is not
null, `p` is an allocated block of the chain, its header has the allocated bit and a size
of at least `size + 4`, and `p + size` is at or before the header of the next block. -/
theorem C2_malloc_block (s : State) (size : Nat) (hr : Reachable s) (h0 : 0 < size)
    (hs : size < 2 ^ 32 - 16) :
    (∃ r, mm_malloc (COMPRESS s.brk) s size = some r) ∧
      ∀ fuel r, mm_malloc fuel s size = some r → r.1 ≠ NULL →
        allocated r.2 r.1 = true ∧ GET_ALLOC r.2 (HDRP r.1) = 1 ∧
          size + WSIZE ≤ GET_SIZE r.2 (HDRP r.1) ∧
          r.1 + size ≤ HDRP (NEXT_BLKP r.2 r.1) := by
  have hM : M64 = 18446744073709551616 := by norm_num [M64]
  have hs1 : size < M64 - 11 := by omega
  obtain ⟨bs, L, hinv⟩ := Reachable.inv hr
  refine ⟨malloc_returns hinv size, fun fuel r hm hp => ?_⟩
  obtain ⟨_, bs1, L1, h1, _, _, b1, hb1, hb1p, hb1a, hb1s, _⟩ := malloc_result hinv hs1 hm hp
  have hroom := adjust_room h0 hs1
  have hsz := h1.1.size_of hb1
  have hal := h1.1.alloc_of hb1
  rw [hb1p] at hsz hal
  rw [hb1a] at hal
  have hsz2 : GET_SIZE r.2 (r.1 - WSIZE) = b1.size := hsz
  refine ⟨(h1.1.allocated_iff r.1).2 ⟨b1, hb1, hb1p, hb1a⟩, by simpa using hal, ?_, ?_⟩
  · rw [hsz]; unfold WSIZE; omega
  · unfold NEXT_BLKP
    rw [hsz2]
    show r.1 + size ≤ r.1 + b1.size - 4
    omega

/-- C3, amended: in every state reachable by calls whose requests are below `2^64 - 11`,
the block returned by a successful `mm_malloc(size)`, `0 < size < 2^64 - 11`, was not an
allocated block before the call; every byte of it, header included, lies in a block that
was free before the call or at or after the old epilogue header (the last 4 bytes of the
old heap); and every block that was allocated before the call is still a block of the
chain with the same address, size and allocated bit, and does not overlap the new one. -/
theorem C3_malloc_fresh (s : State) (size : Nat) (hr : Reachable s) (hs : size < M64 - 11) :
    ∃ bs, heapBlocks s = some bs ∧
      ∀ fuel r, mm_malloc fuel s size = some r → r.1 ≠ NULL →
        ∃ bs1, heapBlocks r.2 = some bs1 ∧ allocated s r.1 = false ∧
          ∃ b1 ∈ bs1, b1.bp = r.1 ∧ b1.alloc = true ∧
            (∀ a, b1.bp - 4 ≤ a → a < b1.bp + b1.size - 4 →
              (∃ c ∈ bs, c.alloc = false ∧ c.bp - 4 ≤ a ∧ a < c.bp + c.size - 4) ∨
                s.brk - 4 ≤ a) ∧
            ∀ b ∈ bs, b.alloc = true →
              b ∈ bs1 ∧ (b.bp + b.size ≤ b1.bp ∨ b1.bp + b1.size ≤ b.bp) := by
  obtain ⟨bs, L, hinv⟩ := Reachable.inv hr
  refine ⟨bs, hinv.1.heapBlocks, fun fuel r hm hp => ?_⟩
  obtain ⟨_, bs1, L1, h1, h2, _, b1, hb1, hb1p, hb1a, _, h6⟩ := malloc_result hinv hs hm hp
  have hb1d := h1.1.bounds hb1
  have hne : ∀ b ∈ bs, b.alloc = true → b.bp ≠ r.1 := by
    intro b hb hba e
    have hbd := hinv.1.bounds hb
    rcases h6 (r.1 - 4) (le_refl _) (by omega) with ⟨c, hc, hcf, h7, h8⟩ | h7
    · have hcd := hinv.1.bounds hc
      rcases Contig_tri hinv.1.contig hb hc with e1 | e1 | e1
      · subst e1; rw [hcf] at hba; cases hba
      · omega
      · omega
    · omega
  refine ⟨bs1, h1.1.heapBlocks, ?_, b1, hb1, hb1p, hb1a, ?_, ?_⟩
  · cases hal : allocated s r.1 with
    | false => rfl
    | true =>
      obtain ⟨b, hb, hbp, hba⟩ := (hinv.1.allocated_iff r.1).1 hal
      exact absurd hbp (hne b hb hba)
  · rw [hb1p]; exact h6
  · intro b hb hba
    refine ⟨h2 b hb hba, ?_⟩
    rcases Contig_tri h1.1.contig (h2 b hb hba) hb1 with e1 | e1 | e1
    · subst e1; exact absurd hb1p (hne b hb hba)
    · exact Or.inl e1
    · exact Or.inr e1

/-- C4, amended: in every state reachable by calls whose requests are below `2^64 - 11`,
`mm_malloc(size)` with `size < 2^64 - 11`, and `mm_free(p)` with `p` null or an allocated
block, leave every block that was allocated before the call, and is not the block being
released, in the chain with its address, size and allocated bit, and leave every byte of
its payload range `[q, q + size - 4)` unchanged. -/
theorem C4_frame (s : State) (hr : Reachable s) :
    ∃ bs, heapBlocks s = some bs ∧
      (∀ fuel size r, size < M64 - 11 → mm_malloc fuel s size = some r →
        ∃ bs1, heapBlocks r.2 = some bs1 ∧ ∀ b ∈ bs, b.alloc = true →
          b ∈ bs1 ∧ ∀ a, b.bp ≤ a → a < b.bp + b.size - 4 → r.2.mem a = s.mem a) ∧
      ∀ p, (p = NULL ∨ allocated s p = true) →
        ∃ bs1, heapBlocks (mm_free s p) = some bs1 ∧ ∀ b ∈ bs, b.alloc = true → b.bp ≠ p →
          b ∈ bs1 ∧ ∀ a, b.bp ≤ a → a < b.bp + b.size - 4 → (mm_free s p).mem a = s.mem a := by
  obtain ⟨bs, L, hinv⟩ := Reachable.inv hr
  refine ⟨bs, hinv.1.heapBlocks, ?_, ?_⟩
  · intro fuel size r hs hm
    by_cases hp : r.1 = NULL
    · have hr2 : r.2 = s := by
        rcases Nat.eq_zero_or_pos size with h0 | h0
        · subst h0
          rw [mm_malloc_zero hinv] at hm
          simp only [Option.some.injEq] at hm
          rw [← hm]
        · have hm1 : mm_malloc fuel s size = some (r.1, r.2) := hm
          obtain ⟨_, _, _, _, _, h4, _⟩ := mm_malloc_inv hinv h0 hs hm1
          exact h4 hp
      rw [hr2]
      exact ⟨bs, hinv.1.heapBlocks, fun b hb _ => ⟨hb, fun _ _ _ => rfl⟩⟩
    · obtain ⟨_, bs1, L1, h1, h2, h3, _⟩ := malloc_result hinv hs hm hp
      exact ⟨bs1, h1.1.heapBlocks, fun b hb hba =>
        ⟨h2 b hb hba, fun a ha1 ha2 => h3 a ⟨b, hb, hba, ha1, ha2⟩⟩⟩
  · intro p hv
    obtain ⟨bs1, L1, h1, h2⟩ := mm_free_inv hinv hv
    exact ⟨bs1, h1.1.heapBlocks, h2⟩

/-- C5, amended: in every state reachable by calls whose requests are below `2^64 - 11`,
the chain walk ends at the epilogue and no two adjacent blocks of the chain are both
free. -/
theorem C5_no_adjacent_free (s : State) (hr : Reachable s) :
    ∃ bs, heapBlocks s = some bs ∧
      List.Chain' (fun a b => b.alloc = true ∨ a.alloc = true) bs := by
  obtain ⟨bs, L, hinv⟩ := Reachable.inv hr
  exact ⟨bs, hinv.1.heapBlocks,
    (withPrev_chain (P := fun b pa => b.alloc = true ∨ pa = true) bs true hinv.2.2).1⟩

/-- C6, amended: in every state reachable by calls whose requests are below `2^64 - 11`,
both bucket lists end at `NIL`, every free block of the chain occurs exactly once in the
two lists together, and every member of a list is a free block of the chain. -/
theorem C6_free_blocks_listed (s : State) (hr : Reachable s) :
    ∃ bs l0 l1, heapBlocks s = some bs ∧ bucketList s 0 = some l0 ∧
      bucketList s 1 = some l1 ∧
      (∀ b ∈ bs, b.alloc = false → (l0 ++ l1).count b.bp = 1) ∧
      ∀ x ∈ l0 ++ l1, ∃ b ∈ bs, b.bp = x ∧ b.alloc = false := by
  obtain ⟨bs, L, hinv⟩ := Reachable.inv hr
  refine ⟨bs, L 0, L 1, hinv.1.heapBlocks, hinv.bucketList (by norm_num),
    hinv.bucketList (by norm_num), ?_, ?_⟩
  · intro b hb hbf
    apply List.count_eq_one_of_mem hinv.lists_nodup
    have hi := getPtrBySize_lt b.size
    have hm := (hinv.mem_lists hi b.bp).2 ⟨b, hb, rfl, hbf, rfl⟩
    rw [List.mem_append]
    have : getPtrBySize b.size = 0 ∨ getPtrBySize b.size = 1 := by omega
    rcases this with e | e
    · rw [e] at hm; exact Or.inl hm
    · rw [e] at hm; exact Or.inr hm
  · intro x hx
    rw [List.mem_append] at hx
    rcases hx with hx | hx
    · obtain ⟨b, hb, h1, h2, _⟩ := (hinv.mem_lists (by norm_num) x).1 hx
      exact ⟨b, hb, h1, h2⟩
    · obtain ⟨b, hb, h1, h2, _⟩ := (hinv.mem_lists (by norm_num) x).1 hx
      exact ⟨b, hb, h1, h2⟩

/-- C7, amended: in every state reachable by calls whose requests are below `2^64 - 11`,
a free block of the chain is a member of bucket `i` exactly when `getPtrBySize` of its
size is `i`. -/
theorem C7_bucket_class (s : State) (hr : Reachable s) :
    ∃ bs, heapBlocks s = some bs ∧ ∀ i, i < 2 →
      ∃ l, bucketList s i = some l ∧
        ∀ b ∈ bs, b.alloc = false → (b.bp ∈ l ↔ getPtrBySize b.size = i) := by
  obtain ⟨bs, L, hinv⟩ := Reachable.inv hr
  refine ⟨bs, hinv.1.heapBlocks, fun i hi => ⟨L i, hinv.bucketList hi, fun b hb hbf => ?_⟩⟩
  rw [hinv.mem_lists hi b.bp]
  constructor
  · rintro ⟨c, hc, hcb, _, hcc⟩
    have := Contig_unique hinv.1.contig hinv.1.sizes hc hb hcb
    subst this
    exact hcc
  · intro h
    exact ⟨b, hb, rfl, hbf, h⟩

/-- C8, amended: in every state reachable by calls whose requests are below `2^64 - 11`,
the prev_allocated bit of every block but the first equals the allocated bit of the block
before it, the bit of the epilogue header equals the allocated bit of the last block, and
the bit of the first block is `0` although the prologue before it is allocated. -/
theorem C8_prev_alloc_bit (s : State) (hr : Reachable s) :
    ∃ bs, heapBlocks s = some bs ∧
      List.Chain' (fun a b => GET_PREV_ALLOC s (HDRP b.bp) = if a.alloc then 1 else 0) bs ∧
      (∀ b, bs.getLast? = some b →
        GET_PREV_ALLOC s (HDRP s.brk) = if b.alloc then 1 else 0) ∧
      (∀ b, bs.head? = some b → GET_PREV_ALLOC s (HDRP b.bp) = 0) ∧
      GET_ALLOC s (HDRP s.heap_listp) = 1 := by
  obtain ⟨bs, L, hinv⟩ := Reachable.inv hr
  have hS := START_val
  have hh : ∀ x ∈ withPrev false bs,
      GET_PREV_ALLOC s (HDRP x.1.bp) = if x.2 then 1 else 0 := by
    intro x hx
    exact GET_PREV_ALLOC_hdr (hinv.1.hdr x hx) (hinv.1.sizes _ (mem_withPrev hx)).2
  have hc := withPrev_chain
    (P := fun b pa => GET_PREV_ALLOC s (HDRP b.bp) = if pa then 1 else 0) bs false hh
  refine ⟨bs, hinv.1.heapBlocks, hc.1, ?_, ?_, ?_⟩
  · intro b hb
    rw [← lastAlloc_getLast bs false b hb]
    exact GET_PREV_ALLOC_hdr hinv.1.epi (by norm_num)
  · intro b hb
    have := hc.2 b hb
    simpa using this
  · rw [hinv.1.hlp]
    exact GET_ALLOC_hdr (a := true) (q := false) (z := 8) hinv.1.prol (by norm_num)

/-- C9, amended: in every state reachable by calls whose requests are below `2^64 - 11`,
every block between the prologue and the epilogue has a payload address that is a
multiple of 8 and a size that is a multiple of 8 and at least 16. -/
theorem C9_block_format (s : State) (hr : Reachable s) :
    ∃ bs, heapBlocks s = some bs ∧
      ∀ b ∈ bs, b.bp % 8 = 0 ∧ b.size % 8 = 0 ∧ 16 ≤ b.size := by
  obtain ⟨bs, L, hinv⟩ := Reachable.inv hr
  refine ⟨bs, hinv.1.heapBlocks, fun b hb => ?_⟩
  have := hinv.1.bounds hb
  exact ⟨this.2.2.2.2.1, this.2.2.2.1, this.2.2.1⟩

/-- C10, amended: in every state reachable by calls whose requests are below `2^64 - 11`,
the header at `bp - 4` and the footer at `bp + size - 8` of every free block of the chain
hold the same size and both have the allocated bit `0`. -/
theorem C10_header_footer (s : State) (hr : Reachable s) :
    ∃ bs, heapBlocks s = some bs ∧ ∀ b ∈ bs, b.alloc = false →
      FTRP s b.bp = b.bp + b.size - 8 ∧ GET_SIZE s (HDRP b.bp) = b.size ∧
        GET_SIZE s (FTRP s b.bp) = b.size ∧ GET_ALLOC s (HDRP b.bp) = 0 ∧
        GET_ALLOC s (FTRP s b.bp) = 0 := by
  obtain ⟨bs, L, hinv⟩ := Reachable.inv hr
  refine ⟨bs, hinv.1.heapBlocks, fun b hb hbf => ?_⟩
  have hsz := hinv.1.size_of hb
  have hal := hinv.1.alloc_of hb
  have h8 := (hinv.1.sizes b hb).2
  have hf := hinv.1.ftr b hb hbf
  have hF : FTRP s b.bp = b.bp + b.size - 8 := by
    unfold FTRP DSIZE
    rw [hsz]
  rw [hbf] at hal
  refine ⟨hF, hsz, ?_, hal, ?_⟩
  · rw [hF]; exact GET_SIZE_word hf h8
  · rw [hF]
    exact GET_ALLOC_hdr (a := false) (q := false) (z := b.size)
      (by rw [hf]; simp [hdrWord]) h8

/-! ## The globals in arbitrary states

These facts need no invariant: they hold in every state, well formed or not. -/

@[simp] theorem PUT_PREV_brk (s : State) (p v : Nat) : (PUT_PREV s p v).brk = s.brk := rfl
@[simp] theorem PUT_PREV_cap (s : State) (p v : Nat) : (PUT_PREV s p v).cap = s.cap := rfl
@[simp] theorem PUT_PREV_heap_listp (s : State) (p v : Nat) :
    (PUT_PREV s p v).heap_listp = s.heap_listp := rfl
@[simp] theorem PUT_PREV_seg (s : State) (p v : Nat) : (PUT_PREV s p v).seg = s.seg := rfl
@[simp] theorem PUT_SUCC_brk (s : State) (p v : Nat) : (PUT_SUCC s p v).brk = s.brk := rfl
@[simp] theorem PUT_SUCC_cap (s : State) (p v : Nat) : (PUT_SUCC s p v).cap = s.cap := rfl
@[simp] theorem PUT_SUCC_heap_listp (s : State) (p v : Nat) :
    (PUT_SUCC s p v).heap_listp = s.heap_listp := rfl
@[simp] theorem PUT_SUCC_seg (s : State) (p v : Nat) : (PUT_SUCC s p v).seg = s.seg := rfl
@[simp] theorem PUT_PREV_ALLOC_brk (s : State) (p v : Nat) :
    (PUT_PREV_ALLOC s p v).brk = s.brk := rfl
@[simp] theorem PUT_PREV_ALLOC_cap (s : State) (p v : Nat) :
    (PUT_PREV_ALLOC s p v).cap = s.cap := rfl
@[simp] theorem PUT_PREV_ALLOC_heap_listp (s : State) (p v : Nat) :
    (PUT_PREV_ALLOC s p v).heap_listp = s.heap_listp := rfl
@[simp] theorem PUT_PREV_ALLOC_seg (s : State) (p v : Nat) :
    (PUT_PREV_ALLOC s p v).seg = s.seg := rfl

/-- The list surgery writes words only: the globals stay. -/
theorem extract_glob (s : State) (x : Nat) :
    (extract s x).brk = s.brk ∧ (extract s x).cap = s.cap ∧
      (extract s x).heap_listp = s.heap_listp ∧ (extract s x).seg = s.seg := by
  unfold extract
  simp only []
  split_ifs <;> simp

theorem push_front_glob (s : State) (x r : Nat) :
    (push_front s x r).brk = s.brk ∧ (push_front s x r).cap = s.cap ∧
      (push_front s x r).heap_listp = s.heap_listp ∧ (push_front s x r).seg = s.seg := by
  unfold push_front
  simp only []
  split_ifs <;> simp

theorem coalesce_glob (s : State) (bp : Nat) :
    (coalesce s bp).2.brk = s.brk ∧ (coalesce s bp).2.cap = s.cap ∧
      (coalesce s bp).2.heap_listp = s.heap_listp ∧ (coalesce s bp).2.seg = s.seg := by
  unfold coalesce
  simp only []
  split_ifs <;> simp only [push_front_glob, extract_glob, PUT_brk, PUT_cap, PUT_heap_listp,
    PUT_seg, PUT_PREV_ALLOC_brk, PUT_PREV_ALLOC_cap, PUT_PREV_ALLOC_heap_listp,
    PUT_PREV_ALLOC_seg, and_self]

theorem place_glob (s : State) (bp asize : Nat) :
    (place s bp asize).brk = s.brk ∧ (place s bp asize).cap = s.cap ∧
      (place s bp asize).heap_listp = s.heap_listp ∧ (place s bp asize).seg = s.seg := by
  unfold place
  simp only []
  split_ifs <;> simp only [push_front_glob, PUT_brk, PUT_cap, PUT_heap_listp,
    PUT_seg, PUT_PREV_ALLOC_brk, PUT_PREV_ALLOC_cap, PUT_PREV_ALLOC_heap_listp,
    PUT_PREV_ALLOC_seg, PUT_PREV_brk, PUT_PREV_cap, PUT_PREV_heap_listp, PUT_PREV_seg,
    PUT_SUCC_brk, PUT_SUCC_cap, PUT_SUCC_heap_listp, PUT_SUCC_seg, seg_set_brk, seg_set_cap,
    seg_set_heap_listp, seg_set_seg, and_self]

theorem GET_SIZE_lt (s : State) (p : Nat) : GET_SIZE s p < 2 ^ 32 :=
  lt_of_le_of_lt Nat.and_le_left (GET_lt s p)

theorem coalesce_fst (s : State) (bp : Nat) :
    (coalesce s bp).1 = bp ∨ ∃ t, (coalesce s bp).1 = PREV_BLKP t bp := by
  unfold coalesce
  simp only []
  split_ifs <;> first | exact Or.inl rfl | exact Or.inr ⟨_, rfl⟩

theorem coalesce_ne_null (s : State) {bp : Nat} (h : START ≤ bp) :
    (coalesce s bp).1 ≠ NULL := by
  have hS := START_val
  rcases coalesce_fst s bp with e | ⟨t, e⟩
  · rw [e]; unfold NULL; omega
  · rw [e]
    unfold PREV_BLKP NULL
    have := GET_SIZE_lt t (bp - DSIZE)
    omega

theorem mem_sbrk_none (s : State) (incr : Nat) :
    (mem_sbrk s incr).1 = none ↔ ¬ s.brk + incr ≤ s.cap := by
  unfold mem_sbrk
  split_ifs with h <;> simp [h]

theorem extend_heap_ok (s : State) (words : Nat) (hb : START ≤ s.brk)
    (h : s.brk + extend_size words ≤ s.cap) :
    (extend_heap s words).1 ≠ NULL ∧
      (extend_heap s words).2.brk = s.brk + extend_size words ∧
      (extend_heap s words).2.cap = s.cap ∧
      (extend_heap s words).2.heap_listp = s.heap_listp ∧
      (extend_heap s words).2.seg = s.seg := by
  rw [extend_heap_size]
  unfold mem_sbrk
  simp only [h, if_true]
  refine ⟨coalesce_ne_null _ hb, ?_⟩
  simp only [coalesce_glob, PUT_brk, PUT_cap, PUT_heap_listp, PUT_seg, PUT_PREV_ALLOC_brk,
    PUT_PREV_ALLOC_cap, PUT_PREV_ALLOC_heap_listp, PUT_PREV_ALLOC_seg, and_self]

/-- The three ways `mm_malloc` returns for a request that is not `0`, in an initialised
state whose heap starts at `START`. -/
theorem mm_malloc_cases {s : State} {fuel size : Nat} {r : Nat × State}
    (hh : s.heap_listp ≠ 0) (hb : START ≤ s.brk) (h0 : size ≠ 0)
    (hm : mm_malloc fuel s size = some r) :
    (find_fit fuel s (adjust size) = some NULL ∧
        (mem_sbrk s (extend_size (max (adjust size) CHUNKSIZE / WSIZE))).1 = none ∧
        r = (NULL, s)) ∨
      (∃ bp, bp ≠ NULL ∧ find_fit fuel s (adjust size) = some bp ∧
        r = (bp, place s bp (adjust size))) ∨
      (find_fit fuel s (adjust size) = some NULL ∧
        (mem_sbrk s (extend_size (max (adjust size) CHUNKSIZE / WSIZE))).1 ≠ none ∧
        (extend_heap s (max (adjust size) CHUNKSIZE / WSIZE)).1 ≠ NULL ∧
        r = ((extend_heap s (max (adjust size) CHUNKSIZE / WSIZE)).1,
          place (extend_heap s (max (adjust size) CHUNKSIZE / WSIZE)).2
            (extend_heap s (max (adjust size) CHUNKSIZE / WSIZE)).1 (adjust size))) := by
  unfold mm_malloc at hm
  simp only [hh, if_false, h0] at hm
  cases hf : find_fit fuel s (adjust size) with
  | none => rw [hf] at hm; cases hm
  | some bp =>
    rw [hf] at hm
    simp only at hm
    by_cases hbp : bp = NULL
    · subst hbp
      simp only [ne_eq, not_true_eq_false, if_false] at hm
      by_cases hcap : s.brk + extend_size (max (adjust size) CHUNKSIZE / WSIZE) ≤ s.cap
      · have hne := (extend_heap_ok s _ hb hcap).1
        simp only [hne, if_false, Option.some.injEq] at hm
        refine Or.inr (Or.inr ⟨rfl, ?_, hne, hm.symm⟩)
        rw [ne_eq, mem_sbrk_none]
        exact not_not.2 hcap
      · rw [extend_heap_fail hcap] at hm
        simp only [if_true, Option.some.injEq] at hm
        exact Or.inl ⟨rfl, (mem_sbrk_none _ _).2 hcap, hm.symm⟩
    · simp only [ne_eq, hbp, not_false_eq_true, if_true, Option.some.injEq] at hm
      exact Or.inr (Or.inl ⟨bp, hbp, rfl, hm.symm⟩)

/-- The globals after `mm_malloc`: only the end of the heap can move, and only up. -/
theorem mm_malloc_glob {s : State} {fuel size : Nat} {r : Nat × State}
    (hh : s.heap_listp ≠ 0) (hb : START ≤ s.brk) (hm : mm_malloc fuel s size = some r) :
    r.2.heap_listp = s.heap_listp ∧ s.brk ≤ r.2.brk ∧ r.2.cap = s.cap ∧ r.2.seg = s.seg := by
  by_cases h0 : size = 0
  · subst h0
    unfold mm_malloc at hm
    simp only [hh, if_false, if_true, Option.some.injEq] at hm
    rw [← hm]
    exact ⟨rfl, le_refl _, rfl, rfl⟩
  · rcases mm_malloc_cases hh hb h0 hm with ⟨_, _, e⟩ | ⟨bp, _, _, e⟩ | ⟨_, h1, _, e⟩
    · rw [e]; exact ⟨rfl, le_refl _, rfl, rfl⟩
    · rw [e]
      have := place_glob s bp (adjust size)
      exact ⟨this.2.2.1, le_of_eq this.1.symm, this.2.1, this.2.2.2⟩
    · rw [e]
      rw [ne_eq, mem_sbrk_none, not_not] at h1
      have h2 := extend_heap_ok s _ hb h1
      have := place_glob (extend_heap s (max (adjust size) CHUNKSIZE / WSIZE)).2
        (extend_heap s (max (adjust size) CHUNKSIZE / WSIZE)).1 (adjust size)
      refine ⟨this.2.2.1.trans h2.2.2.2.1, ?_, this.2.1.trans h2.2.2.1,
        this.2.2.2.trans h2.2.2.2.2⟩
      show s.brk ≤ (place _ _ _).brk
      rw [this.1, h2.2.1]
      omega

theorem mm_free_glob (s : State) (bp : Nat) (hh : s.heap_listp ≠ 0) :
    (mm_free s bp).brk = s.brk ∧ (mm_free s bp).cap = s.cap ∧
      (mm_free s bp).heap_listp = s.heap_listp ∧ (mm_free s bp).seg = s.seg := by
  unfold mm_free
  by_cases h : bp = 0
  · simp only [h, if_true, and_self]
  · simp only [h, hh, if_false]
    simp only [coalesce_glob, PUT_brk, PUT_cap, PUT_heap_listp, PUT_seg, PUT_PREV_ALLOC_brk,
      PUT_PREV_ALLOC_cap, PUT_PREV_ALLOC_heap_listp, PUT_PREV_ALLOC_seg, and_self]

theorem exec_glob {s : State} {fuel : Nat} {c : Call} {r : Nat × State}
    (hh : s.heap_listp ≠ 0) (hb : START ≤ s.brk) (he : exec fuel s c = some r) :
    r.2.heap_listp = s.heap_listp ∧ s.brk ≤ r.2.brk := by
  cases c with
  | malloc size =>
    have := mm_malloc_glob hh hb he
    exact ⟨this.1, this.2.1⟩
  | free bp =>
    simp only [exec, Option.some.injEq] at he
    rw [← he]
    have := mm_free_glob s bp hh
    exact ⟨this.2.2.1, le_of_eq this.1.symm⟩
  | realloc ptr size =>
    simp only [exec] at he
    unfold mm_realloc at he
    by_cases h0 : size = 0
    · simp only [h0, if_true, Option.some.injEq] at he
      rw [← he]
      have := mm_free_glob s ptr hh
      exact ⟨this.2.2.1, le_of_eq this.1.symm⟩
    · simp only [h0, if_false] at he
      by_cases hp : ptr = NULL
      · simp only [hp, if_true] at he
        have := mm_malloc_glob hh hb he
        exact ⟨this.1, this.2.1⟩
      · simp only [hp, if_false] at he
        cases hmal : mm_malloc fuel s size with
        | none => rw [hmal] at he; cases he
        | some res =>
          have hg := mm_malloc_glob hh hb hmal
          rw [hmal] at he
          simp only at he
          by_cases hn : res.1 = 0
          · simp only [hn, if_true, Option.some.injEq] at he
            rw [← he]
            exact ⟨hg.1, hg.2.1⟩
          · simp only [hn, if_false, Option.some.injEq] at he
            rw [← he]
            have := mm_free_glob (memcpy res.2 res.1 ptr
              (if size < GET_SIZE res.2 (HDRP ptr) then size else GET_SIZE res.2 (HDRP ptr)))
              ptr (by show res.2.heap_listp ≠ 0; rw [hg.1]; exact hh)
            refine ⟨this.2.2.1.trans hg.1, ?_⟩
            show s.brk ≤ (mm_free _ _).brk
            rw [this.1]
            exact hg.2.1
  | calloc nmemb size =>
    simp only [exec] at he
    unfold mm_calloc at he
    by_cases h0 : (nmemb * size) % M64 ≤ 0
    · simp only [h0, if_true, Option.some.injEq] at he
      rw [← he]
      exact ⟨rfl, le_refl _⟩
    · simp only [h0, if_false] at he
      cases hmal : mm_malloc fuel s ((nmemb * size) % M64) with
      | none => rw [hmal] at he; cases he
      | some res =>
        have hg := mm_malloc_glob hh hb hmal
        rw [hmal] at he
        simp only at he
        by_cases hn : res.1 = NULL
        · simp only [hn, if_true, Option.some.injEq] at he
          rw [← he]
          exact ⟨hg.1, hg.2.1⟩
        · simp only [hn, if_false] at he
          cases hz : memset0 res.2 res.1 ((nmemb * size) % M64) with
          | none => rw [hz] at he; cases he
          | some s3 =>
            rw [hz] at he
            simp only [Option.some.injEq] at he
            rw [← he]
            have hm := (memset0_some hz).2
            exact ⟨by rw [hm]; exact hg.1, by rw [hm]; exact hg.2.1⟩

/-- In every state reached from a successful `mm_init`, by whatever calls, `heap_listp`
is the prologue and the heap holds at least the first chunk. -/
theorem Reach.glob {ok : Call → Bool} {s : State} (h : Reach ok s) :
    s.heap_listp = START + 24 ∧ START + 96 ≤ s.brk := by
  have hS := START_val
  induction h with
  | init s0 hf h0 =>
    obtain ⟨L, h1, h2, _⟩ := mm_init_spec hf h0
    exact ⟨h1.1.hlp, le_of_eq h2.symm⟩
  | call s c fuel r s1 _ _ _ he ih =>
    have := exec_glob (r := (r, s1)) (by rw [ih.1]; omega) (by omega) he
    exact ⟨this.1.trans ih.1, le_trans ih.2 this.2⟩
  | write s a v _ _ ih => exact ih

/-! ## The end of the chain and the sum of the block sizes -/

theorem Contig_sum {p q : Nat} {l : List Blk} (h : Contig p l q) :
    p + (l.map Blk.size).sum = q := by
  induction l generalizing p with
  | nil => simp only [Contig] at h; simp [h]
  | cons b l ih =>
    simp only [Contig] at h
    have := ih h.2
    simp only [List.map_cons, List.sum_cons]
    omega

theorem walkEnd_of (s : State) (q : Nat) (hq : GET_SIZE s (HDRP q) = 0) :
    ∀ (l : List Blk) (p fuel : Nat), Contig p l q →
      (∀ b ∈ l, GET_SIZE s (HDRP b.bp) = b.size ∧ 16 ≤ b.size) →
      l.length ≤ fuel → walkEnd s fuel p = some q := by
  intro l
  induction l with
  | nil =>
    intro p fuel hc _ _
    simp only [Contig] at hc
    subst hc
    cases fuel <;> simp [walkEnd, hq]
  | cons b l ih =>
    intro p fuel hc hb hlen
    simp only [Contig] at hc
    obtain ⟨hbp, hc⟩ := hc
    subst hbp
    obtain ⟨h1, h2⟩ := hb b (List.mem_cons_self _ _)
    cases fuel with
    | zero => simp at hlen
    | succ fuel =>
      have hne : ¬ GET_SIZE s (HDRP b.bp) = 0 := by rw [h1]; omega
      have hnx : NEXT_BLKP s b.bp = b.bp + b.size := by
        unfold NEXT_BLKP
        rw [← h1]
        rfl
      simp only [walkEnd, hne, if_false, hnx]
      exact ih (b.bp + b.size) fuel hc (fun c hc => hb c (List.mem_cons_of_mem _ hc))
        (by simpa using hlen)

theorem Tiling.chainEnd {s : State} {bs : List Blk} (ht : Tiling s bs) :
    chainEnd s = some s.brk := by
  have hS := START_val
  have hbb := ht.brk_bounds
  unfold MM.chainEnd
  rw [ht.compress_brk]
  have hn : NEXT_BLKP s s.heap_listp = START + 32 := by
    unfold NEXT_BLKP WSIZE
    rw [ht.hlp]
    have : GET_SIZE s (START + 24 - 4) = 8 :=
      GET_SIZE_hdr (a := true) (q := false) (z := 8) ht.prol (by norm_num)
    rw [this]
  rw [hn]
  apply walkEnd_of s s.brk (GET_SIZE_hdr ht.epi (by norm_num)) bs
  · exact ht.contig
  · intro b hb
    exact ⟨ht.size_of hb, (ht.sizes b hb).1⟩
  · have := Contig_length ht.contig (fun b hb => (ht.sizes b hb).1)
    omega

/-! ## The neighbours of a block -/

theorem NAF_neighbours {l1 l2 : List Blk} {c : Blk} (h : NAF (l1 ++ c :: l2))
    (hc : c.alloc = false) : lastAlloc true l1 = true ∧ headAlloc l2 = true := by
  unfold NAF at h
  rw [NAFp_append, NAFp_cons, hc] at h
  constructor
  · rcases h.2.1 with h1 | h1
    · cases h1
    · exact h1
  · cases l2 with
    | nil => rfl
    | cons n l2 =>
      have := h.2.2
      rw [NAFp_cons] at this
      rcases this.1 with h1 | h1
      · exact h1
      · cases h1

theorem isFree_last_of {l : List Blk} (h : lastAlloc true l = true) :
    isFree l.getLast? = false ∧ freeSize l.getLast? = 0 := by
  rcases nil_or_snoc l with rfl | ⟨k, p, rfl⟩
  · exact ⟨rfl, rfl⟩
  · rw [lastAlloc_snoc] at h
    rw [List.getLast?_concat]
    simp [isFree, freeSize, h]

theorem isFree_last_snoc (k : List Blk) {p : Blk} (h : p.alloc = false) :
    isFree (k ++ [p]).getLast? = true ∧ freeSize (k ++ [p]).getLast? = p.size ∧
      (k ++ [p]).dropLast = k := by
  rw [List.getLast?_concat]
  simp [isFree, freeSize, h]

theorem isFree_head_of {l : List Blk} (h : headAlloc l = true) :
    isFree l.head? = false ∧ freeSize l.head? = 0 := by
  cases l with
  | nil => exact ⟨rfl, rfl⟩
  | cons n l =>
    have : n.alloc = true := h
    simp [isFree, freeSize, this]

theorem isFree_head_cons (k : List Blk) {n : Blk} (h : n.alloc = false) :
    isFree (n :: k).head? = true ∧ freeSize (n :: k).head? = n.size := by
  simp [isFree, freeSize, h]

/-- The blocks after coalescing, written out. -/
theorem Merged.explicit {l1 l2 k1 k2 : List Blk} {b m : Blk} (h : Merged l1 b l2 k1 m k2) :
    m = ⟨b.bp - freeSize l1.getLast?, freeSize l1.getLast? + b.size + freeSize l2.head?,
        false⟩ ∧
      k1 = (if isFree l1.getLast? then l1.dropLast else l1) ∧
      k2 = (if isFree l2.head? then l2.tail else l2) := by
  obtain ⟨ps, ns, hm, h1, h2⟩ := h
  have e1 : ps = freeSize l1.getLast? ∧
      k1 = (if isFree l1.getLast? then l1.dropLast else l1) := by
    rcases h1 with ⟨rfl, rfl, hl⟩ | ⟨p, rfl, hp, rfl⟩
    · have := isFree_last_of hl
      rw [this.1, this.2]
      exact ⟨rfl, by simp⟩
    · have := isFree_last_snoc k1 hp
      rw [this.1, this.2.1, this.2.2]
      exact ⟨rfl, by simp⟩
  have e2 : ns = freeSize l2.head? ∧ k2 = (if isFree l2.head? then l2.tail else l2) := by
    rcases h2 with ⟨rfl, rfl, hl⟩ | ⟨n, rfl, hn, rfl⟩
    · have := isFree_head_of hl
      rw [this.1, this.2]
      exact ⟨rfl, by simp⟩
    · have := isFree_head_cons k2 hn
      rw [this.1, this.2]
      exact ⟨rfl, by simp⟩
  rw [← e1.1, ← e2.1]
  exact ⟨hm, e1.2, e2.2⟩

/-! ## Releasing a block -/

/-- The state after `mm_free` of the allocated block `b`. -/
theorem mm_free_explicit {s : State} {l1 l2 : List Blk} {b : Blk} {L : Nat → List Nat}
    (hinv : Inv s (l1 ++ b :: l2) L) (hba : b.alloc = true) :
    ∃ L1, Inv (mm_free s b.bp)
        ((if isFree l1.getLast? then l1.dropLast else l1) ++
          (⟨b.bp - freeSize l1.getLast?, freeSize l1.getLast? + b.size + freeSize l2.head?,
            false⟩ : Blk) :: (if isFree l2.head? then l2.tail else l2)) L1 ∧
      Keeps s (mm_free s b.bp) (l1 ++ ⟨b.bp, b.size, false⟩ :: l2) := by
  obtain ⟨k1, m, k2, L1, h1, h2, h3⟩ := mm_free_spec hinv hba
  obtain ⟨e1, e2, e3⟩ := h1.explicit
  rw [e1, e2, e3] at h2
  exact ⟨L1, h2, h3⟩

theorem prev_free_addr {s : State} {l1 l2 : List Blk} {b p : Blk} (ht : Tiling s (l1 ++ b :: l2))
    (hp : l1.getLast? = some p) : p.bp + p.size = b.bp := by
  rcases nil_or_snoc l1 with rfl | ⟨k, q, rfl⟩
  · cases hp
  · rw [List.getLast?_concat, Option.some.injEq] at hp
    subst hp
    have hc := ht.contig
    rw [List.append_assoc, Contig_append] at hc
    obtain ⟨r, _, hc⟩ := hc
    simp only [List.singleton_append, Contig] at hc
    omega

/-- After `mm_free` the released block is no allocated block of the chain. -/
theorem mm_free_released {s : State} {l1 l2 : List Blk} {b : Blk} {L : Nat → List Nat}
    (hinv : Inv s (l1 ++ b :: l2) L) (hba : b.alloc = true) :
    allocated (mm_free s b.bp) b.bp = false := by
  obtain ⟨L1, h1, _⟩ := mm_free_explicit hinv hba
  have hbd := hinv.1.bounds (show b ∈ l1 ++ b :: l2 by simp)
  cases hal : allocated (mm_free s b.bp) b.bp with
  | false => rfl
  | true =>
    exfalso
    obtain ⟨x, hx, hxb, hxa⟩ := (h1.1.allocated_iff b.bp).1 hal
    have hm : (⟨b.bp - freeSize l1.getLast?,
        freeSize l1.getLast? + b.size + freeSize l2.head?, false⟩ : Blk) ∈
        (if isFree l1.getLast? then l1.dropLast else l1) ++
          (⟨b.bp - freeSize l1.getLast?, freeSize l1.getLast? + b.size + freeSize l2.head?,
            false⟩ : Blk) :: (if isFree l2.head? then l2.tail else l2) := by simp
    have hxd := h1.1.bounds hx
    rcases Contig_tri h1.1.contig hx hm with e | e | e
    · rw [e] at hxa; cases hxa
    · simp only at e; omega
    · simp only at e; omega

/-! ## `mm_malloc` followed by `mm_free` of its result -/

theorem placed_cases (c : Blk) (asize : Nat) :
    placed c asize = [⟨c.bp, c.size, true⟩] ∨
      placed c asize = [⟨c.bp, asize, true⟩, ⟨c.bp + asize, c.size - asize, false⟩] := by
  unfold placed
  split
  · exact Or.inr rfl
  · exact Or.inl rfl

theorem ite_lt_eq_min (a b : Nat) : (if a < b then a else b) = min a b := by
  split <;> omega

theorem memcpy_copied (s : State) (dst src n i : Nat) (h : i < n) :
    (memcpy s dst src n).mem (dst + i) = s.mem (src + i) := by
  show (if dst ≤ dst + i ∧ dst + i < dst + n then s.mem (src + (dst + i - dst)) else _) = _
  rw [if_pos ⟨by omega, by omega⟩, Nat.add_sub_cancel_left]

/-- A block that was allocated before `mm_malloc` is not the block it returns. -/
theorem malloc_fresh {s : State} {bs : List Blk} {L : Nat → List Nat} {fuel size : Nat}
    {r : Nat × State} (hinv : Inv s bs L) (hs : size < M64 - 11)
    (hm : mm_malloc fuel s size = some r) (hp : r.1 ≠ NULL) {b : Blk} (hb : b ∈ bs)
    (hba : b.alloc = true) : b.bp ≠ r.1 := by
  obtain ⟨_, bs1, L1, h1, _, _, b1, hb1, hb1p, _, _, h6⟩ := malloc_result hinv hs hm hp
  have hb1d := h1.1.bounds hb1
  intro e
  have hbd := hinv.1.bounds hb
  rcases h6 (r.1 - 4) (le_refl _) (by omega) with ⟨c, hc, hcf, h7, h8⟩ | h7
  · have hcd := hinv.1.bounds hc
    rcases Contig_tri hinv.1.contig hb hc with e1 | e1 | e1
    · subst e1; rw [hcf] at hba; cases hba
    · omega
    · omega
  · omega

/-- What `mm_realloc(ptr, size)` does for an allocated `ptr` and a request `size > 0` that
does not wrap around, when it returns a pointer that is not null: it is `mm_malloc`, a copy
of `min size (old block size)` bytes, and `mm_free` of `ptr`. -/
theorem mm_realloc_spec {s : State} {bs : List Blk} {L : Nat → List Nat}
    {fuel ptr size : Nat} {r : Nat × State} (hinv : Inv s bs L)
    (hal : allocated s ptr = true) (h0 : 0 < size) (hs : size < M64 - 11)
    (hm : mm_realloc fuel s ptr size = some r) (hp : r.1 ≠ NULL) :
    ∃ s1, mm_malloc fuel s size = some (r.1, s1) ∧
      r.2 = mm_free (memcpy s1 r.1 ptr (min size (GET_SIZE s (HDRP ptr)))) ptr ∧
      r.1 ≠ ptr ∧ (∃ bs2 L2, Inv r.2 bs2 L2) ∧ allocated r.2 r.1 = true ∧
      allocated r.2 ptr = false ∧
      ∀ i, i < size → i + 4 < GET_SIZE s (HDRP ptr) → r.2.mem (r.1 + i) = s.mem (ptr + i) := by
  obtain ⟨b, hb, hbp, hba⟩ := (hinv.1.allocated_iff ptr).1 hal
  have hbd := hinv.1.bounds hb
  have hpn : ¬ ptr = NULL := by rw [← hbp]; unfold NULL; omega
  unfold mm_realloc at hm
  simp only [Nat.pos_iff_ne_zero.1 h0, hpn, if_false] at hm
  cases hmal : mm_malloc fuel s size with
  | none => rw [hmal] at hm; cases hm
  | some res =>
    rw [hmal] at hm
    simp only at hm
    by_cases hn : res.1 = 0
    · simp only [hn, if_true, Option.some.injEq] at hm
      rw [← hm] at hp
      exact absurd rfl hp
    · simp only [hn, if_false, Option.some.injEq] at hm
      have hr1 : r.1 = res.1 := by rw [← hm]
      have hr2 : r.2 = mm_free (memcpy res.2 res.1 ptr
          (if size < GET_SIZE res.2 (HDRP ptr) then size else GET_SIZE res.2 (HDRP ptr)))
          ptr := by rw [← hm]
      obtain ⟨_, bs1, L1, h1, h2, h3, b1, hb1, hb1p, hb1a, hb1s, _⟩ :=
        malloc_result hinv hs hmal hn
      have hroom := adjust_room h0 hs
      have hbm := h2 b hb hba
      have hsz : GET_SIZE res.2 (HDRP ptr) = GET_SIZE s (HDRP ptr) := by
        rw [← hbp, h1.1.size_of hbm, hinv.1.size_of hb]
      have hszb : GET_SIZE s (HDRP ptr) = b.size := by rw [← hbp, hinv.1.size_of hb]
      rw [hsz, ite_lt_eq_min] at hr2
      have hne : b.bp ≠ res.1 := malloc_fresh hinv hs hmal hn hb hba
      generalize hk : min size (GET_SIZE s (HDRP ptr)) = k at hr2
      have hkle : k ≤ size := by rw [← hk]; exact min_le_left _ _
      have h6 : Inv (memcpy res.2 res.1 ptr k) bs1 L1 :=
        write_block_inv h1 hb1 hb1a (n := k) (by omega) rfl rfl rfl rfl
          (fun a ha => memcpy_other _ _ _ _ _ (by rw [hb1p] at ha; exact ha))
      obtain ⟨l1, l2, hsplit⟩ := List.append_of_mem hbm
      subst hsplit
      obtain ⟨bs2, L2, h8, h9⟩ := mm_free_inv h6
        (Or.inr ((h6.1.allocated_iff b.bp).2 ⟨b, hbm, rfl, hba⟩))
      have hrel := mm_free_released h6 hba
      rw [hbp] at h8 h9 hrel
      rw [← hr2] at h8 h9 hrel
      obtain ⟨hb1m, hb1k⟩ := h9 b1 hb1 hb1a (by rw [hb1p, ← hbp]; exact fun e => hne e.symm)
      refine ⟨res.2, by rw [hr1], ?_, ?_, ⟨bs2, L2, h8⟩, ?_, hrel, ?_⟩
      · rw [hr1]; exact hr2
      · rw [hr1, ← hbp]; exact fun e => hne e.symm
      · exact (h8.1.allocated_iff r.1).2 ⟨b1, hb1m, by rw [hb1p, hr1], hb1a⟩
      · intro i hi1 hi2
        have hik : i < k := by rw [← hk]; exact lt_min hi1 (by omega)
        rw [hr1, ← hb1p, hb1k (b1.bp + i) (by omega) (by omega), hb1p,
          memcpy_copied _ _ _ _ _ hik]
        exact h3 (ptr + i) ⟨b, hb, hba, by omega, by omega⟩

/-! ## Claims C11 to C20 -/

theorem mm_realloc_total {s : State} {bs : List Blk} {L : Nat → List Nat} (hinv : Inv s bs L)
    (ptr size : Nat) : ∃ r, mm_realloc (COMPRESS s.brk) s ptr size = some r := by
  unfold mm_realloc
  split_ifs
  · exact ⟨_, rfl⟩
  · exact malloc_returns hinv size
  · obtain ⟨r, hr⟩ := malloc_returns hinv size
    rw [hr]
    simp only
    split_ifs <;> exact ⟨_, rfl⟩

/-- C11, amended: in every state reachable from a successful `mm_init` by calls whose
requests are below `2^64 - 11`, the walk over the chain ends at the block pointer `brk`,
whose header, the last 4 bytes of the heap, is the epilogue (size 0, allocated), and the
block sizes plus the 32 bytes of fixed overhead add up to the bytes granted, `brk - START`. -/
theorem C11_chain_total (s : State) (hr : Reachable s) :
    ∃ bs, heapBlocks s = some bs ∧ chainEnd s = some s.brk ∧
      GET_SIZE s (HDRP s.brk) = 0 ∧ GET_ALLOC s (HDRP s.brk) = 1 ∧
      (bs.map Blk.size).sum + 32 = s.brk - START := by
  obtain ⟨bs, L, hinv⟩ := Reachable.inv hr
  have hS := START_val
  have hsum := Contig_sum hinv.1.contig
  refine ⟨bs, hinv.1.heapBlocks, hinv.1.chainEnd, GET_SIZE_hdr hinv.1.epi (by norm_num),
    GET_ALLOC_hdr hinv.1.epi (by norm_num), ?_⟩
  omega

/-- C14: in every state reachable from a successful `mm_init`, by whatever calls, when
`find_fit` finds no block for a request `size > 0` and `mem_sbrk` refuses to grow the
heap, `extend_heap` returns `NULL` and `mm_malloc` returns `NULL`, both with the state
they were called in: no byte and no global has changed. -/
theorem C14_grow_failure (s : State) (size fuel : Nat) (hr : ReachableAny s) (h0 : 0 < size)
    (hf : find_fit fuel s (adjust size) = some NULL)
    (hg : (mem_sbrk s (extend_size (max (adjust size) CHUNKSIZE / WSIZE))).1 = none) :
    extend_heap s (max (adjust size) CHUNKSIZE / WSIZE) = (NULL, s) ∧
      mm_malloc fuel s size = some (NULL, s) := by
  have hS := START_val
  have hgl := Reach.glob hr
  have hcap := (mem_sbrk_none _ _).1 hg
  refine ⟨extend_heap_fail hcap, ?_⟩
  unfold mm_malloc
  have hh : ¬ s.heap_listp = 0 := by rw [hgl.1]; omega
  simp only [hh, if_false, Nat.pos_iff_ne_zero.1 h0, hf, ne_eq, not_true_eq_false,
    extend_heap_fail hcap, if_true]

/-- C15: in every initialised state, one whose `heap_listp` is not `0`, `mm_malloc(0)`
returns `NULL` and the state it was called in: no byte, no bucket head and no bound of the
heap has changed. -/
theorem C15_malloc_zero (s : State) (fuel : Nat) (h : s.heap_listp ≠ 0) :
    mm_malloc fuel s 0 = some (NULL, s) := by
  unfold mm_malloc
  simp only [h, if_false, if_true]

/-- C16: in every state, initialised or not, `mm_free(NULL)` changes nothing. -/
theorem C16_free_null (s : State) : mm_free s NULL = s := by
  unfold mm_free NULL
  simp only [if_true]

/-- C17, amended: in every state reachable by calls whose requests are below `2^64 - 11`,
`mm_free` of an allocated block `b` of the chain replaces `b`, the block before it when
that is free and the block after it when that is free by one free block `m`: it starts at
the block before when that is merged and at `b` otherwise, its size is the sum of the
sizes merged, its header and its footer hold that size with allocated bit 0, and the
other blocks of the chain are unchanged. -/
theorem C17_free_coalesces (s : State) (l1 l2 : List Blk) (b : Blk) (hr : Reachable s)
    (hbs : heapBlocks s = some (l1 ++ b :: l2)) (hba : b.alloc = true) :
    ∃ m : Blk, m = ⟨b.bp - freeSize l1.getLast?,
        freeSize l1.getLast? + b.size + freeSize l2.head?, false⟩ ∧
      heapBlocks (mm_free s b.bp) = some ((if isFree l1.getLast? then l1.dropLast else l1) ++
        m :: (if isFree l2.head? then l2.tail else l2)) ∧
      (∀ p, l1.getLast? = some p → p.alloc = false → m.bp = p.bp) ∧
      GET_SIZE (mm_free s b.bp) (HDRP m.bp) = m.size ∧
      GET_ALLOC (mm_free s b.bp) (HDRP m.bp) = 0 ∧
      FTRP (mm_free s b.bp) m.bp = m.bp + m.size - 8 ∧
      GET_SIZE (mm_free s b.bp) (FTRP (mm_free s b.bp) m.bp) = m.size ∧
      GET_ALLOC (mm_free s b.bp) (FTRP (mm_free s b.bp) m.bp) = 0 := by
  obtain ⟨bs, L, hinv⟩ := Reachable.inv hr
  have e := hinv.1.heapBlocks
  rw [hbs, Option.some.injEq] at e
  subst e
  obtain ⟨L1, h1, _⟩ := mm_free_explicit hinv hba
  refine ⟨_, rfl, h1.1.heapBlocks, ?_, ?_⟩
  · intro p hp hpf
    have := prev_free_addr hinv.1 hp
    show b.bp - freeSize l1.getLast? = p.bp
    rw [hp]
    simp only [freeSize, hpf, Bool.false_eq_true, if_false]
    omega
  · generalize hm : (⟨b.bp - freeSize l1.getLast?,
      freeSize l1.getLast? + b.size + freeSize l2.head?, false⟩ : Blk) = m at h1
    have hmm : m ∈ (if isFree l1.getLast? then l1.dropLast else l1) ++
        m :: (if isFree l2.head? then l2.tail else l2) := by simp
    have hmf : m.alloc = false := by rw [← hm]
    have hsz := h1.1.size_of hmm
    have hal := h1.1.alloc_of hmm
    have h8 := (h1.1.sizes m hmm).2
    have hf := h1.1.ftr m hmm hmf
    have hF : FTRP (mm_free s b.bp) m.bp = m.bp + m.size - 8 := by
      unfold FTRP DSIZE
      rw [hsz]
    rw [hmf] at hal
    refine ⟨hsz, by simpa using hal, hF, ?_, ?_⟩
    · rw [hF]; exact GET_SIZE_word hf h8
    · rw [hF]
      exact GET_ALLOC_hdr (a := false) (q := false) (z := m.size)
        (by rw [hf]; simp [hdrWord]) h8

/-- C18, amended: in every state reachable by calls whose requests are below `2^64 - 11`,
`mm_realloc(ptr, size)` of an allocated block with `0 < size < 2^64 - 11` returns, and
when the pointer `q` it returns is not null, the first `min(size, old block size - 4)`
bytes at `q` are the bytes that were at `ptr` before the call. -/
theorem C18_realloc_keeps_bytes (s : State) (ptr size : Nat) (hr : Reachable s)
    (hal : allocated s ptr = true) (h0 : 0 < size) (hs : size < M64 - 11) :
    (∃ r, mm_realloc (COMPRESS s.brk) s ptr size = some r) ∧
      ∀ fuel r, mm_realloc fuel s ptr size = some r → r.1 ≠ NULL →
        ∀ i, i < min size (GET_SIZE s (HDRP ptr) - 4) → r.2.mem (r.1 + i) = s.mem (ptr + i) := by
  obtain ⟨bs, L, hinv⟩ := Reachable.inv hr
  refine ⟨mm_realloc_total hinv ptr size, fun fuel r hm hp i hi => ?_⟩
  obtain ⟨s1, _, _, _, _, _, _, h⟩ := mm_realloc_spec hinv hal h0 hs hm hp
  have h1 := lt_of_lt_of_le hi (min_le_left _ _)
  have h2 := lt_of_lt_of_le hi (min_le_right _ _)
  exact h i h1 (by omega)

/-- C19, amended: in every state reachable by calls whose requests are below `2^64 - 11`,
for an allocated block `ptr` and `0 < size < 2^64 - 11`, when the `mm_malloc(size)` inside
`mm_realloc(ptr, size)` returns a pointer `q` that is not null, `mm_realloc` returns `q`,
which differs from `ptr` and was not allocated before, and its final state is that of
`mm_malloc`, followed by a copy of exactly `min(size, old block size)` bytes from `ptr` to
`q`, the old block size including the header, followed by `mm_free(ptr)`; afterwards `q`
is an allocated block and `ptr` is not. -/
theorem C19_realloc_steps (s : State) (ptr size : Nat) (hr : Reachable s)
    (hal : allocated s ptr = true) (h0 : 0 < size) (hs : size < M64 - 11) :
    ∀ fuel q s1, mm_malloc fuel s size = some (q, s1) → q ≠ NULL →
      mm_realloc fuel s ptr size =
          some (q, mm_free (memcpy s1 q ptr (min size (GET_SIZE s (HDRP ptr)))) ptr) ∧
        q ≠ ptr ∧ allocated s q = false ∧
        allocated (mm_free (memcpy s1 q ptr (min size (GET_SIZE s (HDRP ptr)))) ptr) q = true ∧
        allocated (mm_free (memcpy s1 q ptr (min size (GET_SIZE s (HDRP ptr)))) ptr) ptr =
          false := by
  obtain ⟨bs, L, hinv⟩ := Reachable.inv hr
  intro fuel q s1 hmal hq
  obtain ⟨b, hb, hbp, hba⟩ := (hinv.1.allocated_iff ptr).1 hal
  have hbd := hinv.1.bounds hb
  have hpn : ¬ ptr = NULL := by rw [← hbp]; unfold NULL; omega
  have hq0 : ¬ q = 0 := hq
  have hre : mm_realloc fuel s ptr size = some (q, mm_free (memcpy s1 q ptr
      (if size < GET_SIZE s1 (HDRP ptr) then size else GET_SIZE s1 (HDRP ptr))) ptr) := by
    unfold mm_realloc
    simp only [Nat.pos_iff_ne_zero.1 h0, hpn, if_false, hmal, hq0]
  obtain ⟨s2, h1, h2, h3, _, h5, h6, _⟩ :=
    mm_realloc_spec hinv hal h0 hs hre hq
  rw [hmal, Option.some.injEq, Prod.mk.injEq] at h1
  obtain ⟨_, h1⟩ := h1
  subst h1
  have hfresh : allocated s q = false := by
    cases hal2 : allocated s q with
    | false => rfl
    | true =>
      obtain ⟨c, hc, hcp, hca⟩ := (hinv.1.allocated_iff q).1 hal2
      exact absurd hcp (malloc_fresh hinv hs hmal hq hc hca)
  have h2' : mm_free (memcpy s1 q ptr
      (if size < GET_SIZE s1 (HDRP ptr) then size else GET_SIZE s1 (HDRP ptr))) ptr =
      mm_free (memcpy s1 q ptr (min size (GET_SIZE s (HDRP ptr)))) ptr := h2
  rw [h2'] at hre h5 h6
  exact ⟨hre, h3, hfresh, h5, h6⟩

/-- C20: in every state, `mm_realloc(ptr, 0)` returns `NULL` and the state `mm_free(ptr)`
leaves, which for `ptr = NULL` is the state it was called in; and for `size > 0`,
`mm_realloc(NULL, size)` returns what `mm_malloc(size)` returns, pointer and state. -/
theorem C20_realloc_special (s : State) (fuel ptr size : Nat) (h0 : 0 < size) :
    mm_realloc fuel s ptr 0 = some (NULL, mm_free s ptr) ∧ mm_free s NULL = s ∧
      mm_realloc fuel s NULL size = mm_malloc fuel s size := by
  refine ⟨?_, ?_, ?_⟩
  · unfold mm_realloc
    simp only [if_true]
    rfl
  · unfold mm_free NULL
    simp only [if_true]
  · unfold mm_realloc
    simp only [Nat.pos_iff_ne_zero.1 h0, if_false, if_true]

/-! ## The header codec and the size adjustment -/

theorem GET_PUT_PREV_ALLOC (s : State) (p b : Nat) (hb : b ≤ 1) :
    GET (PUT_PREV_ALLOC s p b) p = GET s p - 2 * (GET s p / 2 % 2) + 2 * b := by
  have hw := GET_lt s p
  unfold PUT_PREV_ALLOC
  rw [setbit1 _ _ hw hb]
  apply GET_PUT_eq
  omega

theorem testBit_high {x y : Nat} (h : x / 4 = y / 4) (i : Nat) (hi : 2 ≤ i) :
    x.testBit i = y.testBit i := by
  obtain ⟨k, rfl⟩ : ∃ k, i = 2 + k := ⟨i - 2, by omega⟩
  rw [Nat.testBit_to_div_mod, Nat.testBit_to_div_mod, pow_add, ← Nat.div_div_eq_div_mul,
    ← Nat.div_div_eq_div_mul]
  norm_num
  rw [h]

theorem testBit_low {x y : Nat} (h : x % 2 = y % 2) : x.testBit 0 = y.testBit 0 := by
  rw [Nat.testBit_to_div_mod, Nat.testBit_to_div_mod]
  simp [h]

theorem codec_word (w b : Nat) (hw : w < 2 ^ 32) (hb : b ≤ 1) :
    (w - 2 * (w / 2 % 2) + 2 * b) &&& 0xFFFFFFF8 = w &&& 0xFFFFFFF8 ∧
      (w - 2 * (w / 2 % 2) + 2 * b) &&& 1 = w &&& 1 ∧
      ((w - 2 * (w / 2 % 2) + 2 * b) >>> 1) &&& 1 = b ∧
      ∀ i, i ≠ 1 → (w - 2 * (w / 2 % 2) + 2 * b).testBit i = w.testBit i := by
  refine ⟨?_, ?_, ?_, ?_⟩
  · rw [and_F8 _ (by omega), and_F8 _ hw]
    omega
  · rw [Nat.and_one_is_mod, Nat.and_one_is_mod]
    omega
  · rw [shr1_and1]
    omega
  · intro i hi
    rcases Nat.lt_or_ge i 2 with h | h
    · have : i = 0 := by omega
      subst this
      exact testBit_low (by omega)
    · exact testBit_high (by omega) i h

theorem adjust_formula (size : Nat) (h0 : 0 < size) (h : size < 2 ^ 32 - 16) :
    adjust size = max 16 ((size + 4 + 7) / 8 * 8) := by
  have hM : M64 = 18446744073709551616 := by norm_num [M64]
  unfold adjust
  simp only [WSIZE, MINBLOCK, DSIZE]
  by_cases h1 : size ≤ 2 * 4
  · rw [if_pos h1]
    omega
  · rw [if_neg h1]
    rw [and_seven, and_M64_8 size (by omega)]
    by_cases h2 : size % 8 ≤ 4
    · simp only [h2, if_true]
      have e1 : (size / 8 * 8 + 8 + (8 - 1)) % M64 = size / 8 * 8 + 15 :=
        Nat.mod_eq_of_lt (by omega)
      rw [e1]
      have e2 : (8 * ((size / 8 * 8 + 15) / 8)) % M64 = 8 * ((size / 8 * 8 + 15) / 8) :=
        Nat.mod_eq_of_lt (by omega)
      rw [e2]
      omega
    · simp only [h2, if_false]
      have e1 : (size + 8 + (8 - 1)) % M64 = size + 15 := Nat.mod_eq_of_lt (by omega)
      rw [e1]
      have e2 : (8 * ((size + 15) / 8)) % M64 = 8 * ((size + 15) / 8) :=
        Nat.mod_eq_of_lt (by omega)
      rw [e2]
      omega

theorem roundup_least (n : Nat) : IsLeast {m : Nat | m % 8 = 0 ∧ n ≤ m} ((n + 7) / 8 * 8) := by
  constructor
  · show (n + 7) / 8 * 8 % 8 = 0 ∧ n ≤ (n + 7) / 8 * 8
    omega
  · intro m hm
    have h1 : m % 8 = 0 := hm.1
    have h2 : n ≤ m := hm.2
    omega

/-! ## The loops of `transpose_submit` -/

theorem forLoop_inv (stop step : Nat) (body : Nat → Vars → Vars) (I : Nat → Vars → Prop)
    (hstep : 0 < step) (hbody : ∀ i s, i < stop → I i s → I (i + step) (body i s)) :
    ∀ (fuel i : Nat) (s : Vars), stop ≤ i + fuel → I i s →
      ∃ k, stop ≤ k ∧ I k (forLoop stop step body fuel i s) := by
  intro fuel
  induction fuel with
  | zero =>
    intro i s h hI
    exact ⟨i, by omega, hI⟩
  | succ fuel ih =>
    intro i s h hI
    unfold forLoop
    split_ifs with hlt
    · exact ih (i + step) (body i s) (by omega) (hbody i s hlt hI)
    · exact ⟨i, by omega, hI⟩

/-- The rounds a loop is given do not cut it short: more rounds give the same result. -/
theorem forLoop_fuel (stop step : Nat) (body : Nat → Vars → Vars) (hstep : 0 < step) :
    ∀ (fuel i : Nat) (s : Vars), stop ≤ i + fuel → ∀ extra,
      forLoop stop step body (fuel + extra) i s = forLoop stop step body fuel i s := by
  intro fuel
  induction fuel with
  | zero =>
    intro i s h extra
    cases extra with
    | zero => rfl
    | succ e =>
      show forLoop stop step body (0 + (e + 1)) i s = s
      rw [Nat.zero_add]
      unfold forLoop
      rw [if_neg (by omega)]
  | succ fuel ih =>
    intro i s h extra
    have e : fuel + 1 + extra = (fuel + extra) + 1 := by omega
    rw [e]
    unfold forLoop
    split_ifs with hlt
    · exact ih (i + step) (body i s) (by omega) extra
    · rfl

theorem loop1_inv (a b : Nat) (body : Nat → Vars → Vars) (I : Nat → Vars → Prop) (s : Vars)
    (hab : a ≤ b) (h0 : I a s)
    (hbody : ∀ i s, a ≤ i → i < b → I i s → I (i + 1) (body i s)) :
    I b (loop a b 1 body s) := by
  obtain ⟨k, hk, h1, h2, h3⟩ := forLoop_inv b 1 body (fun i s => a ≤ i ∧ i ≤ b ∧ I i s)
    (by norm_num) (fun i s hi h => ⟨by omega, by omega, hbody i s h.1 hi h.2.2⟩)
    b a s (by omega) ⟨le_refl a, hab, h0⟩
  have : k = b := by omega
  subst this
  exact h3

theorem loop_step_inv (n step : Nat) (body : Nat → Vars → Vars) (I : Nat → Vars → Prop)
    (s : Vars) (hstep : 0 < step) (h0 : I 0 s)
    (hbody : ∀ i s, i < n → i % step = 0 → I i s → I (i + step) (body i s)) :
    ∃ k, n ≤ k ∧ k < n + step ∧ k % step = 0 ∧ I k (loop 0 n step body s) := by
  obtain ⟨k, hk, h1, h2, h3⟩ := forLoop_inv n step body
    (fun i s => i < n + step ∧ i % step = 0 ∧ I i s) hstep
    (fun i s hi h => ⟨by omega, by rw [Nat.add_mod, h.2.1]; simp, hbody i s hi h.2.1 h.2.2⟩)
    n 0 s (by omega) ⟨by omega, by simp, h0⟩
  exact ⟨k, hk, h1, h2, h3⟩

/-! ## Cells of `B` -/

theorem Holds.weaken {A0 : Nat → Nat → Int} {s : Vars} {P Q : Nat → Nat → Prop}
    {f : Nat → Nat → Int} (h : Holds A0 s P f) (hq : ∀ x y, Q x y → P x y) :
    Holds A0 s Q f :=
  ⟨h.1, fun x y hxy => h.2 x y (hq x y hxy)⟩

theorem Holds.transfer {A0 : Nat → Nat → Int} {s t : Vars} {P : Nat → Nat → Prop}
    {f : Nat → Nat → Int} (h : Holds A0 s P f) (hA : t.A = s.A) (hB : t.B = s.B) :
    Holds A0 t P f :=
  ⟨hA.trans h.1, fun x y hxy => by rw [hB]; exact h.2 x y hxy⟩

theorem Holds.set {A0 : Nat → Nat → Int} {s : Vars} {P Q : Nat → Nat → Prop}
    {f : Nat → Nat → Int} (h : Holds A0 s P f) (r c : Nat) (v : Int)
    (hq : ∀ x y, Q x y → (x = r ∧ y = c ∧ v = f x y) ∨ (¬ (x = r ∧ y = c) ∧ P x y)) :
    Holds A0 (setB s r c v) Q f := by
  refine ⟨h.1, fun x y hxy => ?_⟩
  show (if x = r ∧ y = c then v else s.B x y) = f x y
  rcases hq x y hxy with ⟨h1, h2, h3⟩ | ⟨h1, h2⟩
  · rw [if_pos ⟨h1, h2⟩, h3]
  · rw [if_neg h1]
    exact h.2 x y h2

/-! ## The branch for 32 columns -/

theorem block_off {A0 : Nat → Nat → Int} {P0 : Nat → Nat → Prop} (i j : Nat) (s : Vars)
    (h : Holds A0 s P0 (fun x y => A0 y x)) :
    Holds A0 (loop i (i + 8) 1 (fun i1 s =>
        loop j (j + 8) 1 (fun j1 s => setB s i1 j1 (s.A j1 i1)) s) s)
      (fun x y => P0 x y ∨ (i ≤ x ∧ x < i + 8 ∧ j ≤ y ∧ y < j + 8))
      (fun x y => A0 y x) := by
  refine (loop1_inv i (i + 8) _ (fun i1 s => Holds A0 s
    (fun x y => P0 x y ∨ (i ≤ x ∧ x < i1 ∧ j ≤ y ∧ y < j + 8)) (fun x y => A0 y x)) s
    (by omega) (h.weaken ?_) ?_)
  · intro x y hxy
    rcases hxy with hxy | hxy
    · exact hxy
    · omega
  · intro i1 s hi1 hi2 hs
    refine (loop1_inv j (j + 8) _ (fun j1 s => Holds A0 s
      (fun x y => P0 x y ∨ (i ≤ x ∧ x < i1 ∧ j ≤ y ∧ y < j + 8) ∨
        (x = i1 ∧ j ≤ y ∧ y < j1)) (fun x y => A0 y x)) s (by omega) (hs.weaken ?_) ?_).weaken ?_
    · intro x y hxy
      rcases hxy with hxy | hxy | hxy
      · exact Or.inl hxy
      · exact Or.inr hxy
      · omega
    · intro j1 t hj1 hj2 ht
      refine ht.set i1 j1 _ ?_
      intro x y hxy
      by_cases hc : x = i1 ∧ y = j1
      · refine Or.inl ⟨hc.1, hc.2, ?_⟩
        rw [ht.1, hc.1, hc.2]
      · refine Or.inr ⟨hc, ?_⟩
        rcases hxy with hxy | hxy | hxy
        · exact Or.inl hxy
        · exact Or.inr (Or.inl hxy)
        · exact Or.inr (Or.inr ⟨hxy.1, hxy.2.1, by omega⟩)
    · intro x y hxy
      rcases hxy with hxy | hxy
      · exact Or.inl hxy
      · by_cases hx : x = i1
        · exact Or.inr (Or.inr ⟨hx, hxy.2.2.1, hxy.2.2.2⟩)
        · exact Or.inr (Or.inl ⟨hxy.1, by omega, hxy.2.2.1, hxy.2.2.2⟩)

theorem block_diag1 {A0 : Nat → Nat → Int} {P0 : Nat → Nat → Prop} (a b : Nat) (s : Vars)
    (hab : a ≤ b) (h : Holds A0 s P0 (fun x y => A0 y x)) :
    Holds A0 (loop a b 1 (fun i1 s =>
        let s := loop a b 1 (fun j1 s =>
          if j1 = i1 then { s with d1 := s.A i1 i1 }
          else setB s j1 i1 (s.A i1 j1)) s
        setB s i1 i1 s.d1) s)
      (fun x y => P0 x y ∨ (a ≤ x ∧ x < b ∧ a ≤ y ∧ y < b))
      (fun x y => A0 y x) := by
  refine (loop1_inv a b _ (fun i1 s => Holds A0 s
    (fun x y => P0 x y ∨ (a ≤ x ∧ x < b ∧ a ≤ y ∧ y < i1)) (fun x y => A0 y x)) s
    hab (h.weaken ?_) ?_)
  · intro x y hxy
    rcases hxy with hxy | hxy
    · exact hxy
    · omega
  · intro i1 s hi1 hi2 hs
    have hin := loop1_inv a b (fun j1 s =>
        if j1 = i1 then { s with d1 := s.A i1 i1 }
        else setB s j1 i1 (s.A i1 j1))
      (fun j1 t => Holds A0 t
        (fun x y => P0 x y ∨ (a ≤ x ∧ x < b ∧ a ≤ y ∧ y < i1) ∨
          (y = i1 ∧ a ≤ x ∧ x < j1 ∧ x ≠ i1)) (fun x y => A0 y x) ∧
        (i1 < j1 → t.d1 = A0 i1 i1)) s hab ⟨hs.weaken ?_, fun hlt => absurd hlt (by omega)⟩ ?_
    · refine hin.1.set i1 i1 _ ?_
      intro x y hxy
      by_cases hc : x = i1 ∧ y = i1
      · refine Or.inl ⟨hc.1, hc.2, ?_⟩
        rw [hin.2 hi2, hc.1, hc.2]
      · refine Or.inr ⟨hc, ?_⟩
        rcases hxy with hxy | hxy
        · exact Or.inl hxy
        · by_cases hy : y = i1
          · exact Or.inr (Or.inr ⟨hy, hxy.1, hxy.2.1, fun hx => hc ⟨hx, hy⟩⟩)
          · exact Or.inr (Or.inl ⟨hxy.1, hxy.2.1, hxy.2.2.1, by omega⟩)
    · intro x y hxy
      rcases hxy with hxy | hxy | hxy
      · exact Or.inl hxy
      · exact Or.inr hxy
      · omega
    · intro j1 t hj1 hj2 ht
      beta_reduce
      by_cases hji : j1 = i1
      · rw [if_pos hji]
        refine ⟨(ht.1.transfer rfl rfl).weaken ?_, fun _ => ?_⟩
        · intro x y hxy
          rcases hxy with hxy | hxy | hxy
          · exact Or.inl hxy
          · exact Or.inr (Or.inl hxy)
          · exact Or.inr (Or.inr ⟨hxy.1, hxy.2.1, by omega, hxy.2.2.2⟩)
        · show t.A i1 i1 = A0 i1 i1
          rw [ht.1.1]
      · rw [if_neg hji]
        refine ⟨ht.1.set j1 i1 _ ?_, fun hlt => ht.2 (by omega)⟩
        intro x y hxy
        by_cases hc : x = j1 ∧ y = i1
        · refine Or.inl ⟨hc.1, hc.2, ?_⟩
          rw [ht.1.1, hc.1, hc.2]
        · refine Or.inr ⟨hc, ?_⟩
          rcases hxy with hxy | hxy | hxy
          · exact Or.inl hxy
          · exact Or.inr (Or.inl hxy)
          · refine Or.inr (Or.inr ⟨hxy.1, hxy.2.1, ?_, hxy.2.2.2⟩)
            have : x ≠ j1 := fun hx => hc ⟨hx, hxy.1⟩
            omega

theorem block_diag0 {A0 : Nat → Nat → Int} {P0 : Nat → Nat → Prop} (a b : Nat) (s : Vars)
    (hab : a ≤ b) (h : Holds A0 s P0 (fun x y => A0 y x)) :
    Holds A0 (loop a b 1 (fun i1 s =>
        let s := loop a b 1 (fun j1 s =>
          if j1 = i1 then { s with d0 := s.A i1 i1 }
          else setB s j1 i1 (s.A i1 j1)) s
        setB s i1 i1 s.d0) s)
      (fun x y => P0 x y ∨ (a ≤ x ∧ x < b ∧ a ≤ y ∧ y < b))
      (fun x y => A0 y x) := by
  refine (loop1_inv a b _ (fun i1 s => Holds A0 s
    (fun x y => P0 x y ∨ (a ≤ x ∧ x < b ∧ a ≤ y ∧ y < i1)) (fun x y => A0 y x)) s
    hab (h.weaken ?_) ?_)
  · intro x y hxy
    rcases hxy with hxy | hxy
    · exact hxy
    · omega
  · intro i1 s hi1 hi2 hs
    have hin := loop1_inv a b (fun j1 s =>
        if j1 = i1 then { s with d0 := s.A i1 i1 }
        else setB s j1 i1 (s.A i1 j1))
      (fun j1 t => Holds A0 t
        (fun x y => P0 x y ∨ (a ≤ x ∧ x < b ∧ a ≤ y ∧ y < i1) ∨
          (y = i1 ∧ a ≤ x ∧ x < j1 ∧ x ≠ i1)) (fun x y => A0 y x) ∧
        (i1 < j1 → t.d0 = A0 i1 i1)) s hab ⟨hs.weaken ?_, fun hlt => absurd hlt (by omega)⟩ ?_
    · refine hin.1.set i1 i1 _ ?_
      intro x y hxy
      by_cases hc : x = i1 ∧ y = i1
      · refine Or.inl ⟨hc.1, hc.2, ?_⟩
        rw [hin.2 hi2, hc.1, hc.2]
      · refine Or.inr ⟨hc, ?_⟩
        rcases hxy with hxy | hxy
        · exact Or.inl hxy
        · by_cases hy : y = i1
          · exact Or.inr (Or.inr ⟨hy, hxy.1, hxy.2.1, fun hx => hc ⟨hx, hy⟩⟩)
          · exact Or.inr (Or.inl ⟨hxy.1, hxy.2.1, hxy.2.2.1, by omega⟩)
    · intro x y hxy
      rcases hxy with hxy | hxy | hxy
      · exact Or.inl hxy
      · exact Or.inr hxy
      · omega
    · intro j1 t hj1 hj2 ht
      beta_reduce
      by_cases hji : j1 = i1
      · rw [if_pos hji]
        refine ⟨(ht.1.transfer rfl rfl).weaken ?_, fun _ => ?_⟩
        · intro x y hxy
          rcases hxy with hxy | hxy | hxy
          · exact Or.inl hxy
          · exact Or.inr (Or.inl hxy)
          · exact Or.inr (Or.inr ⟨hxy.1, hxy.2.1, by omega, hxy.2.2.2⟩)
        · show t.A i1 i1 = A0 i1 i1
          rw [ht.1.1]
      · rw [if_neg hji]
        refine ⟨ht.1.set j1 i1 _ ?_, fun hlt => ht.2 (by omega)⟩
        intro x y hxy
        by_cases hc : x = j1 ∧ y = i1
        · refine Or.inl ⟨hc.1, hc.2, ?_⟩
          rw [ht.1.1, hc.1, hc.2]
        · refine Or.inr ⟨hc, ?_⟩
          rcases hxy with hxy | hxy | hxy
          · exact Or.inl hxy
          · exact Or.inr (Or.inl hxy)
          · refine Or.inr (Or.inr ⟨hxy.1, hxy.2.1, ?_, hxy.2.2.2⟩)
            have : x ≠ j1 := fun hx => hc ⟨hx, hxy.1⟩
            omega

theorem trans32_spec {A0 : Nat → Nat → Int} (s : Vars) (h : s.A = A0) :
    Holds A0 (trans32 32 32 s) (fun x y => x < 32 ∧ y < 32) (fun x y => A0 y x) := by
  unfold trans32
  have hmain := loop_step_inv 32 8 (fun i s =>
      loop 0 32 8 (fun j s =>
        if i = j then
          loop i (i + 8) 1 (fun i1 s =>
            let s := loop j (j + 8) 1 (fun j1 s =>
              if j1 = i1 then { s with d1 := s.A i1 i1 }
              else setB s j1 i1 (s.A i1 j1)) s
            setB s i1 i1 s.d1) s
        else
          loop i (i + 8) 1 (fun i1 s =>
            loop j (j + 8) 1 (fun j1 s => setB s i1 j1 (s.A j1 i1)) s) s) s)
    (fun i s => Holds A0 s (fun x y => x < i ∧ y < 32) (fun x y => A0 y x)) s (by norm_num)
    ⟨h, fun x y hxy => absurd hxy.1 (by omega)⟩ ?_
  · obtain ⟨k, hk1, hk2, hk3, hk⟩ := hmain
    have : k = 32 := by omega
    subst this
    exact hk
  · intro i s hi1 hi2 hs
    have hin := loop_step_inv 32 8 (fun j s =>
        if i = j then
          loop i (i + 8) 1 (fun i1 s =>
            let s := loop j (j + 8) 1 (fun j1 s =>
              if j1 = i1 then { s with d1 := s.A i1 i1 }
              else setB s j1 i1 (s.A i1 j1)) s
            setB s i1 i1 s.d1) s
        else
          loop i (i + 8) 1 (fun i1 s =>
            loop j (j + 8) 1 (fun j1 s => setB s i1 j1 (s.A j1 i1)) s) s)
      (fun j s => Holds A0 s (fun x y => (x < i ∧ y < 32) ∨ (i ≤ x ∧ x < i + 8 ∧ y < j))
        (fun x y => A0 y x)) s (by norm_num) (hs.weaken ?_) ?_
    · obtain ⟨k, hk1, hk2, hk3, hk⟩ := hin
      have : k = 32 := by omega
      subst this
      refine hk.weaken ?_
      intro x y hxy
      by_cases hx : x < i
      · exact Or.inl ⟨hx, hxy.2⟩
      · exact Or.inr ⟨by omega, by omega, hxy.2⟩
    · intro x y hxy
      rcases hxy with hxy | hxy
      · exact hxy
      · omega
    · intro j t hj1 hj2 ht
      beta_reduce
      by_cases hij : i = j
      · rw [if_pos hij]
        subst hij
        refine (block_diag1 i (i + 8) t (by omega) ht).weaken ?_
        intro x y hxy
        rcases hxy with hxy | hxy
        · exact Or.inl (Or.inl hxy)
        · by_cases hy : y < i
          · exact Or.inl (Or.inr ⟨hxy.1, hxy.2.1, hy⟩)
          · exact Or.inr ⟨hxy.1, hxy.2.1, by omega, by omega⟩
      · rw [if_neg hij]
        refine (block_off i j t ht).weaken ?_
        intro x y hxy
        rcases hxy with hxy | hxy
        · exact Or.inl (Or.inl hxy)
        · by_cases hy : y < j
          · exact Or.inl (Or.inr ⟨hxy.1, hxy.2.1, hy⟩)
          · exact Or.inr ⟨hxy.1, hxy.2.1, by omega, by omega⟩

/-! ## The branch for 61 columns -/

theorem Holds.start {A0 : Nat → Nat → Int} {s : Vars} {P0 : Nat → Nat → Prop}
    (h : Holds A0 s P0 (fun x y => A0 y x)) :
    Holds A0 s (fun x y => P0 x y ∨ False) (fun x y => A0 y x) :=
  h.weaken (fun _ _ hxy => hxy.resolve_right id)

theorem Holds.step {A0 : Nat → Nat → Int} {s : Vars} {P0 R : Nat → Nat → Prop}
    (h : Holds A0 s (fun x y => P0 x y ∨ R x y) (fun x y => A0 y x)) (r c : Nat) (v : Int)
    (hv : v = s.A c r) :
    Holds A0 (setB s r c v) (fun x y => P0 x y ∨ (R x y ∨ (x = r ∧ y = c)))
      (fun x y => A0 y x) := by
  refine h.set r c v ?_
  intro x y hxy
  by_cases hc : x = r ∧ y = c
  · refine Or.inl ⟨hc.1, hc.2, ?_⟩
    rw [hv, h.1, hc.1, hc.2]
  · refine Or.inr ⟨hc, ?_⟩
    rcases hxy with hxy | hxy | hxy
    · exact Or.inl hxy
    · exact Or.inr hxy
    · exact absurd hxy hc

theorem trans61_full_spec {A0 : Nat → Nat → Int} {P0 : Nat → Nat → Prop} (i j : Nat)
    (s : Vars) (h : Holds A0 s P0 (fun x y => A0 y x)) :
    Holds A0 (trans61_full i j s) (fun x y => P0 x y ∨ (y = j ∧ i ≤ x ∧ x < i + 16))
      (fun x y => A0 y x) := by
  unfold trans61_full
  lift_lets
  intro s1 s2 s3 s4 s5 s6 s7 s8 t1 t2 t3 t4 t5 t6 t7 t8
  intro u1 u2 u3 u4 u5 u6 u7 u8 v1 v2 v3 v4 v5 v6 v7
  have h8 : Holds A0 s8 (fun x y => P0 x y ∨ False) (fun x y => A0 y x) :=
    h.start.transfer rfl rfl
  have k8 := (((((((h8.step i j s8.d0 rfl).step (i + 1) j t1.d1 rfl).step
    (i + 2) j t2.d2 rfl).step (i + 3) j t3.d3 rfl).step (i + 4) j t4.d4 rfl).step
    (i + 5) j t5.d5 rfl).step (i + 6) j t6.d6 rfl).step (i + 7) j t7.d7 rfl
  have g8 := Holds.transfer (t := u8) k8 rfl rfl
  have m8 := (((((((g8.step (i + 8) j u8.d0 rfl).step (i + 9) j v1.d1 rfl).step
    (i + 10) j v2.d2 rfl).step (i + 11) j v3.d3 rfl).step (i + 12) j v4.d4 rfl).step
    (i + 13) j v5.d5 rfl).step (i + 14) j v6.d6 rfl).step (i + 15) j v7.d7 rfl
  refine m8.weaken ?_
  intro x y hxy
  rcases hxy with hxy | hxy
  · exact Or.inl hxy
  · right
    omega

theorem trans61_last_spec {A0 : Nat → Nat → Int} {P0 : Nat → Nat → Prop} (i j : Nat)
    (s : Vars) (h : Holds A0 s P0 (fun x y => A0 y x)) :
    Holds A0 (trans61_last i j s) (fun x y => P0 x y ∨ (y = j ∧ i ≤ x ∧ x < i + 13))
      (fun x y => A0 y x) := by
  unfold trans61_last
  lift_lets
  intro s1 s2 s3 s4 s5 s6 s7 s8 t1 t2 t3 t4 t5 t6 t7 t8
  intro u1 u2 u3 u4 u5 v1 v2 v3 v4
  have h8 : Holds A0 s8 (fun x y => P0 x y ∨ False) (fun x y => A0 y x) :=
    h.start.transfer rfl rfl
  have k8 := (((((((h8.step i j s8.d0 rfl).step (i + 1) j t1.d1 rfl).step
    (i + 2) j t2.d2 rfl).step (i + 3) j t3.d3 rfl).step (i + 4) j t4.d4 rfl).step
    (i + 5) j t5.d5 rfl).step (i + 6) j t6.d6 rfl).step (i + 7) j t7.d7 rfl
  have g8 := Holds.transfer (t := u5) k8 rfl rfl
  have m8 := ((((g8.step (i + 8) j u5.d0 rfl).step (i + 9) j v1.d1 rfl).step
    (i + 10) j v2.d2 rfl).step (i + 11) j v3.d3 rfl).step (i + 12) j v4.d4 rfl
  refine m8.weaken ?_
  intro x y hxy
  rcases hxy with hxy | hxy
  · exact Or.inl hxy
  · right
    omega

theorem trans61_spec {A0 : Nat → Nat → Int} (s : Vars) (h : s.A = A0) :
    Holds A0 (trans61 s) (fun x y => x < 61 ∧ y < 67) (fun x y => A0 y x) := by
  unfold trans61
  have hmain := loop_step_inv 61 16 (fun i s =>
      loop 0 67 1 (fun j s =>
        if i = 48 then trans61_last i j s else trans61_full i j s) s)
    (fun i s => Holds A0 s (fun x y => x < i ∧ x < 61 ∧ y < 67) (fun x y => A0 y x)) s
    (by norm_num) ⟨h, fun x y hxy => absurd hxy.1 (by omega)⟩ ?_
  · obtain ⟨k, hk1, hk2, hk3, hk⟩ := hmain
    refine hk.weaken ?_
    intro x y hxy
    exact ⟨by omega, hxy.1, hxy.2⟩
  · intro i s hi1 hi2 hs
    refine (loop1_inv 0 67 _ (fun j s => Holds A0 s
      (fun x y => (x < i ∧ x < 61 ∧ y < 67) ∨ (i ≤ x ∧ x < i + 16 ∧ x < 61 ∧ y < j))
      (fun x y => A0 y x)) s (by omega) (hs.weaken ?_) ?_).weaken ?_
    · intro x y hxy
      rcases hxy with hxy | hxy
      · exact hxy
      · omega
    · intro j t hj1 hj2 ht
      beta_reduce
      by_cases h48 : i = 48
      · rw [if_pos h48]
        refine (trans61_last_spec i j t ht).weaken ?_
        intro x y hxy
        rcases hxy with hxy | hxy
        · exact Or.inl (Or.inl hxy)
        · by_cases hy : y < j
          · exact Or.inl (Or.inr ⟨hxy.1, hxy.2.1, hxy.2.2.1, hy⟩)
          · exact Or.inr ⟨by omega, hxy.1, by omega⟩
      · rw [if_neg h48]
        refine (trans61_full_spec i j t ht).weaken ?_
        intro x y hxy
        rcases hxy with hxy | hxy
        · exact Or.inl (Or.inl hxy)
        · by_cases hy : y < j
          · exact Or.inl (Or.inr ⟨hxy.1, hxy.2.1, hxy.2.2.1, hy⟩)
          · exact Or.inr ⟨by omega, hxy.1, by omega⟩
    · intro x y hxy
      by_cases hx : x < i
      · exact Or.inl ⟨hx, hxy.2⟩
      · exact Or.inr ⟨by omega, by omega, hxy.2.1, hxy.2.2⟩

/-! ## The branch for 64 columns -/

theorem Holds.frame {A0 : Nat → Nat → Int} {s : Vars} {P : Nat → Nat → Prop}
    {f : Nat → Nat → Int} (h : Holds A0 s P f) (r c : Nat) (v : Int)
    (hn : ∀ x y, P x y → ¬ (x = r ∧ y = c)) : Holds A0 (setB s r c v) P f :=
  h.set r c v (fun x y hxy => Or.inr ⟨hn x y hxy, hxy⟩)

theorem Holds.add {A0 : Nat → Nat → Int} {s : Vars} {P : Nat → Nat → Prop}
    {f : Nat → Nat → Int} (h : Holds A0 s P f) (r c : Nat) (v : Int) (hv : v = f r c) :
    Holds A0 (setB s r c v) (fun x y => P x y ∨ (x = r ∧ y = c)) f := by
  refine h.set r c v ?_
  intro x y hxy
  by_cases hc : x = r ∧ y = c
  · refine Or.inl ⟨hc.1, hc.2, ?_⟩
    rw [hv, hc.1, hc.2]
  · exact Or.inr ⟨hc, hxy.resolve_right hc⟩

theorem Holds.put {A0 : Nat → Nat → Int} {s : Vars} {P0 R : Nat → Nat → Prop}
    (h : Holds A0 s (fun x y => P0 x y ∨ R x y) (fun x y => A0 y x)) (r c : Nat) (v : Int)
    (hv : v = A0 c r) :
    Holds A0 (setB s r c v) (fun x y => P0 x y ∨ (R x y ∨ (x = r ∧ y = c)))
      (fun x y => A0 y x) :=
  (h.add r c v hv).weaken (fun _ _ hxy => hxy.elim (fun h1 => Or.inl (Or.inl h1))
    (fun h1 => h1.elim (fun h2 => Or.inl (Or.inr h2)) Or.inr))

theorem trans64_first_spec {A0 : Nat → Nat → Int} {P0 : Nat → Nat → Prop} (i j : Nat)
    (s : Vars) (h : Holds A0 s P0 (fun x y => A0 y x))
    (hd : ∀ x y, P0 x y → ¬ (j ≤ x ∧ x < j + 8 ∧ i ≤ y ∧ y < i + 8)) :
    Holds A0 (trans64_first i j s)
        (fun x y => P0 x y ∨ (j ≤ x ∧ x < j + 4 ∧ i ≤ y ∧ y < i + 4)) (fun x y => A0 y x) ∧
      Holds A0 (trans64_first i j s)
        (fun x y => j ≤ x ∧ x < j + 4 ∧ i + 4 ≤ y ∧ y < i + 8)
        (fun x y => A0 (y - 4) (x + 4)) := by
  unfold trans64_first
  have hmain := loop1_inv i (i + 4) (fun i1 s =>
      loop j (j + 4) 1 (fun j1 s =>
        let s := setB s j1 i1 (s.A i1 j1)
        setB s j1 (i1 + 4) (s.A i1 (j1 + 4))) s)
    (fun i1 s =>
      Holds A0 s (fun x y => P0 x y ∨ (j ≤ x ∧ x < j + 4 ∧ i ≤ y ∧ y < i1))
        (fun x y => A0 y x) ∧
      Holds A0 s (fun x y => j ≤ x ∧ x < j + 4 ∧ i + 4 ≤ y ∧ y < i1 + 4)
        (fun x y => A0 (y - 4) (x + 4))) s (by omega)
    ⟨h.weaken ?_, h.1, fun x y hxy => absurd hxy (by omega)⟩ ?_
  · exact hmain
  · intro x y hxy
    rcases hxy with hxy | hxy
    · exact hxy
    · omega
  · intro i1 s hi1 hi2 hs
    have hin := loop1_inv j (j + 4) (fun j1 s =>
        let s := setB s j1 i1 (s.A i1 j1)
        setB s j1 (i1 + 4) (s.A i1 (j1 + 4)))
      (fun j1 s =>
        Holds A0 s (fun x y => P0 x y ∨ (j ≤ x ∧ x < j + 4 ∧ i ≤ y ∧ y < i1) ∨
          (y = i1 ∧ j ≤ x ∧ x < j1)) (fun x y => A0 y x) ∧
        Holds A0 s (fun x y => (j ≤ x ∧ x < j + 4 ∧ i + 4 ≤ y ∧ y < i1 + 4) ∨
          (y = i1 + 4 ∧ j ≤ x ∧ x < j1)) (fun x y => A0 (y - 4) (x + 4))) s (by omega)
      ⟨hs.1.weaken ?_, hs.2.weaken ?_⟩ ?_
    · refine ⟨hin.1.weaken ?_, hin.2.weaken ?_⟩
      · intro x y hxy
        rcases hxy with hxy | hxy
        · exact Or.inl hxy
        · by_cases hy : y = i1
          · exact Or.inr (Or.inr ⟨hy, hxy.1, hxy.2.1⟩)
          · exact Or.inr (Or.inl ⟨hxy.1, hxy.2.1, hxy.2.2.1, by omega⟩)
      · intro x y hxy
        by_cases hy : y = i1 + 4
        · exact Or.inr ⟨hy, hxy.1, hxy.2.1⟩
        · exact Or.inl ⟨hxy.1, hxy.2.1, hxy.2.2.1, by omega⟩
    · intro x y hxy
      rcases hxy with hxy | hxy | hxy
      · exact Or.inl hxy
      · exact Or.inr hxy
      · omega
    · intro x y hxy
      rcases hxy with hxy | hxy
      · exact hxy
      · omega
    · intro j1 t hj1 hj2 ht
      show Holds A0 (setB (setB t j1 i1 (t.A i1 j1)) j1 (i1 + 4) (t.A i1 (j1 + 4))) _ _ ∧
        Holds A0 (setB (setB t j1 i1 (t.A i1 j1)) j1 (i1 + 4) (t.A i1 (j1 + 4))) _ _
      constructor
      · refine ((ht.1.add j1 i1 (t.A i1 j1) (by rw [ht.1.1])).frame j1 (i1 + 4) _ ?_).weaken ?_
        · intro x y hxy hc
          rcases hxy with (hxy | hxy | hxy) | hxy
          · exact hd x y hxy (by omega)
          · omega
          · omega
          · omega
        · intro x y hxy
          rcases hxy with hxy | hxy | hxy
          · exact Or.inl (Or.inl hxy)
          · exact Or.inl (Or.inr (Or.inl hxy))
          · by_cases hx : x = j1
            · exact Or.inr ⟨hx, hxy.1⟩
            · exact Or.inl (Or.inr (Or.inr ⟨hxy.1, hxy.2.1, by omega⟩))
      · refine ((ht.2.frame j1 i1 (t.A i1 j1) ?_).add j1 (i1 + 4) _ ?_).weaken ?_
        · intro x y hxy hc
          omega
        · show t.A i1 (j1 + 4) = A0 (i1 + 4 - 4) (j1 + 4)
          rw [ht.1.1, Nat.add_sub_cancel]
        · intro x y hxy
          rcases hxy with hxy | hxy
          · exact Or.inl (Or.inl hxy)
          · by_cases hx : x = j1
            · exact Or.inr ⟨hx, hxy.1⟩
            · exact Or.inl (Or.inr ⟨hxy.1, hxy.2.1, by omega⟩)

theorem trans64_second_spec {A0 : Nat → Nat → Int} {P0 : Nat → Nat → Prop} (i j : Nat)
    (s : Vars)
    (h : Holds A0 s (fun x y => P0 x y ∨ (j ≤ x ∧ x < j + 4 ∧ i ≤ y ∧ y < i + 4))
      (fun x y => A0 y x))
    (ht : Holds A0 s (fun x y => j ≤ x ∧ x < j + 4 ∧ i + 4 ≤ y ∧ y < i + 8)
      (fun x y => A0 (y - 4) (x + 4))) :
    Holds A0 (trans64_second i j s)
      (fun x y => P0 x y ∨ (j ≤ x ∧ x < j + 8 ∧ i ≤ y ∧ y < i + 4) ∨
        (j ≤ x ∧ x < j + 4 ∧ i + 4 ≤ y ∧ y < i + 8)) (fun x y => A0 y x) := by
  unfold trans64_second
  refine (loop1_inv i (i + 4) _
    (fun i1 s =>
      Holds A0 s (fun x y => (P0 x y ∨ (j ≤ x ∧ x < j + 4 ∧ i ≤ y ∧ y < i + 4)) ∨
          ((j ≤ x ∧ x + i < j + i1 ∧ i + 4 ≤ y ∧ y < i + 8) ∨
            (j + 4 ≤ x ∧ x + i < j + 4 + i1 ∧ i ≤ y ∧ y < i + 4)))
        (fun x y => A0 y x) ∧
      Holds A0 s (fun x y => j + i1 ≤ x + i ∧ x < j + 4 ∧ i + 4 ≤ y ∧ y < i + 8)
        (fun x y => A0 (y - 4) (x + 4))) s (by omega)
    ⟨h.weaken ?_, ht.weaken ?_⟩ ?_).1.weaken ?_
  · intro x y hxy
    rcases hxy with hxy | hxy | hxy
    · exact hxy
    · omega
    · omega
  · intro x y hxy
    exact ⟨by omega, hxy.2⟩
  · intro i1 s hi1 hi2 hs
    beta_reduce
    lift_lets
    intro s1 s2 s3 s4 s5 s6 s7 s8 t1 t2 t3 t4 t5 t6 t7
    have hA := hs.1.1
    have e4 : s8.d4 = A0 i (i1 - i + j + 4) :=
      (hs.2.2 (i1 - i + j) (i + 4) ⟨by omega, by omega, by omega, by omega⟩).trans
        (by show A0 (i + 4 - 4) _ = _; rw [Nat.add_sub_cancel])
    have e5 : s8.d5 = A0 (i + 1) (i1 - i + j + 4) :=
      (hs.2.2 (i1 - i + j) (i + 5) ⟨by omega, by omega, by omega, by omega⟩).trans
        (by show A0 (i + 5 - 4) _ = _; rw [show i + 5 - 4 = i + 1 by omega])
    have e6 : s8.d6 = A0 (i + 2) (i1 - i + j + 4) :=
      (hs.2.2 (i1 - i + j) (i + 6) ⟨by omega, by omega, by omega, by omega⟩).trans
        (by show A0 (i + 6 - 4) _ = _; rw [show i + 6 - 4 = i + 2 by omega])
    have e7 : s8.d7 = A0 (i + 3) (i1 - i + j + 4) :=
      (hs.2.2 (i1 - i + j) (i + 7) ⟨by omega, by omega, by omega, by omega⟩).trans
        (by show A0 (i + 7 - 4) _ = _; rw [show i + 7 - 4 = i + 3 by omega])
    have h8 : Holds A0 s8 _ (fun x y => A0 y x) := hs.1.transfer (t := s8) rfl rfl
    have g8 : Holds A0 s8
        (fun x y => j + (i1 + 1) ≤ x + i ∧ x < j + 4 ∧ i + 4 ≤ y ∧ y < i + 8)
        (fun x y => A0 (y - 4) (x + 4)) :=
      (hs.2.transfer (t := s8) rfl rfl).weaken (fun x y hxy => ⟨by omega, hxy.2⟩)
    have k8 := (((((((h8.put (i1 - i + j) (i + 4) s8.d0 (congrFun (congrFun hA _) _)).put
      (i1 - i + j) (i + 5) t1.d1 (congrFun (congrFun hA _) _)).put
      (i1 - i + j) (i + 6) t2.d2 (congrFun (congrFun hA _) _)).put
      (i1 - i + j) (i + 7) t3.d3 (congrFun (congrFun hA _) _)).put
      (i1 - i + j + 4) i t4.d4 e4).put
      (i1 - i + j + 4) (i + 1) t5.d5 e5).put
      (i1 - i + j + 4) (i + 2) t6.d6 e6).put
      (i1 - i + j + 4) (i + 3) t7.d7 e7
    have m8 := (((((((g8.frame (i1 - i + j) (i + 4) s8.d0 ?_).frame
      (i1 - i + j) (i + 5) t1.d1 ?_).frame
      (i1 - i + j) (i + 6) t2.d2 ?_).frame
      (i1 - i + j) (i + 7) t3.d3 ?_).frame
      (i1 - i + j + 4) i t4.d4 ?_).frame
      (i1 - i + j + 4) (i + 1) t5.d5 ?_).frame
      (i1 - i + j + 4) (i + 2) t6.d6 ?_).frame
      (i1 - i + j + 4) (i + 3) t7.d7 ?_
    · refine ⟨k8.weaken ?_, m8⟩
      · intro x y hxy
        rcases hxy with hxy | hxy | hxy
        · exact Or.inl hxy
        · by_cases hx : x + i < j + i1
          · exact Or.inr (Or.inl (Or.inl (Or.inl (Or.inl (Or.inl (Or.inl (Or.inl (Or.inl
              (Or.inl ⟨hxy.1, hx, hxy.2.2⟩)))))))))
          · right
            omega
        · by_cases hx : x + i < j + 4 + i1
          · exact Or.inr (Or.inl (Or.inl (Or.inl (Or.inl (Or.inl (Or.inl (Or.inl (Or.inl
              (Or.inr ⟨hxy.1, hx, hxy.2.2⟩)))))))))
          · right
            omega
    all_goals
      intro x y hxy hc
      omega
  · intro x y hxy
    rcases hxy with hxy | hxy | hxy
    · exact Or.inl (Or.inl hxy)
    · by_cases hx : x < j + 4
      · exact Or.inl (Or.inr ⟨hxy.1, hx, hxy.2.2⟩)
      · exact Or.inr (Or.inr ⟨by omega, by omega, hxy.2.2⟩)
    · exact Or.inr (Or.inl ⟨hxy.1, by omega, hxy.2.2⟩)

theorem trans64_third_spec {A0 : Nat → Nat → Int} {P0 : Nat → Nat → Prop} (i j : Nat)
    (s : Vars) (h : Holds A0 s P0 (fun x y => A0 y x)) :
    Holds A0 (trans64_third i j s)
      (fun x y => P0 x y ∨ (j + 4 ≤ x ∧ x < j + 8 ∧ i + 4 ≤ y ∧ y < i + 8))
      (fun x y => A0 y x) := by
  unfold trans64_third
  by_cases hij : i = j
  · rw [if_neg (not_not.2 hij)]
    subst hij
    exact block_diag0 (i + 4) (i + 8) s (by omega) h
  · rw [if_pos hij]
    refine loop1_inv (i + 4) (i + 8) _ (fun i1 s => Holds A0 s
      (fun x y => P0 x y ∨ (j + 4 ≤ x ∧ x < j + 8 ∧ i + 4 ≤ y ∧ y < i1))
      (fun x y => A0 y x)) s (by omega) (h.weaken ?_) ?_
    · intro x y hxy
      rcases hxy with hxy | hxy
      · exact hxy
      · omega
    · intro i1 s hi1 hi2 hs
      beta_reduce
      lift_lets
      intro s1 s2 s3 s4 t1 t2 t3
      have hA := hs.1
      have h4 : Holds A0 s4 (fun x y => (P0 x y ∨
          (j + 4 ≤ x ∧ x < j + 8 ∧ i + 4 ≤ y ∧ y < i1)) ∨ False) (fun x y => A0 y x) :=
        hs.start.transfer rfl rfl
      have k4 := (((h4.put (j + 4) i1 s4.d0 (congrFun (congrFun hA _) _)).put
        (j + 5) i1 t1.d1 (congrFun (congrFun hA _) _)).put
        (j + 6) i1 t2.d2 (congrFun (congrFun hA _) _)).put
        (j + 7) i1 t3.d3 (congrFun (congrFun hA _) _)
      refine k4.weaken ?_
      intro x y hxy
      rcases hxy with hxy | hxy
      · exact Or.inl (Or.inl hxy)
      · by_cases hy : y < i1
        · exact Or.inl (Or.inr ⟨hxy.1, hxy.2.1, hxy.2.2.1, hy⟩)
        · right
          omega

theorem trans64_block {A0 : Nat → Nat → Int} {P0 : Nat → Nat → Prop} (i j : Nat)
    (s : Vars) (h : Holds A0 s P0 (fun x y => A0 y x))
    (hd : ∀ x y, P0 x y → ¬ (j ≤ x ∧ x < j + 8 ∧ i ≤ y ∧ y < i + 8)) :
    Holds A0 (trans64_third i j (trans64_second i j (trans64_first i j s)))
      (fun x y => P0 x y ∨ (j ≤ x ∧ x < j + 8 ∧ i ≤ y ∧ y < i + 8))
      (fun x y => A0 y x) := by
  obtain ⟨h1, h2⟩ := trans64_first_spec i j s h hd
  refine (trans64_third_spec i j _ (trans64_second_spec i j _ h1 h2)).weaken ?_
  intro x y hxy
  rcases hxy with hxy | hxy
  · exact Or.inl (Or.inl hxy)
  · by_cases hy : y < i + 4
    · exact Or.inl (Or.inr (Or.inl ⟨hxy.1, hxy.2.1, hxy.2.2.1, hy⟩))
    · by_cases hx : x < j + 4
      · exact Or.inl (Or.inr (Or.inr ⟨hxy.1, hx, by omega, hxy.2.2.2⟩))
      · exact Or.inr ⟨by omega, hxy.2.1, by omega, hxy.2.2.2⟩

theorem trans64_spec {A0 : Nat → Nat → Int} (s : Vars) (h : s.A = A0) :
    Holds A0 (trans64 64 64 s) (fun x y => x < 64 ∧ y < 64) (fun x y => A0 y x) := by
  unfold trans64
  have hmain := loop_step_inv 64 8 (fun i s =>
      loop 0 64 8 (fun j s =>
        trans64_third i j (trans64_second i j (trans64_first i j s))) s)
    (fun i s => Holds A0 s (fun x y => x < 64 ∧ y < i) (fun x y => A0 y x)) s (by norm_num)
    ⟨h, fun x y hxy => absurd hxy.2 (by omega)⟩ ?_
  · obtain ⟨k, hk1, hk2, hk3, hk⟩ := hmain
    have : k = 64 := by omega
    subst this
    exact hk
  · intro i s hi1 hi2 hs
    have hin := loop_step_inv 64 8 (fun j s =>
        trans64_third i j (trans64_second i j (trans64_first i j s)))
      (fun j s => Holds A0 s (fun x y => (x < 64 ∧ y < i) ∨ (x < j ∧ i ≤ y ∧ y < i + 8))
        (fun x y => A0 y x)) s (by norm_num) (hs.weaken ?_) ?_
    · obtain ⟨k, hk1, hk2, hk3, hk⟩ := hin
      have : k = 64 := by omega
      subst this
      refine hk.weaken ?_
      intro x y hxy
      by_cases hy : y < i
      · exact Or.inl ⟨hxy.1, hy⟩
      · exact Or.inr ⟨hxy.1, by omega, by omega⟩
    · intro x y hxy
      rcases hxy with hxy | hxy
      · exact hxy
      · omega
    · intro j t hj1 hj2 ht
      refine (trans64_block i j t ht ?_).weaken ?_
      · intro x y hxy hc
        rcases hxy with hxy | hxy
        · omega
        · omega
      · intro x y hxy
        rcases hxy with hxy | hxy
        · exact Or.inl (Or.inl hxy)
        · by_cases hx : x < j
          · exact Or.inl (Or.inr ⟨hx, hxy.2.1, hxy.2.2⟩)
          · exact Or.inr ⟨by omega, by omega, hxy.2.1, hxy.2.2⟩

/-! ## `transpose_submit` -/

theorem is_transpose_iff (M N : Nat) (A B : Nat → Nat → Int) :
    is_transpose M N A B = 1 ↔ ∀ i, i < N → ∀ j, j < M → A i j = B j i := by
  unfold is_transpose
  constructor
  · intro h i hi j hj
    by_contra hne
    have hall : ¬ ((List.range N).all
        (fun i => (List.range M).all (fun j => decide (A i j = B j i)))) = true := by
      intro hall
      rw [List.all_eq_true] at hall
      have h1 := hall i (List.mem_range.2 hi)
      rw [List.all_eq_true] at h1
      have h2 := h1 j (List.mem_range.2 hj)
      exact hne (of_decide_eq_true h2)
    rw [if_neg hall] at h
    exact absurd h (by norm_num)
  · intro h
    rw [if_pos]
    rw [List.all_eq_true]
    intro i hi
    rw [List.all_eq_true]
    intro j hj
    exact decide_eq_true (h i (List.mem_range.1 hi) j (List.mem_range.1 hj))

theorem transpose_submit_spec (M N : Nat) (s : Vars)
    (h : (M = 32 ∧ N = 32) ∨ (M = 64 ∧ N = 64) ∨ (M = 61 ∧ N = 67)) :
    Holds s.A (transpose_submit M N s) (fun x y => x < M ∧ y < N) (fun x y => s.A y x) := by
  unfold transpose_submit
  rcases h with ⟨rfl, rfl⟩ | ⟨rfl, rfl⟩ | ⟨rfl, rfl⟩
  · simp only [if_true, show ¬ (32 = 64) by norm_num, show ¬ (32 = 61) by norm_num, if_false]
    exact trans32_spec s rfl
  · simp only [if_true, show ¬ (64 = 32) by norm_num, show ¬ (64 = 61) by norm_num, if_false]
    exact trans64_spec s rfl
  · simp only [if_true, show ¬ (61 = 32) by norm_num, show ¬ (61 = 64) by norm_num, if_false]
    exact trans61_spec s rfl

/-! ## The selection rule of `find_fit` -/

theorem walkList_nil {s : State} {F ptr : Nat} (h : walkList s F ptr = some []) :
    ptr = NIL := by
  by_contra hne
  cases F with
  | zero => simp [walkList, hne] at h
  | succ F =>
    unfold walkList at h
    rw [if_neg hne] at h
    cases hw : walkList s F (SUCC s ptr) with
    | none => rw [hw] at h; exact absurd h (by simp)
    | some l => rw [hw] at h; exact absurd h (by simp)

theorem walkList_cons {s : State} {F ptr x : Nat} {xs : List Nat}
    (h : walkList s F ptr = some (x :: xs)) :
    ptr = x ∧ x ≠ NIL ∧ ∃ F1, walkList s F1 (SUCC s x) = some xs := by
  by_cases hp : ptr = NIL
  · cases F with
    | zero => simp [walkList, hp] at h
    | succ F => simp [walkList, hp] at h
  · cases F with
    | zero => simp [walkList, hp] at h
    | succ F =>
      unfold walkList at h
      rw [if_neg hp] at h
      cases hw : walkList s F (SUCC s ptr) with
      | none => rw [hw] at h; exact absurd h (by simp)
      | some l =>
        rw [hw] at h
        simp only [Option.some.injEq, List.cons.injEq] at h
        obtain ⟨rfl, rfl⟩ := h
        exact ⟨rfl, hp, F, hw⟩

theorem walkList_length {s : State} : ∀ (l : List Nat) (F ptr : Nat),
    walkList s F ptr = some l → l.length ≤ F := by
  intro l
  induction l with
  | nil => intro F ptr _; exact Nat.zero_le _
  | cons x xs ih =>
    intro F ptr h
    by_cases hp : ptr = NIL
    · cases F with
      | zero => simp [walkList, hp] at h
      | succ F => simp [walkList, hp] at h
    · cases F with
      | zero => simp [walkList, hp] at h
      | succ F =>
        unfold walkList at h
        rw [if_neg hp] at h
        cases hw : walkList s F (SUCC s ptr) with
        | none => rw [hw] at h; exact absurd h (by simp)
        | some l =>
          rw [hw] at h
          simp only [Option.some.injEq, List.cons.injEq] at h
          obtain ⟨rfl, rfl⟩ := h
          have := ih F _ hw
          simp only [List.length_cons]
          omega

theorem find_fit_scan_nil (s : State) (asize fuel bsize bptr : Nat) :
    find_fit_scan s asize fuel NIL bsize bptr = some (Scan.done bsize bptr) := by
  cases fuel <;> simp [find_fit_scan]

theorem scan_post_cons {s : State} {asize : Nat} {pre : List Nat} {x : Nat} {xs : List Nat}
    {res : Scan}
    (h : (∀ p, res = Scan.ret p → ∃ l1 l2, xs = l1 ++ p :: l2 ∧ goodEnough s asize p ∧
          ∀ q ∈ (pre ++ [x]) ++ l1, ¬ goodEnough s asize q) ∧
        (∀ b1 p1, res = Scan.done b1 p1 → Best s asize ((pre ++ [x]) ++ xs) b1 p1)) :
    (∀ p, res = Scan.ret p → ∃ l1 l2, x :: xs = l1 ++ p :: l2 ∧ goodEnough s asize p ∧
        ∀ q ∈ pre ++ l1, ¬ goodEnough s asize q) ∧
      (∀ b1 p1, res = Scan.done b1 p1 → Best s asize (pre ++ x :: xs) b1 p1) := by
  refine ⟨fun p hp => ?_, fun b1 p1 h1 => ?_⟩
  · obtain ⟨l1, l2, e, hg, hn⟩ := h.1 p hp
    refine ⟨x :: l1, l2, by rw [e]; rfl, hg, fun q hq => hn q ?_⟩
    simpa using hq
  · have := h.2 b1 p1 h1
    simpa using this

theorem Best.new {s : State} {asize : Nat} {pre : List Nat} {bsize bptr x : Nat}
    (hb : Best s asize pre bsize bptr) (hx : x ≠ NULL)
    (h2 : GET_SIZE s (HDRP x) > asize ∧ GET_SIZE s (HDRP x) - asize < bsize)
    (h3 : ¬ GET_SIZE s (HDRP x) - asize ≤ asize / 2) :
    Best s asize (pre ++ [x]) (GET_SIZE s (HDRP x) - asize) x := by
  refine ⟨fun q hq => ?_, Or.inr ⟨hx, le_of_lt h2.1, rfl, pre, [], rfl, fun q hq hf => ?_,
    fun q hq => absurd hq (List.not_mem_nil q)⟩⟩
  · rcases List.mem_append.1 hq with hq | hq
    · exact hb.1 q hq
    · rw [List.mem_singleton] at hq
      subst hq
      exact fun hg => h3 hg.2
  · rcases hb.2 with ⟨_, _, hn⟩ | ⟨_, hfb, hbs, a, b, rfl, ha, hb2⟩
    · exact absurd hf (hn q hq)
    · have hfb1 : asize ≤ GET_SIZE s (HDRP bptr) := hfb
      have hlt : GET_SIZE s (HDRP x) < GET_SIZE s (HDRP bptr) := by omega
      rcases List.mem_append.1 hq with hq | hq
      · exact lt_trans hlt (ha q hq hf)
      · rcases List.mem_cons.1 hq with hq | hq
        · rw [hq]; exact hlt
        · exact lt_of_lt_of_le hlt (hb2 q hq hf)

theorem Best.keep {s : State} {asize : Nat} {pre : List Nat} {bsize bptr x : Nat}
    (hb : Best s asize pre bsize bptr) (h1 : ¬ GET_SIZE s (HDRP x) = asize)
    (h2 : ¬ (GET_SIZE s (HDRP x) > asize ∧ GET_SIZE s (HDRP x) - asize < bsize)) :
    Best s asize (pre ++ [x]) bsize bptr := by
  have hlt := GET_SIZE_lt s (HDRP x)
  have key : fitting s asize x → bsize ≤ GET_SIZE s (HDRP x) - asize := by
    intro hf
    have hf1 : asize ≤ GET_SIZE s (HDRP x) := hf
    by_contra hc
    exact h2 ⟨by omega, by omega⟩
  refine ⟨fun q hq => ?_, ?_⟩
  · rcases List.mem_append.1 hq with hq | hq
    · exact hb.1 q hq
    · rw [List.mem_singleton] at hq
      subst hq
      intro hg
      have hk := key hg.1
      have hg2 : GET_SIZE s (HDRP q) - asize ≤ asize / 2 := hg.2
      rcases hb.2 with ⟨_, hbig, _⟩ | ⟨_, hfb, hbs, a, b, rfl, _, _⟩
      · omega
      · exact hb.1 bptr (by simp) ⟨hfb, by omega⟩
  · rcases hb.2 with ⟨hnull, hbig, hn⟩ | ⟨hnn, hfb, hbs, a, b, rfl, ha, hb2⟩
    · refine Or.inl ⟨hnull, hbig, fun q hq => ?_⟩
      rcases List.mem_append.1 hq with hq | hq
      · exact hn q hq
      · rw [List.mem_singleton] at hq
        subst hq
        intro hf
        have := key hf
        omega
    · refine Or.inr ⟨hnn, hfb, hbs, a, b ++ [x], by simp, ha, fun q hq hf => ?_⟩
      rcases List.mem_append.1 hq with hq | hq
      · exact hb2 q hq hf
      · rw [List.mem_singleton] at hq
        subst hq
        have := key hf
        have hfb1 : asize ≤ GET_SIZE s (HDRP bptr) := hfb
        have hf1 : asize ≤ GET_SIZE s (HDRP q) := hf
        omega

theorem find_fit_scan_succ (s : State) (asize f x bsize bptr : Nat) (hx : x ≠ NIL) :
    find_fit_scan s asize (f + 1) x bsize bptr =
      if GET_SIZE s (HDRP x) = asize then some (Scan.ret x)
      else if GET_SIZE s (HDRP x) > asize ∧ GET_SIZE s (HDRP x) - asize < bsize then
        if GET_SIZE s (HDRP x) - asize ≤ asize / 2 then some (Scan.ret x)
        else find_fit_scan s asize f (SUCC s x) (GET_SIZE s (HDRP x) - asize) x
      else find_fit_scan s asize f (SUCC s x) bsize bptr := by
  rw [find_fit_scan, if_neg hx]

theorem scan_sel (s : State) (asize : Nat) :
    ∀ (l pre : List Nat) (F fuel ptr bsize bptr : Nat),
      walkList s F ptr = some l → (∀ q ∈ l, q ≠ NULL) → Best s asize pre bsize bptr →
      (∀ res, find_fit_scan s asize fuel ptr bsize bptr = some res →
        (∀ p, res = Scan.ret p → ∃ l1 l2, l = l1 ++ p :: l2 ∧ goodEnough s asize p ∧
          ∀ q ∈ pre ++ l1, ¬ goodEnough s asize q) ∧
        (∀ b1 p1, res = Scan.done b1 p1 → Best s asize (pre ++ l) b1 p1)) ∧
      (l.length ≤ fuel → ∃ res, find_fit_scan s asize fuel ptr bsize bptr = some res) := by
  intro l
  induction l with
  | nil =>
    intro pre F fuel ptr bsize bptr hw hz hb
    have hp := walkList_nil hw
    subst hp
    rw [find_fit_scan_nil]
    refine ⟨fun res hres => ?_, fun _ => ⟨_, rfl⟩⟩
    rw [Option.some.injEq] at hres
    subst hres
    refine ⟨fun p hp => Scan.noConfusion hp, fun b1 p1 h1 => ?_⟩
    cases h1
    rw [List.append_nil]
    exact hb
  | cons x xs ih =>
    intro pre F fuel ptr bsize bptr hw hz hb
    obtain ⟨rfl, hx, F1, hw1⟩ := walkList_cons hw
    have hxz : ptr ≠ NULL := hz ptr (List.mem_cons_self _ _)
    have hzs : ∀ q ∈ xs, q ≠ NULL := fun q hq => hz q (List.mem_cons_of_mem _ hq)
    cases fuel with
    | zero =>
      refine ⟨fun res hres => ?_, fun hlen => ?_⟩
      · simp [find_fit_scan, hx] at hres
      · simp at hlen
    | succ f =>
      rw [find_fit_scan_succ s asize f ptr bsize bptr hx]
      by_cases h1 : GET_SIZE s (HDRP ptr) = asize
      · rw [if_pos h1]
        refine ⟨fun res hres => ?_, fun _ => ⟨_, rfl⟩⟩
        rw [Option.some.injEq] at hres
        subst hres
        refine ⟨fun p hp => ?_, fun b1 p1 h => Scan.noConfusion h⟩
        cases hp
        refine ⟨[], xs, rfl, ⟨le_of_eq h1.symm, by rw [h1]; simp⟩, ?_⟩
        rw [List.append_nil]
        exact hb.1
      · rw [if_neg h1]
        by_cases h2 : GET_SIZE s (HDRP ptr) > asize ∧ GET_SIZE s (HDRP ptr) - asize < bsize
        · rw [if_pos h2]
          by_cases h3 : GET_SIZE s (HDRP ptr) - asize ≤ asize / 2
          · rw [if_pos h3]
            refine ⟨fun res hres => ?_, fun _ => ⟨_, rfl⟩⟩
            rw [Option.some.injEq] at hres
            subst hres
            refine ⟨fun p hp => ?_, fun b1 p1 h => Scan.noConfusion h⟩
            cases hp
            refine ⟨[], xs, rfl, ⟨le_of_lt h2.1, h3⟩, ?_⟩
            rw [List.append_nil]
            exact hb.1
          · rw [if_neg h3]
            have hi := ih (pre ++ [ptr]) F1 f (SUCC s ptr) (GET_SIZE s (HDRP ptr) - asize) ptr
              hw1 hzs (hb.new hxz h2 h3)
            refine ⟨fun res hres => scan_post_cons (hi.1 res hres), fun hlen => hi.2 ?_⟩
            simp only [List.length_cons] at hlen
            omega
        · rw [if_neg h2]
          have hi := ih (pre ++ [ptr]) F1 f (SUCC s ptr) bsize bptr hw1 hzs (hb.keep h1 h2)
          refine ⟨fun res hres => scan_post_cons (hi.1 res hres), fun hlen => hi.2 ?_⟩
          simp only [List.length_cons] at hlen
          omega

theorem Best.nil (s : State) (asize bsize : Nat) (h : 2 ^ 32 ≤ bsize) :
    Best s asize [] bsize NULL :=
  ⟨fun q hq => absurd hq (List.not_mem_nil q),
    Or.inl ⟨rfl, h, fun q hq => absurd hq (List.not_mem_nil q)⟩⟩

theorem bucket_sel (s : State) (asize : Nat) (l : List Nat) (F fuel ptr bsize : Nat)
    (hw : walkList s F ptr = some l) (hz : ∀ q ∈ l, q ≠ NULL) (hbig : 2 ^ 32 ≤ bsize) :
    (∀ res, find_fit_scan s asize fuel ptr bsize NULL = some res →
        (∀ p, res = Scan.ret p → p ≠ NULL ∧ Selected s asize l p) ∧
        (∀ b1 p1, res = Scan.done b1 p1 →
          (p1 = NULL ∧ 2 ^ 32 ≤ b1 ∧ ∀ q ∈ l, ¬ fitting s asize q) ∨
            (p1 ≠ NULL ∧ Selected s asize l p1))) ∧
      (l.length ≤ fuel → ∃ res, find_fit_scan s asize fuel ptr bsize NULL = some res) := by
  have h := scan_sel s asize l [] F fuel ptr bsize NULL hw hz (Best.nil s asize bsize hbig)
  refine ⟨fun res hres => ⟨fun p hp => ?_, fun b1 p1 h1 => ?_⟩, h.2⟩
  · obtain ⟨l1, l2, e, hg, hn⟩ := (h.1 res hres).1 p hp
    have hpl : p ∈ l := by rw [e]; simp
    refine ⟨hz p hpl, l1, l2, e, hg.1, fun _ => ⟨hg, fun q hq => hn q (by simpa using hq)⟩,
      fun hno => absurd ⟨p, hpl, hg⟩ hno⟩
  · have hb := (h.1 res hres).2 b1 p1 h1
    rw [List.nil_append] at hb
    rcases hb.2 with ⟨h1, h2, h3⟩ | ⟨h1, h2, _, a, b, e, ha, hb2⟩
    · exact Or.inl ⟨h1, h2, h3⟩
    · refine Or.inr ⟨h1, a, b, e, h2, fun hex => ?_, fun _ => ⟨ha, hb2⟩⟩
      obtain ⟨q, hq, hg⟩ := hex
      exact absurd hg (hb.1 q hq)

theorem buckets_sel (s : State) (asize fuel : Nat) (L : Nat → List Nat)
    (hw : ∀ k, k < 2 → ∃ F, walkList s F (seg_get s k) = some (L k))
    (hz : ∀ k, k < 2 → ∀ q ∈ L k, q ≠ NULL) :
    ∀ (n i bsize : Nat), i + n = 2 → 2 ^ 32 ≤ bsize →
      (∀ r, find_fit_buckets s asize fuel n i bsize NULL = some r →
        (r = NULL ∧ ∀ k, i ≤ k → k < 2 → ∀ q ∈ L k, ¬ fitting s asize q) ∨
          (r ≠ NULL ∧ ∃ k, i ≤ k ∧ k < 2 ∧
            (∀ k1, i ≤ k1 → k1 < k → ∀ q ∈ L k1, ¬ fitting s asize q) ∧
            Selected s asize (L k) r)) ∧
      ((∀ k, k < 2 → (L k).length ≤ fuel) →
        ∃ r, find_fit_buckets s asize fuel n i bsize NULL = some r) := by
  intro n
  induction n with
  | zero =>
    intro i bsize hi hbig
    refine ⟨fun r hr => ?_, fun _ => ⟨_, rfl⟩⟩
    simp only [find_fit_buckets, Option.some.injEq] at hr
    exact Or.inl ⟨hr.symm, fun k h1 h2 => absurd h2 (by omega)⟩
  | succ n ih =>
    intro i bsize hi hbig
    have hi2 : i < 2 := by omega
    obtain ⟨F, hF⟩ := hw i hi2
    have hb := bucket_sel s asize (L i) F fuel (seg_get s i) bsize hF (hz i hi2) hbig
    unfold find_fit_buckets
    cases hres : find_fit_scan s asize fuel (seg_get s i) bsize NULL with
    | none =>
      refine ⟨fun r hr => by simp at hr, fun hlen => ?_⟩
      obtain ⟨res, hres1⟩ := hb.2 (hlen i hi2)
      rw [hres] at hres1
      exact absurd hres1 (by simp)
    | some res =>
      cases res with
      | ret p =>
        refine ⟨fun r hr => ?_, fun _ => ⟨_, rfl⟩⟩
        simp only [Option.some.injEq] at hr
        subst hr
        obtain ⟨h1, h2⟩ := (hb.1 _ hres).1 p rfl
        exact Or.inr ⟨h1, i, le_refl i, hi2, fun k1 h3 h4 => absurd h4 (by omega), h2⟩
      | done b1 p1 =>
        simp only []
        rcases (hb.1 _ hres).2 b1 p1 rfl with ⟨h1, h2, h3⟩ | ⟨h1, h2⟩
        · subst h1
          simp only [ne_eq, not_true_eq_false, if_false]
          have hi1 := ih (i + 1) b1 (by omega) h2
          refine ⟨fun r hr => ?_, hi1.2⟩
          rcases hi1.1 r hr with ⟨h4, h5⟩ | ⟨h4, k, h5, h6, h7, h8⟩
          · refine Or.inl ⟨h4, fun k hk1 hk2 => ?_⟩
            rcases Nat.eq_or_lt_of_le hk1 with e | e
            · rw [← e]; exact h3
            · exact h5 k e hk2
          · refine Or.inr ⟨h4, k, by omega, h6, fun k1 hk1 hk2 => ?_, h8⟩
            rcases Nat.eq_or_lt_of_le hk1 with e | e
            · rw [← e]; exact h3
            · exact h7 k1 e hk2
        · simp only [ne_eq, h1, not_false_eq_true, if_true]
          refine ⟨fun r hr => ?_, fun _ => ⟨_, rfl⟩⟩
          simp only [Option.some.injEq] at hr
          subst hr
          exact Or.inr ⟨h1, i, le_refl i, hi2, fun k1 h3 h4 => absurd h4 (by omega), h2⟩

theorem getPtrBySize_le (size : Nat) : getPtrBySize size ≤ 1 := by
  unfold getPtrBySize
  split_ifs <;> omega

theorem find_fit_sel (s : State) (asize fuel : Nat) (L : Nat → List Nat)
    (hw : ∀ k, k < 2 → ∃ F, walkList s F (seg_get s k) = some (L k))
    (hz : ∀ k, k < 2 → ∀ q ∈ L k, q ≠ NULL) :
    (∀ r, find_fit fuel s asize = some r →
        (r = NULL ∧ ∀ k, getPtrBySize asize ≤ k → k < 2 → ∀ q ∈ L k, ¬ fitting s asize q) ∨
          (r ≠ NULL ∧ ∃ k, getPtrBySize asize ≤ k ∧ k < 2 ∧
            (∀ k1, getPtrBySize asize ≤ k1 → k1 < k → ∀ q ∈ L k1, ¬ fitting s asize q) ∧
            Selected s asize (L k) r)) ∧
      ((∀ k, k < 2 → (L k).length ≤ fuel) → ∃ r, find_fit fuel s asize = some r) := by
  have h1 := getPtrBySize_le asize
  exact buckets_sel s asize fuel L hw hz (BUCKET_COUNT - getPtrBySize asize)
    (getPtrBySize asize) (M64 - 2 ^ 31) (by unfold BUCKET_COUNT; omega)
    (by norm_num [M64])

/-! ## `find_fit` and `mm_malloc` under the invariant -/

theorem Inv.walks {s : State} {bs : List Blk} {L : Nat → List Nat} (hinv : Inv s bs L) :
    (∀ k, k < 2 → ∃ F, walkList s F (seg_get s k) = some (L k)) ∧
      ∀ k, k < 2 → ∀ q ∈ L k, q ≠ NULL := by
  have hS := START_val
  refine ⟨fun k hk => ⟨COMPRESS s.brk, hinv.bucketList hk⟩, fun k hk q hq => ?_⟩
  have := hinv.2.1.valid hinv.1 hk hq
  unfold Vp at this
  unfold NULL
  omega

theorem getPtrBySize_mono {a b : Nat} (h : a ≤ b) (hb : b < 2 ^ 32) :
    getPtrBySize a ≤ getPtrBySize b := by
  unfold getPtrBySize M32
  rw [Nat.mod_eq_of_lt hb, Nat.mod_eq_of_lt (lt_of_le_of_lt h hb)]
  split_ifs <;> omega

theorem Tiling.size_lt {s : State} {bs : List Blk} (ht : Tiling s bs) {b : Blk} (hb : b ∈ bs) :
    b.size < 2 ^ 32 := by
  have := ht.size_of hb
  have := GET_SIZE_lt s (HDRP b.bp)
  omega

theorem find_fit_complete {s : State} {bs : List Blk} {L : Nat → List Nat}
    (hinv : Inv s bs L) {asize fuel r : Nat} {c : Blk} (hc : c ∈ bs) (hcf : c.alloc = false)
    (hle : asize ≤ c.size) (hf : find_fit fuel s asize = some r) : r ≠ NULL := by
  intro hr
  rcases (find_fit_sel s asize fuel L hinv.walks.1 hinv.walks.2).1 r hf with
    ⟨_, hn⟩ | ⟨h1, _⟩
  · have hk : getPtrBySize c.size < 2 := by
      have := getPtrBySize_le c.size
      omega
    refine hn (getPtrBySize c.size) (getPtrBySize_mono hle (hinv.1.size_lt hc)) hk c.bp
      ((hinv.mem_lists hk c.bp).2 ⟨c, hc, rfl, hcf, rfl⟩) ?_
    show asize ≤ GET_SIZE s (HDRP c.bp)
    rw [hinv.1.size_of hc]
    exact hle
  · exact h1 hr

theorem malloc_found {s : State} {bs : List Blk} {L : Nat → List Nat} {fuel size : Nat}
    {r : Nat × State} (hinv : Inv s bs L) (h0 : 0 < size) (hs : size < M64 - 11)
    {d : Blk} (hc : d ∈ bs) (hcf : d.alloc = false) (hle : adjust size ≤ d.size)
    (hm : mm_malloc fuel s size = some r) :
    r.2.brk = s.brk ∧ ∃ l1 c l2 L1, bs = l1 ++ c :: l2 ∧ c.bp = r.1 ∧ c.alloc = false ∧
      adjust size ≤ c.size ∧ Inv r.2 (l1 ++ placed c (adjust size) ++ l2) L1 := by
  have hS := START_val
  have hb : START ≤ s.brk := by
    have := Contig_sum hinv.1.contig
    omega
  have hbrk : r.2.brk = s.brk ∧ r.1 ≠ NULL := by
    rcases mm_malloc_cases hinv.hlp_ne hb (Nat.pos_iff_ne_zero.1 h0) hm with
      ⟨h1, _, _⟩ | ⟨bp, h1, h2, e⟩ | ⟨h1, _, _, _⟩
    · exact absurd rfl (find_fit_complete hinv hc hcf hle h1)
    · subst e
      exact ⟨(place_glob s bp (adjust size)).1, h1⟩
    · exact absurd rfl (find_fit_complete hinv hc hcf hle h1)
  refine ⟨hbrk.1, ?_⟩
  rcases @mm_malloc_spec s bs L fuel size r.1 r.2 hinv h0 hs hm with
    ⟨h1, _⟩ | ⟨l1, c, l2, L1, h1, h2, h3, h4, _, _, h5⟩
  · exact absurd h1 hbrk.2
  · rcases h5 with ⟨h6, _⟩ | ⟨_, h6, _⟩
    · exact ⟨l1, c, l2, L1, h6, h1, h2, h3, h4⟩
    · omega

theorem malloc_grown {s : State} {bs : List Blk} {L : Nat → List Nat} {fuel size : Nat}
    {r : Nat × State} (hinv : Inv s bs L) (h0 : 0 < size) (hs : size < M64 - 11)
    (hno : ∀ c ∈ bs, c.alloc = false → c.size < adjust size)
    (hcap : s.brk + max (adjust size) CHUNKSIZE ≤ s.cap)
    (hm : mm_malloc fuel s size = some r) :
    r.2.brk = s.brk + max (adjust size) CHUNKSIZE ∧ ∃ l1 c L1, c.bp = r.1 ∧
      Inv r.2 (l1 ++ placed c (adjust size)) L1 ∧
      Merged bs ⟨s.brk, max (adjust size) CHUNKSIZE, false⟩ [] l1 c [] := by
  have hS := START_val
  have hb : START ≤ s.brk := by
    have := Contig_sum hinv.1.contig
    omega
  obtain ⟨a16, a8, _, alt⟩ := adjust_spec h0 hs
  have hM : M64 = 18446744073709551616 := by norm_num [M64]
  have he : extend_size (max (adjust size) CHUNKSIZE / WSIZE) = max (adjust size) CHUNKSIZE :=
    extend_size_of (by unfold CHUNKSIZE; omega) (by unfold CHUNKSIZE; omega)
  have hbrk : r.2.brk = s.brk + max (adjust size) CHUNKSIZE ∧ r.1 ≠ NULL := by
    rcases mm_malloc_cases hinv.hlp_ne hb (Nat.pos_iff_ne_zero.1 h0) hm with
      ⟨_, h1, _⟩ | ⟨bp, h1, h2, e⟩ | ⟨_, _, h1, e⟩
    · rw [he, mem_sbrk_none] at h1
      exact absurd hcap h1
    · rcases (find_fit_spec hinv.1 hinv.2.1 (adjust size) fuel).1 bp h2 with h3 | h3
      · exact absurd h3 h1
      · obtain ⟨c, hc, hcf, _, hle⟩ := h3
        have := hno c hc hcf
        omega
    · subst e
      refine ⟨?_, h1⟩
      rw [(place_glob _ _ _).1, (extend_heap_ok s _ hb (by rw [he]; exact hcap)).2.1, he]
  refine ⟨hbrk.1, ?_⟩
  rcases @mm_malloc_spec s bs L fuel size r.1 r.2 hinv h0 hs hm with
    ⟨h1, _⟩ | ⟨l1, c, l2, L1, h1, _, _, h4, _, _, h5⟩
  · exact absurd h1 hbrk.2
  · rcases h5 with ⟨_, h6⟩ | ⟨h6, _, h7⟩
    · omega
    · subst h6
      rw [hbrk.1, Nat.add_sub_cancel_left] at h7
      rw [List.append_nil] at h4
      exact ⟨l1, c, L1, h1, h4, h7⟩

/-! ## The scenarios after a fresh `mm_init` -/

theorem single_split {a c : Blk} {l1 l2 : List Blk} (h : [a] = l1 ++ c :: l2) :
    l1 = [] ∧ c = a ∧ l2 = [] := by
  cases l1 with
  | nil =>
    simp only [List.nil_append, List.cons.injEq] at h
    exact ⟨rfl, h.1.symm, h.2.symm⟩
  | cons x xs =>
    simp only [List.cons_append, List.cons.injEq] at h
    have := congrArg List.length h.2
    simp only [List.length_nil, List.length_append, List.length_cons] at this
    omega

theorem pair_split {a b c : Blk} {l1 l2 : List Blk} (h : [a, b] = l1 ++ c :: l2) :
    (l1 = [] ∧ c = a ∧ l2 = [b]) ∨ (l1 = [a] ∧ c = b ∧ l2 = []) := by
  cases l1 with
  | nil =>
    simp only [List.nil_append, List.cons.injEq] at h
    exact Or.inl ⟨rfl, h.1.symm, h.2.symm⟩
  | cons x xs =>
    simp only [List.cons_append, List.cons.injEq] at h
    obtain ⟨rfl, h2⟩ := h
    obtain ⟨h3, h4, h5⟩ := single_split h2
    subst h3 h4 h5
    exact Or.inr ⟨rfl, rfl, rfl⟩

theorem adjust_16 : adjust 16 = 24 := by decide
theorem adjust_100 : adjust 100 = 104 := by decide

theorem mm_init_ok {s0 : State} (hf : Fresh s0) (hc : START + 96 ≤ s0.cap) :
    (mm_init s0).1 = 0 := by
  have hS := START_val
  obtain ⟨s8, hinv, hb, hcap, he⟩ := mm_init_heap hf (by omega)
  have h64 : extend_size (CHUNKSIZE / WSIZE) = 64 := by decide
  have hok := (extend_heap_ok s8 (CHUNKSIZE / WSIZE) (by omega) (by rw [h64]; omega)).1
  rw [he, if_neg hok]

theorem scenario_a {s0 : State} (hf : Fresh s0) (hc : START + 200 ≤ s0.cap) {fuel : Nat}
    {r : Nat × State} (hm : mm_malloc fuel (mm_init s0).2 100 = some r) :
    r.1 = START + 32 ∧ r.2.brk = START + 200 ∧
      ∃ L1, Inv r.2 [⟨START + 32, 104, true⟩, ⟨START + 136, 64, false⟩] L1 := by
  have hS := START_val
  have h0 := mm_init_ok hf (by omega)
  obtain ⟨L, hinv, hb, hcap⟩ := mm_init_spec hf h0
  have hno : ∀ c ∈ [(⟨START + 32, 64, false⟩ : Blk)], c.alloc = false →
      c.size < adjust 100 := by
    intro c hc _
    rw [List.mem_singleton] at hc
    subst hc
    rw [adjust_100]
    norm_num
  have hmax : max (adjust 100) CHUNKSIZE = 104 := by
    rw [adjust_100]
    decide
  obtain ⟨h1, l1, c, L1, h2, h3, h4⟩ := malloc_grown hinv (by norm_num)
    (by norm_num [M64]) hno (by rw [hmax, hb, hcap]; omega) hm
  rw [hmax, hb] at h1 h4
  obtain ⟨ps, ns, hc, hl, hr⟩ := h4
  have hl1 : l1 = [] ∧ ps = 64 := by
    rcases hl with ⟨_, _, h5⟩ | ⟨p, h5, _, h6⟩
    · simp [lastAlloc] at h5
    · cases l1 with
      | nil =>
        simp only [List.nil_append, List.cons.injEq, and_true] at h5
        subst h5
        exact ⟨rfl, h6⟩
      | cons x xs =>
        have := congrArg List.length h5
        simp at this
  have hns : ns = 0 := by
    rcases hr with ⟨_, h5, _⟩ | ⟨n, h5, _⟩
    · exact h5
    · exact absurd h5 (by simp)
  obtain ⟨hl1, hps⟩ := hl1
  subst hl1 hps hns hc
  refine ⟨?_, by rw [h1], L1, ?_⟩
  · rw [← h2]
    show START + 96 - 64 = START + 32
    omega
  · have e : ([] : List Blk) ++ placed ⟨START + 96 - 64, 64 + 104 + 0, false⟩ (adjust 100) =
        [⟨START + 32, 104, true⟩, ⟨START + 136, 64, false⟩] := by
      rw [adjust_100]
      have e1 : START + 96 - 64 = START + 32 := by omega
      rw [e1]
      simp [placed, MINBLOCK]
    rw [← e]
    exact h3

theorem scenario_b1 {s0 : State} (hf : Fresh s0) (h0 : (mm_init s0).1 = 0) {fuel : Nat}
    {r : Nat × State} (hm : mm_malloc fuel (mm_init s0).2 16 = some r) :
    r.1 = START + 32 ∧
      ∃ L1, Inv r.2 [⟨START + 32, 24, true⟩, ⟨START + 56, 40, false⟩] L1 := by
  obtain ⟨L, hinv, hb, hcap⟩ := mm_init_spec hf h0
  obtain ⟨_, l1, c, l2, L1, h1, h2, _, _, h3⟩ := malloc_found hinv (by norm_num)
    (by norm_num [M64]) (List.mem_singleton.2 rfl) rfl (by rw [adjust_16]; norm_num) hm
  obtain ⟨e1, e2, e3⟩ := single_split h1
  subst e1 e2 e3
  refine ⟨h2.symm, L1, ?_⟩
  have e : ([] : List Blk) ++ placed ⟨START + 32, 64, false⟩ (adjust 16) ++ [] =
      [⟨START + 32, 24, true⟩, ⟨START + 56, 40, false⟩] := by
    rw [adjust_16]
    simp [placed, MINBLOCK]
  rw [← e]
  exact h3

theorem scenario_b2 {s : State} {L : Nat → List Nat}
    (hinv : Inv s [⟨START + 32, 24, true⟩, ⟨START + 56, 40, false⟩] L) {fuel : Nat}
    {r : Nat × State} (hm : mm_malloc fuel s 16 = some r) :
    r.1 = START + 56 ∧
      ∃ L1, Inv r.2 [⟨START + 32, 24, true⟩, ⟨START + 56, 24, true⟩,
        ⟨START + 80, 16, false⟩] L1 := by
  obtain ⟨_, l1, c, l2, L1, h1, h2, hcf, _, h3⟩ := malloc_found hinv (by norm_num)
    (by norm_num [M64]) (d := ⟨START + 56, 40, false⟩) (by simp) rfl
    (by rw [adjust_16]; norm_num) hm
  rcases pair_split h1 with ⟨e1, e2, e3⟩ | ⟨e1, e2, e3⟩
  · subst e2
    exact absurd hcf (by simp)
  · subst e1 e2 e3
    refine ⟨h2.symm, L1, ?_⟩
    have e : [(⟨START + 32, 24, true⟩ : Blk)] ++ placed ⟨START + 56, 40, false⟩ (adjust 16) ++
        [] = [⟨START + 32, 24, true⟩, ⟨START + 56, 24, true⟩, ⟨START + 80, 16, false⟩] := by
      rw [adjust_16]
      simp [placed, MINBLOCK]
    rw [← e]
    exact h3

theorem scenario_b3 {s : State} {L : Nat → List Nat}
    (hinv : Inv s [⟨START + 32, 24, true⟩, ⟨START + 56, 24, true⟩,
      ⟨START + 80, 16, false⟩] L) :
    (∃ L1, Inv (mm_free s (START + 32)) [⟨START + 32, 24, false⟩, ⟨START + 56, 24, true⟩,
        ⟨START + 80, 16, false⟩] L1) ∧
      ∀ a, START + 56 ≤ a → a < START + 56 + 24 - 4 →
        (mm_free s (START + 32)).mem a = s.mem a := by
  have h := @mm_free_explicit s [] [⟨START + 56, 24, true⟩, ⟨START + 80, 16, false⟩]
    ⟨START + 32, 24, true⟩ L hinv rfl
  obtain ⟨L1, h1, h2⟩ := h
  refine ⟨⟨L1, ?_⟩, fun a ha1 ha2 => h2.2.2.2.2 a ⟨⟨START + 56, 24, true⟩, by simp, rfl, ha1, ha2⟩⟩
  simpa [isFree, freeSize] using h1

theorem scenario_b4 {s : State} {L : Nat → List Nat}
    (hinv : Inv s [⟨START + 32, 24, false⟩, ⟨START + 56, 24, true⟩,
      ⟨START + 80, 16, false⟩] L) :
    bucketList s 0 = some (L 0) ∧ (L 0).Perm [START + 32, START + 80] ∧
      GET_SIZE s (HDRP (START + 32)) = 24 ∧ GET_SIZE s (HDRP (START + 80)) = 16 ∧
      (L 0).countP (fun p => decide (GET_SIZE s (HDRP p) = 16)) = 1 ∧
      allocated s (START + 56) = true ∧ GET_SIZE s (HDRP (START + 56)) = 24 := by
  have hS := START_val
  have hz1 := hinv.1.size_of (b := ⟨START + 32, 24, false⟩) (by simp)
  have hz2 := hinv.1.size_of (b := ⟨START + 80, 16, false⟩) (by simp)
  have hz3 := hinv.1.size_of (b := ⟨START + 56, 24, true⟩) (by simp)
  have hperm : (L 0).Perm [START + 32, START + 80] := by
    refine (List.perm_ext_iff_of_nodup (hinv.2.1.nodup 0 (by norm_num)) ?_).2 ?_
    · simp
    · intro x
      rw [hinv.mem_lists (by norm_num) x]
      simp [getPtrBySize, M32]
      constructor
      · rintro (h | h)
        · exact Or.inl h.symm
        · exact Or.inr h.symm
      · rintro (h | h)
        · exact Or.inl h.symm
        · exact Or.inr h.symm
  refine ⟨hinv.bucketList (by norm_num), hperm, hz1, hz2, ?_,
    (hinv.1.allocated_iff _).2 ⟨⟨START + 56, 24, true⟩, by simp, rfl, rfl⟩, hz3⟩
  rw [hperm.countP_eq]
  have e1 : GET_SIZE s (HDRP (START + 32)) = 24 := hz1
  have e2 : GET_SIZE s (HDRP (START + 80)) = 16 := hz2
  simp [List.countP_cons, e1, e2]

/-! ## Claims C21 to C30 -/

theorem mem_sbrk_some (s : State) (incr : Nat) (h : (mem_sbrk s incr).1 ≠ none) :
    (mem_sbrk s incr).1 = some s.brk := by
  unfold mem_sbrk at h ⊢
  split_ifs at h ⊢ with hc
  · rfl
  · exact absurd rfl h

/-- C21: in every state reachable from a successful `mm_init`, by whatever calls, when the
`mm_malloc(size)` inside `mm_realloc(ptr, size)`, `size > 0`, returns `NULL`, it returns
the state it was called in, and `mm_realloc` returns `NULL` and that same state: no byte
and no global has changed, so the block at `ptr` is allocated as before, with the same
size and the same payload bytes. -/
theorem C21_realloc_failure (s : State) (ptr size fuel : Nat) (r : Nat × State)
    (hr : ReachableAny s) (h0 : 0 < size) (hm : mm_malloc fuel s size = some r)
    (hn : r.1 = NULL) : r.2 = s ∧ mm_realloc fuel s ptr size = some (NULL, s) := by
  have hS := START_val
  have hg := Reach.glob hr
  have hrs : r = (NULL, s) := by
    rcases mm_malloc_cases (by rw [hg.1]; omega) (by omega) (Nat.pos_iff_ne_zero.1 h0) hm with
      ⟨_, _, e⟩ | ⟨bp, h1, _, e⟩ | ⟨_, _, h1, e⟩
    · exact e
    · subst e
      exact absurd hn h1
    · subst e
      exact absurd hn h1
  subst hrs
  refine ⟨rfl, ?_⟩
  unfold mm_realloc
  rw [if_neg (Nat.pos_iff_ne_zero.1 h0)]
  split_ifs
  · exact hm
  · rw [hm]
    simp only [NULL, if_true]

/-- C24, amended: starting from a fresh state in which `mem_sbrk` can grant 200 bytes,
`mm_init` succeeds and `mm_malloc(100)` returns, and it returns an address that is not
`NULL` and is a multiple of 8; afterwards the heap is `32 + CHUNKSIZE + 104 = 200` bytes
long: the fixed overhead, the chunk of 64 bytes added by `mm_init` and a second increment
of 104 bytes, the adjusted size of the request, added by `mm_malloc`.  The chain is then
the allocated block of 104 bytes followed by a free block of 64 bytes. -/
theorem C24_scenario_a (s0 : State) (hf : Fresh s0) (hc : START + 200 ≤ s0.cap) :
    (mm_init s0).1 = 0 ∧
      (∃ r, mm_malloc (COMPRESS (mm_init s0).2.brk) (mm_init s0).2 100 = some r) ∧
      ∀ fuel r, mm_malloc fuel (mm_init s0).2 100 = some r →
        r.1 ≠ NULL ∧ r.1 % 8 = 0 ∧ r.2.brk = START + 32 + CHUNKSIZE + adjust 100 ∧
          adjust 100 = 104 ∧
          heapBlocks r.2 = some [⟨START + 32, 104, true⟩, ⟨START + 136, 64, false⟩] := by
  have hS := START_val
  have h0 := mm_init_ok hf (by omega)
  obtain ⟨L, hinv, _, _⟩ := mm_init_spec hf h0
  refine ⟨h0, malloc_returns hinv 100, fun fuel r hm => ?_⟩
  obtain ⟨h1, h2, L1, h3⟩ := scenario_a hf hc hm
  refine ⟨?_, ?_, ?_, adjust_100, h3.1.heapBlocks⟩
  · rw [h1]; unfold NULL; omega
  · rw [h1]; omega
  · rw [h2, adjust_100]; unfold CHUNKSIZE; omega

/-- C26: for every size that is a multiple of 8 below `2^32` and bits `a` and `b`, the
header word written by `PUT(p, PACK(size, a))` followed by `PUT_PREV_ALLOC(p, b)` decodes
to `GET_SIZE = size`, `GET_ALLOC = a` and `GET_PREV_ALLOC = b`; and on every header word
`PUT_PREV_ALLOC(p, b)` leaves `GET_SIZE` and `GET_ALLOC` as they were, sets
`GET_PREV_ALLOC` to `b` and changes no bit other than bit 1. -/
theorem C26_header_codec (s : State) (p size a b : Nat) (h8 : size % 8 = 0)
    (hs : size < 2 ^ 32) (ha : a ≤ 1) (hb : b ≤ 1) :
    GET_SIZE (PUT_PREV_ALLOC (PUT s p (PACK size a)) p b) p = size ∧
      GET_ALLOC (PUT_PREV_ALLOC (PUT s p (PACK size a)) p b) p = a ∧
      GET_PREV_ALLOC (PUT_PREV_ALLOC (PUT s p (PACK size a)) p b) p = b ∧
      GET_SIZE (PUT_PREV_ALLOC s p b) p = GET_SIZE s p ∧
      GET_ALLOC (PUT_PREV_ALLOC s p b) p = GET_ALLOC s p ∧
      GET_PREV_ALLOC (PUT_PREV_ALLOC s p b) p = b ∧
      ∀ i, i ≠ 1 → (GET (PUT_PREV_ALLOC s p b) p).testBit i = (GET s p).testBit i := by
  have key : ∀ t : State, GET_SIZE (PUT_PREV_ALLOC t p b) p = GET_SIZE t p ∧
      GET_ALLOC (PUT_PREV_ALLOC t p b) p = GET_ALLOC t p ∧
      GET_PREV_ALLOC (PUT_PREV_ALLOC t p b) p = b ∧
      ∀ i, i ≠ 1 → (GET (PUT_PREV_ALLOC t p b) p).testBit i = (GET t p).testBit i := by
    intro t
    unfold GET_SIZE GET_ALLOC GET_PREV_ALLOC
    rw [GET_PUT_PREV_ALLOC t p b hb]
    exact codec_word (GET t p) b (GET_lt t p) hb
  have hw : GET (PUT s p (PACK size a)) p = size + a := by
    unfold PACK
    rw [or_small size a h8 (by omega)]
    exact GET_PUT_eq s p _ (by omega)
  obtain ⟨k1, k2, k3, _⟩ := key (PUT s p (PACK size a))
  obtain ⟨k5, k6, k7, k8⟩ := key s
  refine ⟨?_, ?_, k3, k5, k6, k7, k8⟩
  · rw [k1]
    unfold GET_SIZE
    rw [hw, and_F8 _ (by omega)]
    omega
  · rw [k2]
    unfold GET_ALLOC
    rw [hw, Nat.and_one_is_mod]
    omega

/-- C27: for `(M, N)` one of `(32, 32)`, `(64, 64)` and `(61, 67)`, whatever the values
of `A`, of `B` and of the locals before the call, after `transpose_submit(M, N, A, B)` the
check `is_transpose(M, N, A, B)` returns 1: `B[j][i] = A[i][j]` for all `i < N` and
`j < M`; and `A` is unchanged. -/
theorem C27_transpose (M N : Nat) (s : Vars)
    (h : (M, N) = (32, 32) ∨ (M, N) = (64, 64) ∨ (M, N) = (61, 67)) :
    is_transpose M N s.A (transpose_submit M N s).B = 1 ∧
      (∀ i, i < N → ∀ j, j < M → (transpose_submit M N s).B j i = s.A i j) ∧
      (transpose_submit M N s).A = s.A := by
  have h1 : (M = 32 ∧ N = 32) ∨ (M = 64 ∧ N = 64) ∨ (M = 61 ∧ N = 67) := by
    simpa only [Prod.mk.injEq] using h
  have hs := transpose_submit_spec M N s h1
  refine ⟨(is_transpose_iff M N _ _).2 (fun i hi j hj => (hs.2 j i ⟨hj, hi⟩).symm),
    fun i hi j hj => hs.2 j i ⟨hj, hi⟩, hs.1⟩

/-- C28: for every request size with `0 < size < 2^32 - 16`, the adjusted size computed
by `mm_malloc` is the maximum of 16 and the smallest multiple of 8 that is at least
`size + 4`; it is a multiple of 8, at least `MINBLOCK`, and at least the requested size
plus the 4 bytes of the header. -/
theorem C28_adjust (size : Nat) (h0 : 0 < size) (h : size < 2 ^ 32 - 16) :
    (∃ m, IsLeast {m : Nat | m % 8 = 0 ∧ size + 4 ≤ m} m ∧ adjust size = max 16 m) ∧
      adjust size % 8 = 0 ∧ MINBLOCK ≤ adjust size ∧ size + WSIZE ≤ adjust size := by
  have hf := adjust_formula size h0 h
  refine ⟨⟨_, roundup_least (size + 4), hf⟩, ?_, ?_, ?_⟩
  · rw [hf]; omega
  · rw [hf]; unfold MINBLOCK; omega
  · rw [hf]; unfold WSIZE; omega

/-- C29: on bucket lists that end in `NIL` and hold no null pointer, `find_fit(asize)`
returns, and it returns by this rule: it returns `NULL` when no list with index at least
`class(asize)` has a block of size at least `asize`; otherwise, with `i` the first such
index, it returns a member `r` of list `i` of size at least `asize`: the first block in
list order whose leftover `size - asize` is at most `asize / 2` when the list has such a
block, and else the block with the minimum leftover, the earliest one in list order on
ties. -/
theorem C29_find_fit_rule (s : State) (asize fuel : Nat) (L : Nat → List Nat)
    (hw : ∀ k, k < BUCKET_COUNT → walkList s fuel (seg_get s k) = some (L k))
    (hz : ∀ k, k < BUCKET_COUNT → ∀ q ∈ L k, q ≠ NULL) :
    ∃ r, find_fit fuel s asize = some r ∧
      ((r = NULL ∧ ∀ k, getPtrBySize asize ≤ k → k < BUCKET_COUNT →
          ∀ q ∈ L k, ¬ fitting s asize q) ∨
        (r ≠ NULL ∧ ∃ i, getPtrBySize asize ≤ i ∧ i < BUCKET_COUNT ∧
          (∀ k, getPtrBySize asize ≤ k → k < i → ∀ q ∈ L k, ¬ fitting s asize q) ∧
          Selected s asize (L i) r)) := by
  have h := find_fit_sel s asize fuel L (fun k hk => ⟨fuel, hw k hk⟩) hz
  obtain ⟨r, hr⟩ := h.2 (fun k hk => walkList_length _ _ _ (hw k hk))
  exact ⟨r, hr, h.1 r hr⟩

/-- C30, amended: in every state reachable by calls whose requests are below `2^64 - 11`,
`find_fit(asize)` returns, and a block it returns is a member of a bucket list with index
at least `class(asize)`, its allocated bit is 0 and its size is at least `asize`.
`find_fit` has no store: it is a function of the state that yields a pointer only. -/
theorem C30_find_fit_member (s : State) (asize : Nat) (hr : Reachable s) :
    (∃ r, find_fit (COMPRESS s.brk) s asize = some r) ∧
      ∀ fuel p, find_fit fuel s asize = some p → p ≠ NULL →
        ∃ i l, getPtrBySize asize ≤ i ∧ i < BUCKET_COUNT ∧ bucketList s i = some l ∧
          p ∈ l ∧ GET_ALLOC s (HDRP p) = 0 ∧ asize ≤ GET_SIZE s (HDRP p) := by
  obtain ⟨bs, L, hinv⟩ := Reachable.inv hr
  have hsel := fun fuel => find_fit_sel s asize fuel L hinv.walks.1 hinv.walks.2
  refine ⟨(hsel _).2 (fun k hk => ?_), fun fuel p hf hp => ?_⟩
  · have := walkList_length _ _ _ (hinv.bucketList hk)
    exact this
  · rcases (hsel fuel).1 p hf with ⟨h1, _⟩ | ⟨_, i, h1, h2, _, pre, post, h3, h4, _⟩
    · exact absurd h1 hp
    · have hm : p ∈ L i := by rw [h3]; simp
      obtain ⟨b, hb, hbp, hba, _⟩ := (hinv.mem_lists h2 p).1 hm
      refine ⟨i, L i, h1, h2, hinv.bucketList h2, hm, ?_, h4⟩
      have := hinv.1.alloc_of hb
      rw [hbp, hba] at this
      simpa using this

/-! ## The consistency checker on a well-formed heap -/

theorem or2_hdr (size : Nat) (pa : Bool) (h8 : size % 8 = 0) :
    hdrWord size false pa ||| 2 = size ||| 2 := by
  cases pa
  · simp [hdrWord]
  · have e : hdrWord size false true = size ||| 2 := by
      rw [or_small size 2 h8 (by norm_num)]
      simp [hdrWord]
    rw [e, Nat.or_assoc, Nat.or_self]

/-- The checks of `checkblock` pass on every block of a well-formed heap. -/
theorem checkblock_ok {s : State} {l1 l2 : List Blk} {b : Blk}
    (ht : Tiling s (l1 ++ b :: l2)) (hnaf : NAF (l1 ++ b :: l2)) : checkblock s b.bp = [] := by
  obtain ⟨P, hP, hbP, hQ, hh, hnx⟩ := ht.mid
  have hbm : b ∈ l1 ++ b :: l2 := by simp
  have hbd := ht.bounds hbm
  have hsz := ht.size_of hbm
  have hal := ht.alloc_of hbm
  have hs2 : ∀ c ∈ l2, c.size % 8 = 0 := fun c hc => (ht.sizes c (by simp [hc])).2
  have hnext : NEXT_BLKP s b.bp = b.bp + b.size := by
    unfold NEXT_BLKP WSIZE
    rw [← HDRP_eq, hsz]
  have hnw : GET s (HDRP (b.bp + b.size)) = nextWord b.alloc l2 := by
    rw [HDRP_eq, hbP]
    exact hnx
  have hpb : GET_PREV_ALLOC s (HDRP (b.bp + b.size)) = if b.alloc then 1 else 0 := by
    cases l2 with
    | nil => exact GET_PREV_ALLOC_hdr hnw (by norm_num)
    | cons c l => exact GET_PREV_ALLOC_hdr hnw (hs2 c (List.mem_cons_self _ _))
  have hna : GET_ALLOC s (HDRP (b.bp + b.size)) = if headAlloc l2 then 1 else 0 :=
    nextWord_size hnw hs2
  have h1 : b.bp % 8 = 0 := hbd.2.2.2.2.1
  have h16 : 8 < b.size := by have := hbd.2.2.1; omega
  unfold checkblock
  rw [hnext, hsz, hal, hpb, hna]
  by_cases hba : b.alloc = true
  · simp [hba, h1]
  · have hbf : b.alloc = false := by simpa using hba
    have hft : GET s (FTRP s b.bp) = b.size := by
      unfold FTRP DSIZE
      rw [hsz]
      exact ht.ftr b hbm hbf
    have hhd : GET s (HDRP b.bp) = hdrWord b.size false (lastAlloc false l1) := by
      have := hh
      rw [hbf] at this
      rw [HDRP_eq, hbP]
      exact this
    have hnn := (NAF_neighbours hnaf hbf).2
    rw [hft, hhd, or2_hdr _ _ hbd.2.2.2.1]
    simp [hbf, h1, hnn]

/-- The loop of `mm_checkheap` over the blocks `l` that lie from `p` to `q`, where the
header before `q` holds size 0: no error, and the free blocks are counted. -/
theorem checkWalk_of (s : State) (q : Nat) (hq : GET_SIZE s (HDRP q) = 0) :
    ∀ (l : List Blk) (p fuel : Nat), Contig p l q →
      (∀ b ∈ l, GET_SIZE s (HDRP b.bp) = b.size ∧ 16 ≤ b.size ∧
        GET_ALLOC s (HDRP b.bp) = (if b.alloc then 1 else 0) ∧ checkblock s b.bp = []) →
      l.length ≤ fuel →
      checkWalk s fuel p = some ([], l.countP (fun b => !b.alloc), q) := by
  intro l
  induction l with
  | nil =>
    intro p fuel hc _ _
    simp only [Contig] at hc
    subst hc
    cases fuel <;> simp [checkWalk, hq]
  | cons b l ih =>
    intro p fuel hc hb hlen
    simp only [Contig] at hc
    obtain ⟨hbp, hc⟩ := hc
    subst hbp
    obtain ⟨h1, h2, h3, h4⟩ := hb b (List.mem_cons_self _ _)
    cases fuel with
    | zero => simp at hlen
    | succ fuel =>
      have hne : GET_SIZE s (HDRP b.bp) > 0 := by rw [h1]; omega
      have hnx : NEXT_BLKP s b.bp = b.bp + b.size := by
        unfold NEXT_BLKP
        rw [← h1]
        rfl
      simp only [checkWalk, hne, if_true, hnx]
      rw [ih (b.bp + b.size) fuel hc (fun c hc => hb c (List.mem_cons_of_mem _ hc))
        (by simpa using hlen)]
      simp only [h3, h4, List.append_nil, List.countP_cons]
      congr 3
      cases hba : b.alloc <;> simp [Nat.add_comm]

/-- The body of the loop of `checkFreeList` prints nothing for a member of a bucket list
of a well-formed heap. -/
theorem checkNode_ok {s : State} {bs : List Blk} {L : Nat → List Nat} (hinv : Inv s bs L)
    {i : Nat} (hi : i < 2) {x : Nat} (hx : x ∈ L i) : checkNode s i x = [] := by
  have hS := START_val
  have hN := NIL_val
  obtain ⟨ht, hl, _⟩ := hinv
  have hbb := ht.brk_bounds
  obtain ⟨l1, l2, hsplit⟩ := List.append_of_mem hx
  obtain ⟨hP, hSc⟩ := hl.reads ht hi hsplit
  have hmem : ∀ z ∈ L i, START + 32 ≤ z ∧ z + 16 ≤ s.brk := by
    intro z hz
    obtain ⟨c, hc, rfl, _⟩ := hl.blk hi hz
    have := ht.bounds hc
    omega
  have hsb : START ≤ SUCC s x ∧ SUCC s x + 2 ≤ s.brk := by
    rw [hSc]
    cases l2 with
    | nil => simp only [List.headD_nil]; omega
    | cons y k =>
      have := hmem y (by rw [hsplit]; simp)
      simp only [List.headD_cons]
      omega
  have hpb : START ≤ PREV s x ∧ PREV s x + 2 ≤ s.brk := by
    rw [hP]
    rcases nil_or_snoc l1 with rfl | ⟨k, p, rfl⟩
    · simp only [List.getLastD_nil]; omega
    · have := hmem p (by rw [hsplit]; simp)
      rw [getLastD_snoc]
      omega
  have hps : ¬ (PREV s x ≠ NIL ∧ SUCC s (PREV s x) ≠ x) := by
    rintro ⟨h1, h2⟩
    rcases nil_or_snoc l1 with rfl | ⟨k, p, rfl⟩
    · rw [hP] at h1
      exact h1 rfl
    · have e : L i = k ++ p :: (x :: l2) := by rw [hsplit]; simp
      have := (hl.reads ht hi e).2
      rw [hP, getLastD_snoc] at h2
      exact h2 (by simpa using this)
  have hsp : ¬ (SUCC s x ≠ NIL ∧ PREV s (SUCC s x) ≠ x) := by
    rintro ⟨h1, h2⟩
    cases l2 with
    | nil =>
      rw [hSc] at h1
      exact h1 rfl
    | cons y k =>
      have e : L i = (l1 ++ [x]) ++ y :: k := by rw [hsplit]; simp
      have := (hl.reads ht hi e).1
      rw [getLastD_snoc] at this
      rw [hSc] at h2
      exact h2 (by simpa using this)
  have hcl : ¬ (i = 0 ∧ GET_SIZE s (HDRP x) > 72) := by
    rintro ⟨h1, h2⟩
    obtain ⟨c, hc, rfl, _, hcc⟩ := hl.blk hi hx
    rw [ht.size_of hc] at h2
    have hlt := ht.size_lt hc
    rw [h1] at hcc
    unfold getPtrBySize M32 at hcc
    rw [Nat.mod_eq_of_lt hlt] at hcc
    split_ifs at hcc
    omega
  have hso : ¬ (SUCC s x ≥ mem_heap_hi s ∨ SUCC s x < mem_heap_lo) := by
    unfold mem_heap_hi mem_heap_lo
    omega
  have hpo : ¬ (PREV s x ≥ mem_heap_hi s ∨ PREV s x < mem_heap_lo) := by
    unfold mem_heap_hi mem_heap_lo
    omega
  unfold checkNode
  simp only [hso, hpo, hps, hsp, hcl, if_false, List.append_nil]

/-- The inner loop of `checkFreeList` over a bucket list: no error, and the members are
counted. -/
theorem checkList_of (s : State) (i : Nat) :
    ∀ (l : List Nat) (pv fuel : Nat), DL s pv l NIL → (∀ z ∈ l, Vp z) →
      (∀ z ∈ l, checkNode s i z = []) → l.length ≤ fuel →
      checkList s i fuel (l.headD NIL) = some ([], l.length) := by
  have hS := START_val
  have hN := NIL_val
  intro l
  induction l with
  | nil =>
    intro pv fuel _ _ _ _
    cases fuel <;> simp [checkList]
  | cons x xs ih =>
    intro pv fuel hdl hv hck hlen
    have hx := hv x (List.mem_cons_self _ _)
    have hne : x ≠ NIL ∧ x ≠ NULL := by
      have := hx.2.1
      unfold NULL
      constructor <;> omega
    cases fuel with
    | zero => simp at hlen
    | succ fuel =>
      simp only [DL] at hdl
      have hvs : ∀ z ∈ xs, Vp z := fun z hz => hv z (List.mem_cons_of_mem _ hz)
      have hsx := headD_valid hvs
      have hsucc : SUCC s x = xs.headD NIL := SUCC_of hdl.2.1 hsx.1 hsx.2
      simp only [List.headD_cons, checkList]
      rw [if_pos hne, hsucc, ih x fuel hdl.2.2 hvs (fun z hz => hck z (List.mem_cons_of_mem _ hz))
        (by simpa using hlen)]
      simp [hck x (List.mem_cons_self _ _)]

theorem Contig_nodup {p q : Nat} {l : List Blk} (h : Contig p l q)
    (hs : ∀ b ∈ l, 16 ≤ b.size) : (l.map Blk.bp).Nodup := by
  induction l generalizing p with
  | nil => simp
  | cons b l ih =>
    simp only [Contig] at h
    rw [List.map_cons, List.nodup_cons]
    refine ⟨?_, ih h.2 (fun c hc => hs c (List.mem_cons_of_mem _ hc))⟩
    intro hm
    obtain ⟨c, hc, hcb⟩ := List.mem_map.1 hm
    have := Contig_bounds h.2 hc
    have := hs b (List.mem_cons_self _ _)
    omega

/-- The number of free blocks of the chain is the number of members of the two bucket
lists. -/
theorem free_count {s : State} {bs : List Blk} {L : Nat → List Nat} (hinv : Inv s bs L) :
    bs.countP (fun b => !b.alloc) = (L 0).length + (L 1).length := by
  have h1 : ((bs.filter (fun b => !b.alloc)).map Blk.bp).Nodup :=
    (Contig_nodup hinv.1.contig (fun b hb => (hinv.1.sizes b hb).1)).sublist
      ((List.filter_sublist _).map _)
  have h2 := hinv.lists_nodup
  have hp : ((bs.filter (fun b => !b.alloc)).map Blk.bp).Perm (L 0 ++ L 1) := by
    rw [List.perm_ext_iff_of_nodup h1 h2]
    intro a
    rw [List.mem_append, hinv.mem_lists (show 0 < 2 by norm_num),
      hinv.mem_lists (show 1 < 2 by norm_num), List.mem_map]
    constructor
    · rintro ⟨b, hb, rfl⟩
      rw [List.mem_filter] at hb
      have hbf : b.alloc = false := by simpa using hb.2
      have := getPtrBySize_lt b.size
      have hc : getPtrBySize b.size = 0 ∨ getPtrBySize b.size = 1 := by omega
      rcases hc with hc | hc
      · exact Or.inl ⟨b, hb.1, rfl, hbf, hc⟩
      · exact Or.inr ⟨b, hb.1, rfl, hbf, hc⟩
    · rintro (⟨b, hb, rfl, hbf, _⟩ | ⟨b, hb, rfl, hbf, _⟩)
      · exact ⟨b, List.mem_filter.2 ⟨hb, by simp [hbf]⟩, rfl⟩
      · exact ⟨b, List.mem_filter.2 ⟨hb, by simp [hbf]⟩, rfl⟩
  have := hp.length_eq
  rw [List.length_map, List.length_append] at this
  rw [List.countP_eq_length_filter]
  exact this

/-- On a well-formed heap `mm_checkheap` returns, given as many steps as the heap has
bytes, and prints no error. -/
theorem checker_ok {s : State} {bs : List Blk} {L : Nat → List Nat} (hinv : Inv s bs L)
    {fuel : Nat} (hf : COMPRESS s.brk ≤ fuel) : mm_checkheap fuel s = some [] := by
  have hS := START_val
  obtain ⟨ht, hl, hnaf⟩ := hinv
  have hbb := ht.brk_bounds
  rw [ht.compress_brk] at hf
  have hps : GET_SIZE s (HDRP s.heap_listp) = 8 := by
    rw [ht.hlp]
    exact GET_SIZE_hdr (a := true) (q := false) (z := 8) ht.prol (by norm_num)
  have hpa : GET_ALLOC s (HDRP s.heap_listp) = 1 := by
    rw [ht.hlp]
    exact GET_ALLOC_hdr (a := true) (q := false) (z := 8) ht.prol (by norm_num)
  have hes : GET_SIZE s (HDRP s.brk) = 0 := GET_SIZE_hdr ht.epi (by norm_num)
  have hea : GET_ALLOC s (HDRP s.brk) = 1 := GET_ALLOC_hdr ht.epi (by norm_num)
  have hlen := Contig_length ht.contig (fun b hb => (ht.sizes b hb).1)
  have hwalk : checkWalk s fuel s.heap_listp
      = some ([], bs.countP (fun b => !b.alloc), s.brk) := by
    cases fuel with
    | zero => omega
    | succ f =>
      have hcb : checkblock s s.heap_listp = [] := by
        unfold checkblock
        rw [hps, hpa, ht.hlp]
        have : (START + 24) % 8 = 0 := by omega
        simp [this]
      have hgt : GET_SIZE s (HDRP s.heap_listp) > 0 := by rw [hps]; norm_num
      simp only [checkWalk, hgt, if_true, ht.first]
      rw [checkWalk_of s s.brk hes bs (START + 32) f ht.contig (fun b hb => by
        obtain ⟨l1, l2, rfl⟩ := List.append_of_mem hb
        exact ⟨ht.size_of hb, (ht.sizes b hb).1, ht.alloc_of hb, checkblock_ok ht hnaf⟩)
        (by omega)]
      simp [hcb, hpa]
  have hlist : ∀ i, i < 2 → checkList s i fuel (seg_get s i) = some ([], (L i).length) := by
    intro i hi
    rw [hl.head i hi]
    exact checkList_of s i (L i) NIL fuel (hl.links i hi)
      (fun z hz => hl.valid ht hi hz) (fun z hz => checkNode_ok ⟨ht, hl, hnaf⟩ hi hz)
      (le_trans (hl.length_le ht hi) hf)
  unfold mm_checkheap checkFreeList
  simp only [hwalk, hlist 0 (by norm_num), hlist 1 (by norm_num), hps, hpa, hes, hea,
    free_count ⟨ht, hl, hnaf⟩]
  simp [DSIZE]

/-! ## The heap right after `mm_init` -/

theorem mm_init_fail {s0 : State} (hf : Fresh s0) (hc : ¬ START + 96 ≤ s0.cap) :
    (mm_init s0).1 = -1 := by
  have hS := START_val
  by_cases h32 : START + 32 ≤ s0.cap
  · obtain ⟨s8, _, hb, hcap, he⟩ := mm_init_heap hf h32
    have h64 : extend_size (CHUNKSIZE / WSIZE) = 64 := by decide
    have hno : ¬ s8.brk + extend_size (CHUNKSIZE / WSIZE) ≤ s8.cap := by
      rw [h64, hb, hcap]
      omega
    rw [he, extend_heap_fail hno]
    simp
  · unfold mm_init mem_sbrk
    have hc1 : ¬ s0.brk + (4 * WSIZE + BUCKET_COUNT * DSIZE) ≤ s0.cap := by
      rw [hf.1]
      exact h32
    simp only [hc1, if_false]

/-- The padding word and the prologue footer that `mm_init` has written are still in place
when it returns. -/
theorem mm_init_layout {s0 : State} (hf : Fresh s0) (hc : START + 96 ≤ s0.cap) :
    GET (mm_init s0).2 (START + 16) = 0 ∧ GET (mm_init s0).2 (START + 24) = 9 := by
  have hS := START_val
  obtain ⟨s8, hinv, hb, hcap, he, hpad, hpf⟩ := mm_init_heap_full hf (by omega)
  have h64 : extend_size (CHUNKSIZE / WSIZE) = 64 := by decide
  have hc2 : s8.brk + extend_size (CHUNKSIZE / WSIZE) ≤ s8.cap := by
    rw [h64, hb, hcap]
    omega
  have hok := (extend_heap_ok s8 (CHUNKSIZE / WSIZE) (by omega) hc2).1
  rw [he, if_neg hok]
  have heq := extend_heap_eq hinv.1 (by rw [h64]) hc2
  obtain ⟨hT, hL, _, _, hM⟩ := extend_mark hinv.1 hinv.2.1 (by rw [h64]; norm_num)
    (by rw [h64]) hc2
  rw [heq]
  generalize PUT (PUT (PUT (PUT { s8 with brk := s8.brk + extend_size (CHUNKSIZE / WSIZE) }
    (s8.brk - 4) (extend_size (CHUNKSIZE / WSIZE)))
    (s8.brk + extend_size (CHUNKSIZE / WSIZE) - 8) (extend_size (CHUNKSIZE / WSIZE)))
    (s8.brk - 4) (hdrWord (extend_size (CHUNKSIZE / WSIZE)) false (lastAlloc false [])))
    (s8.brk + extend_size (CHUNKSIZE / WSIZE) - 4) 1 = s4 at hT hL hM ⊢
  have hco := @coalesce_case1_eq s4 [] [] ⟨s8.brk, extend_size (CHUNKSIZE / WSIZE), false⟩
    hT rfl rfl
  simp only at hco
  rw [hco]
  have hr := getPtrBySize_lt (extend_size (CHUNKSIZE / WSIZE))
  obtain ⟨hsame, _, _⟩ := push_front_spec (x := s8.brk) hT.seg_eq hr (hL.head _ hr)
    (hL.links _ hr) (List.not_mem_nil _) List.nodup_nil
    (hT.vp (show (⟨s8.brk, extend_size (CHUNKSIZE / WSIZE), false⟩ : Blk) ∈
      [] ++ [(⟨s8.brk, extend_size (CHUNKSIZE / WSIZE), false⟩ : Blk)] by simp))
    (fun z hz => absurd hz (List.not_mem_nil _))
  have hw : ∀ p, START + 16 ≤ p → p + 4 ≤ START + 28 →
      GET (push_front s4 s8.brk (getPtrBySize (extend_size (CHUNKSIZE / WSIZE)))) p
        = GET s8 p := by
    intro p h1 h2
    rw [hsame.word p (by
      intro a ha1 ha2
      rintro (h | h | ⟨z, hz, _⟩)
      · omega
      · omega
      · exact absurd hz (List.not_mem_nil _))]
    exact GET_frame p (fun a ha1 ha2 => hM a (by omega))
  exact ⟨(hw _ (by omega) (by omega)).trans hpad, (hw _ (by omega) (by omega)).trans hpf⟩

/-! ## The bucket lists after a detach and after an insertion -/

theorem place_eq (s : State) (bp asize : Nat) :
    place s bp asize = place_finish s (place_detach s bp) bp asize := rfl

theorem nodup_eq_singleton {l : List Nat} {a : Nat} (hn : l.Nodup)
    (hm : ∀ x, x ∈ l ↔ x = a) : l = [a] := by
  have hp : l.Perm [a] := (List.perm_ext_iff_of_nodup hn (List.nodup_singleton a)).2
    (fun x => by rw [hm x, List.mem_singleton])
  exact List.perm_singleton.1 hp

/-- The walk over a bucket list reads the ghost list, also while a block is pending. -/
theorem Lists.walk {s : State} {bs : List Blk} {L : Nat → List Nat} {pend : Nat → Prop}
    (hl : Lists s bs L pend) (ht : Tiling s bs) {i : Nat} (hi : i < 2) :
    MM.bucketList s i = some (L i) := by
  unfold MM.bucketList
  rw [hl.head i hi, ht.compress_brk]
  exact walkList_of s (L i) NIL _ (hl.links i hi) (fun z hz => hl.valid ht hi hz)
    (hl.length_le ht hi)

theorem Inv.blocks_eq {s : State} {bs bs1 : List Blk} {L : Nat → List Nat} (hinv : Inv s bs L)
    (h : heapBlocks s = some bs1) : bs1 = bs := by
  rw [hinv.1.heapBlocks, Option.some.injEq] at h
  exact h.symm

theorem Inv.lists_eq {s : State} {bs : List Blk} {L A : Nat → List Nat} (hinv : Inv s bs L)
    (hA : ∀ i, i < 2 → MM.bucketList s i = some (A i)) : ∀ i, i < 2 → A i = L i := by
  intro i hi
  have := hA i hi
  rw [hinv.bucketList hi, Option.some.injEq] at this
  exact this.symm

/-- What the invariant says about a block that was put at the front of bucket `c`. -/
theorem Inv.pushed {r : State} {bs : List Blk} {L : Nat → List Nat} {c x : Nat}
    (hinv : Inv r bs (pushL L c x)) (hc : c < 2) : InsertedAtHead r c x L := by
  obtain ⟨ht, hl, _⟩ := hinv
  have e : pushL L c x c = x :: L c := by simp [pushL]
  have e1 : pushL L c x (1 - c) = L (1 - c) := by
    have : 1 - c ≠ c := by omega
    simp [pushL, this]
  have hrd := hl.reads ht hc (show pushL L c x c = [] ++ x :: L c by rw [e]; rfl)
  refine ⟨?_, ?_, ?_, ?_, ?_, ?_⟩
  · rw [hl.head c hc, e]
    rfl
  · simpa using hrd.1
  · exact hrd.2
  · intro hne
    cases hL : L c with
    | nil => exact absurd hL hne
    | cons h k =>
      have := (hl.reads ht hc (show pushL L c x c = [x] ++ h :: k by rw [e, hL]; rfl)).1
      simpa using this
  · rw [hl.walk ht hc, e]
  · rw [hl.walk ht (show 1 - c < 2 by omega), e1]

theorem InsertedAtHead.of_agree {r : State} {c x : Nat} {D D1 : Nat → List Nat}
    (h : InsertedAtHead r c x D) (hc : c < 2) (hD : ∀ i, i < 2 → D1 i = D i) :
    InsertedAtHead r c x D1 := by
  unfold InsertedAtHead at h ⊢
  rw [hD c hc, hD (1 - c) (by omega)]
  exact h

/-- The block `x` is in the list of the bucket of its size and in no other. -/
theorem Lists.not_in_other {s : State} {bs : List Blk} {L : Nat → List Nat}
    {pend : Nat → Prop} (hl : Lists s bs L pend) (ht : Tiling s bs) {x : Blk} (hx : x ∈ bs)
    {i : Nat} (hi : i < 2) (hne : i ≠ getPtrBySize x.size) : x.bp ∉ L i := by
  intro hm
  obtain ⟨b, hb, hbx, _, hbc⟩ := hl.blk hi hm
  have := Contig_unique ht.contig ht.sizes hb hx hbx
  subst this
  exact hne hbc.symm

/-- The header after a block in two states that differ in the prev_alloc bit only. -/
theorem nextWord_fields {pa pb : Bool} {l : List Blk} {s r : State} {p : Nat}
    (hs : GET s p = nextWord pa l) (hr : GET r p = nextWord pb l)
    (h8 : ∀ c ∈ l, c.size % 8 = 0) :
    GET_SIZE r p = GET_SIZE s p ∧ GET_ALLOC r p = GET_ALLOC s p ∧
      GET_PREV_ALLOC r p = if pb then 1 else 0 := by
  cases l with
  | nil =>
    exact ⟨(GET_SIZE_hdr hr (by norm_num)).trans (GET_SIZE_hdr hs (by norm_num)).symm,
      (GET_ALLOC_hdr hr (by norm_num)).trans (GET_ALLOC_hdr hs (by norm_num)).symm,
      GET_PREV_ALLOC_hdr hr (by norm_num)⟩
  | cons c k =>
    have hc := h8 c (List.mem_cons_self _ _)
    exact ⟨(GET_SIZE_hdr hr hc).trans (GET_SIZE_hdr hs hc).symm,
      (GET_ALLOC_hdr hr hc).trans (GET_ALLOC_hdr hs hc).symm, GET_PREV_ALLOC_hdr hr hc⟩

/-- The three fields of the header of a block of the chain. -/
theorem Tiling.fields {s : State} {l1 l2 : List Blk} {b : Blk}
    (ht : Tiling s (l1 ++ b :: l2)) :
    GET_SIZE s (HDRP b.bp) = b.size ∧ GET_ALLOC s (HDRP b.bp) = (if b.alloc then 1 else 0) ∧
      GET_PREV_ALLOC s (HDRP b.bp) = if lastAlloc false l1 then 1 else 0 :=
  ⟨ht.size_of (by simp), ht.alloc_of (by simp), ht.pbit_of⟩

/-- The bucket lists after a successful `extend_heap`: a free block that ended at the old
epilogue is taken out of its list and the coalesced block is put at the front of the
bucket of its size. -/
theorem extend_heap_lists {s : State} {bs : List Blk} {L : Nat → List Nat} {words : Nat}
    (hinv : Inv s bs L) (h16 : 16 ≤ extend_size words) (h8 : extend_size words % 8 = 0)
    (hcap : s.brk + extend_size words ≤ s.cap) :
    ∃ k1 m, Merged bs ⟨s.brk, extend_size words, false⟩ [] k1 m [] ∧
      (extend_heap s words).1 = m.bp ∧
      Inv (extend_heap s words).2 (k1 ++ [m])
        (pushL (eraseL L m.bp) (getPtrBySize m.size) m.bp) := by
  obtain ⟨ht, hl, hnaf⟩ := hinv
  rw [extend_heap_eq ht h8 hcap]
  obtain ⟨hT, hL, _, _, _⟩ := extend_mark ht hl h16 h8 hcap
  generalize (PUT (PUT (PUT (PUT { s with brk := s.brk + extend_size words } (s.brk - 4)
        (extend_size words)) (s.brk + extend_size words - 8) (extend_size words)) (s.brk - 4)
        (hdrWord (extend_size words) false (lastAlloc false bs)))
        (s.brk + extend_size words - 4) 1) = s4 at hT hL ⊢
  have hnx := @next_not_listed s4 bs [] ⟨s.brk, extend_size words, false⟩ L _ hT hL rfl
  obtain ⟨k1, m, k2, h1, h2, h3, _⟩ :=
    @coalesce_lists s4 bs [] ⟨s.brk, extend_size words, false⟩ L hT hL rfl hnaf (NAFp_nil _)
  have hk2 : k2 = [] := by
    obtain ⟨ps, ns, _, _, hc⟩ := h1
    rcases hc with ⟨hc, _⟩ | ⟨n, hc, _⟩
    · exact hc
    · cases hc
  subst hk2
  refine ⟨k1, m, h1, h2, h3.relist (fun i hi => ?_)⟩
  simp only [pushL, eraseL]
  rw [List.erase_of_not_mem (hnx i hi)]

/-! ## Placing a block of fewer than 16 bytes -/

/-- The header that `place` leaves at `c` when it splits, for an `asize` that may be below
the minimum block size: the writes for the remainder and its insertion into a list do not
reach the header of `c` as long as `asize` is at least 8. -/
theorem place_split_hdr {s : State} {l1 l2 : List Blk} {c : Blk} {L : Nat → List Nat}
    {asize : Nat}
    (hinv : Inv s (l1 ++ c :: l2) L) (hcf : c.alloc = false)
    (h8a : 8 ≤ asize) (ha8 : asize % 8 = 0) (hle : asize ≤ c.size)
    (hr : 16 ≤ c.size - asize) :
    GET (place s c.bp asize) (c.bp - 4) = hdrWord asize true (lastAlloc false l1) := by
  have hS := START_val
  obtain ⟨ht, hl, hnaf⟩ := hinv
  have hcm : c ∈ l1 ++ c :: l2 := by simp
  have hbd := ht.bounds hcm
  have hsz := ht.size_of hcm
  have hex := place_extract ht hl hcm hcf not_false
  obtain ⟨hT2, hL2, hK2⟩ := Lists_extract_lists ht hl hcm hcf not_false
  have hsz2 := hT2.size_of hcm
  have hpb2 : GET_PREV_ALLOC (extract s c.bp) (HDRP c.bp)
      = if lastAlloc false l1 then 1 else 0 := hT2.pbit_of
  generalize hrs : c.size - asize = rsize at hr
  have hrs8 : rsize % 8 = 0 := by omega
  have hrsz : (c.size + M64 - asize % M64) % M64 = rsize := by
    unfold M64; omega
  have hco : place s c.bp asize = push_front
      (PUT (PUT (PUT (PUT (PUT (PUT (extract s c.bp) (c.bp - 4) (asize + 1))
        (c.bp + asize - 8) (asize + 1)) (c.bp - 4) (hdrWord asize true (lastAlloc false l1)))
        (c.bp + asize - 4) rsize) (c.bp + asize + rsize - 8) rsize) (c.bp + asize - 4)
        (hdrWord rsize false true))
      (c.bp + asize) (getPtrBySize rsize) := by
    unfold place
    simp only [hex]
    rw [HDRP_eq] at hsz hpb2
    simp only [hsz, hrsz, MINBLOCK, ge_iff_le, hr, if_true, hpb2, PACK_one asize ha8, PACK_zero,
      HDRP_eq]
    have e1 : FTRP (PUT (extract s c.bp) (c.bp - 4) (asize + 1)) c.bp = c.bp + asize - 8 := by
      unfold FTRP DSIZE
      rw [HDRP_eq, GET_SIZE_hdr (a := true) (q := false)
        (by rw [GET_PUT_eq _ _ _ (by omega), hdrWord_true_false]) ha8]
    have e2 : PUT_PREV_ALLOC (PUT (PUT (extract s c.bp) (c.bp - 4) (asize + 1))
        (c.bp + asize - 8) (asize + 1)) (c.bp - 4) (if lastAlloc false l1 then 1 else 0)
        = PUT (PUT (PUT (extract s c.bp) (c.bp - 4) (asize + 1))
        (c.bp + asize - 8) (asize + 1)) (c.bp - 4) (hdrWord asize true (lastAlloc false l1)) := by
      apply PUT_PREV_ALLOC_hdr (q := false) _ _ ha8
      rw [GET_PUT_disj _ _ _ _ (by omega), GET_PUT_eq _ _ _ (by omega), hdrWord_true_false]
    have e3 : NEXT_BLKP (PUT (PUT (PUT (extract s c.bp) (c.bp - 4) (asize + 1))
        (c.bp + asize - 8) (asize + 1)) (c.bp - 4) (hdrWord asize true (lastAlloc false l1)))
        c.bp = c.bp + asize := by
      unfold NEXT_BLKP WSIZE
      rw [GET_SIZE_hdr (GET_PUT_eq _ _ _ (by
        have := @hdrWord_lt asize true (lastAlloc false l1); omega)) ha8]
    simp only [e1, e2, e3]
    have e4 : FTRP (PUT (PUT (PUT (PUT (extract s c.bp) (c.bp - 4) (asize + 1))
        (c.bp + asize - 8) (asize + 1)) (c.bp - 4) (hdrWord asize true (lastAlloc false l1)))
        (c.bp + asize - 4) rsize) (c.bp + asize) = c.bp + asize + rsize - 8 := by
      unfold FTRP DSIZE
      rw [HDRP_eq, GET_SIZE_PUT _ _ _ hrs8 (by omega)]
    have e5 : PUT_PREV_ALLOC (PUT (PUT (PUT (PUT (PUT (extract s c.bp) (c.bp - 4) (asize + 1))
        (c.bp + asize - 8) (asize + 1)) (c.bp - 4) (hdrWord asize true (lastAlloc false l1)))
        (c.bp + asize - 4) rsize) (c.bp + asize + rsize - 8) rsize) (c.bp + asize - 4) 1
        = PUT (PUT (PUT (PUT (PUT (PUT (extract s c.bp) (c.bp - 4) (asize + 1))
        (c.bp + asize - 8) (asize + 1)) (c.bp - 4) (hdrWord asize true (lastAlloc false l1)))
        (c.bp + asize - 4) rsize) (c.bp + asize + rsize - 8) rsize) (c.bp + asize - 4)
        (hdrWord rsize false true) := by
      have := PUT_PREV_ALLOC_word (s := PUT (PUT (PUT (PUT (PUT (extract s c.bp) (c.bp - 4)
        (asize + 1)) (c.bp + asize - 8) (asize + 1)) (c.bp - 4)
        (hdrWord asize true (lastAlloc false l1))) (c.bp + asize - 4) rsize)
        (c.bp + asize + rsize - 8) rsize) (p := c.bp + asize - 4) (z := rsize) true
        (by rw [GET_PUT_disj _ _ _ _ (by omega), GET_PUT_eq _ _ _ (by omega)]) hrs8
      simpa using this
    simp only [e4, e5]
    have e6 : GET_SIZE (PUT (PUT (PUT (PUT (PUT (PUT (extract s c.bp) (c.bp - 4) (asize + 1))
        (c.bp + asize - 8) (asize + 1)) (c.bp - 4) (hdrWord asize true (lastAlloc false l1)))
        (c.bp + asize - 4) rsize) (c.bp + asize + rsize - 8) rsize) (c.bp + asize - 4)
        (hdrWord rsize false true)) (c.bp + asize - 4) = rsize :=
      GET_SIZE_hdr (GET_PUT_eq _ _ _ (hdrWord_free _ _ (by omega))) hrs8
    rw [e6]
  rw [hco]
  generalize extract s c.bp = s2 at hT2 hL2 hK2 ⊢
  generalize hs8 : (PUT (PUT (PUT (PUT (PUT (PUT s2 (c.bp - 4) (asize + 1))
        (c.bp + asize - 8) (asize + 1)) (c.bp - 4) (hdrWord asize true (lastAlloc false l1)))
        (c.bp + asize - 4) rsize) (c.bp + asize + rsize - 8) rsize) (c.bp + asize - 4)
        (hdrWord rsize false true)) = s8
  have hm8 : ∀ a, a < c.bp - 4 ∨ c.bp + c.size - 4 ≤ a → s8.mem a = s2.mem a := by
    intro a ha
    rw [← hs8, PUT_mem_other _ _ _ _ (by omega), PUT_mem_other _ _ _ _ (by omega),
      PUT_mem_other _ _ _ _ (by omega), PUT_mem_other _ _ _ _ (by omega),
      PUT_mem_other _ _ _ _ (by omega), PUT_mem_other _ _ _ _ (by omega)]
  have hg1 : GET s8 (c.bp - 4) = hdrWord asize true (lastAlloc false l1) := by
    rw [← hs8, GET_PUT_disj _ _ _ _ (by omega), GET_PUT_disj _ _ _ _ (by omega),
      GET_PUT_disj _ _ _ _ (by omega), GET_PUT_eq _ _ _ (by
        have := @hdrWord_lt asize true (lastAlloc false l1); omega)]
  have hsg : s8.seg = s2.seg := by rw [← hs8]; rfl
  have hcl := getPtrBySize_lt rsize
  -- the members of the lists are other blocks than `c`
  have hoth : ∀ i, i < 2 → ∀ z ∈ eraseL L c.bp i, z + 16 ≤ c.bp ∨ c.bp + c.size ≤ z := by
    intro i hi z hz
    obtain ⟨hzp, d, hd, rfl, _, _⟩ := (hL2.mem i hi z).1 hz
    have hne : d.bp ≠ c.bp := fun e => hzp (Or.inr e)
    obtain ⟨P, hP, hbP, hQ, _, _⟩ := hT2.mid
    have hdb := hT2.bounds hd
    rw [List.mem_append, List.mem_cons] at hd
    rcases hd with hd | rfl | hd
    · have := Contig_bounds hP hd
      left; omega
    · exact absurd rfl hne
    · have := Contig_bounds hQ hd
      right; omega
  have hL8 : Lists s8 (l1 ++ c :: l2) (eraseL L c.bp) (fun a => False ∨ a = c.bp) := by
    refine Lists_frame hL2 hT2.seg_eq hsg ?_ (fun i hi x => Iff.rfl)
    rintro a (h | ⟨i, hi, z, hz, h1, h2⟩)
    · exact hm8 a (by omega)
    · rcases hoth i hi z hz with h | h
      · exact hm8 a (by omega)
      · exact hm8 a (by omega)
  obtain ⟨hsame, _, _⟩ := push_front_spec (x := c.bp + asize) (hsg.trans hT2.seg_eq) hcl
    (hL8.head _ hcl) (hL8.links _ hcl)
    (fun hm => by rcases hoth _ hcl _ hm with h | h <;> omega)
    (hL8.nodup _ hcl) ⟨by omega, by omega, by omega⟩ (fun z hz => hL2.valid hT2 hcl hz)
  rw [GET_frame _ (fun a h1 h2 => hsame.2.2.2.2 a ?_)]
  · exact hg1
  · rintro (h | h | ⟨z, hz, h3, h4⟩)
    · omega
    · omega
    · rcases hoth _ hcl z hz with h | h <;> omega

/-! ## The claims about `find_fit`, the bucket lists and the checker -/

/-- C31, amended: in every state reachable from a successful `mm_init` by calls whose
requests are below `2^64 - 11`, `find_fit(asize)` returns for every `asize`, given as many
steps as the heap has bytes, and it returns `NULL` exactly when no free block of the chain
has a size of at least `asize`; and whenever `mm_malloc(size)` makes the heap grow, no free
block of the chain had a size of at least the adjusted size. -/
theorem C31_find_fit_null_iff (s : State) (hr : Reachable s) :
    ∃ bs, heapBlocks s = some bs ∧
      (∀ asize, ∃ r, find_fit (COMPRESS s.brk) s asize = some r) ∧
      (∀ fuel asize r, find_fit fuel s asize = some r →
        (r = NULL ↔ ¬ ∃ c ∈ bs, c.alloc = false ∧ asize ≤ c.size)) ∧
      ∀ fuel size r, mm_malloc fuel s size = some r → r.2.brk ≠ s.brk →
        ¬ ∃ c ∈ bs, c.alloc = false ∧ adjust size ≤ c.size := by
  have hS := START_val
  obtain ⟨bs, L, hinv⟩ := Reachable.inv hr
  have hbb := hinv.1.brk_bounds
  have hiff : ∀ fuel asize r, find_fit fuel s asize = some r →
      (r = NULL ↔ ¬ ∃ c ∈ bs, c.alloc = false ∧ asize ≤ c.size) := by
    intro fuel asize r hf
    constructor
    · rintro h ⟨c, hc, hcf, hle⟩
      exact find_fit_complete hinv hc hcf hle hf h
    · intro h
      rcases (find_fit_spec hinv.1 hinv.2.1 asize fuel).1 r hf with h1 | ⟨c, hc, hcf, _, hle⟩
      · exact h1
      · exact absurd ⟨c, hc, hcf, hle⟩ h
  refine ⟨bs, hinv.1.heapBlocks, fun asize => ?_, hiff, fun fuel size r hm hb => ?_⟩
  · refine (find_fit_spec hinv.1 hinv.2.1 asize _).2 (fun j hj => ?_)
    rw [hinv.1.compress_brk]
    exact hinv.2.1.length_le hinv.1 hj
  · by_cases h0 : size = 0
    · subst h0
      rw [mm_malloc_zero hinv, Option.some.injEq] at hm
      rw [← hm] at hb
      exact absurd rfl hb
    · rcases mm_malloc_cases hinv.hlp_ne (by omega) h0 hm with
        ⟨_, _, e⟩ | ⟨bp, _, _, e⟩ | ⟨h1, _, _, _⟩
      · rw [e] at hb
        exact absurd rfl hb
      · rw [e] at hb
        exact absurd (place_glob s bp (adjust size)).1 hb
      · exact (hiff fuel (adjust size) NULL h1).1 rfl

/-- C37, amended: in every state reachable by calls whose requests are below `2^64 - 11`,
the walk over each bucket list ends at `NIL` within as many steps as the heap has bytes,
no address occurs twice in the list, the prev link of the head is `NIL`, `succ` and `prev`
are inverse to each other on the members, the two link words of a member hold the
compressed addresses of its neighbours in the list (`NIL` at the ends) and decode to
these addresses, and compressing a member address or `NIL` and decoding it gives the
address back. -/
theorem C37_lists_symmetric (s : State) (hr : Reachable s) (i : Nat) (hi : i < 2) :
    ∃ l, bucketList s i = some l ∧ l.Nodup ∧ seg_get s i = l.headD NIL ∧
      (l ≠ [] → PREV s (seg_get s i) = NIL) ∧
      (∀ x ∈ l, (SUCC s x ≠ NIL → SUCC s x ∈ l ∧ PREV s (SUCC s x) = x) ∧
        (PREV s x ≠ NIL → PREV s x ∈ l ∧ SUCC s (PREV s x) = x)) ∧
      (∀ pre x post, l = pre ++ x :: post →
        GET s x = COMPRESS (pre.getLastD NIL) ∧
          GET s (x + WSIZE) = COMPRESS (post.headD NIL) ∧
          PREV s x = pre.getLastD NIL ∧ SUCC s x = post.headD NIL) ∧
      COMPRESS NIL ||| START = NIL ∧ ∀ z ∈ l, COMPRESS z ||| START = z := by
  have hS := START_val
  have hN := NIL_val
  obtain ⟨bs, L, hinv⟩ := Reachable.inv hr
  obtain ⟨ht, hl, _⟩ := hinv
  have hsym : ∀ x ∈ L i, (SUCC s x ≠ NIL → SUCC s x ∈ L i ∧ PREV s (SUCC s x) = x) ∧
      (PREV s x ≠ NIL → PREV s x ∈ L i ∧ SUCC s (PREV s x) = x) := by
    intro x hx
    obtain ⟨l1, l2, hsplit⟩ := List.append_of_mem hx
    obtain ⟨hP, hSc⟩ := hl.reads ht hi hsplit
    constructor
    · intro h
      cases l2 with
      | nil => rw [hSc] at h; exact absurd rfl h
      | cons y k =>
        have e : L i = (l1 ++ [x]) ++ y :: k := by rw [hsplit]; simp
        have := (hl.reads ht hi e).1
        rw [getLastD_snoc] at this
        rw [hSc]
        exact ⟨by rw [hsplit]; simp, by simpa using this⟩
    · intro h
      rcases nil_or_snoc l1 with rfl | ⟨k, p, rfl⟩
      · rw [hP] at h; exact absurd rfl h
      · have e : L i = k ++ p :: (x :: l2) := by rw [hsplit]; simp
        have := (hl.reads ht hi e).2
        rw [hP, getLastD_snoc]
        exact ⟨by rw [hsplit]; simp, by simpa using this⟩
  refine ⟨L i, Inv.bucketList ⟨ht, hl, ‹_›⟩ hi, hl.nodup i hi, hl.head i hi, ?_, hsym, ?_, ?_, ?_⟩
  · intro hne
    cases hL : L i with
    | nil => exact absurd hL hne
    | cons x k =>
      have := (hl.reads ht hi (show L i = [] ++ x :: k by rw [hL]; rfl)).1
      rw [hl.head i hi, hL]
      simpa using this
  · intro pre x post hsplit
    have hmid := DL_mid (by rw [← hsplit]; exact hl.links i hi)
    obtain ⟨hP, hSc⟩ := hl.reads ht hi hsplit
    exact ⟨hmid.1, hmid.2, hP, hSc⟩
  · exact decompress NIL (by omega) (by omega)
  · intro z hz
    have := hl.valid ht hi hz
    exact decompress z (by have := this.2.1; omega) this.2.2

/-- C39, amended: in every state reachable by calls whose requests are below `2^64 - 11`,
`mm_checkheap`, given at least as many steps as the heap has bytes, returns and prints no
error at all.  The checker only reads: it is a function of the state and returns no
state. -/
theorem C39_checker_silent (s : State) (hr : Reachable s) (fuel : Nat)
    (hf : COMPRESS s.brk ≤ fuel) : mm_checkheap fuel s = some [] := by
  obtain ⟨bs, L, hinv⟩ := Reachable.inv hr
  exact checker_ok hinv hf

theorem adjust_big {size : Nat} (h1 : M64 - 11 ≤ size) (h2 : size < M64) :
    adjust size = 0 ∨ adjust size = 8 := by
  have hM : M64 = 18446744073709551616 := by norm_num [M64]
  rw [hM] at h1 h2
  interval_cases size <;> decide

/-- The header of the block that `mm_malloc` returns for a request whose adjusted size
wraps around to 8. -/
theorem malloc_eight {s : State} {bs : List Blk} {L : Nat → List Nat} {fuel size : Nat}
    {r : Nat × State} (hinv : Inv s bs L) (h0 : size ≠ 0) (ha : adjust size = 8)
    (hm : mm_malloc fuel s size = some r) (hp : r.1 ≠ NULL) :
    GET_ALLOC r.2 (HDRP r.1) = 1 ∧
      (GET_SIZE r.2 (HDRP r.1) = 8 ∨ GET_SIZE r.2 (HDRP r.1) = 16) := by
  have hS := START_val
  have hb : START ≤ s.brk := by
    have := hinv.1.brk_bounds
    omega
  have key : ∀ {t : State} {l1 l2 : List Blk} {c : Blk} {K : Nat → List Nat},
      Inv t (l1 ++ c :: l2) K → c.alloc = false →
      GET_ALLOC (place t c.bp 8) (HDRP c.bp) = 1 ∧
        (GET_SIZE (place t c.bp 8) (HDRP c.bp) = 8 ∨
          GET_SIZE (place t c.bp 8) (HDRP c.bp) = 16) := by
    intro t l1 l2 c K hI hcf
    have hcb := hI.1.bounds (show c ∈ l1 ++ c :: l2 by simp)
    by_cases h16 : 16 ≤ c.size - 8
    · have hg := place_split_hdr hI hcf (le_refl 8) (by norm_num) (by omega) h16
      rw [HDRP_eq]
      exact ⟨GET_ALLOC_hdr hg (by norm_num), Or.inl (GET_SIZE_hdr hg (by norm_num))⟩
    · obtain ⟨hI1, _⟩ := @place_whole_lists t l1 l2 c K 8 hI hcf (by omega) h16
      have hmm : (⟨c.bp, c.size, true⟩ : Blk) ∈ l1 ++ [⟨c.bp, c.size, true⟩] ++ l2 := by simp
      have h1 := hI1.1.alloc_of hmm
      have h2 := hI1.1.size_of hmm
      simp only at h1 h2
      refine ⟨by simpa using h1, Or.inr ?_⟩
      rw [h2]
      omega
  rcases mm_malloc_cases hinv.hlp_ne hb h0 hm with ⟨_, _, e⟩ | ⟨bp, _, hf, e⟩ | ⟨_, _, hok, e⟩
  · rw [e] at hp
    exact absurd rfl hp
  · subst e
    rw [ha] at hf ⊢
    rcases (find_fit_spec hinv.1 hinv.2.1 8 fuel).1 bp hf with h | ⟨c, hc, hcf, rfl, _⟩
    · rw [h] at hp
      exact absurd rfl hp
    · obtain ⟨l1, l2, rfl⟩ := List.append_of_mem hc
      dsimp only
      exact key hinv hcf
  · subst e
    rw [ha] at hok ⊢
    have he : extend_size (max 8 CHUNKSIZE / WSIZE) = 64 := by decide
    have hcap : s.brk + extend_size (max 8 CHUNKSIZE / WSIZE) ≤ s.cap := by
      by_contra h
      rw [extend_heap_fail h] at hok
      exact hok rfl
    obtain ⟨k1, m, L1, h1, h2, h3, _⟩ := extend_heap_spec hinv (by rw [he]; norm_num)
      (by rw [he]) hcap
    dsimp only
    rw [h2]
    exact @key _ k1 [] m L1 h3 h1.alloc_false

/-- C40, amended: in every state reachable by calls whose requests are below `2^64 - 11`,
`mm_malloc(size)` returns, and for a request whose adjusted size is not 0 (the requests
from `2^64 - 11` to `2^64 - 4` are the ones whose adjusted size wraps around to 0) the
header of a block it returns has the allocated bit and holds the adjusted size or the
adjusted size plus 8: the block that was found or made is split whenever the remainder is
at least 16 bytes.  For a request below `2^64 - 11` the returned pointer is the start of
an allocated block of the chain. -/
theorem C40_block_size (s : State) (size : Nat) (hr : Reachable s) (hlt : size < M64)
    (ha : adjust size ≠ 0) :
    (∃ r, mm_malloc (COMPRESS s.brk) s size = some r) ∧
      ∀ fuel r, mm_malloc fuel s size = some r → r.1 ≠ NULL →
        GET_ALLOC r.2 (HDRP r.1) = 1 ∧
          (GET_SIZE r.2 (HDRP r.1) = adjust size ∨
            GET_SIZE r.2 (HDRP r.1) = adjust size + 8) ∧
          (size < M64 - 11 → allocated r.2 r.1 = true) := by
  obtain ⟨bs, L, hinv⟩ := Reachable.inv hr
  refine ⟨malloc_returns hinv size, fun fuel r hm hp => ?_⟩
  by_cases hs : size < M64 - 11
  · obtain ⟨h0, _⟩ := malloc_result hinv hs hm hp
    obtain ⟨a16, a8, _, _⟩ := adjust_spec h0 hs
    obtain ⟨p, s1⟩ := r
    rcases mm_malloc_spec hinv h0 hs hm with ⟨h1, _⟩ | ⟨l1, c, l2, L1, hcb, hcf, hle, h1, _⟩
    · exact absurd h1 hp
    · have hc8 : c.size % 8 = 0 := by
        rcases placed_cases c (adjust size) with e | e
        · rw [e] at h1
          exact (h1.1.sizes ⟨c.bp, c.size, true⟩ (by simp)).2
        · rw [e] at h1
          have := (h1.1.sizes ⟨c.bp + adjust size, c.size - adjust size, false⟩ (by simp)).2
          simp only at this
          omega
      have key : ∃ b ∈ l1 ++ placed c (adjust size) ++ l2, b.bp = p ∧ b.alloc = true ∧
          (b.size = adjust size ∨ b.size = adjust size + 8) := by
        unfold placed MINBLOCK
        by_cases hr16 : 16 ≤ c.size - adjust size
        · rw [if_pos hr16]
          exact ⟨⟨c.bp, adjust size, true⟩, by simp, hcb, rfl, Or.inl rfl⟩
        · rw [if_neg hr16]
          refine ⟨⟨c.bp, c.size, true⟩, by simp, hcb, rfl, ?_⟩
          show c.size = adjust size ∨ c.size = adjust size + 8
          omega
      obtain ⟨b, hb, hbp, hba, hbs⟩ := key
      have hsz := h1.1.size_of hb
      have hal := h1.1.alloc_of hb
      rw [hbp] at hsz hal
      rw [hba] at hal
      refine ⟨hal, ?_, fun _ => (h1.1.allocated_iff p).2 ⟨b, hb, hbp, hba⟩⟩
      show GET_SIZE s1 (HDRP p) = adjust size ∨ GET_SIZE s1 (HDRP p) = adjust size + 8
      rw [hsz]
      exact hbs
  · have h8 : adjust size = 8 := by
      rcases adjust_big (Nat.le_of_not_lt hs) hlt with h | h
      · exact absurd h ha
      · exact h
    have h0 : size ≠ 0 := by
      have hM : M64 = 18446744073709551616 := by norm_num [M64]
      omega
    obtain ⟨h1, h2⟩ := malloc_eight hinv h0 h8 hm hp
    rw [h8]
    exact ⟨h1, h2, fun h => absurd h hs⟩

theorem extend_size_eq (words : Nat) :
    extend_size words = 4 * (words + words % 2) % M64 := by
  unfold extend_size WSIZE
  by_cases h : words % 2 = 0
  · rw [if_neg (not_not.2 h), h, Nat.add_zero, Nat.mul_comm]
  · rw [if_pos h, show words % 2 = 1 by omega, Nat.mul_comm]

theorem extend_size_mod8 (words : Nat) : extend_size words % 8 = 0 := by
  have hM : M64 = 18446744073709551616 := by norm_num [M64]
  rw [extend_size_eq, hM]
  omega

/-- C33, amended: in every state reachable by calls whose requests are below `2^64 - 11`,
for `words` such that the byte count `4 * (words rounded up to even)`, computed modulo
`2^64` as the C expression is, is at least 16, a successful `extend_heap(words)` has asked
`mem_sbrk` for exactly that many bytes and the heap has grown by them; afterwards the last
4 bytes of the heap hold a header of size 0 with the allocated bit, and the returned block
is the last block of the chain, is free, ends where the epilogue header begins, is a
member of the bucket list of its size class, and its size is the requested byte count plus
the size of the free block that ended at the old epilogue, if there was one. -/
theorem C33_extend_heap (s : State) (words : Nat) (hr : Reachable s)
    (h16 : 16 ≤ 4 * (words + words % 2) % M64)
    (hok : (extend_heap s words).1 ≠ NULL) :
    ∃ bs bs1 m l, heapBlocks s = some bs ∧
      extend_size words = 4 * (words + words % 2) % M64 ∧
      (mem_sbrk s (4 * (words + words % 2) % M64)).1 = some s.brk ∧
      (extend_heap s words).2.brk = s.brk + 4 * (words + words % 2) % M64 ∧
      GET_SIZE (extend_heap s words).2 ((extend_heap s words).2.brk - 4) = 0 ∧
      GET_ALLOC (extend_heap s words).2 ((extend_heap s words).2.brk - 4) = 1 ∧
      heapBlocks (extend_heap s words).2 = some bs1 ∧ bs1.getLast? = some m ∧
      m.bp = (extend_heap s words).1 ∧ m.alloc = false ∧
      m.bp + m.size - 4 = (extend_heap s words).2.brk - 4 ∧
      bucketList (extend_heap s words).2 (getPtrBySize m.size) = some l ∧ m.bp ∈ l ∧
      m.size = 4 * (words + words % 2) % M64 + freeSize bs.getLast? := by
  have hS := START_val
  obtain ⟨bs, L, hinv⟩ := Reachable.inv hr
  have he := extend_size_eq words
  have h8 := extend_size_mod8 words
  have hcap : s.brk + extend_size words ≤ s.cap := by
    by_contra h
    rw [extend_heap_fail h] at hok
    exact hok rfl
  obtain ⟨k1, m, L1, h1, h2, h3, h4, _, _⟩ := extend_heap_spec hinv (by rw [he]; exact h16)
    h8 hcap
  have hmm : m ∈ k1 ++ [m] := by simp
  have hmf := h1.alloc_false
  have hcl := getPtrBySize_lt m.size
  obtain ⟨e1, _, _⟩ := h1.explicit
  have hend : m.bp + m.size = (extend_heap s words).2.brk := by
    have hc := h3.1.contig
    rw [Contig_append] at hc
    obtain ⟨q, _, hc⟩ := hc
    simp only [Contig] at hc
    omega
  refine ⟨bs, k1 ++ [m], m, L1 (getPtrBySize m.size), hinv.1.heapBlocks, he, ?_, ?_, ?_, ?_,
    h3.1.heapBlocks, by simp, h2.symm, hmf, by rw [hend], h3.bucketList hcl,
    (h3.mem_lists hcl m.bp).2 ⟨m, hmm, rfl, hmf, rfl⟩, ?_⟩
  · unfold mem_sbrk
    rw [← he, if_pos hcap]
  · rw [h4, he]
  · exact GET_SIZE_hdr h3.1.epi (by norm_num)
  · exact GET_ALLOC_hdr h3.1.epi (by norm_num)
  · rw [e1]
    show freeSize bs.getLast? + extend_size words + freeSize ([] : List Blk).head? = _
    rw [he]
    simp only [List.head?_nil, freeSize]
    omega

/-- C36, amended: in every state reachable by calls whose requests are below `2^64 - 11`,
every free block `x` of the chain is a member of the list of the bucket of its size, say
at `la ++ x :: lb`; the detach sequence of `coalesce` (`extract`) and the one of `place`
(`place_detach`) lead to the same state, from which `place` goes on; in that state the
list of that bucket is `la ++ lb`, the list of the other bucket is as before, and when `x`
was the head, the bucket head is the old successor of `x`, whose prev link is `NIL`. -/
theorem C36_detach (s : State) (hr : Reachable s) (bs : List Blk) (x : Blk)
    (hb : heapBlocks s = some bs) (hx : x ∈ bs) (hf : x.alloc = false) :
    ∃ la lb lo, bucketList s (getPtrBySize x.size) = some (la ++ x.bp :: lb) ∧
      bucketList s (1 - getPtrBySize x.size) = some lo ∧ x.bp ∉ la ++ lb ∧
      place_detach s x.bp = extract s x.bp ∧
      (∀ asize, place s x.bp asize = place_finish s (extract s x.bp) x.bp asize) ∧
      bucketList (extract s x.bp) (getPtrBySize x.size) = some (la ++ lb) ∧
      bucketList (extract s x.bp) (1 - getPtrBySize x.size) = some lo ∧
      (la = [] → seg_get (extract s x.bp) (getPtrBySize x.size) = SUCC s x.bp ∧
        (SUCC s x.bp ≠ NIL → PREV (extract s x.bp) (SUCC s x.bp) = NIL)) := by
  obtain ⟨bs0, L, hinv⟩ := Reachable.inv hr
  have := hinv.blocks_eq hb
  subst this
  obtain ⟨ht, hl, hnaf⟩ := hinv
  have hc := getPtrBySize_lt x.size
  have hc1 : 1 - getPtrBySize x.size < 2 := by omega
  have hxL : x.bp ∈ L (getPtrBySize x.size) :=
    (Inv.mem_lists ⟨ht, hl, hnaf⟩ hc x.bp).2 ⟨x, hx, rfl, hf, rfl⟩
  obtain ⟨la, lb, hsplit⟩ := List.append_of_mem hxL
  have hnd := hl.nodup _ hc
  rw [hsplit] at hnd
  have hxa : x.bp ∉ la := fun h =>
    (List.nodup_append.1 hnd).2.2 h (List.mem_cons_self _ _)
  have hxb : x.bp ∉ lb := (List.nodup_cons.1 (List.nodup_append.1 hnd).2.1).1
  have hpd : place_detach s x.bp = extract s x.bp := place_extract ht hl hx hf not_false
  obtain ⟨hT, hLx, _⟩ := Lists_extract_lists ht hl hx hf not_false
  have her : eraseL L x.bp (getPtrBySize x.size) = la ++ lb := by
    simp only [eraseL]
    rw [hsplit, List.erase_append_right _ hxa, List.erase_cons_head]
  have heo : eraseL L x.bp (1 - getPtrBySize x.size) = L (1 - getPtrBySize x.size) :=
    List.erase_of_not_mem (hl.not_in_other ht hx hc1 (by omega))
  have hrd := hl.reads ht hc hsplit
  refine ⟨la, lb, L (1 - getPtrBySize x.size), ?_, ?_, ?_, hpd, ?_, ?_, ?_, ?_⟩
  · rw [hl.walk ht hc, hsplit]
  · rw [hl.walk ht hc1]
  · intro h
    rcases List.mem_append.1 h with h | h
    · exact hxa h
    · exact hxb h
  · intro asize
    rw [place_eq, hpd]
  · rw [hLx.walk hT hc, her]
  · rw [hLx.walk hT hc1, heo]
  · intro hla
    subst hla
    have hhd := hLx.head _ hc
    rw [her] at hhd
    simp only [List.nil_append] at hhd hrd
    refine ⟨by rw [hhd, hrd.2], fun hne => ?_⟩
    cases lb with
    | nil => rw [hrd.2] at hne; exact absurd rfl hne
    | cons y k =>
      have := (hLx.reads hT hc (show eraseL L x.bp (getPtrBySize x.size) = [] ++ y :: k by
        rw [her])).1
      rw [hrd.2]
      simpa using this

theorem freeSize_of_not_free {o : Option Blk} (h : isFree o = false) : freeSize o = 0 := by
  cases o with
  | none => rfl
  | some b =>
    simp only [isFree, Bool.not_eq_false'] at h
    simp [freeSize, h]

theorem headAlloc_of_not_free {l : List Blk} (h : isFree l.head? = false) :
    headAlloc l = true := by
  cases l with
  | nil => rfl
  | cons n k => simpa [isFree, headAlloc] using h

/-- C35, amended: in every state reachable by calls whose requests are below `2^64 - 11`,
with bucket lists `A`.  When `mm_free` releases the allocated block `b`, the coalesced
block, which starts at `b` or at its free predecessor, is inserted at the head of the
bucket of its size, the lists just before the insertion being `A` without the successor
`b.bp + b.size` of `b` and without the start of the coalesced block; these two addresses
are in no list unless they are free neighbours of `b`.  When `place` splits the free block
`b`, the remainder at `b.bp + asize` is inserted at the head of the bucket of its size,
the lists just before the insertion being `A` without `b`.  When `extend_heap` succeeds,
for a byte count (modulo `2^64`) of at least 16, the block that `coalesce` makes of the new
space and of the free block that ended at the old epilogue, if there was one, is inserted
at the head of the bucket of its size, the lists just before the insertion being `A`
without the start of the coalesced block.  In all cases the inserted block is the bucket
head, its prev link is `NIL`, its succ link is the old head, the prev link of the old head
is the inserted block, and the old list follows in its order. -/
theorem C35_insert_at_head (s : State) (hr : Reachable s) (l1 l2 : List Blk) (b : Blk)
    (A : Nat → List Nat) (hb : heapBlocks s = some (l1 ++ b :: l2))
    (hA : ∀ i, i < 2 → bucketList s i = some (A i)) :
    (b.alloc = true →
      InsertedAtHead (mm_free s b.bp)
        (getPtrBySize (freeSize l1.getLast? + b.size + freeSize l2.head?))
        (b.bp - freeSize l1.getLast?)
        (eraseL (eraseL A (b.bp + b.size)) (b.bp - freeSize l1.getLast?)) ∧
      GET_SIZE (mm_free s b.bp) (HDRP (b.bp - freeSize l1.getLast?)) =
        freeSize l1.getLast? + b.size + freeSize l2.head? ∧
      GET_ALLOC (mm_free s b.bp) (HDRP (b.bp - freeSize l1.getLast?)) = 0 ∧
      (isFree l2.head? = false → ∀ i, i < 2 → b.bp + b.size ∉ A i) ∧
      (isFree l1.getLast? = false → ∀ i, i < 2 → b.bp - freeSize l1.getLast? ∉ A i)) ∧
    (b.alloc = false → ∀ asize, 16 ≤ asize → asize % 8 = 0 → asize ≤ b.size →
      16 ≤ b.size - asize →
      InsertedAtHead (place s b.bp asize) (getPtrBySize (b.size - asize)) (b.bp + asize)
        (eraseL A b.bp) ∧
      GET_SIZE (place s b.bp asize) (HDRP (b.bp + asize)) = b.size - asize ∧
      GET_ALLOC (place s b.bp asize) (HDRP (b.bp + asize)) = 0) ∧
    (∀ words, 16 ≤ 4 * (words + words % 2) % M64 → (extend_heap s words).1 ≠ NULL →
      InsertedAtHead (extend_heap s words).2
        (getPtrBySize (freeSize (l1 ++ b :: l2).getLast? + 4 * (words + words % 2) % M64))
        (s.brk - freeSize (l1 ++ b :: l2).getLast?)
        (eraseL A (s.brk - freeSize (l1 ++ b :: l2).getLast?)) ∧
      (extend_heap s words).1 = s.brk - freeSize (l1 ++ b :: l2).getLast? ∧
      GET_SIZE (extend_heap s words).2 (HDRP (s.brk - freeSize (l1 ++ b :: l2).getLast?)) =
        freeSize (l1 ++ b :: l2).getLast? + 4 * (words + words % 2) % M64 ∧
      GET_ALLOC (extend_heap s words).2
        (HDRP (s.brk - freeSize (l1 ++ b :: l2).getLast?)) = 0) := by
  obtain ⟨bs0, L, hinv⟩ := Reachable.inv hr
  have := hinv.blocks_eq hb
  subst this
  have hAL := hinv.lists_eq hA
  have hbm : b ∈ l1 ++ b :: l2 := by simp
  refine ⟨?_, ?_, ?_⟩
  · intro hba
    obtain ⟨k1, m, k2, hM, hI, _⟩ := mm_free_lists hinv hba
    obtain ⟨e1, _, _⟩ := hM.explicit
    simp only at e1
    have hmm : m ∈ k1 ++ m :: k2 := by simp
    have hsz := hI.1.size_of hmm
    have hal := hI.1.alloc_of hmm
    have hp := hI.pushed (getPtrBySize_lt _)
    rw [e1] at hsz hal hp
    simp only at hsz hal hp
    refine ⟨hp.of_agree (getPtrBySize_lt _) (fun i hi => ?_), hsz, by simpa using hal, ?_, ?_⟩
    · simp only [eraseL, hAL i hi]
    · intro hnf i hi
      rw [hAL i hi]
      exact next_not_listed hinv.1 hinv.2.1 (headAlloc_of_not_free hnf) i hi
    · intro hnf i hi
      rw [hAL i hi, freeSize_of_not_free hnf, Nat.sub_zero]
      exact Inv.not_mem_of_alloc hinv.1 hinv.2.1 hbm hba i hi
  · intro hbf asize ha16 ha8 hle hr16
    obtain ⟨hI, _⟩ := place_split_lists hinv hbf ha16 ha8 hle hr16
    have hmm : (⟨b.bp + asize, b.size - asize, false⟩ : Blk) ∈
        l1 ++ [⟨b.bp, asize, true⟩, ⟨b.bp + asize, b.size - asize, false⟩] ++ l2 := by simp
    have hsz := hI.1.size_of hmm
    have hal := hI.1.alloc_of hmm
    have hp := hI.pushed (getPtrBySize_lt _)
    refine ⟨hp.of_agree (getPtrBySize_lt _) (fun i hi => ?_), hsz, by simpa using hal⟩
    simp only [eraseL, hAL i hi]
  · intro words h16 hok
    have he := extend_size_eq words
    have hcap : s.brk + extend_size words ≤ s.cap := by
      by_contra h
      rw [extend_heap_fail h] at hok
      exact hok rfl
    obtain ⟨k1, m, hM, h2, hI⟩ := extend_heap_lists hinv (by rw [he]; exact h16)
      (extend_size_mod8 words) hcap
    obtain ⟨e1, _, _⟩ := hM.explicit
    have hz : freeSize (none : Option Blk) = 0 := rfl
    simp only [List.head?_nil, hz, Nat.add_zero, he] at e1
    have hmm : m ∈ k1 ++ [m] := by simp
    have hsz := hI.1.size_of hmm
    have hal := hI.1.alloc_of hmm
    have hp := hI.pushed (getPtrBySize_lt _)
    rw [e1] at hsz hal hp h2
    simp only at hsz hal hp h2
    refine ⟨hp.of_agree (getPtrBySize_lt _) (fun i hi => ?_), h2, hsz, by simpa using hal⟩
    simp only [eraseL, hAL i hi]

/-- C32, amended: in every state reachable by calls whose requests are below `2^64 - 11`,
for a free block `c` of the chain and `asize`, a multiple of 8 with
`16 ≤ asize ≤ c.size`: `c` is a member of the list of the bucket of its size and after
`place(c, asize)` it is in neither list; its header has the allocated bit and the
prev_alloc bit it had before.  When `c.size - asize ≥ 16`, the chain has the allocated
block of `asize` bytes at `c` followed by a free block of `c.size - asize` bytes, whose
header has the prev_alloc bit, whose footer holds the size with the allocated bit 0, as
the header does, and which is a member of the list of the bucket of its size.  Otherwise
the chain has the allocated block of `c.size` bytes at `c`, and the header after it has
the prev_alloc bit and the size and allocated bit it had before. -/
theorem C32_place (s : State) (hr : Reachable s) (l1 l2 : List Blk) (c : Blk) (asize : Nat)
    (hb : heapBlocks s = some (l1 ++ c :: l2)) (hcf : c.alloc = false)
    (ha16 : 16 ≤ asize) (ha8 : asize % 8 = 0) (hle : asize ≤ c.size) :
    (∃ l, bucketList s (getPtrBySize c.size) = some l ∧ c.bp ∈ l) ∧
      (∀ i, i < 2 → ∃ l, bucketList (place s c.bp asize) i = some l ∧ c.bp ∉ l) ∧
      GET_ALLOC (place s c.bp asize) (HDRP c.bp) = 1 ∧
      GET_PREV_ALLOC (place s c.bp asize) (HDRP c.bp) = GET_PREV_ALLOC s (HDRP c.bp) ∧
      (16 ≤ c.size - asize →
        heapBlocks (place s c.bp asize) = some (l1 ++ ⟨c.bp, asize, true⟩ ::
          ⟨c.bp + asize, c.size - asize, false⟩ :: l2) ∧
        GET_SIZE (place s c.bp asize) (HDRP c.bp) = asize ∧
        GET_SIZE (place s c.bp asize) (HDRP (c.bp + asize)) = c.size - asize ∧
        GET_ALLOC (place s c.bp asize) (HDRP (c.bp + asize)) = 0 ∧
        GET_PREV_ALLOC (place s c.bp asize) (HDRP (c.bp + asize)) = 1 ∧
        GET (place s c.bp asize) (FTRP (place s c.bp asize) (c.bp + asize)) =
          c.size - asize ∧
        (GET (place s c.bp asize) (HDRP (c.bp + asize)) ||| 2) =
          (GET (place s c.bp asize) (FTRP (place s c.bp asize) (c.bp + asize)) ||| 2) ∧
        ∃ l, bucketList (place s c.bp asize) (getPtrBySize (c.size - asize)) = some l ∧
          c.bp + asize ∈ l) ∧
      (¬ 16 ≤ c.size - asize →
        heapBlocks (place s c.bp asize) = some (l1 ++ ⟨c.bp, c.size, true⟩ :: l2) ∧
        GET_SIZE (place s c.bp asize) (HDRP c.bp) = c.size ∧
        GET_PREV_ALLOC (place s c.bp asize) (HDRP (c.bp + c.size)) = 1 ∧
        GET_SIZE (place s c.bp asize) (HDRP (c.bp + c.size)) =
          GET_SIZE s (HDRP (c.bp + c.size)) ∧
        GET_ALLOC (place s c.bp asize) (HDRP (c.bp + c.size)) =
          GET_ALLOC s (HDRP (c.bp + c.size))) := by
  obtain ⟨bs0, L, hinv⟩ := Reachable.inv hr
  have := hinv.blocks_eq hb
  subst this
  have hcm : c ∈ l1 ++ c :: l2 := by simp
  have hk := getPtrBySize_lt c.size
  have hbd := hinv.1.bounds hcm
  obtain ⟨_, _, hpb⟩ := hinv.1.fields
  have hmem : ∃ l, bucketList s (getPtrBySize c.size) = some l ∧ c.bp ∈ l :=
    ⟨_, hinv.bucketList hk, (hinv.mem_lists hk c.bp).2 ⟨c, hcm, rfl, hcf, rfl⟩⟩
  by_cases hr16 : 16 ≤ c.size - asize
  · obtain ⟨hI, _⟩ := place_split_lists hinv hcf ha16 ha8 hle hr16
    have e : l1 ++ [(⟨c.bp, asize, true⟩ : Blk), ⟨c.bp + asize, c.size - asize, false⟩] ++ l2
        = l1 ++ ⟨c.bp, asize, true⟩ :: ⟨c.bp + asize, c.size - asize, false⟩ :: l2 := by simp
    have e2 : l1 ++ [(⟨c.bp, asize, true⟩ : Blk), ⟨c.bp + asize, c.size - asize, false⟩] ++ l2
        = (l1 ++ [⟨c.bp, asize, true⟩]) ++ ⟨c.bp + asize, c.size - asize, false⟩ :: l2 := by
      simp
    have hI1 := hI
    rw [e] at hI1
    have hI2 := hI
    rw [e2] at hI2
    obtain ⟨f1, f2, f3⟩ := hI1.1.fields
    obtain ⟨g1, g2, g3⟩ := hI2.1.fields
    simp only [lastAlloc_snoc] at g3
    simp only at f1 f2 f3 g1 g2 g3
    have hcm1 : (⟨c.bp, asize, true⟩ : Blk) ∈ l1 ++ ⟨c.bp, asize, true⟩ ::
        ⟨c.bp + asize, c.size - asize, false⟩ :: l2 := by simp
    have hrm : (⟨c.bp + asize, c.size - asize, false⟩ : Blk) ∈ l1 ++ ⟨c.bp, asize, true⟩ ::
        ⟨c.bp + asize, c.size - asize, false⟩ :: l2 := by simp
    have hrd := hI1.1.bounds hrm
    simp only at hrd
    have hft := hI1.1.ftr _ hrm rfl
    simp only at hft
    have hfp : FTRP (place s c.bp asize) (c.bp + asize)
        = c.bp + asize + (c.size - asize) - 8 := by
      unfold FTRP DSIZE
      rw [g1]
    obtain ⟨pb, hhd⟩ := hI1.1.hdr_of hrm
    simp only at hhd
    have hkr := getPtrBySize_lt (c.size - asize)
    refine ⟨hmem, fun i hi => ⟨_, hI1.bucketList hi,
      Inv.not_mem_of_alloc hI1.1 hI1.2.1 hcm1 rfl i hi⟩, by simpa using f2, f3.trans hpb.symm,
      fun _ => ⟨hI1.1.heapBlocks, f1, g1, by simpa using g2, by simpa using g3, ?_, ?_,
        _, hI1.bucketList hkr,
        (hI1.mem_lists hkr (c.bp + asize)).2 ⟨_, hrm, rfl, rfl, rfl⟩⟩,
      fun h => absurd hr16 h⟩
    · rw [hfp]
      exact hft
    · rw [hfp, hft, HDRP_eq, hhd]
      exact or2_hdr _ _ hrd.2.2.2.1
  · obtain ⟨hI, _⟩ := place_whole_lists hinv hcf hle hr16
    have e : l1 ++ [(⟨c.bp, c.size, true⟩ : Blk)] ++ l2
        = l1 ++ ⟨c.bp, c.size, true⟩ :: l2 := by simp
    rw [e] at hI
    obtain ⟨f1, f2, f3⟩ := hI.1.fields
    simp only at f1 f2 f3
    have hcm1 : (⟨c.bp, c.size, true⟩ : Blk) ∈ l1 ++ ⟨c.bp, c.size, true⟩ :: l2 := by simp
    obtain ⟨P, _, hP, _, _, hnx⟩ := hinv.1.mid
    obtain ⟨Q, _, hQ, _, _, hnx1⟩ := hI.1.mid
    simp only at hQ hnx1
    rw [← hP, hcf] at hnx
    rw [← hQ] at hnx1
    have hs2 : ∀ d ∈ l2, d.size % 8 = 0 := fun d hd => (hinv.1.sizes d (by simp [hd])).2
    obtain ⟨n1, n2, n3⟩ := nextWord_fields hnx hnx1 hs2
    refine ⟨hmem, fun i hi => ⟨_, hI.bucketList hi,
      Inv.not_mem_of_alloc hI.1 hI.2.1 hcm1 rfl i hi⟩, by simpa using f2, f3.trans hpb.symm,
      fun h => absurd h hr16, fun _ => ⟨hI.1.heapBlocks, f1, ?_, ?_, ?_⟩⟩
    · rw [HDRP_eq]; simpa using n3
    · rw [HDRP_eq]; exact n1
    · rw [HDRP_eq]; exact n2

/-- C34: from a fresh state, `mm_init` returns 0 when both requests to `mem_sbrk`, of 32
and then of 64 bytes, are granted, and -1 when one of them is refused.  When it returns 0
the heap is the 96 bytes from `START`: the two bucket heads, the padding word at
`START + 16`, the prologue header at `START + 20` and the prologue footer at
`START + 24`, both `PACK(8, 1)`, one free block of `CHUNKSIZE` bytes at `START + 32`, and
in the last 4 bytes a header of size 0 with the allocated bit; the list of bucket 0 is
that block alone and bucket 1 is `NIL`, its list empty. -/
theorem C34_init (s0 : State) (hf : Fresh s0) :
    ((mem_sbrk s0 (4 * WSIZE + BUCKET_COUNT * DSIZE)).1 ≠ none ∧
        (mem_sbrk (mem_sbrk s0 (4 * WSIZE + BUCKET_COUNT * DSIZE)).2 CHUNKSIZE).1 ≠ none →
      (mm_init s0).1 = 0) ∧
    ((mem_sbrk s0 (4 * WSIZE + BUCKET_COUNT * DSIZE)).1 = none ∨
        (mem_sbrk (mem_sbrk s0 (4 * WSIZE + BUCKET_COUNT * DSIZE)).2 CHUNKSIZE).1 = none →
      (mm_init s0).1 = -1) ∧
    ((mm_init s0).1 = 0 →
      (mm_init s0).2.brk = START + 96 ∧ (mm_init s0).2.seg = START ∧
      (mm_init s0).2.heap_listp = START + 24 ∧
      GET (mm_init s0).2 (START + 16) = 0 ∧
      GET (mm_init s0).2 (START + 20) = PACK DSIZE 1 ∧
      GET (mm_init s0).2 (START + 24) = PACK DSIZE 1 ∧
      GET_SIZE (mm_init s0).2 (START + 20) = 8 ∧ GET_ALLOC (mm_init s0).2 (START + 20) = 1 ∧
      GET_SIZE (mm_init s0).2 (START + 24) = 8 ∧ GET_ALLOC (mm_init s0).2 (START + 24) = 1 ∧
      heapBlocks (mm_init s0).2 = some [⟨START + 32, CHUNKSIZE, false⟩] ∧
      GET_SIZE (mm_init s0).2 (START + 92) = 0 ∧ GET_ALLOC (mm_init s0).2 (START + 92) = 1 ∧
      seg_get (mm_init s0).2 0 = START + 32 ∧ seg_get (mm_init s0).2 1 = NIL ∧
      bucketList (mm_init s0).2 0 = some [START + 32] ∧
      bucketList (mm_init s0).2 1 = some []) := by
  have hS := START_val
  have hb0 := hf.1
  have e32 : 4 * WSIZE + BUCKET_COUNT * DSIZE = 32 := by decide
  have e64 : CHUNKSIZE = 64 := rfl
  have hfirst : (mem_sbrk s0 32).1 ≠ none ↔ START + 32 ≤ s0.cap := by
    rw [ne_eq, mem_sbrk_none, not_not, hb0]
  have hsecond : (mem_sbrk s0 32).1 ≠ none →
      ((mem_sbrk (mem_sbrk s0 32).2 64).1 ≠ none ↔ START + 96 ≤ s0.cap) := by
    intro h
    have h32 := hfirst.1 h
    have e : (mem_sbrk s0 32).2 = { s0 with brk := s0.brk + 32 } := by
      unfold mem_sbrk
      rw [if_pos (by rw [hb0]; exact h32)]
    rw [e, ne_eq, mem_sbrk_none, not_not]
    show s0.brk + 32 + 64 ≤ s0.cap ↔ _
    rw [hb0]
  rw [e32, e64]
  refine ⟨fun h => mm_init_ok hf ((hsecond h.1).1 h.2), fun h => mm_init_fail hf ?_,
    fun h0 => ?_⟩
  · intro hc
    have h1 : (mem_sbrk s0 32).1 ≠ none := hfirst.2 (by omega)
    rcases h with h | h
    · exact h1 h
    · exact (hsecond h1).2 hc h
  · have hc : START + 96 ≤ s0.cap := by
      by_contra hc
      have := mm_init_fail hf hc
      rw [h0] at this
      cases this
    obtain ⟨L, hinv, hbrk, _⟩ := mm_init_spec hf h0
    obtain ⟨hpad, hpf⟩ := mm_init_layout hf hc
    have h9 : PACK DSIZE 1 = 9 := by decide
    have hm : (⟨START + 32, 64, false⟩ : Blk) ∈ [(⟨START + 32, 64, false⟩ : Blk)] := by simp
    have hepi := hinv.1.epi
    rw [hbrk] at hepi
    have hL0 : L 0 = [START + 32] := by
      refine nodup_eq_singleton (hinv.2.1.nodup 0 (by norm_num)) (fun x => ?_)
      rw [hinv.mem_lists (by norm_num)]
      constructor
      · rintro ⟨b, hb, rfl, _⟩
        rw [List.mem_singleton] at hb
        rw [hb]
      · intro hx
        exact ⟨_, hm, hx.symm, rfl, by decide⟩
    have hL1 : L 1 = [] := by
      refine List.eq_nil_iff_forall_not_mem.2 (fun x hx => ?_)
      obtain ⟨b, hb, _, _, hcl⟩ := (hinv.mem_lists (by norm_num) x).1 hx
      rw [List.mem_singleton] at hb
      rw [hb] at hcl
      revert hcl
      decide
    have hh0 := hinv.2.1.head 0 (by norm_num)
    have hh1 := hinv.2.1.head 1 (by norm_num)
    rw [hL0] at hh0
    rw [hL1] at hh1
    have hb0' := hinv.bucketList (show 0 < 2 by norm_num)
    have hb1' := hinv.bucketList (show 1 < 2 by norm_num)
    rw [hL0] at hb0'
    rw [hL1] at hb1'
    refine ⟨hbrk, hinv.1.seg_eq, hinv.1.hlp, hpad, by rw [h9]; exact hinv.1.prol,
      by rw [h9]; exact hpf,
      GET_SIZE_hdr (a := true) (q := false) (z := 8) hinv.1.prol (by norm_num),
      GET_ALLOC_hdr (a := true) (q := false) (z := 8) hinv.1.prol (by norm_num),
      GET_SIZE_hdr (a := true) (q := false) (z := 8) hpf (by norm_num),
      GET_ALLOC_hdr (a := true) (q := false) (z := 8) hpf (by norm_num),
      hinv.1.heapBlocks, GET_SIZE_hdr hepi (by norm_num), GET_ALLOC_hdr hepi (by norm_num),
      hh0, hh1, hb0', hb1'⟩

/-! ## Requests of any size -/

theorem adjust_mod8 (size : Nat) : adjust size % 8 = 0 := by
  have hM : M64 = 18446744073709551616 := by norm_num [M64]
  unfold adjust
  simp only [WSIZE, MINBLOCK, DSIZE, hM]
  split_ifs <;> omega

theorem adjust_lt (size : Nat) : adjust size < M64 := by
  have hM : M64 = 18446744073709551616 := by norm_num [M64]
  unfold adjust
  simp only [WSIZE, MINBLOCK, DSIZE, hM]
  split_ifs <;> omega

/-- The byte count `mm_malloc` asks `extend_heap` for is the one `extend_heap` asks
`mem_sbrk` for, whatever the request. -/
theorem extend_size_max (size : Nat) :
    extend_size (max (adjust size) CHUNKSIZE / WSIZE) = max (adjust size) CHUNKSIZE := by
  have h8 := adjust_mod8 size
  have hlt := adjust_lt size
  have hM : M64 = 18446744073709551616 := by norm_num [M64]
  exact extend_size_of (by unfold CHUNKSIZE; omega) (by unfold CHUNKSIZE; omega)

/-- A list whose head is its own successor is walked for ever, unless the head is taken. -/
theorem scan_loops {s : State} {asize p : Nat} (hp : p ≠ NIL) (hs : SUCC s p = p)
    (hz : GET_SIZE s (HDRP p) ≠ asize)
    (hn : ¬ GET_SIZE s (HDRP p) - asize ≤ asize / 2) :
    ∀ fuel bsize bptr, find_fit_scan s asize fuel p bsize bptr = none := by
  intro fuel
  induction fuel with
  | zero =>
    intro bsize bptr
    simp only [find_fit_scan, hp, if_false]
  | succ n ih =>
    intro bsize bptr
    rw [find_fit_scan]
    simp only [hp, if_false, hz, hs, hn]
    split_ifs <;> exact ih _ _

/-- When the list of bucket 0 is such a list and the request is of class 0, `mm_malloc`
does not return. -/
theorem malloc_loops {s : State} {size p : Nat} (hh : s.heap_listp ≠ 0) (h0 : size ≠ 0)
    (hc : getPtrBySize (adjust size) = 0) (hseg : seg_get s 0 = p)
    (hp : p ≠ NIL) (hs : SUCC s p = p) (hz : GET_SIZE s (HDRP p) ≠ adjust size)
    (hn : ¬ GET_SIZE s (HDRP p) - adjust size ≤ adjust size / 2) :
    ∀ fuel, mm_malloc fuel s size = none := by
  intro fuel
  have h2 : BUCKET_COUNT - 0 = 1 + 1 := rfl
  unfold mm_malloc find_fit
  simp only [hh, if_false, h0, hc, h2]
  rw [find_fit_buckets, hseg, scan_loops hp hs hz hn]

/-- The pointer `mm_malloc` returns is a block of the chain after the call, whatever the
request. -/
theorem malloc_aligned {s : State} {bs : List Blk} {L : Nat → List Nat} {fuel size : Nat}
    {r : Nat × State} (hinv : Inv s bs L) (hm : mm_malloc fuel s size = some r)
    (hp : r.1 ≠ NULL) : r.1 % 8 = 0 := by
  have hS := START_val
  have hb : START ≤ s.brk := by
    have := hinv.1.brk_bounds
    omega
  by_cases h0 : size = 0
  · subst h0
    rw [mm_malloc_zero hinv, Option.some.injEq] at hm
    rw [← hm] at hp
    exact absurd rfl hp
  rcases mm_malloc_cases hinv.hlp_ne hb h0 hm with ⟨_, _, e⟩ | ⟨bp, _, hf, e⟩ | ⟨_, h2, _, e⟩
  · rw [e] at hp
    exact absurd rfl hp
  · subst e
    rcases (find_fit_spec hinv.1 hinv.2.1 (adjust size) fuel).1 bp hf with
      h | ⟨c, hc, _, rfl, _⟩
    · rw [h] at hp
      exact absurd rfl hp
    · exact (hinv.1.bounds hc).2.2.2.2.1
  · subst e
    have he := extend_size_max size
    have h8 := adjust_mod8 size
    have hcap : s.brk + extend_size (max (adjust size) CHUNKSIZE / WSIZE) ≤ s.cap := by
      by_contra hc
      exact h2 ((mem_sbrk_none s _).2 hc)
    obtain ⟨k1, m, L1, _, h3, h4, _⟩ := extend_heap_spec hinv
      (by rw [he]; unfold CHUNKSIZE; omega) (by rw [he]; unfold CHUNKSIZE; omega) hcap
    show (extend_heap s (max (adjust size) CHUNKSIZE / WSIZE)).1 % 8 = 0
    rw [h3]
    exact (h4.1.bounds (show m ∈ k1 ++ [m] by simp)).2.2.2.2.1

/-! ## Claims C1, C13, C22, C23 and C25 -/

/-- C1, amended: in every state reachable from a successful `mm_init` by calls whose
requests are below `2^64 - 11`, `mm_malloc(size)` returns, whatever the size, and a
non-null pointer it returns is a multiple of 8. -/
theorem C1_malloc_aligned (s : State) (size : Nat) (hr : Reachable s) :
    (∃ r, mm_malloc (COMPRESS s.brk) s size = some r) ∧
      ∀ fuel r, mm_malloc fuel s size = some r → r.1 ≠ NULL → r.1 % 8 = 0 := by
  obtain ⟨bs, L, hinv⟩ := Reachable.inv hr
  exact ⟨malloc_returns hinv size, fun fuel r hm hp => malloc_aligned hinv hm hp⟩

/-- C13, amended: in every state reachable from a successful `mm_init` by calls whose
requests are below `2^64 - 11`, a call `mm_malloc(size)` with `size > 0` returns, and it
returns `NULL` exactly when `find_fit` finds no block for the adjusted size and `mem_sbrk`
then refuses to grow the heap; in every other case it returns the block `place` was
called on, which is the block `find_fit` found or else the block `extend_heap` returned. -/
theorem C13_malloc_null_iff (s : State) (size : Nat) (hr : Reachable s) (h0 : 0 < size) :
    (∃ r, mm_malloc (COMPRESS s.brk) s size = some r) ∧
      ∀ fuel r, mm_malloc fuel s size = some r →
        (r.1 = NULL ↔ find_fit fuel s (adjust size) = some NULL ∧
          (mem_sbrk s (extend_size (max (adjust size) CHUNKSIZE / WSIZE))).1 = none) ∧
        (r.1 ≠ NULL → ∃ t, r.2 = place t r.1 (adjust size) ∧
          ((find_fit fuel s (adjust size) = some r.1 ∧ t = s) ∨
            (find_fit fuel s (adjust size) = some NULL ∧
              extend_heap s (max (adjust size) CHUNKSIZE / WSIZE) = (r.1, t)))) := by
  have hS := START_val
  have hg := Reach.glob hr
  obtain ⟨bs, L, hinv⟩ := Reachable.inv hr
  refine ⟨malloc_returns hinv size, fun fuel r hm => ?_⟩
  rcases mm_malloc_cases (by rw [hg.1]; omega) (by omega) (Nat.pos_iff_ne_zero.1 h0) hm with
    ⟨h1, h2, e⟩ | ⟨bp, h1, h2, e⟩ | ⟨h1, h2, h3, e⟩
  · subst e
    exact ⟨⟨fun _ => ⟨h1, h2⟩, fun _ => rfl⟩, fun h => absurd rfl h⟩
  · subst e
    refine ⟨⟨fun h => absurd h h1, fun h => ?_⟩, fun _ => ⟨s, rfl, Or.inl ⟨h2, rfl⟩⟩⟩
    rw [h2, Option.some.injEq] at h
    exact absurd h.1 h1
  · subst e
    exact ⟨⟨fun h => absurd h h3, fun h => absurd h.2 h2⟩, fun _ => ⟨_, rfl, Or.inr ⟨h1, rfl⟩⟩⟩

/-- In a state that satisfies the invariant, `memset` on the block `mm_malloc` returned
for a request that does not wrap around stays inside the heap. -/
theorem calloc_in_heap {s : State} {bs : List Blk} {L : Nat → List Nat} {fuel n : Nat}
    {q : Nat × State} (hinv : Inv s bs L) (hs : n < M64 - 11)
    (hm : mm_malloc fuel s n = some q) (hq : q.1 ≠ NULL) :
    START ≤ q.1 ∧ q.1 + n ≤ q.2.cap := by
  obtain ⟨h0, bs1, L1, h1, _, _, b1, hb1, hb1p, _, hb1s, _⟩ := malloc_result hinv hs hm hq
  obtain ⟨_, _, h4, _⟩ := adjust_spec h0 hs
  have hb := h1.1.bounds hb1
  have hc := h1.1.brk_le
  rw [hb1p] at hb
  exact ⟨by omega, by omega⟩

/-- No call of `mm_calloc` whose product is `2^64 - 11` or more returns a block: `memset`
runs off the memory of the provider. -/
theorem calloc_wrapped {s : State} {bs : List Blk} {L : Nat → List Nat} (hinv : Inv s bs L)
    {nmemb size : Nat} (hw : M64 - 11 ≤ (nmemb * size) % M64) (fuel : Nat) (r : Nat × State)
    (hc : mm_calloc fuel s nmemb size = some r) : r.1 = NULL := by
  have hS := START_val
  have hM : M64 = 18446744073709551616 := by norm_num [M64]
  have hb : START ≤ s.brk := by
    have := hinv.1.brk_bounds
    omega
  unfold mm_calloc at hc
  simp only [] at hc
  rw [if_neg (by omega)] at hc
  cases hm : mm_malloc fuel s ((nmemb * size) % M64) with
  | none => rw [hm] at hc; cases hc
  | some q =>
    rw [hm] at hc
    simp only [] at hc
    split_ifs at hc with hq
    · rw [Option.some.injEq] at hc
      rw [← hc]
    · have hcap := (mm_malloc_glob hinv.hlp_ne hb hm).2.2.1
      have hlt := hinv.1.cap_lt
      have hz : memset0 q.2 q.1 ((nmemb * size) % M64) = none := by
        unfold memset0
        rw [if_neg]
        rintro ⟨h1, h2⟩
        rw [hcap] at h2
        omega
      rw [hz] at hc
      cases hc

/-- C22, amended: in every state reachable by calls whose requests are below `2^64 - 11`,
for `nmemb` and `size` whose product is below `2^64 - 11`: `mm_calloc(nmemb, size)`
returns; it returns `NULL` and the state it was called in when the product is `0`;
otherwise it returns the pointer `mm_malloc(nmemb * size)` returns, and when that pointer
is not `NULL` every byte in `[p, p + nmemb * size)` is zero afterwards and every other
byte is as `mm_malloc` left it. -/
theorem C22_calloc (s : State) (fuel nmemb size : Nat) (hr : Reachable s)
    (hp : nmemb * size < M64 - 11) :
    (nmemb * size = 0 → mm_calloc fuel s nmemb size = some (NULL, s)) ∧
      (nmemb * size ≠ 0 →
        (mm_calloc fuel s nmemb size).map Prod.fst =
            (mm_malloc fuel s (nmemb * size)).map Prod.fst ∧
          ∀ r, mm_calloc fuel s nmemb size = some r → r.1 ≠ NULL →
            (∀ i, i < nmemb * size → r.2.mem (r.1 + i) = 0) ∧
              ∃ q, mm_malloc fuel s (nmemb * size) = some q ∧ q.1 = r.1 ∧
                ∀ a, ¬ (r.1 ≤ a ∧ a < r.1 + nmemb * size) → r.2.mem a = q.2.mem a) ∧
      (∃ r, mm_calloc (COMPRESS s.brk) s nmemb size = some r) := by
  have hM : M64 = 18446744073709551616 := by norm_num [M64]
  have hmod : nmemb * size % M64 = nmemb * size := Nat.mod_eq_of_lt (by omega)
  obtain ⟨bs, L, hinv⟩ := Reachable.inv hr
  have key : ∀ f (q : Nat × State), mm_malloc f s (nmemb * size) = some q → q.1 ≠ NULL →
      memset0 q.2 q.1 (nmemb * size) = some { q.2 with mem := fun a =>
        if q.1 ≤ a ∧ a < q.1 + nmemb * size then 0 else q.2.mem a } := by
    intro f q hq hn
    unfold memset0
    rw [if_pos (calloc_in_heap hinv hp hq hn)]
  refine ⟨fun h => ?_, fun h => ⟨?_, fun r hc hn => ?_⟩, ?_⟩
  · unfold mm_calloc
    simp only [hmod]
    rw [if_pos (by omega)]
  · unfold mm_calloc
    simp only [hmod]
    rw [if_neg (by omega)]
    cases hm : mm_malloc fuel s (nmemb * size) with
    | none => rfl
    | some q =>
      simp only []
      split_ifs with hq
      · simp only [Option.map_some', hq]
      · rw [key fuel q hm hq]
        rfl
  · unfold mm_calloc at hc
    simp only [hmod] at hc
    rw [if_neg (by omega)] at hc
    cases hm : mm_malloc fuel s (nmemb * size) with
    | none => rw [hm] at hc; exact absurd hc (by simp)
    | some q =>
      rw [hm] at hc
      simp only [] at hc
      split_ifs at hc with hq
      · rw [Option.some.injEq] at hc
        subst hc
        exact absurd rfl hn
      · rw [key fuel q hm hq] at hc
        simp only [Option.some.injEq] at hc
        subst hc
        refine ⟨fun i hi => ?_, q, rfl, rfl, fun a ha => ?_⟩
        · show (if q.1 ≤ q.1 + i ∧ q.1 + i < q.1 + nmemb * size then 0
            else q.2.mem (q.1 + i)) = 0
          rw [if_pos ⟨by omega, by omega⟩]
        · show (if q.1 ≤ a ∧ a < q.1 + nmemb * size then 0 else q.2.mem a) = q.2.mem a
          rw [if_neg ha]
  · obtain ⟨q, hq⟩ := malloc_returns hinv (nmemb * size)
    unfold mm_calloc
    simp only [hmod, hq]
    split_ifs with h1 h2
    · exact ⟨_, rfl⟩
    · exact ⟨_, rfl⟩
    · rw [key _ q hq h2]
      exact ⟨_, rfl⟩

/-- C23, amended: in every state reachable by calls whose requests are below `2^64 - 11`,
for a request `size > 0` with adjusted size `asize`, `mm_malloc` returns, and it grows the
heap at most once: when `find_fit(asize)` finds a block, the result is `place` on that
block in the unchanged heap; when it finds none, the one call of `extend_heap` asks
`mem_sbrk` for exactly `max(asize, CHUNKSIZE)` bytes, and either that is refused and
`mm_malloc` returns `NULL` with the state unchanged, or the heap grows by exactly that
amount, the block `extend_heap` returns has at least `asize` bytes and the result is
`place` on that block. -/
theorem C23_single_growth (s : State) (size : Nat) (hr : Reachable s) (h0 : 0 < size) :
    extend_size (max (adjust size) CHUNKSIZE / WSIZE) = max (adjust size) CHUNKSIZE ∧
      (∃ r, mm_malloc (COMPRESS s.brk) s size = some r) ∧
      ∀ fuel r, mm_malloc fuel s size = some r →
        (∃ bp, bp ≠ NULL ∧ find_fit fuel s (adjust size) = some bp ∧
            r = (bp, place s bp (adjust size)) ∧ r.2.brk = s.brk) ∨
          (find_fit fuel s (adjust size) = some NULL ∧
            (mem_sbrk s (max (adjust size) CHUNKSIZE)).1 = none ∧ r = (NULL, s)) ∨
          (find_fit fuel s (adjust size) = some NULL ∧
            (mem_sbrk s (max (adjust size) CHUNKSIZE)).1 = some s.brk ∧
            adjust size ≤ GET_SIZE (extend_heap s (max (adjust size) CHUNKSIZE / WSIZE)).2
              (HDRP (extend_heap s (max (adjust size) CHUNKSIZE / WSIZE)).1) ∧
            r = ((extend_heap s (max (adjust size) CHUNKSIZE / WSIZE)).1,
              place (extend_heap s (max (adjust size) CHUNKSIZE / WSIZE)).2
                (extend_heap s (max (adjust size) CHUNKSIZE / WSIZE)).1 (adjust size)) ∧
            r.2.brk = s.brk + max (adjust size) CHUNKSIZE) := by
  have hS := START_val
  obtain ⟨bs, L, hinv⟩ := Reachable.inv hr
  have hg := Reach.glob hr
  have a8 := adjust_mod8 size
  have he := extend_size_max size
  refine ⟨he, malloc_returns hinv size, fun fuel r hm => ?_⟩
  rcases mm_malloc_cases hinv.hlp_ne (by omega) (Nat.pos_iff_ne_zero.1 h0) hm with
    ⟨h1, h2, e⟩ | ⟨bp, h1, h2, e⟩ | ⟨h1, h2, _, e⟩
  · rw [he] at h2
    exact Or.inr (Or.inl ⟨h1, h2, e⟩)
  · refine Or.inl ⟨bp, h1, h2, e, ?_⟩
    rw [e]
    exact (place_glob s bp (adjust size)).1
  · rw [he] at h2
    have hcap : s.brk + extend_size (max (adjust size) CHUNKSIZE / WSIZE) ≤ s.cap := by
      rw [he]
      by_contra hc
      exact h2 ((mem_sbrk_none s _).2 hc)
    refine Or.inr (Or.inr ⟨h1, mem_sbrk_some s _ h2, ?_, e, ?_⟩)
    · obtain ⟨k1, m, L1, hmg, hp, hinv1, _⟩ := extend_heap_spec hinv
        (by rw [he]; unfold CHUNKSIZE; omega) (by rw [he]; unfold CHUNKSIZE; omega) hcap
      rw [hp, hinv1.1.size_of (b := m) (by simp)]
      have := hmg.size_le
      rw [he] at this
      have h3 : max (adjust size) CHUNKSIZE ≤ m.size := this
      omega
    · rw [e]
      show (place _ _ _).brk = _
      rw [(place_glob _ _ _).1, (extend_heap_ok s _ (by omega) hcap).2.1, he]

/-- C25, amended: starting from a fresh successful `mm_init`, the calls
`p1 = mm_malloc(16)` and `p2 = mm_malloc(16)` return, with `p1 = START + 32` and
`p2 = START + 56`, and after `mm_free(p1)` the members of bucket 0 are the two free blocks
of the chain: the released block at `p1`, which has 24 bytes, the adjusted size of a
request of 16 bytes, and the block of 16 bytes at `START + 80`, the remainder of the first
chunk.  The block at `p2` is still allocated, with the same size, 24 bytes, and the same
payload bytes as before the call of `mm_free`. -/
theorem C25_scenario_b (s0 : State) (hf : Fresh s0) (h0 : (mm_init s0).1 = 0) :
    (∃ r1, mm_malloc (COMPRESS (mm_init s0).2.brk) (mm_init s0).2 16 = some r1) ∧
      ∀ f1 r1, mm_malloc f1 (mm_init s0).2 16 = some r1 →
        r1.1 = START + 32 ∧ (∃ r2, mm_malloc (COMPRESS r1.2.brk) r1.2 16 = some r2) ∧
        ∀ f2 r2, mm_malloc f2 r1.2 16 = some r2 →
          r2.1 = START + 56 ∧
          ∃ l, bucketList (mm_free r2.2 r1.1) 0 = some l ∧
            l.Perm [START + 32, START + 80] ∧ l.length = 2 ∧
            GET_SIZE (mm_free r2.2 r1.1) (HDRP (START + 32)) = 24 ∧
            GET_SIZE (mm_free r2.2 r1.1) (HDRP (START + 80)) = 16 ∧
            heapBlocks (mm_free r2.2 r1.1) = some [⟨START + 32, 24, false⟩,
              ⟨START + 56, 24, true⟩, ⟨START + 80, 16, false⟩] ∧
            allocated (mm_free r2.2 r1.1) r2.1 = true ∧
            GET_SIZE (mm_free r2.2 r1.1) (HDRP r2.1) = GET_SIZE r2.2 (HDRP r2.1) ∧
            ∀ a, r2.1 ≤ a → a < r2.1 + GET_SIZE r2.2 (HDRP r2.1) - WSIZE →
              (mm_free r2.2 r1.1).mem a = r2.2.mem a := by
  obtain ⟨L, hinv, _, _⟩ := mm_init_spec hf h0
  refine ⟨malloc_returns hinv 16, fun f1 r1 hm1 => ?_⟩
  obtain ⟨h1, L1, hinv1⟩ := scenario_b1 hf h0 hm1
  refine ⟨h1, malloc_returns hinv1 16, fun f2 r2 hm2 => ?_⟩
  obtain ⟨h2, L2, hinv2⟩ := scenario_b2 hinv1 hm2
  have hz2 := hinv2.1.size_of (b := ⟨START + 56, 24, true⟩) (by simp)
  have hz2' : GET_SIZE r2.2 (HDRP (START + 56)) = 24 := hz2
  rw [h1, h2]
  obtain ⟨⟨L3, hinv3⟩, hmem⟩ := scenario_b3 hinv2
  obtain ⟨h4, h5, h6, h7, h8, h9, h10⟩ := scenario_b4 hinv3
  refine ⟨rfl, L3 0, h4, h5, by simpa using h5.length_eq, h6, h7, hinv3.1.heapBlocks, h9,
    ?_, ?_⟩
  · rw [h10, hz2']
  · rw [hz2']
    exact hmem

set_option maxRecDepth 1000000

/-- C1 as stated fails: after `mm_malloc(2^64-1)`, `mm_malloc(60)`, `mm_free(START+32)`,
`mm_malloc(2^64-1)`, `mm_free(START+32)`, `mm_malloc(70)`, the call `mm_malloc(2^64-8)`
returns `START + 34`, which is not a multiple of 8. -/
theorem C1_counterexample :
    ReachableAny (runD 8 (mm_init st0).2 [Call.malloc (M64 - 1), Call.malloc 60,
        Call.free (START + 32), Call.malloc (M64 - 1), Call.free (START + 32),
        Call.malloc 70]) ∧
      (mm_malloc 8 (runD 8 (mm_init st0).2 [Call.malloc (M64 - 1), Call.malloc 60,
        Call.free (START + 32), Call.malloc (M64 - 1), Call.free (START + 32),
        Call.malloc 70]) (M64 - 8)).map Prod.fst = some (START + 34) ∧
      (START + 34) % 8 ≠ 0 :=
  ⟨Reach_run 8 _ _ (Reach_init0 _) (by decide), by decide, by decide⟩

/-- C2 as stated fails: after `mm_malloc(2^64-1)`, `mm_malloc(60)`, `mm_free(START+32)`,
`mm_malloc(2^64-8)`, `mm_free(START+32)`, `mm_malloc(1)`, `mm_malloc(70)`,
`mm_malloc(100)`, the call `mm_malloc(1)` returns `START + 112`, and in the resulting
state the header word of that block is 0: it is not marked allocated, its size is 0, and
it is not a block of the chain. -/
theorem C2_counterexample :
    ReachableAny (runD 8 (mm_init st0).2 [Call.malloc (M64 - 1), Call.malloc 60,
        Call.free (START + 32), Call.malloc (M64 - 8), Call.free (START + 32),
        Call.malloc 1, Call.malloc 70, Call.malloc 100]) ∧
      (mm_malloc 8 (runD 8 (mm_init st0).2 [Call.malloc (M64 - 1), Call.malloc 60,
        Call.free (START + 32), Call.malloc (M64 - 8), Call.free (START + 32),
        Call.malloc 1, Call.malloc 70, Call.malloc 100]) 1).map
          (fun r => (r.1, GET_ALLOC r.2 (HDRP r.1), GET_SIZE r.2 (HDRP r.1),
            allocated r.2 r.1)) = some (START + 112, 0, 0, false) :=
  ⟨Reach_run 8 _ _ (Reach_init0 _) (by decide), by decide⟩

theorem C2_malloc_block_witness :
    Reachable (mm_init st0).2 ∧
      ∃ r, mm_malloc 8 (mm_init st0).2 1 = some r ∧ r.1 ≠ NULL ∧
        allocated r.2 r.1 = true ∧ GET_ALLOC r.2 (HDRP r.1) = 1 ∧
        1 + WSIZE ≤ GET_SIZE r.2 (HDRP r.1) ∧ r.1 + 1 ≤ HDRP (NEXT_BLKP r.2 r.1) :=
  ⟨Reach_init0 _, (mm_malloc 8 (mm_init st0).2 1).get (by decide),
    (Option.some_get _).symm, by decide,
    (C2_malloc_block (mm_init st0).2 1 (Reach_init0 _) (by decide) (by decide)).2 8 _
      (Option.some_get _).symm (by decide)⟩

/-- C3 as stated fails: right after `mm_init` the heap is one free block of 64 bytes at
`START + 32` and ends at `START + 96`; `mm_malloc(100)` grows the heap by 104 bytes and
returns the block of 104 bytes at `START + 32`, which is neither inside the free block
nor inside the newly granted heap: it spans the free block, the old epilogue header and a
part of the new heap. -/
theorem C3_counterexample :
    Reachable (mm_init st0).2 ∧ ReachableAny (mm_init st0).2 ∧
      heapBlocks (mm_init st0).2 = some [⟨START + 32, 64, false⟩] ∧
      (mm_init st0).2.brk = START + 96 ∧
      (mm_malloc 8 (mm_init st0).2 100).map (fun r => (r.1, heapBlocks r.2, r.2.brk)) =
        some (START + 32, some [⟨START + 32, 104, true⟩, ⟨START + 136, 64, false⟩],
          START + 200) ∧
      ¬ (START + 32 + 104 ≤ START + 32 + 64) ∧ ¬ (START + 96 ≤ START + 32) :=
  ⟨Reach_init0 _, Reach_init0 _, by decide, by decide, by decide, by decide, by decide⟩

theorem C3_malloc_fresh_witness :
    Reachable (mm_init st0).2 ∧
      ∃ r, mm_malloc 8 (mm_init st0).2 100 = some r ∧ r.1 ≠ NULL ∧
        allocated (mm_init st0).2 r.1 = false := by
  obtain ⟨bs, _, h⟩ := C3_malloc_fresh (mm_init st0).2 100 (Reach_init0 _) (by decide)
  obtain ⟨bs1, _, h1, _⟩ := h 8 ((mm_malloc 8 (mm_init st0).2 100).get (by decide))
    (Option.some_get _).symm (by decide)
  exact ⟨Reach_init0 _, _, (Option.some_get _).symm, by decide, h1⟩

/-- C4 as stated fails: after `mm_malloc(1)` the block at `START + 32` is allocated with
size 16, so `START + 40` is a byte of its payload; the call `mm_malloc(2^64-8)` changes
that byte from 17 to 1. -/
theorem C4_counterexample :
    ReachableAny (runD 8 (mm_init st0).2 [Call.malloc 1]) ∧
      heapBlocks (runD 8 (mm_init st0).2 [Call.malloc 1]) =
        some [⟨START + 32, 16, true⟩, ⟨START + 48, 48, false⟩] ∧
      (Call.malloc (M64 - 8)).valid (runD 8 (mm_init st0).2 [Call.malloc 1]) = true ∧
      (runD 8 (mm_init st0).2 [Call.malloc 1]).mem (START + 40) = 17 ∧
      (mm_malloc 8 (runD 8 (mm_init st0).2 [Call.malloc 1]) (M64 - 8)).map
        (fun r => r.2.mem (START + 40)) = some 1 :=
  ⟨Reach_run 8 _ _ (Reach_init0 _) (by decide), by decide, by decide, by decide, by decide⟩

theorem C4_frame_witness :
    Reachable (runD 8 (mm_init st0).2 [Call.malloc 1]) ∧
      ∃ bs, heapBlocks (runD 8 (mm_init st0).2 [Call.malloc 1]) = some bs ∧
        ∃ r, mm_malloc 8 (runD 8 (mm_init st0).2 [Call.malloc 1]) 24 = some r ∧
          ∃ bs1, heapBlocks r.2 = some bs1 ∧ ∀ b ∈ bs, b.alloc = true →
            b ∈ bs1 ∧ ∀ a, b.bp ≤ a → a < b.bp + b.size - 4 →
              r.2.mem a = (runD 8 (mm_init st0).2 [Call.malloc 1]).mem a := by
  obtain ⟨bs, h1, h2, _⟩ := C4_frame (runD 8 (mm_init st0).2 [Call.malloc 1])
    (Reach_run 8 _ _ (Reach_init0 _) (by decide))
  exact ⟨Reach_run 8 _ _ (Reach_init0 _) (by decide), bs, h1, _,
    (Option.some_get (by decide :
      (mm_malloc 8 (runD 8 (mm_init st0).2 [Call.malloc 1]) 24).isSome = true)).symm,
    h2 8 24 _ (by decide) (Option.some_get _).symm⟩

/-- C5 as stated fails: after `mm_malloc(2^64-1)`, `mm_malloc(1)`, `mm_free(START+32)`
the chain is a free block of 8 bytes followed by a free block of 56 bytes. -/
theorem C5_counterexample :
    ReachableAny (runD 8 (mm_init st0).2 [Call.malloc (M64 - 1), Call.malloc 1,
        Call.free (START + 32)]) ∧
      heapBlocks (runD 8 (mm_init st0).2 [Call.malloc (M64 - 1), Call.malloc 1,
        Call.free (START + 32)]) =
        some [⟨START + 32, 8, false⟩, ⟨START + 40, 56, false⟩] :=
  ⟨Reach_run 8 _ _ (Reach_init0 _) (by decide), by decide⟩

theorem C5_no_adjacent_free_witness :
    Reachable (mm_init st0).2 ∧ ∃ bs, heapBlocks (mm_init st0).2 = some bs ∧
      List.Chain' (fun a b => b.alloc = true ∨ a.alloc = true) bs :=
  ⟨Reach_init0 _, C5_no_adjacent_free (mm_init st0).2 (Reach_init0 _)⟩

/-- C6 as stated fails: after `mm_malloc(2^64-1)`, `mm_malloc(1)`, `mm_free(START+32)`
the free block at `START + 40` is in neither bucket list, and the member `START + 56` of
bucket 0 is not a block of the chain. -/
theorem C6_counterexample :
    ReachableAny (runD 8 (mm_init st0).2 [Call.malloc (M64 - 1), Call.malloc 1,
        Call.free (START + 32)]) ∧
      heapBlocks (runD 8 (mm_init st0).2 [Call.malloc (M64 - 1), Call.malloc 1,
        Call.free (START + 32)]) =
        some [⟨START + 32, 8, false⟩, ⟨START + 40, 56, false⟩] ∧
      bucketList (runD 8 (mm_init st0).2 [Call.malloc (M64 - 1), Call.malloc 1,
        Call.free (START + 32)]) 0 = some [START + 32, START + 56] ∧
      bucketList (runD 8 (mm_init st0).2 [Call.malloc (M64 - 1), Call.malloc 1,
        Call.free (START + 32)]) 1 = some [] :=
  ⟨Reach_run 8 _ _ (Reach_init0 _) (by decide), by decide, by decide, by decide⟩

theorem C6_free_blocks_listed_witness :
    Reachable (mm_init st0).2 ∧ ∃ bs l0 l1, heapBlocks (mm_init st0).2 = some bs ∧
      bucketList (mm_init st0).2 0 = some l0 ∧ bucketList (mm_init st0).2 1 = some l1 ∧
      (∀ b ∈ bs, b.alloc = false → (l0 ++ l1).count b.bp = 1) ∧
      ∀ x ∈ l0 ++ l1, ∃ b ∈ bs, b.bp = x ∧ b.alloc = false :=
  ⟨Reach_init0 _, C6_free_blocks_listed (mm_init st0).2 (Reach_init0 _)⟩

/-- C7 as stated fails: after `mm_malloc(2^64-1)`, `mm_malloc(1)`, `mm_free(START+32)`
the free block at `START + 40` has size 56, of class 0, and is not a member of
bucket 0. -/
theorem C7_counterexample :
    ReachableAny (runD 8 (mm_init st0).2 [Call.malloc (M64 - 1), Call.malloc 1,
        Call.free (START + 32)]) ∧
      (⟨START + 40, 56, false⟩ : Blk) ∈ (heapBlocks (runD 8 (mm_init st0).2
        [Call.malloc (M64 - 1), Call.malloc 1, Call.free (START + 32)])).getD [] ∧
      getPtrBySize 56 = 0 ∧
      bucketList (runD 8 (mm_init st0).2 [Call.malloc (M64 - 1), Call.malloc 1,
        Call.free (START + 32)]) 0 = some [START + 32, START + 56] ∧
      START + 40 ∉ [START + 32, START + 56] :=
  ⟨Reach_run 8 _ _ (Reach_init0 _) (by decide), by decide, by decide, by decide, by decide⟩

theorem C7_bucket_class_witness :
    Reachable (mm_init st0).2 ∧ ∃ bs, heapBlocks (mm_init st0).2 = some bs ∧
      ∀ i, i < 2 → ∃ l, bucketList (mm_init st0).2 i = some l ∧
        ∀ b ∈ bs, b.alloc = false → (b.bp ∈ l ↔ getPtrBySize b.size = i) :=
  ⟨Reach_init0 _, C7_bucket_class (mm_init st0).2 (Reach_init0 _)⟩

/-- C8 as stated fails: right after `mm_init` the first block, at `START + 32`, has the
prev_allocated bit `0` in its header while the prologue before it has the allocated
bit `1`. -/
theorem C8_counterexample :
    Reachable (mm_init st0).2 ∧ ReachableAny (mm_init st0).2 ∧
      NEXT_BLKP (mm_init st0).2 (mm_init st0).2.heap_listp = START + 32 ∧
      GET_ALLOC (mm_init st0).2 (HDRP (mm_init st0).2.heap_listp) = 1 ∧
      GET_PREV_ALLOC (mm_init st0).2 (HDRP (START + 32)) = 0 :=
  ⟨Reach_init0 _, Reach_init0 _, by decide, by decide, by decide⟩

theorem C8_prev_alloc_bit_witness :
    Reachable (mm_init st0).2 ∧ ∃ bs, heapBlocks (mm_init st0).2 = some bs ∧
      List.Chain' (fun a b => GET_PREV_ALLOC (mm_init st0).2 (HDRP b.bp) =
        if a.alloc then 1 else 0) bs ∧
      (∀ b, bs.getLast? = some b →
        GET_PREV_ALLOC (mm_init st0).2 (HDRP (mm_init st0).2.brk) =
          if b.alloc then 1 else 0) ∧
      (∀ b, bs.head? = some b → GET_PREV_ALLOC (mm_init st0).2 (HDRP b.bp) = 0) ∧
      GET_ALLOC (mm_init st0).2 (HDRP (mm_init st0).2.heap_listp) = 1 :=
  ⟨Reach_init0 _, C8_prev_alloc_bit (mm_init st0).2 (Reach_init0 _)⟩

/-- C9 as stated fails: after `mm_malloc(2^64-1)` the first block of the chain has
size 8. -/
theorem C9_counterexample :
    ReachableAny (runD 8 (mm_init st0).2 [Call.malloc (M64 - 1)]) ∧
      heapBlocks (runD 8 (mm_init st0).2 [Call.malloc (M64 - 1)]) =
        some [⟨START + 32, 8, true⟩, ⟨START + 40, 56, false⟩] ∧ ¬ 16 ≤ 8 :=
  ⟨Reach_run 8 _ _ (Reach_init0 _) (by decide), by decide, by decide⟩

theorem C9_block_format_witness :
    Reachable (mm_init st0).2 ∧ ∃ bs, heapBlocks (mm_init st0).2 = some bs ∧
      ∀ b ∈ bs, b.bp % 8 = 0 ∧ b.size % 8 = 0 ∧ 16 ≤ b.size :=
  ⟨Reach_init0 _, C9_block_format (mm_init st0).2 (Reach_init0 _)⟩

/-- C10 as stated fails: after `mm_malloc(2^64-1)`, `mm_malloc(1)`, `mm_free(START+32)`
the free block at `START + 32` has size 8 in its header and size 0 in the word at its
footer position `START + 32`. -/
theorem C10_counterexample :
    ReachableAny (runD 8 (mm_init st0).2 [Call.malloc (M64 - 1), Call.malloc 1,
        Call.free (START + 32)]) ∧
      (⟨START + 32, 8, false⟩ : Blk) ∈ (heapBlocks (runD 8 (mm_init st0).2
        [Call.malloc (M64 - 1), Call.malloc 1, Call.free (START + 32)])).getD [] ∧
      GET_SIZE (runD 8 (mm_init st0).2 [Call.malloc (M64 - 1), Call.malloc 1,
        Call.free (START + 32)]) (HDRP (START + 32)) = 8 ∧
      FTRP (runD 8 (mm_init st0).2 [Call.malloc (M64 - 1), Call.malloc 1,
        Call.free (START + 32)]) (START + 32) = START + 32 ∧
      GET_SIZE (runD 8 (mm_init st0).2 [Call.malloc (M64 - 1), Call.malloc 1,
        Call.free (START + 32)]) (START + 32) = 0 :=
  ⟨Reach_run 8 _ _ (Reach_init0 _) (by decide), by decide, by decide, by decide, by decide⟩

theorem C10_header_footer_witness :
    Reachable (mm_init st0).2 ∧ ∃ bs, heapBlocks (mm_init st0).2 = some bs ∧
      ∀ b ∈ bs, b.alloc = false →
        FTRP (mm_init st0).2 b.bp = b.bp + b.size - 8 ∧
          GET_SIZE (mm_init st0).2 (HDRP b.bp) = b.size ∧
          GET_SIZE (mm_init st0).2 (FTRP (mm_init st0).2 b.bp) = b.size ∧
          GET_ALLOC (mm_init st0).2 (HDRP b.bp) = 0 ∧
          GET_ALLOC (mm_init st0).2 (FTRP (mm_init st0).2 b.bp) = 0 :=
  ⟨Reach_init0 _, C10_header_footer (mm_init st0).2 (Reach_init0 _)⟩

/-- C11 as stated fails: after `mm_malloc(2^64-1)`, `mm_malloc(1)`, `mm_free(START+32)`,
`mm_malloc(1)` the heap ends at `START + 96`, but the walk over the chain ends at
`START + 40`, after a single block of 8 bytes. -/
theorem C11_counterexample :
    ReachableAny (runD 8 (mm_init st0).2 [Call.malloc (M64 - 1), Call.malloc 1,
        Call.free (START + 32), Call.malloc 1]) ∧
      (runD 8 (mm_init st0).2 [Call.malloc (M64 - 1), Call.malloc 1,
        Call.free (START + 32), Call.malloc 1]).brk = START + 96 ∧
      chainEnd (runD 8 (mm_init st0).2 [Call.malloc (M64 - 1), Call.malloc 1,
        Call.free (START + 32), Call.malloc 1]) = some (START + 40) ∧
      heapBlocks (runD 8 (mm_init st0).2 [Call.malloc (M64 - 1), Call.malloc 1,
        Call.free (START + 32), Call.malloc 1]) = some [⟨START + 32, 8, false⟩] ∧
      8 + 32 ≠ START + 96 - START :=
  ⟨Reach_run 8 _ _ (Reach_init0 _) (by decide), by decide, by decide, by decide, by decide⟩

theorem C11_chain_total_witness :
    Reachable (mm_init st0).2 ∧ ∃ bs, heapBlocks (mm_init st0).2 = some bs ∧
      chainEnd (mm_init st0).2 = some (mm_init st0).2.brk ∧
      GET_SIZE (mm_init st0).2 (HDRP (mm_init st0).2.brk) = 0 ∧
      GET_ALLOC (mm_init st0).2 (HDRP (mm_init st0).2.brk) = 1 ∧
      (bs.map Blk.size).sum + 32 = (mm_init st0).2.brk - START :=
  ⟨Reach_init0 _, C11_chain_total (mm_init st0).2 (Reach_init0 _)⟩

theorem Reach_init1 (ok : Call → Bool) : Reach ok (mm_init st1).2 :=
  Reach.init st1 ⟨rfl, rfl, by decide⟩ (by decide)

theorem malloc_st1_returns : (mm_malloc 8 (mm_init st1).2 100).isSome = true := by decide

theorem C14_grow_failure_witness :
    ReachableAny (mm_init st1).2 ∧ find_fit 8 (mm_init st1).2 (adjust 100) = some NULL ∧
      (mem_sbrk (mm_init st1).2 (extend_size (max (adjust 100) CHUNKSIZE / WSIZE))).1 =
        none ∧
      extend_heap (mm_init st1).2 (max (adjust 100) CHUNKSIZE / WSIZE) =
        (NULL, (mm_init st1).2) ∧
      mm_malloc 8 (mm_init st1).2 100 = some (NULL, (mm_init st1).2) :=
  ⟨Reach_init1 _, by decide, by decide,
    C14_grow_failure (mm_init st1).2 100 8 (Reach_init1 _) (by decide) (by decide)
      (by decide)⟩

theorem C15_malloc_zero_witness :
    (mm_init st0).2.heap_listp ≠ 0 ∧
      mm_malloc 8 (mm_init st0).2 0 = some (NULL, (mm_init st0).2) :=
  ⟨by decide, C15_malloc_zero (mm_init st0).2 8 (by decide)⟩

/-- C17 as stated fails: after `mm_malloc(2^64-1)`, `mm_malloc(1)` the chain is an
allocated block of 8 bytes at `START + 32`, an allocated block of 16 bytes and a free
block of 40 bytes.  After `mm_free(START+32)` the header of the block at `START + 32`
holds size 8, but the word at its footer position `START + 32` holds size 0, and the
allocated block after it has become part of a free block of 56 bytes. -/
theorem C17_counterexample :
    ReachableAny (runD 8 (mm_init st0).2 [Call.malloc (M64 - 1), Call.malloc 1]) ∧
      heapBlocks (runD 8 (mm_init st0).2 [Call.malloc (M64 - 1), Call.malloc 1]) =
        some [⟨START + 32, 8, true⟩, ⟨START + 40, 16, true⟩, ⟨START + 56, 40, false⟩] ∧
      heapBlocks (mm_free (runD 8 (mm_init st0).2 [Call.malloc (M64 - 1), Call.malloc 1])
        (START + 32)) = some [⟨START + 32, 8, false⟩, ⟨START + 40, 56, false⟩] ∧
      GET_SIZE (mm_free (runD 8 (mm_init st0).2 [Call.malloc (M64 - 1), Call.malloc 1])
        (START + 32)) (HDRP (START + 32)) = 8 ∧
      FTRP (mm_free (runD 8 (mm_init st0).2 [Call.malloc (M64 - 1), Call.malloc 1])
        (START + 32)) (START + 32) = START + 32 ∧
      GET_SIZE (mm_free (runD 8 (mm_init st0).2 [Call.malloc (M64 - 1), Call.malloc 1])
        (START + 32)) (START + 32) = 0 :=
  ⟨Reach_run 8 _ _ (Reach_init0 _) (by decide), by decide, by decide, by decide, by decide,
    by decide⟩

theorem C17_free_coalesces_witness :
    Reachable (runD 8 (mm_init st0).2 [Call.malloc 8, Call.malloc 8, Call.malloc 8,
        Call.free (START + 32), Call.free (START + 64)]) ∧
      heapBlocks (runD 8 (mm_init st0).2 [Call.malloc 8, Call.malloc 8, Call.malloc 8,
        Call.free (START + 32), Call.free (START + 64)]) =
        some ([⟨START + 32, 16, false⟩] ++ ⟨START + 48, 16, true⟩ ::
          [⟨START + 64, 32, false⟩]) ∧
      heapBlocks (mm_free (runD 8 (mm_init st0).2 [Call.malloc 8, Call.malloc 8,
        Call.malloc 8, Call.free (START + 32), Call.free (START + 64)]) (START + 48)) =
        some [⟨START + 32, 64, false⟩] := by
  obtain ⟨m, h1, h2, _⟩ := C17_free_coalesces
    (runD 8 (mm_init st0).2 [Call.malloc 8, Call.malloc 8, Call.malloc 8,
      Call.free (START + 32), Call.free (START + 64)])
    [⟨START + 32, 16, false⟩] [⟨START + 64, 32, false⟩] ⟨START + 48, 16, true⟩
    (Reach_run 8 _ _ (Reach_init0 _) (by decide)) (by decide) rfl
  subst h1
  exact ⟨Reach_run 8 _ _ (Reach_init0 _) (by decide), by decide, h2.trans (by decide)⟩

/-- C18 as stated fails: after `mm_malloc(1)` the block at `START + 32` is allocated
with size 16; `mm_realloc(START+32, 2^64-1)` returns `START + 48`, and the byte at offset
8 of the new block is 32 while the byte at offset 8 of the old block was 17, although
`8 < min(2^64-1, 16 - 4)`. -/
theorem C18_counterexample :
    ReachableAny (runD 8 (mm_init st0).2 [Call.malloc 1]) ∧
      allocated (runD 8 (mm_init st0).2 [Call.malloc 1]) (START + 32) = true ∧
      GET_SIZE (runD 8 (mm_init st0).2 [Call.malloc 1]) (HDRP (START + 32)) = 16 ∧
      (runD 8 (mm_init st0).2 [Call.malloc 1]).mem (START + 32 + 8) = 17 ∧
      (mm_realloc 8 (runD 8 (mm_init st0).2 [Call.malloc 1]) (START + 32) (M64 - 1)).map
        (fun r => (r.1, r.2.mem (r.1 + 8))) = some (START + 48, 32) ∧
      8 < min (M64 - 1) (16 - 4) :=
  ⟨Reach_run 8 _ _ (Reach_init0 _) (by decide), by decide, by decide, by decide, by decide,
    by decide⟩

theorem C18_realloc_keeps_bytes_witness :
    Reachable (runD 8 (mm_init st0).2 [Call.malloc 1]) ∧
      ∃ r, mm_realloc 8 (runD 8 (mm_init st0).2 [Call.malloc 1]) (START + 32) 24 = some r ∧
        r.1 ≠ NULL ∧ ∀ i, i < min 24
          (GET_SIZE (runD 8 (mm_init st0).2 [Call.malloc 1]) (HDRP (START + 32)) - 4) →
          r.2.mem (r.1 + i) = (runD 8 (mm_init st0).2 [Call.malloc 1]).mem (START + 32 + i) :=
  ⟨Reach_run 8 _ _ (Reach_init0 _) (by decide),
    (mm_realloc 8 (runD 8 (mm_init st0).2 [Call.malloc 1]) (START + 32) 24).get (by decide),
    (Option.some_get _).symm, by decide,
    (C18_realloc_keeps_bytes (runD 8 (mm_init st0).2 [Call.malloc 1]) (START + 32) 24
      (Reach_run 8 _ _ (Reach_init0 _) (by decide)) (by decide) (by decide) (by decide)).2 8 _
      (Option.some_get _).symm (by decide)⟩

/-- C19 as stated fails.  By design: after `mm_malloc(1)` the block at `START + 32` has
size 16, so its payload is 12 bytes; `mm_realloc(START+32, 100)` returns `START + 48` and
copies 16 bytes: the byte at offset 12 of the new block is 107, a byte of the header that
follows the old payload, while `mm_malloc`, a copy of 12 bytes and `mm_free` leave 0
there.  By wrap-around: after eight calls that include `mm_malloc(2^64-1)` the block at
`START + 104` is allocated, and `mm_realloc(START+104, 65)` returns `START + 104`
itself. -/
theorem C19_counterexample :
    (Reachable (runD 8 (mm_init st0).2 [Call.malloc 1]) ∧
      ReachableAny (runD 8 (mm_init st0).2 [Call.malloc 1]) ∧
      allocated (runD 8 (mm_init st0).2 [Call.malloc 1]) (START + 32) = true ∧
      GET_SIZE (runD 8 (mm_init st0).2 [Call.malloc 1]) (HDRP (START + 32)) = 16 ∧
      (mm_realloc 8 (runD 8 (mm_init st0).2 [Call.malloc 1]) (START + 32) 100).map
        (fun r => (r.1, r.2.mem (r.1 + 12))) = some (START + 48, 107) ∧
      (mm_malloc 8 (runD 8 (mm_init st0).2 [Call.malloc 1]) 100).map
        (fun r => (r.1, (mm_free (memcpy r.2 r.1 (START + 32) (min (16 - 4) 100))
          (START + 32)).mem (r.1 + 12))) = some (START + 48, 0)) ∧
    (ReachableAny (runD 8 (mm_init st0).2 [Call.malloc (M64 - 1), Call.malloc 60,
        Call.free (START + 32), Call.malloc (M64 - 1), Call.free (START + 32),
        Call.malloc 60, Call.malloc (M64 - 1), Call.malloc 70]) ∧
      allocated (runD 8 (mm_init st0).2 [Call.malloc (M64 - 1), Call.malloc 60,
        Call.free (START + 32), Call.malloc (M64 - 1), Call.free (START + 32),
        Call.malloc 60, Call.malloc (M64 - 1), Call.malloc 70]) (START + 104) = true ∧
      (mm_realloc 8 (runD 8 (mm_init st0).2 [Call.malloc (M64 - 1), Call.malloc 60,
        Call.free (START + 32), Call.malloc (M64 - 1), Call.free (START + 32),
        Call.malloc 60, Call.malloc (M64 - 1), Call.malloc 70]) (START + 104) 65).map
        Prod.fst = some (START + 104)) :=
  ⟨⟨Reach_run 8 _ _ (Reach_init0 _) (by decide), Reach_run 8 _ _ (Reach_init0 _) (by decide),
      by decide, by decide, by decide, by decide⟩,
    ⟨Reach_run 8 _ _ (Reach_init0 _) (by decide), by decide, by decide⟩⟩

theorem malloc_100_returns :
    (mm_malloc 8 (runD 8 (mm_init st0).2 [Call.malloc 1]) 100).isSome = true := by decide

theorem C19_realloc_steps_witness :
    Reachable (runD 8 (mm_init st0).2 [Call.malloc 1]) ∧
      ∃ r, mm_malloc 8 (runD 8 (mm_init st0).2 [Call.malloc 1]) 100 = some r ∧ r.1 ≠ NULL ∧
        mm_realloc 8 (runD 8 (mm_init st0).2 [Call.malloc 1]) (START + 32) 100 =
          some (r.1, mm_free (memcpy r.2 r.1 (START + 32) (min 100
            (GET_SIZE (runD 8 (mm_init st0).2 [Call.malloc 1]) (HDRP (START + 32)))))
            (START + 32)) ∧ r.1 ≠ START + 32 := by
  have h := C19_realloc_steps (runD 8 (mm_init st0).2 [Call.malloc 1]) (START + 32) 100
    (Reach_run 8 _ _ (Reach_init0 _) (by decide)) (by decide) (by decide) (by decide) 8
    ((mm_malloc 8 (runD 8 (mm_init st0).2 [Call.malloc 1]) 100).get malloc_100_returns).1
    ((mm_malloc 8 (runD 8 (mm_init st0).2 [Call.malloc 1]) 100).get malloc_100_returns).2
    (Option.some_get malloc_100_returns).symm (by decide)
  exact ⟨Reach_run 8 _ _ (Reach_init0 _) (by decide), _,
    (Option.some_get malloc_100_returns).symm, by decide, h.1, h.2.1⟩

theorem C20_realloc_special_witness :
    mm_realloc 8 (mm_init st0).2 (START + 32) 0 =
        some (NULL, mm_free (mm_init st0).2 (START + 32)) ∧
      mm_free (mm_init st0).2 NULL = (mm_init st0).2 ∧
      mm_realloc 8 (mm_init st0).2 NULL 1 = mm_malloc 8 (mm_init st0).2 1 :=
  C20_realloc_special (mm_init st0).2 8 (START + 32) 1 (by decide)

/-! ## Counterexamples and witnesses for C21 to C30 -/

theorem Reach_st2 : ReachableAny st2 :=
  Reach.write _ (START + 103) 255 (Reach.write _ (START + 102) 255
    (Reach.write _ (START + 101) 255 (Reach_run 8 _ _ (Reach_init0 _) (by decide))
      (by decide)) (by decide)) (by decide)

theorem Reach_st3 : ReachableAny st3 := Reach_run 8 _ _ (Reach_init0 _) (by decide)

theorem Reach_st4 : ReachableAny st4 := Reach_run 8 _ _ (Reach_init1 _) (by decide)

theorem malloc_st4_returns : (mm_malloc 8 st4 100).isSome = true := by decide

theorem C21_realloc_failure_witness :
    ReachableAny st4 ∧ allocated st4 (START + 32) = true ∧
      mm_realloc 8 st4 (START + 32) 100 = some (NULL, st4) :=
  ⟨Reach_st4, by decide,
    (C21_realloc_failure st4 (START + 32) 100 8 ((mm_malloc 8 st4 100).get malloc_st4_returns)
      Reach_st4 (by decide) (Option.some_get _).symm (by decide)).2⟩

/-- C23 as stated fails: in the state `st2`, reached by six calls, two of which request
`2^64 - 1` and `2^64 - 8` bytes, and three bytes stored by the client in the 72 bytes it
requested last, `find_fit` finds no block for a request of 200 bytes, whose adjusted size
is 208, `mem_sbrk` grants the 208 bytes, and the block `extend_heap` returns has a header
that holds size 8, less than 208. -/
theorem C23_counterexample :
    ReachableAny st2 ∧ adjust 200 = 208 ∧ find_fit 8 st2 (adjust 200) = some NULL ∧
      (mem_sbrk st2 (max (adjust 200) CHUNKSIZE)).1 = some st2.brk ∧
      (extend_heap st2 (max (adjust 200) CHUNKSIZE / WSIZE)).1 = START + 104 ∧
      GET_SIZE (extend_heap st2 (max (adjust 200) CHUNKSIZE / WSIZE)).2
        (HDRP (extend_heap st2 (max (adjust 200) CHUNKSIZE / WSIZE)).1) = 8 :=
  ⟨Reach_st2, by decide, by decide, by decide, by decide, by decide⟩

/-- C24 as stated fails: from the fresh state `st0`, whose heap may grow to 4096 bytes,
`mm_init` succeeds and `mm_malloc(100)` returns `START + 32`, and afterwards the heap ends
at `START + 200`: it is 200 bytes long, not the 96 bytes of the fixed overhead and one
chunk. -/
theorem C24_counterexample :
    Fresh st0 ∧ (mm_init st0).1 = 0 ∧
      (mm_malloc 8 (mm_init st0).2 100).map
        (fun r => (r.1, r.2.brk, decide (r.2.brk = START + 32 + CHUNKSIZE))) =
          some (START + 32, START + 200, false) :=
  ⟨⟨rfl, rfl, by decide⟩, by decide, by decide⟩

theorem C24_scenario_a_witness :
    Fresh st0 ∧ START + 200 ≤ st0.cap ∧ (mm_init st0).1 = 0 :=
  ⟨⟨rfl, rfl, by decide⟩, by decide,
    (C24_scenario_a st0 ⟨rfl, rfl, by decide⟩ (by decide)).1⟩

theorem C26_header_codec_witness :
    16 % 8 = 0 ∧ 16 < 2 ^ 32 ∧
      GET_SIZE (PUT_PREV_ALLOC (PUT st0 START (PACK 16 1)) START 1) START = 16 :=
  ⟨by decide, by decide,
    (C26_header_codec st0 START 16 1 1 (by decide) (by decide) (by decide) (by decide)).1⟩

theorem C27_transpose_witness :
    is_transpose 32 32 vars0.A (transpose_submit 32 32 vars0).B = 1 :=
  (C27_transpose 32 32 vars0 (Or.inl rfl)).1

theorem C28_adjust_witness : 0 < 100 ∧ 100 < 2 ^ 32 - 16 ∧ adjust 100 % 8 = 0 :=
  ⟨by decide, by decide, (C28_adjust 100 (by decide) (by decide)).2.1⟩

theorem C29_find_fit_rule_witness : ∃ r, find_fit 8 (mm_init st0).2 16 = some r :=
  (C29_find_fit_rule (mm_init st0).2 16 8 (fun k => if k = 0 then [START + 32] else [])
    (by decide) (by decide)).imp (fun _ h => h.1)

/-- C30 as stated fails: in the state `st3`, reached by seven calls, two of which request
`2^64 - 1` bytes, `find_fit(16)` returns the block at `START + 176`, the one member of
bucket 0, and the allocated bit of its header is 1: it is the block the last call,
`mm_malloc(1)`, returned. -/
theorem C30_counterexample :
    ReachableAny st3 ∧ find_fit 8 st3 16 = some (START + 176) ∧
      bucketList st3 0 = some [START + 176] ∧ GET_ALLOC st3 (HDRP (START + 176)) = 1 :=
  ⟨Reach_st3, by decide, by decide, by decide⟩

theorem C30_find_fit_member_witness :
    Reachable (mm_init st0).2 ∧
      ∃ r, find_fit (COMPRESS (mm_init st0).2.brk) (mm_init st0).2 16 = some r :=
  ⟨Reach_init0 _, (C30_find_fit_member (mm_init st0).2 16 (Reach_init0 _)).1⟩

/-! ## Runs for the claims about the bucket lists and the checker -/

theorem Reach_st5 : ReachableAny st5 := Reach_run 8 _ _ (Reach_init0 _) (by decide)

theorem Reach_st6 : ReachableAny st6 := Reach_run 8 _ _ (Reach_init0 _) (by decide)

theorem Reach_st8 : ReachableAny st8 := Reach_run 8 _ _ (Reach_init0 _) (by decide)

theorem Reach_st9 : ReachableAny st9 := Reach_run 8 _ _ Reach_st8 (by decide)

theorem Reach_st10 : Reachable st10 := Reach_run 8 _ _ (Reach_init0 _) (by decide)

theorem Reach_st11 : ReachableAny st11 := Reach_run 8 _ _ (Reach_init0 _) (by decide)

/-- C31 as stated fails: in the state `st5`, reached by three calls, one of which requests
`2^64 - 1` bytes, the chain has a free block of 56 bytes at `START + 40`, but
`find_fit(56)` returns `NULL`, and `mm_malloc(48)`, whose adjusted size is 56, grows the
heap from 96 to 160 bytes. -/
theorem C31_counterexample :
    ReachableAny st5 ∧
      heapBlocks st5 = some [⟨START + 32, 8, false⟩, ⟨START + 40, 56, false⟩] ∧
      56 % 8 = 0 ∧ 16 ≤ 56 ∧ find_fit (COMPRESS st5.brk) st5 56 = some NULL ∧
      adjust 48 = 56 ∧ st5.brk = START + 96 ∧
      (mm_malloc 8 st5 48).map (fun r => r.2.brk) = some (START + 160) :=
  ⟨Reach_st5, by decide, by decide, by decide, by decide, by decide, by decide, by decide⟩

theorem C31_find_fit_null_iff_witness :
    Reachable (mm_init st0).2 ∧
      ∃ r, find_fit (COMPRESS (mm_init st0).2.brk) (mm_init st0).2 16 = some r := by
  obtain ⟨bs, _, h, _⟩ := C31_find_fit_null_iff (mm_init st0).2 (Reach_init0 _)
  exact ⟨Reach_init0 _, h 16⟩

/-- C33 as stated fails.  By design: in the state `st10`, reached by `mm_malloc(56)`, the
chain is one allocated block of 64 bytes; `extend_heap(2)` succeeds, the heap grows by 8
bytes to `START + 104`, and its last 4 bytes hold the word 0, whose allocated bit is 0.
By wrap-around: in the state `st5`, reached by three calls, one of which requests
`2^64 - 1` bytes, a free block of 56 bytes ends at the epilogue; `extend_heap(16)` asks
for 64 bytes and returns the block at `START + 56`, whose header holds size 104, not
`64 + 56`. -/
theorem C33_counterexample :
    (Reachable st10 ∧ heapBlocks st10 = some [⟨START + 32, 64, true⟩] ∧
      (extend_heap st10 2).1 = START + 96 ∧ (extend_heap st10 2).2.brk = START + 104 ∧
      GET (extend_heap st10 2).2 ((extend_heap st10 2).2.brk - 4) = 0 ∧
      GET_ALLOC (extend_heap st10 2).2 ((extend_heap st10 2).2.brk - 4) = 0) ∧
    (ReachableAny st5 ∧
      heapBlocks st5 = some [⟨START + 32, 8, false⟩, ⟨START + 40, 56, false⟩] ∧
      st5.brk = START + 96 ∧ (extend_heap st5 16).2.brk = START + 160 ∧
      (extend_heap st5 16).1 = START + 56 ∧
      GET_SIZE (extend_heap st5 16).2 (HDRP (START + 56)) = 104 ∧ 104 ≠ 64 + 56) :=
  ⟨⟨Reach_st10, by decide, by decide, by decide, by decide, by decide⟩,
    ⟨Reach_st5, by decide, by decide, by decide, by decide, by decide, by decide⟩⟩

theorem C33_extend_heap_witness :
    Reachable (mm_init st0).2 ∧ 16 ≤ 4 * (16 + 16 % 2) % M64 ∧
      (extend_heap (mm_init st0).2 16).1 ≠ NULL ∧
      (extend_heap (mm_init st0).2 16).2.brk =
        (mm_init st0).2.brk + 4 * (16 + 16 % 2) % M64 := by
  obtain ⟨bs, bs1, m, l, _, _, _, h, _⟩ := C33_extend_heap (mm_init st0).2 16 (Reach_init0 _)
    (by decide) (by decide)
  exact ⟨Reach_init0 _, by decide, by decide, h⟩

/-- C37 as stated fails: in the state `st6`, reached by six calls, two of which request
`2^64 - 1` bytes, the list of bucket 0 is `[START + 176]` and the prev link of its head
decodes to `START + 152`, not to `NIL`. -/
theorem C37_counterexample :
    ReachableAny st6 ∧ bucketList st6 0 = some [START + 176] ∧
      seg_get st6 0 = START + 176 ∧ PREV st6 (START + 176) = START + 152 ∧
      START + 152 ≠ NIL :=
  ⟨Reach_st6, by decide, by decide, by decide, by decide⟩

theorem C37_lists_symmetric_witness :
    Reachable (mm_init st0).2 ∧ 0 < 2 ∧
      ∃ l, bucketList (mm_init st0).2 0 = some l ∧ l.Nodup := by
  obtain ⟨l, h1, h2, _⟩ := C37_lists_symmetric (mm_init st0).2 (Reach_init0 _) 0 (by decide)
  exact ⟨Reach_init0 _, by decide, l, h1, h2⟩

/-- C38: the checker misses a block of class 0 in bucket 1.  In the state `st7` the list
of bucket 1 has the member `START + 32`, a block of 64 bytes, whose class is 0, and
`mm_checkheap` prints no error at all. -/
theorem C38_wrong_list_missed :
    bucketList st7 0 = some [] ∧ bucketList st7 1 = some [START + 32] ∧
      heapBlocks st7 = some [⟨START + 32, 64, false⟩] ∧
      GET_SIZE st7 (HDRP (START + 32)) = 64 ∧ getPtrBySize 64 = 0 ∧
      mm_checkheap (COMPRESS st7.brk) st7 = some [] :=
  ⟨by decide, by decide, by decide, by decide, by decide, by decide⟩

/-- C39 as stated fails: in the state `st5`, reached by three calls, one of which requests
`2^64 - 1` bytes, `mm_checkheap` prints "header does not match footer" twice. -/
theorem C39_counterexample :
    ReachableAny st5 ∧
      mm_checkheap (COMPRESS st5.brk) st5 = some [Err.hdr_ftr, Err.hdr_ftr] :=
  ⟨Reach_st5, by decide⟩

theorem C39_checker_silent_witness :
    Reachable (mm_init st0).2 ∧ COMPRESS (mm_init st0).2.brk ≤ 96 ∧
      mm_checkheap 96 (mm_init st0).2 = some [] :=
  ⟨Reach_init0 _, by decide, C39_checker_silent _ (Reach_init0 _) 96 (by decide)⟩

/-- C40 as stated fails.  In the state `st11`, reached by eight calls, two of which
request `2^64 - 1` and `2^64 - 8` bytes, `mm_malloc(1)`, whose adjusted size is 16, returns
`START + 112`, and the header of that block then holds the word 0: its size is 0, neither
16 nor 24.  And right after `mm_init`, `mm_malloc(2^64 - 4)`, whose adjusted size wraps
around to 0, returns `START + 32`, and the header of that block then holds size 64,
neither 0 nor 8. -/
theorem C40_counterexample :
    (ReachableAny st11 ∧ adjust 1 = 16 ∧
      (mm_malloc 8 st11 1).map (fun r => (r.1, GET_SIZE r.2 (HDRP r.1))) =
        some (START + 112, 0)) ∧
    (Reachable (mm_init st0).2 ∧ adjust (M64 - 4) = 0 ∧
      (mm_malloc 8 (mm_init st0).2 (M64 - 4)).map (fun r => (r.1, GET_SIZE r.2 (HDRP r.1))) =
        some (START + 32, 64)) :=
  ⟨⟨Reach_st11, by decide, by decide⟩, ⟨Reach_init0 _, by decide, by decide⟩⟩

theorem C40_block_size_witness :
    Reachable (mm_init st0).2 ∧ 1 < M64 ∧ adjust 1 ≠ 0 ∧
      ∃ r, mm_malloc 8 (mm_init st0).2 1 = some r ∧ r.1 ≠ NULL ∧
        (GET_SIZE r.2 (HDRP r.1) = adjust 1 ∨ GET_SIZE r.2 (HDRP r.1) = adjust 1 + 8) :=
  ⟨Reach_init0 _, by decide, by decide, (mm_malloc 8 (mm_init st0).2 1).get (by decide),
    (Option.some_get _).symm, by decide,
    ((C40_block_size (mm_init st0).2 1 (Reach_init0 _) (by decide) (by decide)).2 8 _
      (Option.some_get _).symm (by decide)).2.1⟩

/-- C32 as stated fails: in the state `st9`, reached by eight calls, three of which request
`2^64 - 1` or `2^64 - 8` bytes, the chain is one free block of 112 bytes at `START + 32`,
which is the only member of the list of bucket 1, the bucket of its size; after
`place(START + 32, 112)` it still is a member of that list. -/
theorem C32_counterexample :
    ReachableAny st9 ∧ heapBlocks st9 = some [⟨START + 32, 112, false⟩] ∧
      112 % 8 = 0 ∧ 16 ≤ 112 ∧ getPtrBySize 112 = 1 ∧
      bucketList st9 1 = some [START + 32] ∧
      bucketList (place st9 (START + 32) 112) 1 = some [START + 32] :=
  ⟨Reach_st9, by decide, by decide, by decide, by decide, by decide, by decide⟩

theorem C32_place_witness :
    Reachable (mm_init st0).2 ∧
      heapBlocks (mm_init st0).2 = some ([] ++ [⟨START + 32, 64, false⟩]) ∧
      GET_ALLOC (place (mm_init st0).2 (START + 32) 16) (HDRP (START + 32)) = 1 :=
  ⟨Reach_init0 _, by decide,
    (C32_place (mm_init st0).2 (Reach_init0 _) [] [] ⟨START + 32, 64, false⟩ 16 (by decide)
      rfl (by decide) (by decide) (by decide)).2.2.1⟩

theorem C34_init_witness :
    Fresh st0 ∧ (mm_init st0).1 = 0 ∧ (mm_init st0).2.brk = START + 96 :=
  ⟨⟨rfl, rfl, by decide⟩, by decide,
    ((C34_init st0 ⟨rfl, rfl, by decide⟩).2.2 (by decide)).1⟩

/-- C35 as stated fails: in the state `st8`, reached by five calls, two of which request
`2^64 - 1` bytes, the chain is one free block of 112 bytes at `START + 32` and the list of
bucket 0 is `[START + 104]`.  `place(START + 32, 72)` splits the block and inserts the
remainder of 40 bytes at `START + 104` into bucket 0: on return the bucket head is
`START + 104`, but its prev link is `START + 104`, not `NIL`, and the walk over the list
of bucket 0 does not end. -/
theorem C35_counterexample :
    ReachableAny st8 ∧ heapBlocks st8 = some [⟨START + 32, 112, false⟩] ∧
      bucketList st8 0 = some [START + 104] ∧ bucketList st8 1 = some [START + 32] ∧
      72 % 8 = 0 ∧ 16 ≤ 112 - 72 ∧ getPtrBySize (112 - 72) = 0 ∧
      heapBlocks (place st8 (START + 32) 72) =
        some [⟨START + 32, 72, true⟩, ⟨START + 104, 40, false⟩] ∧
      seg_get (place st8 (START + 32) 72) 0 = START + 104 ∧
      PREV (place st8 (START + 32) 72) (START + 104) = START + 104 ∧ START + 104 ≠ NIL ∧
      bucketList (place st8 (START + 32) 72) 0 = none :=
  ⟨Reach_st8, by decide, by decide, by decide, by decide, by decide, by decide, by decide,
    by decide, by decide, by decide, by decide⟩

theorem C35_insert_at_head_witness :
    Reachable (mm_init st0).2 ∧
      InsertedAtHead (place (mm_init st0).2 (START + 32) 16) (getPtrBySize (64 - 16))
        (START + 32 + 16) (eraseL (fun i => if i = 0 then [START + 32] else []) (START + 32)) :=
  ⟨Reach_init0 _,
    ((C35_insert_at_head (mm_init st0).2 (Reach_init0 _) [] [] ⟨START + 32, 64, false⟩
      (fun i => if i = 0 then [START + 32] else []) (by decide)
      (fun i hi => by interval_cases i <;> decide)).2.1 rfl 16 (by decide) (by decide)
      (by decide) (by decide)).1⟩

/-- C36 as stated fails: in the state `st9`, reached by eight calls, three of which request
`2^64 - 1` or `2^64 - 8` bytes, the chain is one free block of 112 bytes at `START + 32`,
which is the head and only member of the list of bucket 1, the bucket of its size, while
the list of bucket 0 is `[START + 104, START + 32]`.  After the detach sequence on
`START + 32` the list of bucket 1 still is `[START + 32]` and the list of the other
bucket has changed to `[START + 104]`. -/
theorem C36_counterexample :
    ReachableAny st9 ∧ heapBlocks st9 = some [⟨START + 32, 112, false⟩] ∧
      getPtrBySize 112 = 1 ∧ bucketList st9 1 = some [START + 32] ∧
      bucketList st9 0 = some [START + 104, START + 32] ∧
      place_detach st9 (START + 32) = extract st9 (START + 32) ∧
      bucketList (extract st9 (START + 32)) 1 = some [START + 32] ∧
      bucketList (extract st9 (START + 32)) 0 = some [START + 104] :=
  ⟨Reach_st9, by decide, by decide, by decide, by decide, rfl, by decide, by decide⟩

theorem C36_detach_witness :
    Reachable (mm_init st0).2 ∧
      heapBlocks (mm_init st0).2 = some [⟨START + 32, 64, false⟩] ∧
      ∃ la lb, bucketList (extract (mm_init st0).2 (START + 32)) (getPtrBySize 64) =
        some (la ++ lb) := by
  obtain ⟨la, lb, lo, _, _, _, _, _, h, _⟩ := C36_detach (mm_init st0).2 (Reach_init0 _)
    [⟨START + 32, 64, false⟩] ⟨START + 32, 64, false⟩ (by decide)
    (List.mem_singleton.2 rfl) rfl
  exact ⟨Reach_init0 _, by decide, la, lb, h⟩

/-! ## Runs for the claims C1, C13, C22, C23 and C25 -/

theorem Reach_st12 : ReachableAny st12 := Reach_run 8 _ _ Reach_st8 (by decide)

theorem Reach_st14 : Reachable st14 :=
  Reach_run 8 _ _ (Reach.write _ (START + 40) 255 (Reach_run 8 _ _ (Reach_init0 _) (by decide))
    (by decide)) (by decide)

/-- In the state `st12` the head of bucket 0, `START + 104`, a block of 40 bytes, is its
own successor, and `mm_malloc(1)` walks that list for ever. -/
theorem malloc_st12_loops : ∀ fuel, mm_malloc fuel st12 1 = none :=
  malloc_loops (p := START + 104) (by decide) (by decide) (by decide) (by decide) (by decide)
    (by decide) (by decide) (by decide)

theorem C1_malloc_aligned_witness :
    Reachable (mm_init st0).2 ∧
      ∃ r, mm_malloc 8 (mm_init st0).2 (M64 - 1) = some r ∧ r.1 ≠ NULL ∧ r.1 % 8 = 0 :=
  ⟨Reach_init0 _, (mm_malloc 8 (mm_init st0).2 (M64 - 1)).get (by decide),
    (Option.some_get _).symm, by decide,
    (C1_malloc_aligned (mm_init st0).2 (M64 - 1) (Reach_init0 _)).2 8 _
      (Option.some_get _).symm (by decide)⟩

/-- C13 as stated fails: in the state `st12`, reached by `mm_malloc(2^64-1)`,
`mm_malloc(60)`, `mm_free(START+32)`, `mm_malloc(2^64-1)`, `mm_free(START+32)`,
`mm_malloc(61)`, the head of bucket 0 is its own successor and `mm_malloc(1)` does not
return: it returns neither `NULL` nor a block. -/
theorem C13_counterexample :
    ReachableAny st12 ∧ 0 < 1 ∧ seg_get st12 0 = START + 104 ∧
      SUCC st12 (START + 104) = START + 104 ∧ START + 104 ≠ NIL ∧
      ∀ fuel, mm_malloc fuel st12 1 = none :=
  ⟨Reach_st12, by decide, by decide, by decide, by decide, malloc_st12_loops⟩

theorem malloc_init_returns : (mm_malloc 8 (mm_init st0).2 100).isSome = true := by decide

theorem C13_malloc_null_iff_witness :
    (Reachable (mm_init st1).2 ∧
      ∃ r, mm_malloc 8 (mm_init st1).2 100 = some r ∧ r.1 = NULL ∧
        find_fit 8 (mm_init st1).2 (adjust 100) = some NULL ∧
        (mem_sbrk (mm_init st1).2 (extend_size (max (adjust 100) CHUNKSIZE / WSIZE))).1 =
          none) ∧
    (Reachable (mm_init st0).2 ∧
      ∃ r, mm_malloc 8 (mm_init st0).2 100 = some r ∧ r.1 ≠ NULL ∧
        ∃ t, r.2 = place t r.1 (adjust 100) ∧
          ((find_fit 8 (mm_init st0).2 (adjust 100) = some r.1 ∧ t = (mm_init st0).2) ∨
            (find_fit 8 (mm_init st0).2 (adjust 100) = some NULL ∧
              extend_heap (mm_init st0).2 (max (adjust 100) CHUNKSIZE / WSIZE) =
                (r.1, t)))) := by
  have hn : ((mm_malloc 8 (mm_init st1).2 100).get malloc_st1_returns).1 = NULL := by decide
  have hp : ((mm_malloc 8 (mm_init st0).2 100).get malloc_init_returns).1 ≠ NULL := by decide
  exact ⟨⟨Reach_init1 _, (mm_malloc 8 (mm_init st1).2 100).get malloc_st1_returns,
    (Option.some_get malloc_st1_returns).symm, hn,
    (((C13_malloc_null_iff (mm_init st1).2 100 (Reach_init1 _) (by decide)).2 8
      ((mm_malloc 8 (mm_init st1).2 100).get malloc_st1_returns)
      (Option.some_get malloc_st1_returns).symm).1).1 hn⟩,
    ⟨Reach_init0 _, (mm_malloc 8 (mm_init st0).2 100).get malloc_init_returns,
    (Option.some_get malloc_init_returns).symm, hp,
    ((C13_malloc_null_iff (mm_init st0).2 100 (Reach_init0 _) (by decide)).2 8
      ((mm_malloc 8 (mm_init st0).2 100).get malloc_init_returns)
      (Option.some_get malloc_init_returns).symm).2 hp⟩⟩

/-- C22 as stated fails.  Right after `mm_init`, the product of `mm_calloc(1, 2^64-1)`
does not overflow and `mm_malloc(2^64-1)` returns `START + 32`, a block of 8 bytes, but
`memset` on `2^64 - 1` bytes from there runs off the memory of the provider: the call
faults, and whatever the bound on the steps, `mm_calloc` returns no block.  And in the state
`st12`, reached by six calls, two of which request `2^64 - 1` bytes, `mm_calloc(1, 1)`
does not return, as the `mm_malloc(1)` in it walks a list whose head is its own
successor. -/
theorem C22_counterexample :
    (Reachable (mm_init st0).2 ∧ 1 * (M64 - 1) < M64 ∧
      (mm_malloc 8 (mm_init st0).2 (1 * (M64 - 1))).map Prod.fst = some (START + 32) ∧
      mm_calloc 8 (mm_init st0).2 1 (M64 - 1) = none ∧
      ∀ fuel r, mm_calloc fuel (mm_init st0).2 1 (M64 - 1) = some r → r.1 = NULL) ∧
    (ReachableAny st12 ∧ 1 * 1 < M64 ∧ ∀ fuel, mm_calloc fuel st12 1 1 = none) := by
  obtain ⟨bs, L, hinv⟩ := Reachable.inv (Reach_init0 Call.small)
  refine ⟨⟨Reach_init0 _, by decide, by decide, Option.isNone_iff_eq_none.1 (by decide),
    calloc_wrapped hinv (by decide)⟩, Reach_st12, by decide, fun fuel => ?_⟩
  unfold mm_calloc
  have h1 : 1 * 1 % M64 = 1 := by decide
  simp only [h1, malloc_st12_loops fuel]
  rfl

theorem calloc_st14_returns : (mm_calloc 8 st14 2 6).isSome = true := by decide

theorem C22_calloc_witness :
    Reachable st14 ∧ 2 * 6 < M64 - 11 ∧ st14.mem (START + 40) = 255 ∧
      ∃ r, mm_calloc 8 st14 2 6 = some r ∧ r.1 + 8 = START + 40 ∧ r.2.mem (r.1 + 8) = 0 := by
  have hp : ((mm_calloc 8 st14 2 6).get calloc_st14_returns).1 ≠ NULL := by decide
  exact ⟨Reach_st14, by decide, by decide, (mm_calloc 8 st14 2 6).get calloc_st14_returns,
    (Option.some_get calloc_st14_returns).symm, by decide,
    (((C22_calloc st14 8 2 6 Reach_st14 (by decide)).2.1 (by decide)).2 _
      (Option.some_get calloc_st14_returns).symm hp).1 8 (by decide)⟩

theorem C23_single_growth_witness :
    Reachable (mm_init st0).2 ∧ 0 < M64 - 1 ∧
      ∃ r, mm_malloc (COMPRESS (mm_init st0).2.brk) (mm_init st0).2 (M64 - 1) = some r :=
  ⟨Reach_init0 _, by decide,
    (C23_single_growth (mm_init st0).2 (M64 - 1) (Reach_init0 _) (by decide)).2.1⟩

/-- C25 as stated fails: after Scenario B from the fresh state `st0`, where the two calls
of `mm_malloc(16)` return `START + 32` and `START + 56`, the list of bucket 0 has two
members, not one, and the released block at `START + 32` has 24 bytes, the adjusted size
of a request of 16 bytes, not 16; the block of 16 bytes in the bucket is the remainder
of the first chunk at `START + 80`. -/
theorem C25_counterexample :
    Fresh st0 ∧ (mm_init st0).1 = 0 ∧
      (mm_malloc 8 (mm_init st0).2 16).map Prod.fst = some (START + 32) ∧
      (mm_malloc 8 (runD 8 (mm_init st0).2 [Call.malloc 16]) 16).map Prod.fst =
        some (START + 56) ∧
      bucketList st13 0 = some [START + 32, START + 80] ∧ adjust 16 = 24 ∧
      GET_SIZE st13 (HDRP (START + 32)) = 24 ∧ GET_SIZE st13 (HDRP (START + 80)) = 16 ∧
      heapBlocks st13 = some [⟨START + 32, 24, false⟩, ⟨START + 56, 24, true⟩,
        ⟨START + 80, 16, false⟩] :=
  ⟨⟨rfl, rfl, by decide⟩, by decide, by decide, by decide, by decide, by decide, by decide,
    by decide, by decide⟩

theorem C25_scenario_b_witness :
    Fresh st0 ∧ (mm_init st0).1 = 0 ∧
      ∃ r1, mm_malloc (COMPRESS (mm_init st0).2.brk) (mm_init st0).2 16 = some r1 :=
  ⟨⟨rfl, rfl, by decide⟩, by decide,
    (C25_scenario_b st0 ⟨rfl, rfl, by decide⟩ (by decide)).1⟩

end MM
